import Mathlib

/-!
# The BVH accelerator of min-ray: shallow embedding and verified properties

Source files embedded here:
* `src/min/visual/geometry.h` : `Ray`, `Bounds3`, `Union`, `Inside`
* `src/min/accelerators/bvh.cc` : the build (`recursiveBuild`, `HLBVHBuild`,
  `emitLBVH`, `buildUpperSAH`), `flattenBVHTree`, `Intersect`, `IntersectP`, `Build`

Modelling conventions.
* `Float` is the type of exact rationals: no rounding, no overflow.
  `std::numeric_limits<Float>::max()` is the constant `max_num`. The division of
  the SAH costs by `bounds.SurfaceArea()`, which is zero on every flat range, has
  its IEEE 754 result there, an infinity or NaN (the type `Cost`). The reciprocals
  `1 / ray.d[i]` of the traversal are exact quotients, and what is proved of the
  results of the traversal is proved for rays with non-zero direction components.
* `int`, `size_t`, `uint32_t` values are natural numbers (integers where a sign
  can occur); narrowing stores are written with an explicit `% 2 ^ w`.
* Mutable state is passed explicitly: a function that updates `primitiveInfo`,
  `totalNodes` or `orderedPrims` returns the new values.
* A result `none` stands for an execution without a result: an aborting
  assertion, an access outside an array, a null dereference, or a loop or
  recursion that exhausts its budget of steps.
* Three things the sources of `bvh.cc` leave open are parameters, collected in
  `Env`: the algorithms `std::partition` and `std::nth_element` (any
  implementation meeting the contract of the C++ standard), whether a failing
  `MIN_ASSERT` aborts, and the order in which the two recursive calls that are
  arguments of one `InitInterior` call are evaluated.
-/

namespace MinRay

/-! ## Geometry (`geometry.h`) -/

/-- The scalar type `Float` of the sources, as exact rationals. -/
abbrev Float := ℚ

/-- The class `TVector3<Float>`; `Point3f` and `Vector3f` are the same type in `defs.h`. -/
structure Vector3f where
  x : Float
  y : Float
  z : Float
  deriving DecidableEq, Inhabited

/-- The alias `using Point3f = Vector3f` of `defs.h`. -/
abbrev Point3f := Vector3f

namespace Vector3f

/-- The component access `v[i]`. -/
def get (v : Vector3f) (i : Nat) : Float :=
  if i = 0 then v.x else if i = 1 then v.y else v.z

/-- The sum `a + b`. -/
def add (a b : Vector3f) : Vector3f := ⟨a.x + b.x, a.y + b.y, a.z + b.z⟩

/-- The difference `a - b`. -/
def sub (a b : Vector3f) : Vector3f := ⟨a.x - b.x, a.y - b.y, a.z - b.z⟩

/-- The product `s * v` with a scalar. -/
def smul (s : Float) (v : Vector3f) : Vector3f := ⟨s * v.x, s * v.y, s * v.z⟩

end Vector3f

/-- The componentwise minimum `Min(a, b)`. -/
def Min (a b : Vector3f) : Vector3f := ⟨min a.x b.x, min a.y b.y, min a.z b.z⟩

/-- The componentwise maximum `Max(a, b)`. -/
def Max (a b : Vector3f) : Vector3f := ⟨max a.x b.x, max a.y b.y, max a.z b.z⟩

/-- The class `Ray`: origin, direction, the mutable `tmax`, and the time. -/
structure Ray where
  o : Point3f
  d : Vector3f
  tmax : Float
  time : Float
  deriving DecidableEq, Inhabited

/-- The value `std::numeric_limits<Float>::max()` for single precision. -/
def max_num : Float := 340282346638528859811704183484516925440

/-- The value `std::numeric_limits<Float>::lowest()`. -/
def min_num : Float := -max_num

/-- The class `Bounds3<Float>`. -/
structure Bounds3f where
  pmin : Point3f
  pmax : Point3f
  deriving DecidableEq, Inhabited

/-- The default constructor `Bounds3()`: the inverted box standing for the empty set. -/
def Bounds3f.new : Bounds3f :=
  ⟨⟨max_num, max_num, max_num⟩, ⟨min_num, min_num, min_num⟩⟩

/-- The access `bounds[i]`: `pmin` for `i == 0`, else `pmax`. -/
def Bounds3f.corner (b : Bounds3f) (i : Nat) : Point3f := if i = 0 then b.pmin else b.pmax

/-- The method `Diagonal()`. -/
def Bounds3f.Diagonal (b : Bounds3f) : Vector3f := b.pmax.sub b.pmin

/-- The method `SurfaceArea()`, as the source computes it: `d.x * d.y * d.z`. -/
def Bounds3f.SurfaceArea (b : Bounds3f) : Float :=
  let d := b.Diagonal
  d.x * d.y * d.z

/-- The sign bit of the product `d.x * d.y * d.z` of `SurfaceArea()`, which tells `-0` from
`+0` where the product is zero: set where an odd number of the factors is negative (a
factor zero is the difference of two equal numbers, which is `+0`). -/
def Bounds3f.SurfaceAreaSign (b : Bounds3f) : Bool :=
  let d := b.Diagonal
  xor (xor (decide (d.x < 0)) (decide (d.y < 0))) (decide (d.z < 0))

/-- The method `MaximumExtent()`. -/
def Bounds3f.MaximumExtent (b : Bounds3f) : Nat :=
  let d := b.Diagonal
  if d.x > d.y ∧ d.x > d.z then 0
  else if d.y > d.z then 1
  else 2

/-- The method `Offset(p)`: each component is divided only where the box has extent. -/
def Bounds3f.Offset (b : Bounds3f) (p : Point3f) : Vector3f :=
  let o := p.sub b.pmin
  ⟨if b.pmax.x > b.pmin.x then o.x / (b.pmax.x - b.pmin.x) else o.x,
   if b.pmax.y > b.pmin.y then o.y / (b.pmax.y - b.pmin.y) else o.y,
   if b.pmax.z > b.pmin.z then o.z / (b.pmax.z - b.pmin.z) else o.z⟩

/-- The function `Inside(p, b)`. -/
def Inside (p : Point3f) (b : Bounds3f) : Bool :=
  decide (p.x ≥ b.pmin.x ∧ p.x ≤ b.pmax.x ∧ p.y ≥ b.pmin.y ∧ p.y ≤ b.pmax.y ∧
    p.z ≥ b.pmin.z ∧ p.z ≤ b.pmax.z)

/-- The overload `Union(b, p)` of a box and a point. -/
def UnionP (b : Bounds3f) (p : Point3f) : Bounds3f := ⟨Min b.pmin p, Max b.pmax p⟩

/-- The overload `Union(b, b2)` of two boxes. -/
def Union (b b2 : Bounds3f) : Bounds3f := ⟨Min b.pmin b2.pmin, Max b.pmax b2.pmax⟩

/-- Modelled from the spec: the function `Gamma` of the missing header `min/math/math.h`,
`γ(n) = n·u / (1 − n·u)` with `u` half a unit in the last place of single precision. -/
def Gamma (n : Nat) : Float :=
  let u : Float := 1 / 2 ^ 24
  n * u / (1 - n * u)

/-- The conversion of a `bool` to `int`. -/
def b2n (b : Bool) : Nat := if b then 1 else 0

/-- The method `Bounds3::IntersectP(ray, invDir, dirIsNeg)`, the slab test. -/
def Bounds3f.IntersectP (bounds : Bounds3f) (ray : Ray) (invDir : Vector3f)
    (dirIsNeg : Nat → Nat) : Bool :=
  let tMin := ((bounds.corner (dirIsNeg 0)).x - ray.o.x) * invDir.x
  let tMax := ((bounds.corner (1 - dirIsNeg 0)).x - ray.o.x) * invDir.x
  let tyMin := ((bounds.corner (dirIsNeg 1)).y - ray.o.y) * invDir.y
  let tyMax := ((bounds.corner (1 - dirIsNeg 1)).y - ray.o.y) * invDir.y
  let tMax := tMax * (1 + 2 * Gamma 3)
  let tyMax := tyMax * (1 + 2 * Gamma 3)
  if tMin > tyMax ∨ tyMin > tMax then false
  else
    let tMin := if tyMin > tMin then tyMin else tMin
    let tMax := if tyMax < tMax then tyMax else tMax
    let tzMin := ((bounds.corner (dirIsNeg 2)).z - ray.o.z) * invDir.z
    let tzMax := ((bounds.corner (1 - dirIsNeg 2)).z - ray.o.z) * invDir.z
    let tzMax := tzMax * (1 + 2 * Gamma 3)
    if tMin > tzMax ∨ tzMin > tMax then false
    else
      let tMin := if tzMin > tMin then tzMin else tMin
      let tMax := if tzMax < tMax then tzMax else tMax
      decide (tMin < ray.tmax) && decide (tMax > 0)

/-! ## The environment of `bvh.cc` -/

/-- The requirement of the C++ standard on a comparison passed to a sorting algorithm:
a strict weak ordering. -/
structure StrictWeakOrder {α : Type} (lt : α → α → Bool) : Prop where
  irrefl : ∀ a, lt a a = false
  trans : ∀ a b c, lt a b = true → lt b c = true → lt a c = true
  cotrans : ∀ a b c, lt a c = true → lt a b = true ∨ lt b c = true

/-- The algorithms `std::partition` and `std::nth_element` of the C++ standard library,
given by their contract: the result is a rearrangement of the range; after `partition`
the elements satisfying the predicate come first; after `nth_element` with a strict weak
ordering no element from position `n` on is smaller than an element before position `n`. -/
structure StdAlgorithm where
  partition : {α : Type} → (α → Bool) → List α → List α
  nth_element : {α : Type} → (α → α → Bool) → Nat → List α → List α
  partition_perm : ∀ {α : Type} (p : α → Bool) (l : List α), (partition p l).Perm l
  partition_left : ∀ {α : Type} (p : α → Bool) (l : List α),
    ∀ x ∈ (partition p l).take (l.countP p), p x = true
  partition_right : ∀ {α : Type} (p : α → Bool) (l : List α),
    ∀ x ∈ (partition p l).drop (l.countP p), p x = false
  nth_element_perm : ∀ {α : Type} (lt : α → α → Bool) (n : Nat) (l : List α),
    (nth_element lt n l).Perm l
  nth_element_split : ∀ {α : Type} (lt : α → α → Bool) (n : Nat) (l : List α),
    StrictWeakOrder lt →
    ∀ x ∈ (nth_element lt n l).take n, ∀ y ∈ (nth_element lt n l).drop n, lt y x = false

/-- One implementation of the standard algorithms: the stable partition, and a full
insertion sort for `nth_element`. -/
def stdlib : StdAlgorithm where
  partition := fun p l => l.filter p ++ l.filter (fun x => !p x)
  nth_element := fun lt _ l => l.insertionSort (fun a b => lt b a = false)
  partition_perm := by
    intro α p l
    simpa using List.filter_append_perm p l
  partition_left := by
    intro α p l x hx
    rw [List.countP_eq_length_filter, List.take_left] at hx
    simpa using (List.mem_filter.mp hx).2
  partition_right := by
    intro α p l x hx
    rw [List.countP_eq_length_filter, List.drop_left] at hx
    simpa using (List.mem_filter.mp hx).2
  nth_element_perm := by
    intro α lt n l
    exact List.perm_insertionSort _ l
  nth_element_split := by
    intro α lt n l h x hx y hy
    haveI : IsTotal α (fun a b => lt b a = false) := ⟨by
      intro a b
      by_cases hab : lt b a = true
      · right
        by_contra hba
        have h1 : lt a b = true := by simpa using hba
        have h2 := h.trans a b a h1 hab
        rw [h.irrefl a] at h2
        exact Bool.noConfusion h2
      · left
        simpa using hab⟩
    haveI : IsTrans α (fun a b => lt b a = false) := ⟨by
      intro a b c hab hbc
      by_contra hca
      have h1 : lt c a = true := by simpa using hca
      rcases h.cotrans c b a h1 with h2 | h2
      · rw [hbc] at h2
        exact Bool.noConfusion h2
      · rw [hab] at h2
        exact Bool.noConfusion h2⟩
    have hs : (l.insertionSort (fun a b => lt b a = false)).Sorted (fun a b => lt b a = false) :=
      List.sorted_insertionSort _ l
    have hs2 := hs
    rw [← List.take_append_drop n (l.insertionSort (fun a b => lt b a = false))] at hs2
    exact (List.pairwise_append.mp hs2).2.2 x hx y hy

/-- What `bvh.cc` takes from outside: the standard algorithms, whether a failing
`MIN_ASSERT` aborts the program (the macro is defined in a header that is not part of the
sources), and whether the two recursive calls written as arguments of one call of
`InitInterior` run left to right (C++ leaves the order of evaluation of function
arguments unspecified). -/
structure Env where
  lib : StdAlgorithm
  assertAborts : Bool
  argsLeftToRight : Bool

/-- The macro `MIN_ASSERT(cond)`: a failing assertion aborts when assertions abort,
and is skipped otherwise. -/
def MIN_ASSERT (E : Env) (cond : Bool) : Option Unit :=
  if cond || !E.assertAborts then some () else none

/-- The range `[s, e)` of a vector. -/
def slice {α : Type} (l : List α) (s e : Nat) : List α := (l.drop s).take (e - s)

/-- The vector `l` with its range `[s, e)` replaced by `m`. -/
def splice {α : Type} (l : List α) (s e : Nat) (m : List α) : List α :=
  l.take s ++ m ++ l.drop e

/-- The conversion of a `Float` to `int`: truncation toward zero. -/
def ftoi (q : Float) : Int := if 0 ≤ q then ⌊q⌋ else ⌈q⌉

/-! ## Build-time records (`bvh.cc`) -/

/-- The enumeration `BVHAccel::SplitMethod`. -/
inductive SplitMethod where
  | SAH
  | HLBVH
  | Middle
  | EqualCounts
  deriving DecidableEq, Inhabited

/-- The record `BVHPrimitiveInfo`. -/
structure BVHPrimitiveInfo where
  primitiveNumber : Nat
  bounds : Bounds3f
  centroid : Point3f
  deriving DecidableEq, Inhabited

/-- The constructor `BVHPrimitiveInfo(primitiveNumber, bounds)`. -/
def BVHPrimitiveInfo.create (primitiveNumber : Nat) (bounds : Bounds3f) : BVHPrimitiveInfo :=
  ⟨primitiveNumber, bounds,
    (Vector3f.smul (1 / 2) bounds.pmin).add (Vector3f.smul (1 / 2) bounds.pmax)⟩

/-- A pointer `BVHBuildNode *`: the null pointer, or a node record with its bounds, its two
child pointers, and the fields `splitAxis`, `firstPrimOffset`, `nPrimitives`. -/
inductive BVHBuildNode where
  | null : BVHBuildNode
  | node (bounds : Bounds3f) (child0 child1 : BVHBuildNode)
      (splitAxis firstPrimOffset nPrimitives : Nat) : BVHBuildNode
  deriving DecidableEq, Inhabited

/-- The method `InitLeaf(first, n, b)` on a fresh node; `splitAxis` keeps its initial zero. -/
def BVHBuildNode.InitLeaf (first n : Nat) (b : Bounds3f) : BVHBuildNode :=
  .node b .null .null 0 first n

/-- The method `InitInterior(axis, c0, c1)` on a fresh node; it reads the bounds of both
children, so a null child has no result. `firstPrimOffset` keeps its initial zero. -/
def BVHBuildNode.InitInterior (axis : Nat) (c0 c1 : BVHBuildNode) : Option BVHBuildNode :=
  match c0, c1 with
  | .node b0 _ _ _ _ _, .node b1 _ _ _ _ _ => some (.node (Union b0 b1) c0 c1 axis 0 0)
  | _, _ => none

/-- The record `BucketInfo`. -/
structure BucketInfo where
  count : Nat
  bounds : Bounds3f
  deriving DecidableEq, Inhabited

/-- The record `LinearBVHNode`; the union of `primitivesOffset` and `secondChildOffset` is
the one field `offset`, `nPrimitives` is 16 bits wide and `axis` 8 bits. -/
structure LinearBVHNode where
  bounds : Bounds3f
  offset : Nat
  nPrimitives : Nat
  axis : Nat
  deriving DecidableEq, Inhabited

/-- The class `BVHAccel` over primitives of type `α` (for the renderer, shared pointers to
shapes): the primitive vector, the two build options, and the node array (`none` while the
pointer `nodes` is null). -/
structure BVHAccel (α : Type) where
  primitives : List α
  maxPrimsInNode : Int
  splitMethod : SplitMethod
  nodes : Option (List LinearBVHNode)

/-! ## The top-down build `recursiveBuild` -/

/-- The loop `bounds = Union(bounds, primitiveInfo[i].bounds)` over a range. -/
def boundsOf (l : List BVHPrimitiveInfo) : Bounds3f :=
  l.foldl (fun b pi => Union b pi.bounds) Bounds3f.new

/-- The loop `centroidBounds = Union(centroidBounds, primitiveInfo[i].centroid)`. -/
def centroidBoundsOf (l : List BVHPrimitiveInfo) : Bounds3f :=
  l.foldl (fun b pi => UnionP b pi.centroid) Bounds3f.new

/-- The leaf loop `orderedPrims.push_back(primitives[primNum])` over a range; a primitive
number outside `primitives` has no result. -/
def pushPrims {α : Type} (primitives : List α) :
    List BVHPrimitiveInfo → List α → Option (List α)
  | [], orderedPrims => some orderedPrims
  | pi :: rest, orderedPrims =>
    match primitives[pi.primitiveNumber]? with
    | none => none
    | some p => pushPrims primitives rest (orderedPrims ++ [p])

/-- The bucket of a centroid: `int b = nBuckets * centroidBounds.Offset(c)[dim]`, then
`if (b == nBuckets) b = nBuckets - 1`. -/
def bucketOf (nBuckets : Nat) (centroidBounds : Bounds3f) (dim : Nat) (c : Point3f) : Int :=
  let b := ftoi ((nBuckets : Float) * (centroidBounds.Offset c).get dim)
  if b = nBuckets then (nBuckets : Int) - 1 else b

/-- The loop that fills the SAH buckets. The two assertions `b >= 0` and `b < nBuckets`
guard the access `buckets[b]`: where one fails the run aborts or leaves the array, so
there is no result either way. -/
def fillBuckets (nBuckets : Nat) (centroidBounds : Bounds3f) (dim : Nat) :
    List BVHPrimitiveInfo → List BucketInfo → Option (List BucketInfo)
  | [], buckets => some buckets
  | pi :: rest, buckets =>
    let b := bucketOf nBuckets centroidBounds dim pi.centroid
    if 0 ≤ b ∧ b < nBuckets then
      match buckets[b.toNat]? with
      | none => none
      | some bk =>
        fillBuckets nBuckets centroidBounds dim rest
          (buckets.set b.toNat ⟨bk.count + 1, Union bk.bounds pi.bounds⟩)
    else none

/-- A value of the array `cost[]` of the SAH split, and of `minCost`: a number, or what the
float division by a zero `bounds.SurfaceArea()` gives, an infinity (with its sign) for a
dividend other than zero and NaN for `0 / 0`. -/
inductive Cost where
  | num (v : Float) : Cost
  | inf (negative : Bool) : Cost
  | nan : Cost
  deriving DecidableEq, Inhabited

/-- The comparison `a < b` of floats: false where one side is NaN. -/
def Cost.lt : Cost → Cost → Bool
  | .num a, .num b => decide (a < b)
  | .num _, .inf negative => !negative
  | .inf negative, .num _ => negative
  | .inf n1, .inf n2 => n1 && !n2
  | _, _ => false

/-- The float quotient `a / b`, where `negZero` is the sign bit of a divisor zero: the exact
quotient for a divisor other than zero, NaN for `0 / 0`, and an infinity with the sign of
the dividend times that of the zero for `a / 0`. -/
def Cost.div (a b : Float) (negZero : Bool) : Cost :=
  if b ≠ 0 then .num (a / b)
  else if a = 0 then .nan
  else .inf (xor (decide (a < 0)) negZero)

/-- The float sum `base + c` of a number and a quotient. -/
def Cost.add (base : Float) : Cost → Cost
  | .num v => .num (base + v)
  | c => c

/-- The cost of splitting after bucket `i`: `base + (count0 * b0.SurfaceArea() +
count1 * b1.SurfaceArea()) / bounds.SurfaceArea()`, with `b0`, `count0` over the buckets
`0..i` and `b1`, `count1` over the others. The divisor is zero for every box without
volume, and the division is unguarded. Where `recursiveBuild` and `buildUpperSAH` compute
the costs the buckets 0 and 11 hold an element each, so that neither `b0` nor `b1` is the
box `Bounds3()`, whose diagonal is beyond the finite numbers. -/
def splitCost (base : Float) (buckets : List BucketInfo) (bounds : Bounds3f) (i : Nat) : Cost :=
  let b0 := (buckets.take (i + 1)).foldl (fun b k => Union b k.bounds) Bounds3f.new
  let count0 : Nat := (buckets.take (i + 1)).foldl (fun c k => c + k.count) 0
  let b1 := (buckets.drop (i + 1)).foldl (fun b k => Union b k.bounds) Bounds3f.new
  let count1 : Nat := (buckets.drop (i + 1)).foldl (fun c k => c + k.count) 0
  Cost.add base
    (Cost.div ((count0 : Float) * b0.SurfaceArea + (count1 : Float) * b1.SurfaceArea)
      bounds.SurfaceArea bounds.SurfaceAreaSign)

/-- The array `cost[nBuckets - 1]`. -/
def splitCosts (base : Float) (nBuckets : Nat) (buckets : List BucketInfo) (bounds : Bounds3f) :
    List Cost :=
  (List.range (nBuckets - 1)).map (splitCost base buckets bounds)

/-- The loop that finds the bucket of minimal cost: starts from `cost[0]` and takes
`cost[i]` where `cost[i] < minCost` holds. Returns `(minCost, minCostSplitBucket)`. -/
def minCostSplit (cost : List Cost) : Cost × Nat :=
  (List.range' 1 (cost.length - 1)).foldl
    (fun m i => if Cost.lt (cost.getD i .nan) m.1 then (cost.getD i .nan, i) else m)
    (cost.getD 0 .nan, 0)

/-- The result of a call of `recursiveBuild`: the node returned, and the new values of
`primitiveInfo`, `*totalNodes` and `orderedPrims`. -/
structure BuildState (α : Type) where
  node : BVHBuildNode
  primitiveInfo : List BVHPrimitiveInfo
  totalNodes : Nat
  orderedPrims : List α
  deriving DecidableEq

/-- The three places where `recursiveBuild` creates a leaf:
`firstPrimOffset = orderedPrims.size()`, the push loop, and `InitLeaf`. -/
def makeLeaf {α : Type} (primitives : List α) (primitiveInfo : List BVHPrimitiveInfo)
    (start end_ totalNodes : Nat) (orderedPrims : List α) (bounds : Bounds3f) :
    Option (BuildState α) :=
  match pushPrims primitives (slice primitiveInfo start end_) orderedPrims with
  | none => none
  | some ordered =>
    some ⟨BVHBuildNode.InitLeaf orderedPrims.length (end_ - start) bounds, primitiveInfo,
      totalNodes, ordered⟩

/-- The outcome of the `switch (splitMethod)` of `recursiveBuild`: a leaf is to be
created, or the range was rearranged and is split at `mid`. -/
inductive SplitChoice where
  | leaf : SplitChoice
  | split (primitiveInfo : List BVHPrimitiveInfo) (mid : Nat) : SplitChoice
  deriving DecidableEq

/-- The case `EqualCounts`, also reached from `Middle` and from `SAH` on at most two
primitives: `mid = (start + end) / 2` and `std::nth_element` by the centroid on `dim`. -/
def splitEqualCounts (E : Env) (primitiveInfo : List BVHPrimitiveInfo) (start end_ dim : Nat) :
    SplitChoice :=
  let mid := (start + end_) / 2
  .split (splice primitiveInfo start end_
    (E.lib.nth_element (fun a b => decide (a.centroid.get dim < b.centroid.get dim))
      (mid - start) (slice primitiveInfo start end_))) mid

/-- The case `Middle`: `std::partition` by `centroid[dim] < pmid`; when one side is
empty control falls through to `EqualCounts`. -/
def splitMiddle (E : Env) (primitiveInfo : List BVHPrimitiveInfo) (start end_ dim : Nat)
    (centroidBounds : Bounds3f) : SplitChoice :=
  let pmid := (centroidBounds.pmin.get dim + centroidBounds.pmax.get dim) / 2
  let p : BVHPrimitiveInfo → Bool := fun pi => decide (pi.centroid.get dim < pmid)
  let mid := start + (slice primitiveInfo start end_).countP p
  let primitiveInfo1 := splice primitiveInfo start end_
    (E.lib.partition p (slice primitiveInfo start end_))
  if mid ≠ start ∧ mid ≠ end_ then .split primitiveInfo1 mid
  else splitEqualCounts E primitiveInfo1 start end_ dim

/-- The case `SAH` (and `default`): twelve buckets, the cost of the eleven splits, and
either a leaf or `std::partition` by `b <= minCostSplitBucket`. The assertions inside the
partition predicate repeat those of the bucket loop on the same elements. The test
`minCost < leafCost` is the float comparison, false for a `minCost` that is NaN. -/
def splitSAH (E : Env) (maxPrimsInNode : Int) (primitiveInfo : List BVHPrimitiveInfo)
    (start end_ dim : Nat) (bounds centroidBounds : Bounds3f) : Option SplitChoice :=
  let nPrimitives := end_ - start
  if nPrimitives ≤ 2 then some (splitEqualCounts E primitiveInfo start end_ dim)
  else
    let nBuckets := 12
    match fillBuckets nBuckets centroidBounds dim (slice primitiveInfo start end_)
        (List.replicate nBuckets ⟨0, Bounds3f.new⟩) with
    | none => none
    | some buckets =>
      let cost := splitCosts 1 nBuckets buckets bounds
      let minCost := (minCostSplit cost).1
      let minCostSplitBucket := (minCostSplit cost).2
      let leafCost : Float := (nPrimitives : Float)
      if (nPrimitives : Int) > maxPrimsInNode ∨ Cost.lt minCost (.num leafCost) then
        let p : BVHPrimitiveInfo → Bool := fun pi =>
          decide (bucketOf nBuckets centroidBounds dim pi.centroid ≤ (minCostSplitBucket : Int))
        some (.split (splice primitiveInfo start end_
          (E.lib.partition p (slice primitiveInfo start end_)))
          (start + (slice primitiveInfo start end_).countP p))
      else some .leaf

/-- The statement `switch (splitMethod)` of `recursiveBuild`; the value `HLBVH` takes the
`default` label, which is the case `SAH`. -/
def chooseSplit {α : Type} (E : Env) (self : BVHAccel α) (primitiveInfo : List BVHPrimitiveInfo)
    (start end_ dim : Nat) (bounds centroidBounds : Bounds3f) : Option SplitChoice :=
  match self.splitMethod with
  | .Middle => some (splitMiddle E primitiveInfo start end_ dim centroidBounds)
  | .EqualCounts => some (splitEqualCounts E primitiveInfo start end_ dim)
  | _ => splitSAH E self.maxPrimsInNode primitiveInfo start end_ dim bounds centroidBounds

/-- The method `BVHAccel::recursiveBuild(primitiveInfo, start, end, totalNodes,
orderedPrims)`. The first argument bounds the depth of the recursion. -/
def recursiveBuild {α : Type} (E : Env) (self : BVHAccel α) :
    Nat → List BVHPrimitiveInfo → Nat → Nat → Nat → List α → Option (BuildState α)
  | 0, _, _, _, _, _ => none
  | fuel + 1, primitiveInfo, start, end_, totalNodes, orderedPrims =>
    if start = end_ ∨ end_ < start ∨ primitiveInfo.length < end_ then none
    else
      let totalNodes := totalNodes + 1
      let bounds := boundsOf (slice primitiveInfo start end_)
      let nPrimitives := end_ - start
      if nPrimitives = 1 then
        makeLeaf self.primitives primitiveInfo start end_ totalNodes orderedPrims bounds
      else
        let centroidBounds := centroidBoundsOf (slice primitiveInfo start end_)
        let dim := centroidBounds.MaximumExtent
        if centroidBounds.pmax.get dim = centroidBounds.pmin.get dim then
          makeLeaf self.primitives primitiveInfo start end_ totalNodes orderedPrims bounds
        else
          match chooseSplit E self primitiveInfo start end_ dim bounds centroidBounds with
          | none => none
          | some .leaf =>
            makeLeaf self.primitives primitiveInfo start end_ totalNodes orderedPrims bounds
          | some (.split primitiveInfo1 mid) =>
            if E.argsLeftToRight then
              match recursiveBuild E self fuel primitiveInfo1 start mid totalNodes
                  orderedPrims with
              | none => none
              | some r0 =>
                match recursiveBuild E self fuel r0.primitiveInfo mid end_ r0.totalNodes
                    r0.orderedPrims with
                | none => none
                | some r1 =>
                  match BVHBuildNode.InitInterior dim r0.node r1.node with
                  | none => none
                  | some n => some ⟨n, r1.primitiveInfo, r1.totalNodes, r1.orderedPrims⟩
            else
              match recursiveBuild E self fuel primitiveInfo1 mid end_ totalNodes
                  orderedPrims with
              | none => none
              | some r1 =>
                match recursiveBuild E self fuel r1.primitiveInfo start mid r1.totalNodes
                    r1.orderedPrims with
                | none => none
                | some r0 =>
                  match BVHBuildNode.InitInterior dim r0.node r1.node with
                  | none => none
                  | some n => some ⟨n, r0.primitiveInfo, r0.totalNodes, r0.orderedPrims⟩

/-! ## Morton codes and the radix sort -/

/-- The record `MortonPrimitive`. -/
structure MortonPrimitive where
  primitiveIndex : Nat
  mortonCode : Nat
  deriving DecidableEq, Inhabited

/-- The function `LeftShift3(x)` on a 32-bit `x`. -/
def LeftShift3 (E : Env) (x : Nat) : Option Nat :=
  match MIN_ASSERT E (decide (x ≤ 1 <<< 10)) with
  | none => none
  | some _ =>
    let x := if x = 1 <<< 10 then x - 1 else x
    let x := (x ||| ((x <<< 16) % 2 ^ 32)) &&& 0x30000ff
    let x := (x ||| ((x <<< 8) % 2 ^ 32)) &&& 0x300f00f
    let x := (x ||| ((x <<< 4) % 2 ^ 32)) &&& 0x30c30c3
    let x := (x ||| ((x <<< 2) % 2 ^ 32)) &&& 0x9249249
    some x

/-- The conversion of a `Float` to `uint32_t`: truncation, defined only when the truncated
value is a 32-bit number. -/
def ftou (q : Float) : Option Nat :=
  if -1 < q ∧ q < 2 ^ 32 then some (ftoi q).toNat else none

/-- The function `EncodeMorton3(v)`; each component is converted to `uint32_t` at the
call of `LeftShift3`. -/
def EncodeMorton3 (E : Env) (v : Vector3f) : Option Nat :=
  match MIN_ASSERT E (decide (v.x ≥ 0)), MIN_ASSERT E (decide (v.y ≥ 0)),
      MIN_ASSERT E (decide (v.z ≥ 0)) with
  | some _, some _, some _ =>
    match (ftou v.z).bind (LeftShift3 E), (ftou v.y).bind (LeftShift3 E),
        (ftou v.x).bind (LeftShift3 E) with
    | some sz, some sy, some sx => some ((((sz <<< 2) % 2 ^ 32) ||| ((sy <<< 1) % 2 ^ 32)) ||| sx)
    | _, _, _ => none
  | _, _, _ => none

/-- The bucket of an element in one pass: `(mp.mortonCode >> lowBit) & bitMask`. -/
def radixBucket (lowBit bitMask : Nat) (mp : MortonPrimitive) : Nat :=
  (mp.mortonCode >>> lowBit) &&& bitMask

/-- The counting loop `++bucketCount[bucket]` of one pass. -/
def countBuckets (lowBit bitMask : Nat) (in_ : List MortonPrimitive) (nBuckets : Nat) :
    List Nat :=
  in_.foldl (fun bucketCount mp =>
      bucketCount.set (radixBucket lowBit bitMask mp)
        (bucketCount.getD (radixBucket lowBit bitMask mp) 0 + 1))
    (List.replicate nBuckets 0)

/-- The loop `outIndex[i] = outIndex[i - 1] + bucketCount[i - 1]` after `outIndex[0] = 0`. -/
def startIndices (bucketCount : List Nat) (nBuckets : Nat) : List Nat :=
  (List.range' 1 (nBuckets - 1)).foldl
    (fun outIndex i => outIndex.set i (outIndex.getD (i - 1) 0 + bucketCount.getD (i - 1) 0))
    (List.replicate nBuckets 0)

/-- The scatter loop `out[outIndex[bucket]++] = mp`; a store outside `out` has no result. -/
def scatter (lowBit bitMask : Nat) :
    List MortonPrimitive → List Nat → List MortonPrimitive → Option (List MortonPrimitive)
  | [], _, out => some out
  | mp :: rest, outIndex, out =>
    let bucket := radixBucket lowBit bitMask mp
    match outIndex[bucket]? with
    | none => none
    | some j =>
      if j < out.length then
        scatter lowBit bitMask rest (outIndex.set bucket (j + 1)) (out.set j mp)
      else none

/-- One pass of `RadixSort` from `in_` into `out`. -/
def radixPass (pass : Nat) (in_ out : List MortonPrimitive) : Option (List MortonPrimitive) :=
  let bitsPerPass := 6
  let lowBit := pass * bitsPerPass
  let nBuckets := 1 <<< bitsPerPass
  let bitMask := (1 <<< bitsPerPass) - 1
  let bucketCount := countBuckets lowBit bitMask in_ nBuckets
  let outIndex := startIndices bucketCount nBuckets
  scatter lowBit bitMask in_ outIndex out

/-- The passes `pass, pass + 1, ...` of `RadixSort` on the pair `(*v, tempVector)`:
an even pass reads `*v` and writes `tempVector`, an odd pass the other way round. -/
def radixPasses : Nat → Nat → List MortonPrimitive → List MortonPrimitive →
    Option (List MortonPrimitive × List MortonPrimitive)
  | 0, _, v, tempVector => some (v, tempVector)
  | n + 1, pass, v, tempVector =>
    if pass % 2 = 1 then
      match radixPass pass tempVector v with
      | none => none
      | some out => radixPasses n (pass + 1) out tempVector
    else
      match radixPass pass v tempVector with
      | none => none
      | some out => radixPasses n (pass + 1) v out

/-- The function `RadixSort(v)`: five passes of six bits, then the swap after the odd
number of passes. Returns the new `*v`. -/
def RadixSort (v : List MortonPrimitive) : Option (List MortonPrimitive) :=
  let nPasses := 30 / 6
  match radixPasses nPasses 0 v (List.replicate v.length ⟨0, 0⟩) with
  | none => none
  | some (v1, tempVector) => if nPasses % 2 = 1 then some tempVector else some v1

/-! ## The bottom-up build `HLBVHBuild` -/

/-- The record `LBVHTreelet`; the arena `buildNodes` of `2 * nPrimitives` nodes is
represented by its size where it is used. -/
structure LBVHTreelet where
  startIndex : Nat
  nPrimitives : Nat
  deriving DecidableEq, Inhabited

/-- The loop of `HLBVHBuild` that computes the Morton code of every primitive. -/
def mortonPrimsOf (E : Env) (bounds : Bounds3f) :
    List BVHPrimitiveInfo → Option (List MortonPrimitive)
  | [] => some []
  | pi :: rest =>
    let mortonScale : Nat := 1 <<< 10
    let centroidOffset := bounds.Offset pi.centroid
    match EncodeMorton3 E (Vector3f.smul (mortonScale : Float) centroidOffset) with
    | none => none
    | some code =>
      match mortonPrimsOf E bounds rest with
      | none => none
      | some l => some (⟨pi.primitiveNumber, code⟩ :: l)

/-- The loop of `HLBVHBuild` that finds the treelet intervals: `end_` runs from 1 to the
size, and a treelet `[start, end_)` is closed at the end of the vector or where the masked
codes at `start` and `end_` differ. -/
def findTreelets (mortonPrims : List MortonPrimitive) : List LBVHTreelet :=
  let mask := 0x3ffc0000
  ((List.range' 1 mortonPrims.length).foldl
    (fun (st : Nat × List LBVHTreelet) end_ =>
      if end_ = mortonPrims.length ∨
          ((mortonPrims.getD st.1 default).mortonCode &&& mask) ≠
            ((mortonPrims.getD end_ default).mortonCode &&& mask) then
        (end_, st.2 ++ [⟨st.1, end_ - st.1⟩])
      else st)
    (0, [])).2

/-- The state that `emitLBVH` updates through its reference and pointer arguments: the
next free node of the arena, `*totalNodes`, `orderedPrims` and `*orderedPrimsOffset`. -/
structure EmitState (α : Type) where
  buildNodes : Nat
  totalNodes : Nat
  orderedPrims : List α
  orderedPrimsOffset : Nat

/-- The leaf loop of `emitLBVH`: `orderedPrims[firstPrimOffset + i] = primitives[idx]` and
`bounds = Union(bounds, primitiveInfo[idx].bounds)`. -/
def emitLeafLoop {α : Type} (primitives : List α) (primitiveInfo : List BVHPrimitiveInfo) :
    List MortonPrimitive → Nat → List α → Bounds3f → Option (List α × Bounds3f)
  | [], _, orderedPrims, bounds => some (orderedPrims, bounds)
  | mp :: rest, slot, orderedPrims, bounds =>
    match primitives[mp.primitiveIndex]?, primitiveInfo[mp.primitiveIndex]? with
    | some p, some pi =>
      if slot < orderedPrims.length then
        emitLeafLoop primitives primitiveInfo rest (slot + 1) (orderedPrims.set slot p)
          (Union bounds pi.bounds)
      else none
    | _, _ => none

/-- The asserted expression `a & mask == b & mask` as C++ parses it:
`(a & (mask == b)) & mask`. -/
def assertedEq (a mask b : Nat) : Nat := (a &&& b2n (decide (mask = b))) &&& mask

/-- The asserted expression `a & mask != b & mask` as C++ parses it:
`(a & (mask != b)) & mask`. -/
def assertedNe (a mask b : Nat) : Nat := (a &&& b2n (decide (mask ≠ b))) &&& mask

/-- The binary search of `emitLBVH` for the split point, with its two assertions. The
first argument bounds the number of iterations. Returns `searchEnd`. -/
def findSplit (E : Env) (mortonPrims : List MortonPrimitive) (mask : Nat) :
    Nat → Nat → Nat → Option Nat
  | 0, _, _ => none
  | fuel + 1, searchStart, searchEnd =>
    if searchStart + 1 ≠ searchEnd then
      match MIN_ASSERT E (decide (searchStart ≠ searchEnd)) with
      | none => none
      | some _ =>
        let mid := (searchStart + searchEnd) / 2
        match mortonPrims[searchStart]?, mortonPrims[mid]?, mortonPrims[searchEnd]? with
        | some s, some m, some e =>
          if (s.mortonCode &&& mask) = (m.mortonCode &&& mask) then
            findSplit E mortonPrims mask fuel mid searchEnd
          else
            match MIN_ASSERT E (decide (assertedEq m.mortonCode mask e.mortonCode ≠ 0)) with
            | none => none
            | some _ => findSplit E mortonPrims mask fuel searchStart mid
        | _, _, _ => none
    else some searchEnd

/-- The method `BVHAccel::emitLBVH(buildNodes, primitiveInfo, mortonPrims, nPrimitives,
totalNodes, orderedPrims, orderedPrimsOffset, bitIndex)`. The list `mortonPrims` is the
vector seen from the pointer passed, `arena` the number of nodes allocated for the treelet;
the first argument bounds the depth of the recursion. The two recursive calls stand in a
braced initializer list and so run left to right. -/
def emitLBVH {α : Type} (E : Env) (self : BVHAccel α) (arena : Nat)
    (primitiveInfo : List BVHPrimitiveInfo) :
    Nat → List MortonPrimitive → Nat → Int → EmitState α →
      Option (BVHBuildNode × EmitState α)
  | 0, _, _, _, _ => none
  | fuel + 1, mortonPrims, nPrimitives, bitIndex, st =>
    match MIN_ASSERT E (decide (nPrimitives > 0)) with
    | none => none
    | some _ =>
      if mortonPrims.length < nPrimitives ∨ bitIndex < -1 then none
      else if bitIndex = -1 ∨ (nPrimitives : Int) < self.maxPrimsInNode then
        if arena ≤ st.buildNodes then none
        else
          let firstPrimOffset := st.orderedPrimsOffset
          match emitLeafLoop self.primitives primitiveInfo (mortonPrims.take nPrimitives)
              firstPrimOffset st.orderedPrims Bounds3f.new with
          | none => none
          | some (ordered, bounds) =>
            some (BVHBuildNode.InitLeaf firstPrimOffset nPrimitives bounds,
              ⟨st.buildNodes + 1, st.totalNodes + 1, ordered,
                st.orderedPrimsOffset + nPrimitives⟩)
      else
        let mask := 1 <<< bitIndex.toNat
        match mortonPrims[0]?, mortonPrims[nPrimitives - 1]? with
        | some first, some last =>
          if (first.mortonCode &&& mask) = (last.mortonCode &&& mask) then
            emitLBVH E self arena primitiveInfo fuel mortonPrims nPrimitives (bitIndex - 1) st
          else
            match findSplit E mortonPrims mask nPrimitives 0 (nPrimitives - 1) with
            | none => none
            | some splitOffset =>
              match MIN_ASSERT E (decide (splitOffset ≤ nPrimitives - 1)),
                  mortonPrims[splitOffset - 1]?, mortonPrims[splitOffset]? with
              | some _, some a, some b =>
                match MIN_ASSERT E (decide (assertedNe a.mortonCode mask b.mortonCode ≠ 0)) with
                | none => none
                | some _ =>
                  if arena ≤ st.buildNodes then none
                  else
                    match emitLBVH E self arena primitiveInfo fuel mortonPrims splitOffset
                        (bitIndex - 1) ⟨st.buildNodes + 1, st.totalNodes + 1, st.orderedPrims,
                          st.orderedPrimsOffset⟩ with
                    | none => none
                    | some (c0, st0) =>
                      match emitLBVH E self arena primitiveInfo fuel
                          (mortonPrims.drop splitOffset) (nPrimitives - splitOffset)
                          (bitIndex - 1) st0 with
                      | none => none
                      | some (c1, st1) =>
                        let axis := bitIndex.toNat % 3
                        match BVHBuildNode.InitInterior axis c0 c1 with
                        | none => none
                        | some n => some (n, st1)
              | _, _, _ => none
        | _, _ => none

/-- The bounds `node->bounds` behind a node pointer; none for the null pointer. -/
def BVHBuildNode.bounds? : BVHBuildNode → Option Bounds3f
  | .null => none
  | .node b _ _ _ _ _ => some b

/-- The bounds `node->bounds` where the pointer is known to be non-null. -/
def BVHBuildNode.boundsD (n : BVHBuildNode) : Bounds3f := n.bounds?.getD Bounds3f.new

/-- The bucket of a treelet root in `buildUpperSAH`:
`nBuckets * ((centroid - pmin[dim]) / (pmax[dim] - pmin[dim]))` with the centroid of the
node bounds on `dim`, then `if (b == nBuckets) b = nBuckets - 1`. -/
def upperBucketOf (nBuckets : Nat) (centroidBounds : Bounds3f) (dim : Nat) (nb : Bounds3f) : Int :=
  let centroid := (nb.pmin.get dim + nb.pmax.get dim) * (1 / 2)
  let b := ftoi ((nBuckets : Float) * ((centroid - centroidBounds.pmin.get dim) /
    (centroidBounds.pmax.get dim - centroidBounds.pmin.get dim)))
  if b = nBuckets then (nBuckets : Int) - 1 else b

/-- The loop of `buildUpperSAH` that fills the buckets from the node bounds; as in
`fillBuckets` the two assertions guard the array access. -/
def fillUpperBuckets (nBuckets : Nat) (centroidBounds : Bounds3f) (dim : Nat) :
    List Bounds3f → List BucketInfo → Option (List BucketInfo)
  | [], buckets => some buckets
  | nb :: rest, buckets =>
    let b := upperBucketOf nBuckets centroidBounds dim nb
    if 0 ≤ b ∧ b < nBuckets then
      match buckets[b.toNat]? with
      | none => none
      | some bk =>
        fillUpperBuckets nBuckets centroidBounds dim rest
          (buckets.set b.toNat ⟨bk.count + 1, Union bk.bounds nb⟩)
    else none

/-- The bounds of the nodes of a range, none if one of the pointers is null. -/
def nodeBounds : List BVHBuildNode → Option (List Bounds3f)
  | [] => some []
  | n :: rest =>
    match n.bounds?, nodeBounds rest with
    | some b, some l => some (b :: l)
    | _, _ => none

/-- The method `BVHAccel::buildUpperSAH(treeletRoots, start, end, totalNodes)`; returns the
node and the new values of `treeletRoots` and `*totalNodes`. The first argument bounds the
depth of the recursion. The assertion that the centroid bounds have extent on `dim` guards
a division by zero followed by a conversion to `int`, so its failure has no result. -/
def buildUpperSAH (E : Env) :
    Nat → List BVHBuildNode → Nat → Nat → Nat → Option (BVHBuildNode × List BVHBuildNode × Nat)
  | 0, _, _, _, _ => none
  | fuel + 1, treeletRoots, start, end_, totalNodes =>
    match MIN_ASSERT E (decide (start < end_)) with
    | none => none
    | some _ =>
      if treeletRoots.length < end_ then none
      else
        let nNodes := end_ - start
        if nNodes = 1 then
          match treeletRoots[start]? with
          | none => none
          | some n => some (n, treeletRoots, totalNodes)
        else
          let totalNodes := totalNodes + 1
          match nodeBounds (slice treeletRoots start end_) with
          | none => none
          | some bs =>
            let bounds := bs.foldl Union Bounds3f.new
            let centroidBounds := bs.foldl
              (fun cb b => UnionP cb (Vector3f.smul (1 / 2) (b.pmin.add b.pmax))) Bounds3f.new
            let dim := centroidBounds.MaximumExtent
            if centroidBounds.pmax.get dim = centroidBounds.pmin.get dim then none
            else
              let nBuckets := 12
              match fillUpperBuckets nBuckets centroidBounds dim bs
                  (List.replicate nBuckets ⟨0, Bounds3f.new⟩) with
              | none => none
              | some buckets =>
                let cost := splitCosts (1 / 8) nBuckets buckets bounds
                let minCostSplitBucket := (minCostSplit cost).2
                let p : BVHBuildNode → Bool := fun node =>
                  decide (upperBucketOf nBuckets centroidBounds dim node.boundsD ≤
                    (minCostSplitBucket : Int))
                let treeletRoots1 := splice treeletRoots start end_
                  (E.lib.partition p (slice treeletRoots start end_))
                let mid := start + (slice treeletRoots start end_).countP p
                match MIN_ASSERT E (decide (mid > start)), MIN_ASSERT E (decide (mid < end_)) with
                | some _, some _ =>
                  if E.argsLeftToRight then
                    match buildUpperSAH E fuel treeletRoots1 start mid totalNodes with
                    | none => none
                    | some (c0, roots0, total0) =>
                      match buildUpperSAH E fuel roots0 mid end_ total0 with
                      | none => none
                      | some (c1, roots1, total1) =>
                        match BVHBuildNode.InitInterior dim c0 c1 with
                        | none => none
                        | some n => some (n, roots1, total1)
                  else
                    match buildUpperSAH E fuel treeletRoots1 mid end_ totalNodes with
                    | none => none
                    | some (c1, roots1, total1) =>
                      match buildUpperSAH E fuel roots1 start mid total1 with
                      | none => none
                      | some (c0, roots0, total0) =>
                        match BVHBuildNode.InitInterior dim c0 c1 with
                        | none => none
                        | some n => some (n, roots0, total0)
                | _, _ => none

/-- The loop of `HLBVHBuild` over the treelets: each starts with `nodesCreated = 0` and its
own arena of `2 * nPrimitives` nodes, shares `orderedPrims` and `orderedPrimsOffset`, and
adds its node count to `atomicTotal`. Returns the roots, `atomicTotal`, `orderedPrims` and
`orderedPrimsOffset`. -/
def emitTreelets {α : Type} (E : Env) (self : BVHAccel α)
    (primitiveInfo : List BVHPrimitiveInfo) (mortonPrims : List MortonPrimitive) :
    List LBVHTreelet → Nat → List α → Nat → Option (List BVHBuildNode × Nat × List α × Nat)
  | [], atomicTotal, orderedPrims, orderedPrimsOffset =>
    some ([], atomicTotal, orderedPrims, orderedPrimsOffset)
  | tr :: rest, atomicTotal, orderedPrims, orderedPrimsOffset =>
    let firstBitIndex : Int := 29 - 12
    match emitLBVH E self (2 * tr.nPrimitives) primitiveInfo (firstBitIndex + 2).toNat
        (mortonPrims.drop tr.startIndex) tr.nPrimitives firstBitIndex
        ⟨0, 0, orderedPrims, orderedPrimsOffset⟩ with
    | none => none
    | some (root, st) =>
      match emitTreelets E self primitiveInfo mortonPrims rest (atomicTotal + st.totalNodes)
          st.orderedPrims st.orderedPrimsOffset with
      | none => none
      | some (roots, total, ordered, off) => some (root :: roots, total, ordered, off)

/-- The call `orderedPrims.resize(n)`: new slots hold the default value (a null pointer). -/
def resize {α : Type} [Inhabited α] (l : List α) (n : Nat) : List α :=
  l.take n ++ List.replicate (n - l.length) default

/-- The method `BVHAccel::HLBVHBuild(primitiveInfo, totalNodes, orderedPrims)`; returns
the root and the new values of `*totalNodes` and `orderedPrims`. The argument `fuel` bounds
the depth of the recursion of `buildUpperSAH`. -/
def HLBVHBuild {α : Type} [Inhabited α] (E : Env) (self : BVHAccel α) (fuel : Nat)
    (primitiveInfo : List BVHPrimitiveInfo) (orderedPrims : List α) :
    Option (BVHBuildNode × Nat × List α) :=
  let bounds := centroidBoundsOf primitiveInfo
  match mortonPrimsOf E bounds primitiveInfo with
  | none => none
  | some mortonPrims0 =>
    match RadixSort mortonPrims0 with
    | none => none
    | some mortonPrims =>
      let treeletsToBuild := findTreelets mortonPrims
      match emitTreelets E self primitiveInfo mortonPrims treeletsToBuild 0
          (resize orderedPrims self.primitives.length) 0 with
      | none => none
      | some (finishedTreelets, atomicTotal, ordered, _) =>
        match buildUpperSAH E fuel finishedTreelets 0 finishedTreelets.length atomicTotal with
        | none => none
        | some (root, _, totalNodes) => some (root, totalNodes, ordered)

/-! ## Flattening, `Build`, and the traversal -/

/-- The method `BVHAccel::flattenBVHTree(node, offset)` on the array `nodes`; returns
`myOffset` and the new values of `nodes` and `*offset`. A store outside the array and a
null node have no result. The store into the 16-bit `nPrimitives` and the 8-bit `axis`
keeps the low bits. -/
def flattenBVHTree (E : Env) :
    BVHBuildNode → List LinearBVHNode → Nat → Option (Nat × List LinearBVHNode × Nat)
  | .null, _, _ => none
  | .node bounds child0 child1 splitAxis firstPrimOffset nPrimitives, nodes, offset =>
    match nodes[offset]? with
    | none => none
    | some linearNode =>
      let myOffset := offset
      let offset := offset + 1
      if nPrimitives > 0 then
        match MIN_ASSERT E (decide (child0 = .null ∧ child1 = .null)),
            MIN_ASSERT E (decide (nPrimitives < 65536)) with
        | some _, some _ =>
          some (myOffset,
            nodes.set myOffset ⟨bounds, firstPrimOffset, nPrimitives % 2 ^ 16, linearNode.axis⟩,
            offset)
        | _, _ => none
      else
        match flattenBVHTree E child0
            (nodes.set myOffset ⟨bounds, linearNode.offset, 0, splitAxis % 2 ^ 8⟩) offset with
        | none => none
        | some (_, nodes0, offset0) =>
          match flattenBVHTree E child1 nodes0 offset0 with
          | none => none
          | some (second, nodes1, offset1) =>
            match nodes1[myOffset]? with
            | none => none
            | some ln => some (myOffset, nodes1.set myOffset { ln with offset := second }, offset1)

/-- Modelled from the spec: the interface `Shape` of the missing header
`min/visual/shape.h`. `WorldBound()` returns a box; `Intersect(ray, isect)` either fails
and leaves the ray as it is, or succeeds and stores the hit parameter in `ray.tmax` (the
value returned here); `IntersectP(ray)` is the any-hit test. The record `isect` is written
by the shape only and is left out. -/
structure Shape where
  WorldBound : Bounds3f
  Intersect : Ray → Option Float
  IntersectP : Ray → Bool

/-- A `std::shared_ptr<Shape>`: null, or a shape. -/
abbrev ShapePtr := Option Shape

/-- The state of the loop of `Intersect`: the current node, the stack `nodesToVisit` with
its height `toVisitOffset`, the field `ray.tmax`, and the flag `hit`. -/
structure TraversalState where
  currentNodeIndex : Nat
  toVisitOffset : Nat
  nodesToVisit : List Nat
  tmax : Float
  hit : Bool

/-- The leaf loop of `Intersect`: every shape of the leaf is tested against the ray with
its current `tmax`. -/
def intersectLeaf (primitives : List ShapePtr) (ray : Ray) :
    Nat → Nat → Float → Bool → Option (Float × Bool)
  | 0, _, tmax, hit => some (tmax, hit)
  | n + 1, i, tmax, hit =>
    match primitives[i]? with
    | some (some shape) =>
      match shape.Intersect { ray with tmax := tmax } with
      | some t => intersectLeaf primitives ray n (i + 1) t true
      | none => intersectLeaf primitives ray n (i + 1) tmax hit
    | _ => none

/-- The loop `while (true)` of `BVHAccel::Intersect`; the first argument bounds the number
of iterations. Returns `hit` and the final `ray.tmax`. -/
def intersectLoop (nodes : List LinearBVHNode) (primitives : List ShapePtr) (ray : Ray)
    (invDir : Vector3f) (dirIsNeg : Nat → Nat) : Nat → TraversalState → Option (Bool × Float)
  | 0, _ => none
  | fuel + 1, st =>
    match nodes[st.currentNodeIndex]? with
    | none => none
    | some node =>
      if node.bounds.IntersectP { ray with tmax := st.tmax } invDir dirIsNeg then
        if node.nPrimitives > 0 then
          match intersectLeaf primitives ray node.nPrimitives node.offset st.tmax st.hit with
          | none => none
          | some (tmax, hit) =>
            if st.toVisitOffset = 0 then some (hit, tmax)
            else
              match st.nodesToVisit[st.toVisitOffset - 1]? with
              | none => none
              | some next =>
                intersectLoop nodes primitives ray invDir dirIsNeg fuel
                  ⟨next, st.toVisitOffset - 1, st.nodesToVisit, tmax, hit⟩
        else if st.toVisitOffset < st.nodesToVisit.length then
          if dirIsNeg node.axis ≠ 0 then
            intersectLoop nodes primitives ray invDir dirIsNeg fuel
              ⟨node.offset, st.toVisitOffset + 1,
                st.nodesToVisit.set st.toVisitOffset (st.currentNodeIndex + 1), st.tmax, st.hit⟩
          else
            intersectLoop nodes primitives ray invDir dirIsNeg fuel
              ⟨st.currentNodeIndex + 1, st.toVisitOffset + 1,
                st.nodesToVisit.set st.toVisitOffset node.offset, st.tmax, st.hit⟩
        else none
      else if st.toVisitOffset = 0 then some (st.hit, st.tmax)
      else
        match st.nodesToVisit[st.toVisitOffset - 1]? with
        | none => none
        | some next =>
          intersectLoop nodes primitives ray invDir dirIsNeg fuel
            ⟨next, st.toVisitOffset - 1, st.nodesToVisit, st.tmax, st.hit⟩

/-- The method `BVHAccel::Intersect(ray, isect)`; returns the result and the final
`ray.tmax`. The argument `fuel` bounds the number of iterations of the loop. -/
def BVHAccel.Intersect (self : BVHAccel ShapePtr) (fuel : Nat) (ray : Ray) :
    Option (Bool × Float) :=
  match self.nodes with
  | none => some (false, ray.tmax)
  | some nodes =>
    let invDir : Vector3f := ⟨1 / ray.d.x, 1 / ray.d.y, 1 / ray.d.z⟩
    let dirIsNeg : Nat → Nat := fun i => b2n (decide (invDir.get i < 0))
    intersectLoop nodes self.primitives ray invDir dirIsNeg fuel
      ⟨0, 0, List.replicate 64 0, ray.tmax, false⟩

/-- The leaf loop of `IntersectP`: true at the first shape that reports a hit. -/
def intersectPLeaf (primitives : List ShapePtr) (ray : Ray) : Nat → Nat → Option Bool
  | 0, _ => some false
  | n + 1, i =>
    match primitives[i]? with
    | some (some shape) =>
      if shape.IntersectP ray then some true else intersectPLeaf primitives ray n (i + 1)
    | _ => none

/-- The loop `while (true)` of `BVHAccel::IntersectP` on the current node, the stack height
and the stack; the first argument bounds the number of iterations. -/
def intersectPLoop (nodes : List LinearBVHNode) (primitives : List ShapePtr) (ray : Ray)
    (invDir : Vector3f) (dirIsNeg : Nat → Nat) : Nat → Nat → Nat → List Nat → Option Bool
  | 0, _, _, _ => none
  | fuel + 1, currentNodeIndex, toVisitOffset, nodesToVisit =>
    match nodes[currentNodeIndex]? with
    | none => none
    | some node =>
      if node.bounds.IntersectP ray invDir dirIsNeg then
        if node.nPrimitives > 0 then
          match intersectPLeaf primitives ray node.nPrimitives node.offset with
          | none => none
          | some true => some true
          | some false =>
            if toVisitOffset = 0 then some false
            else
              match nodesToVisit[toVisitOffset - 1]? with
              | none => none
              | some next =>
                intersectPLoop nodes primitives ray invDir dirIsNeg fuel next
                  (toVisitOffset - 1) nodesToVisit
        else if toVisitOffset < nodesToVisit.length then
          if dirIsNeg node.axis ≠ 0 then
            intersectPLoop nodes primitives ray invDir dirIsNeg fuel node.offset
              (toVisitOffset + 1) (nodesToVisit.set toVisitOffset (currentNodeIndex + 1))
          else
            intersectPLoop nodes primitives ray invDir dirIsNeg fuel (currentNodeIndex + 1)
              (toVisitOffset + 1) (nodesToVisit.set toVisitOffset node.offset)
        else none
      else if toVisitOffset = 0 then some false
      else
        match nodesToVisit[toVisitOffset - 1]? with
        | none => none
        | some next =>
          intersectPLoop nodes primitives ray invDir dirIsNeg fuel next (toVisitOffset - 1)
            nodesToVisit

/-- The method `BVHAccel::IntersectP(ray)`. -/
def BVHAccel.IntersectP (self : BVHAccel ShapePtr) (fuel : Nat) (ray : Ray) : Option Bool :=
  match self.nodes with
  | none => some false
  | some nodes =>
    let invDir : Vector3f := ⟨1 / ray.d.x, 1 / ray.d.y, 1 / ray.d.z⟩
    let dirIsNeg : Nat → Nat := fun i => b2n (decide (invDir.get i < 0))
    intersectPLoop nodes self.primitives ray invDir dirIsNeg fuel 0 0 (List.replicate 64 0)

/-- The loop of `Build` that fills `primitiveInfo[i] = {i, primitives[i]->WorldBound()}`,
from index `i` on; a null pointer has no result. -/
def primitiveInfoOf : List ShapePtr → Nat → Option (List BVHPrimitiveInfo)
  | [], _ => some []
  | none :: _, _ => none
  | some shape :: rest, i =>
    match primitiveInfoOf rest (i + 1) with
    | none => none
    | some l => some (BVHPrimitiveInfo.create i shape.WorldBound :: l)

/-- What `Build` computes before it stores the node array: the root of the build tree,
`totalNodes` and `orderedPrims`. -/
def buildTree (E : Env) (self : BVHAccel ShapePtr) (fuel : Nat) :
    Option (BVHBuildNode × Nat × List ShapePtr) :=
  match primitiveInfoOf self.primitives 0 with
  | none => none
  | some primitiveInfo =>
    if self.splitMethod = SplitMethod.HLBVH then
      HLBVHBuild E self fuel primitiveInfo []
    else
      match recursiveBuild E self fuel primitiveInfo 0 self.primitives.length 0 [] with
      | none => none
      | some r => some (r.node, r.totalNodes, r.orderedPrims)

/-- The method `BVHAccel::Build()`; returns the accelerator after the call. The argument
`fuel` bounds the depth of the recursion of the build. -/
def BVHAccel.Build (E : Env) (self : BVHAccel ShapePtr) (fuel : Nat) :
    Option (BVHAccel ShapePtr) :=
  if self.primitives.isEmpty then some self
  else
    match buildTree E self fuel with
    | none => none
    | some (root, totalNodes, orderedPrims) =>
      match flattenBVHTree E root (List.replicate totalNodes ⟨Bounds3f.new, 0, 0, 0⟩) 0 with
      | none => none
      | some (_, nodes, offset) =>
        match MIN_ASSERT E (decide (totalNodes = offset)) with
        | none => none
        | some _ => some { self with primitives := orderedPrims, nodes := some nodes }

/-- The box `a` contains the box `b`. -/
def Encloses (a b : Bounds3f) : Prop :=
  a.pmin.x ≤ b.pmin.x ∧ a.pmin.y ≤ b.pmin.y ∧ a.pmin.z ≤ b.pmin.z ∧
  b.pmax.x ≤ a.pmax.x ∧ b.pmax.y ≤ a.pmax.y ∧ b.pmax.z ≤ a.pmax.z

/-- The union of the world bounds of a list of primitives, accumulated like the build
does: from `Bounds3()` with `Union`. -/
def unionOf {α : Type} (wb : α → Bounds3f) (l : List α) : Bounds3f :=
  l.foldl (fun b p => Union b (wb p)) Bounds3f.new

/-- The number of nodes of the tree behind a node pointer. -/
def BVHBuildNode.numNodes : BVHBuildNode → Nat
  | .null => 0
  | .node _ c0 c1 _ _ _ => 1 + c0.numNodes + c1.numNodes

/-- The height of a tree: the largest number of interior nodes above one of its nodes. -/
def BVHBuildNode.height : BVHBuildNode → Nat
  | .null => 0
  | .node _ c0 c1 _ _ n => if n > 0 then 0 else 1 + max c0.height c1.height

/-- A leaf of a build tree: its bounds, `firstPrimOffset` and `nPrimitives`. -/
structure LeafInfo where
  bounds : Bounds3f
  firstPrimOffset : Nat
  nPrimitives : Nat
  deriving DecidableEq, Inhabited

/-- The leaves of a tree (the nodes with `nPrimitives > 0`, as `flattenBVHTree` tells
them), depth first; child 0 before child 1 when `leftFirst` holds, else child 1 first. -/
def BVHBuildNode.leavesIn (leftFirst : Bool) : BVHBuildNode → List LeafInfo
  | .null => []
  | .node b c0 c1 _ f n =>
    if n > 0 then [⟨b, f, n⟩]
    else if leftFirst then c0.leavesIn leftFirst ++ c1.leavesIn leftFirst
    else c1.leavesIn leftFirst ++ c0.leavesIn leftFirst

/-- The leaves of a tree in depth-first left-to-right order. -/
def BVHBuildNode.leaves (t : BVHBuildNode) : List LeafInfo := t.leavesIn true

/-- The structure of a build tree: every node is a leaf made by `InitLeaf` (both children
null, `nPrimitives` positive) or an interior node made by `InitInterior` (`nPrimitives`
zero, two children, bounds the union of the bounds of the children). -/
def BVHBuildNode.Invariant : BVHBuildNode → Prop
  | .null => False
  | .node b c0 c1 _ _ n =>
    (0 < n ∧ c0 = .null ∧ c1 = .null) ∨
    (n = 0 ∧ c0.Invariant ∧ c1.Invariant ∧ b = Union c0.boundsD c1.boundsD)

/-- The ranges of a list of leaves follow one another from offset `a` to offset `b`: each
starts where the one before ends, and none is empty. -/
def Consecutive : List LeafInfo → Nat → Nat → Prop
  | [], a, b => a = b
  | l :: rest, a, b => l.firstPrimOffset = a ∧ 1 ≤ l.nPrimitives ∧
      Consecutive rest (a + l.nPrimitives) b

/-- The slots `[firstPrimOffset, firstPrimOffset + nPrimitives)` of a list of leaves. -/
def leafSlots (ls : List LeafInfo) : List Nat :=
  ls.flatMap (fun l => List.range' l.firstPrimOffset l.nPrimitives)

/-- Every leaf of the list has as bounds the union of the world bounds of the primitives in
its range of `orderedPrims`. -/
def LeafBoundsOK {α : Type} (wb : α → Bounds3f) (orderedPrims : List α) (ls : List LeafInfo) :
    Prop :=
  ∀ l ∈ ls, l.firstPrimOffset + l.nPrimitives ≤ orderedPrims.length ∧
    l.bounds = unionOf wb (slice orderedPrims l.firstPrimOffset (l.firstPrimOffset + l.nPrimitives))

/-- What a call of `recursiveBuild` on the range `mid` of `pre ++ mid ++ post` guarantees
about its result `r`, when it started from `totalNodes` and `orderedPrims`: only the range is
rearranged; the counter grew by the number of nodes; the tree has the structure of a build
tree; the primitives of the range were appended in some order `σ`; the leaves, in the order
in which they were built, cover the new slots one after the other; and, where the bounds
recorded in the range are the world bounds `wb` of the primitives, every leaf has as bounds
the union of the world bounds of the primitives in its slots. -/
structure BuildPost {α : Type} (E : Env) (accel : BVHAccel α) (wb : α → Bounds3f)
    (pre mid post : List BVHPrimitiveInfo) (totalNodes : Nat) (orderedPrims : List α)
    (r : BuildState α) : Prop where
  info : ∃ m, r.primitiveInfo = pre ++ m ++ post ∧ m.Perm mid
  total : r.totalNodes = totalNodes + r.node.numNodes
  inv : r.node.Invariant
  ordered : ∃ (L : List α) (σ : List BVHPrimitiveInfo), r.orderedPrims = orderedPrims ++ L ∧
    σ.Perm mid ∧ L.map some = σ.map (fun pi => accel.primitives[pi.primitiveNumber]?)
  chain : Consecutive (r.node.leavesIn E.argsLeftToRight) orderedPrims.length
    (orderedPrims.length + mid.length)
  bounds : (∀ pi ∈ mid, ∀ p, accel.primitives[pi.primitiveNumber]? = some p → wb p = pi.bounds) →
    LeafBoundsOK wb r.orderedPrims (r.node.leavesIn E.argsLeftToRight)

/-- A value of type `Float` that a finite single-precision number can have: it lies between
`lowest()` and `max()`. -/
def FiniteFloat (q : Float) : Prop := min_num ≤ q ∧ q ≤ max_num

/-- A vector with finite components. -/
def Vector3f.IsFinite (v : Vector3f) : Prop :=
  FiniteFloat v.x ∧ FiniteFloat v.y ∧ FiniteFloat v.z

/-- A box with finite corners. -/
def Bounds3f.IsFinite (b : Bounds3f) : Prop := b.pmin.IsFinite ∧ b.pmax.IsFinite

/-! ## Sample inputs -/

/-- A sample environment: the library `stdlib`, aborting assertions, and the given order of
evaluation. -/
def sampleEnv (argsLeftToRight : Bool) : Env := ⟨stdlib, true, argsLeftToRight⟩

/-- Two unit cubes, at the origin and at `x = 2`. -/
def sampleBoxes : List Bounds3f := [⟨⟨0, 0, 0⟩, ⟨1, 1, 1⟩⟩, ⟨⟨2, 0, 0⟩, ⟨3, 1, 1⟩⟩]

/-- The array `primitiveInfo` that `Build` makes for two primitives with the sample boxes. -/
def sampleInfo : List BVHPrimitiveInfo :=
  [BVHPrimitiveInfo.create 0 ⟨⟨0, 0, 0⟩, ⟨1, 1, 1⟩⟩, BVHPrimitiveInfo.create 1 ⟨⟨2, 0, 0⟩, ⟨3, 1, 1⟩⟩]

/-- An accelerator over two primitives, named by the numbers 0 and 1. -/
def sampleAccel (splitMethod : SplitMethod) : BVHAccel Nat := ⟨[0, 1], 4, splitMethod, none⟩

/-- The array `nodes` holds the tree `t` from index `i` on in depth-first pre-order, as
`flattenBVHTree` lays it out: a leaf is one node with the bounds, `primitivesOffset` and
the low 16 bits of `nPrimitives`; an interior node has `nPrimitives` zero, its axis, its
first child at `i + 1`, and its second child at `secondChildOffset`, which is `i + 1` plus
the number of nodes of the first child and so lies beyond `i + 1`. -/
def PreOrder (nodes : List LinearBVHNode) : Nat → BVHBuildNode → Prop
  | _, .null => False
  | i, .node b c0 c1 ax f n =>
    if n > 0 then
      ∃ ln, nodes[i]? = some ln ∧ ln.bounds = b ∧ ln.offset = f ∧ ln.nPrimitives = n % 2 ^ 16
    else
      (∃ ln, nodes[i]? = some ln ∧ ln.bounds = b ∧ ln.nPrimitives = 0 ∧ ln.axis = ax % 2 ^ 8 ∧
        ln.offset = i + 1 + c0.numNodes ∧ i + 1 < ln.offset) ∧
      PreOrder nodes (i + 1) c0 ∧ PreOrder nodes (i + 1 + c0.numNodes) c1

/-- A build tree of three nodes: an interior node over two leaves of one primitive each,
with the sample boxes as bounds. -/
def sampleTree : BVHBuildNode :=
  .node (Union ⟨⟨0, 0, 0⟩, ⟨1, 1, 1⟩⟩ ⟨⟨2, 0, 0⟩, ⟨3, 1, 1⟩⟩)
    (.node ⟨⟨0, 0, 0⟩, ⟨1, 1, 1⟩⟩ .null .null 0 0 1)
    (.node ⟨⟨2, 0, 0⟩, ⟨3, 1, 1⟩⟩ .null .null 0 1 1) 0 0 0

/-- The stable counting sort of a list by a key below `n`: the elements of key 0 in their
order, then those of key 1, and so on. One pass of `RadixSort` computes it. -/
def bucketSort {α : Type} (key : α → Nat) (n : Nat) (l : List α) : List α :=
  (List.range n).flatMap (fun b => l.filter (fun x => decide (key x = b)))

/-- The sum `c 0 + ... + c (b - 1)`. -/
def prefixSum (c : Nat → Nat) (b : Nat) : Nat := ((List.range b).map c).sum

/-- The treelets of a list follow one another from index `a` to index `b`: each starts
where the one before ends, and none is empty. -/
def TreeletsCover : List LBVHTreelet → Nat → Nat → Prop
  | [], a, b => a = b
  | t :: rest, a, b => t.startIndex = a ∧ 1 ≤ t.nPrimitives ∧
      TreeletsCover rest (a + t.nPrimitives) b

/-- The number of nodes of the trees of a list. -/
def sumNodes (l : List BVHBuildNode) : Nat := (l.map BVHBuildNode.numNodes).sum

/-- What a call of `emitLBVH` on the first `n` Morton primitives of `mp` guarantees, when
`orderedPrims` was `pre ++ mid ++ post` with the shared counter at the end of `pre` and `mid`
of length `n`: the slots of `mid` now hold the primitives of `mp` in their order; the
counter moved on by `n`; the tree has the structure of a build tree; its leaves, depth first
from left to right, cover the slots one after the other; both node counters grew by the
number of nodes; and, where the bounds in `primitiveInfo` are the world bounds `wb` of the
primitives, every leaf has as bounds the union of the world bounds in its slots. -/
structure EmitPost {α : Type} (accel : BVHAccel α) (wb : α → Bounds3f)
    (primitiveInfo : List BVHPrimitiveInfo) (mp : List MortonPrimitive) (n : Nat)
    (pre post : List α) (st : EmitState α) (node : BVHBuildNode) (st1 : EmitState α) : Prop where
  ordered : ∃ L, st1.orderedPrims = pre ++ L ++ post ∧
    L.map some = (mp.take n).map (fun m => accel.primitives[m.primitiveIndex]?)
  bound : n ≤ mp.length
  offset : st1.orderedPrimsOffset = st.orderedPrimsOffset + n
  inv : node.Invariant
  chain : Consecutive node.leaves st.orderedPrimsOffset (st.orderedPrimsOffset + n)
  total : st1.totalNodes = st.totalNodes + node.numNodes
  arena : st1.buildNodes = st.buildNodes + node.numNodes
  bounds : (∀ (i : Nat) (p : α) (pi : BVHPrimitiveInfo), accel.primitives[i]? = some p →
      primitiveInfo[i]? = some pi → wb p = pi.bounds) →
    LeafBoundsOK wb st1.orderedPrims node.leaves

/-- The world bounds behind a shape pointer (for a null pointer, which `Build` does not
accept, the empty box). -/
def worldBound (p : ShapePtr) : Bounds3f :=
  match p with
  | some shape => shape.WorldBound
  | none => Bounds3f.new

/-- The bounds of every interior node (a node with `nPrimitives = 0`) contain the bounds of
both children, throughout the tree. -/
def BVHBuildNode.Nested : BVHBuildNode → Prop
  | .null => True
  | .node b c0 c1 _ _ n =>
    (n = 0 → Encloses b c0.boundsD ∧ Encloses b c1.boundsD) ∧ c0.Nested ∧ c1.Nested

/-- Every leaf of the list contains the world bounds of each primitive in its slots. -/
def LeafCovers {α : Type} (wb : α → Bounds3f) (orderedPrims : List α) (ls : List LeafInfo) :
    Prop :=
  ∀ l ∈ ls, ∀ i, l.firstPrimOffset ≤ i → i < l.firstPrimOffset + l.nPrimitives →
    ∀ p, orderedPrims[i]? = some p → Encloses l.bounds (wb p)

/-- The world bounds of the two sample primitives 0 and 1. -/
def sampleWorldBound (p : Nat) : Bounds3f := sampleBoxes.getD p Bounds3f.new

/-- A shape with the given world bounds that every ray hits at the parameter `t`, provided
`t` lies in `(0, ray.tmax)`. -/
def sampleShape (b : Bounds3f) (t : Float) : Shape :=
  ⟨b, fun ray => if 0 < t ∧ t < ray.tmax then some t else none,
    fun ray => decide (0 < t ∧ t < ray.tmax)⟩

/-- Two shapes in the sample boxes: the ray `sampleRay` meets the first at `t = 3/2` and the
second at `t = 7/2`. -/
def sampleShapes : List ShapePtr :=
  [some (sampleShape ⟨⟨0, 0, 0⟩, ⟨1, 1, 1⟩⟩ (3 / 2)), some (sampleShape ⟨⟨2, 0, 0⟩, ⟨3, 1, 1⟩⟩ (7 / 2))]

/-- A ray from `(-1, 0, 0)` in the direction `(1, 1/4, 1/4)` with `tmax = 100`. -/
def sampleRay : Ray := ⟨⟨-1, 0, 0⟩, ⟨1, 1 / 4, 1 / 4⟩, 100, 0⟩

/-- An accelerator over the two sample shapes, before `Build`. -/
def sampleScene (splitMethod : SplitMethod) : BVHAccel ShapePtr :=
  ⟨sampleShapes, 4, splitMethod, none⟩

/-- The leaves of the tree `t` bound the primitives of `orderedPrims`: each leaf has as
bounds the union of the world bounds of the primitives in its slots, hence contains the
world bounds of each of them, and every one of the `N` slots lies in a leaf. -/
def LeavesBound {α : Type} (wb : α → Bounds3f) (N : Nat) (orderedPrims : List α)
    (t : BVHBuildNode) : Prop :=
  LeafBoundsOK wb orderedPrims t.leaves ∧ LeafCovers wb orderedPrims t.leaves ∧
  ∀ i < N, ∃ l ∈ t.leaves, l.firstPrimOffset ≤ i ∧ i < l.firstPrimOffset + l.nPrimitives

/-- Two Morton primitives whose codes differ in bit 29, the first bit that `emitLBVH` looks
at within a treelet. -/
def sampleMortonPrims : List MortonPrimitive := [⟨0, 0⟩, ⟨1, 1 <<< 29⟩]

/-- The accelerator over the primitives `0` and `1` with `maxPrimsInNode = 2`, for which
`emitLBVH` makes leaves of one primitive. -/
def sampleAccelOne : BVHAccel Nat := ⟨[0, 1], 2, SplitMethod.HLBVH, none⟩

/-- Two treelet roots: leaves over the two sample boxes. -/
def sampleRoots : List BVHBuildNode :=
  [BVHBuildNode.InitLeaf 0 1 ⟨⟨0, 0, 0⟩, ⟨1, 1, 1⟩⟩,
   BVHBuildNode.InitLeaf 1 1 ⟨⟨2, 0, 0⟩, ⟨3, 1, 1⟩⟩]

/-- The environment of a build without assertions (`MIN_ASSERT` expands to nothing), with
the reference library and left-to-right evaluation of arguments. -/
def sampleEnvRelease : Env := ⟨stdlib, false, true⟩

/-- The unit cube. -/
def unitBox : Bounds3f := ⟨⟨0, 0, 0⟩, ⟨1, 1, 1⟩⟩

/-- A scene of 65536 shapes that all have the unit cube as world bound, so that all the
centroids coincide. -/
def coincidentScene (splitMethod : SplitMethod) : BVHAccel ShapePtr :=
  ⟨List.replicate 65536 (some (sampleShape unitBox (3 / 2))), 4, splitMethod, none⟩

/-- The operator `ray(t)`: the point `o + t * d`. -/
def Ray.point (ray : Ray) (t : Float) : Point3f := ray.o.add (Vector3f.smul t ray.d)

/-- A scene of 65537 shapes with the unit cube as world bound; `sampleRay`, whose `tmax` is
100, meets the last one at `t = 3/2` and none of the others. -/
def shadowScene : BVHAccel ShapePtr :=
  ⟨List.replicate 65536 (some (sampleShape unitBox 200)) ++ [some (sampleShape unitBox (3 / 2))],
    4, SplitMethod.SAH, none⟩

/-- One step of a closest-hit loop over shapes, on the state `(ray.tmax, hit)`: `Intersect`
on the shape with the current `tmax`; on success the hit parameter becomes `tmax` and `hit`
becomes true. -/
def hitStep (ray : Ray) (st : Float × Bool) (s : Shape) : Float × Bool :=
  match s.Intersect { ray with tmax := st.1 } with
  | some t => (t, true)
  | none => st

/-- The shapes in the slots of the leaves of a tree, leaf after leaf from left to right. -/
def shapesUnder (primitives : List ShapePtr) (t : BVHBuildNode) : List Shape :=
  (leafSlots t.leaves).filterMap (fun j => (primitives[j]?).join)

/-- How the loop of `IntersectP` goes on once a subtree is done without a hit, with
`toVisitOffset = k`: it returns false when the stack is empty, and pops the next node
otherwise. -/
def resumeP (nodes : List LinearBVHNode) (primitives : List ShapePtr) (ray : Ray)
    (invDir : Vector3f) (dirIsNeg : Nat → Nat) (fuel k : Nat) (stack : List Nat) : Option Bool :=
  if k = 0 then some false
  else
    match stack[k - 1]? with
    | none => none
    | some next => intersectPLoop nodes primitives ray invDir dirIsNeg fuel next (k - 1) stack

/-- The four shift-and-mask steps of `LeftShift3`, which follow its assertion and its
clamp. -/
def spreadBits (x : Nat) : Nat :=
  let x := (x ||| ((x <<< 16) % 2 ^ 32)) &&& 0x30000ff
  let x := (x ||| ((x <<< 8) % 2 ^ 32)) &&& 0x300f00f
  let x := (x ||| ((x <<< 4) % 2 ^ 32)) &&& 0x30c30c3
  let x := (x ||| ((x <<< 2) % 2 ^ 32)) &&& 0x9249249
  x

/-- The method `BVHAccel::WorldBound()`: `nodes ? nodes[0].bounds : Bounds3f()`; an array
without a first node has no result. -/
def BVHAccel.WorldBound {α : Type} (self : BVHAccel α) : Option Bounds3f :=
  match self.nodes with
  | none => some Bounds3f.new
  | some nodes => (nodes[0]?).map (fun n => n.bounds)

/-- An accelerator without primitives, before `Build`: the node array is null. -/
def emptyScene (splitMethod : SplitMethod) : BVHAccel ShapePtr := ⟨[], 4, splitMethod, none⟩

/-- The passes `pass, pass + 1, ...` (`n` of them) of a radix sort by six bits from the
lowest, each a stable counting sort `bucketSort` by the bits of the pass. -/
def lsdPasses : Nat → Nat → List MortonPrimitive → List MortonPrimitive
  | 0, _, l => l
  | n + 1, pass, l => lsdPasses n (pass + 1) (bucketSort (radixBucket (pass * 6) 63) 64 l)

/-- The array `primitiveInfo` for two primitives that both have the unit cube as bounds,
and so the same centroid. -/
def coincidentInfo : List BVHPrimitiveInfo :=
  [BVHPrimitiveInfo.create 0 unitBox, BVHPrimitiveInfo.create 1 unitBox]

/-- The paths of a tree: for every leaf, the bounds of the nodes from the root down to the
leaf, the leaf included, and the leaf. -/
def BVHBuildNode.paths : BVHBuildNode → List (List Bounds3f × LeafInfo)
  | .null => []
  | .node b c0 c1 _ f n =>
    if n > 0 then [([b], ⟨b, f, n⟩)]
    else (c0.paths ++ c1.paths).map (fun pl => (b :: pl.1, pl.2))

/-- One iteration of the loop `while (true)` of `BVHAccel::Intersect` in the state `st`:
the result `(hit, ray.tmax)` where the loop ends in this iteration (`break`), else the
state of the next iteration. -/
def intersectStep (nodes : List LinearBVHNode) (primitives : List ShapePtr) (ray : Ray)
    (invDir : Vector3f) (dirIsNeg : Nat → Nat) (st : TraversalState) :
    Option ((Bool × Float) ⊕ TraversalState) :=
  match nodes[st.currentNodeIndex]? with
  | none => none
  | some node =>
    if node.bounds.IntersectP { ray with tmax := st.tmax } invDir dirIsNeg then
      if node.nPrimitives > 0 then
        match intersectLeaf primitives ray node.nPrimitives node.offset st.tmax st.hit with
        | none => none
        | some (tmax, hit) =>
          if st.toVisitOffset = 0 then some (.inl (hit, tmax))
          else
            match st.nodesToVisit[st.toVisitOffset - 1]? with
            | none => none
            | some next => some (.inr ⟨next, st.toVisitOffset - 1, st.nodesToVisit, tmax, hit⟩)
      else if st.toVisitOffset < st.nodesToVisit.length then
        if dirIsNeg node.axis ≠ 0 then
          some (.inr ⟨node.offset, st.toVisitOffset + 1,
            st.nodesToVisit.set st.toVisitOffset (st.currentNodeIndex + 1), st.tmax, st.hit⟩)
        else
          some (.inr ⟨st.currentNodeIndex + 1, st.toVisitOffset + 1,
            st.nodesToVisit.set st.toVisitOffset node.offset, st.tmax, st.hit⟩)
      else none
    else if st.toVisitOffset = 0 then some (.inl (st.hit, st.tmax))
    else
      match st.nodesToVisit[st.toVisitOffset - 1]? with
      | none => none
      | some next => some (.inr ⟨next, st.toVisitOffset - 1, st.nodesToVisit, st.tmax, st.hit⟩)

/-- The values of `ray.tmax` over a run of the loop of `Intersect`: at the start of each
iteration, and at the end of the loop. -/
def tmaxTrace (nodes : List LinearBVHNode) (primitives : List ShapePtr) (ray : Ray)
    (invDir : Vector3f) (dirIsNeg : Nat → Nat) : Nat → TraversalState → List Float
  | 0, st => [st.tmax]
  | fuel + 1, st =>
    st.tmax ::
      match intersectStep nodes primitives ray invDir dirIsNeg st with
      | none => []
      | some (.inl r) => [r.2]
      | some (.inr st1) => tmaxTrace nodes primitives ray invDir dirIsNeg fuel st1

/-- The values of `ray.tmax` over a run of the leaf loop of `Intersect`: before each call
of `Shape::Intersect`, and at the end of the loop. -/
def leafTrace (primitives : List ShapePtr) (ray : Ray) : Nat → Nat → Float → List Float
  | 0, _, tmax => [tmax]
  | n + 1, i, tmax =>
    tmax ::
      match primitives[i]? with
      | some (some shape) =>
        match shape.Intersect { ray with tmax := tmax } with
        | some t => leafTrace primitives ray n (i + 1) t
        | none => leafTrace primitives ray n (i + 1) tmax
      | _ => []

/-- The values of `ray.tmax` over a call of `BVHAccel::Intersect`: the value on entry when
there are no nodes, else the values over the run of the loop from the root. -/
def BVHAccel.tmaxTrace (self : BVHAccel ShapePtr) (fuel : Nat) (ray : Ray) : List Float :=
  match self.nodes with
  | none => [ray.tmax]
  | some nodes =>
    let invDir : Vector3f := ⟨1 / ray.d.x, 1 / ray.d.y, 1 / ray.d.z⟩
    let dirIsNeg : Nat → Nat := fun i => b2n (decide (invDir.get i < 0))
    MinRay.tmaxTrace nodes self.primitives ray invDir dirIsNeg fuel
      ⟨0, 0, List.replicate 64 0, ray.tmax, false⟩

/-- Modelled from the spec: the options object `Json` that `initialize` receives, reduced
to the two keys that `BVHAccel::initialize` reads; a key may be absent. -/
structure Json where
  split_method : Option String
  maxnodeprims : Option Int
  deriving DecidableEq

/-- Modelled from the spec: the function `Value(json, key, default)` of the missing JSON
header, on the entry of the object under the key: the entry, or the default when the key is
absent. -/
def Value {β : Type} (entry : Option β) (dflt : β) : β := entry.getD dflt

/-- The method `BVHAccel::initialize(json)` (the underscore keeps the name clear of a
keyword): the member `splitMethod` is assigned only when the option reads `"sah"`. -/
def BVHAccel.initialize_ {α : Type} (self : BVHAccel α) (json : Json) : BVHAccel α :=
  let str := Value json.split_method "sah"
  let splitMethod := if str = "sah" then SplitMethod.SAH else self.splitMethod
  ⟨self.primitives, Value json.maxnodeprims 4, splitMethod, self.nodes⟩

/-- The method `BVHAccel::AddShape(shape)`: the shapes are inserted at the end of
`primitives`. -/
def BVHAccel.AddShape {α : Type} (self : BVHAccel α) (shape : List α) : BVHAccel α :=
  ⟨self.primitives ++ shape, self.maxPrimsInNode, self.splitMethod, self.nodes⟩

/-- The indices `outIndex[bucket]` at which the scatter loop of a pass stores, in the order
of the stores. -/
def scatterIndices (lowBit bitMask : Nat) : List MortonPrimitive → List Nat → List Nat
  | [], _ => []
  | mp :: rest, outIndex =>
    let bucket := radixBucket lowBit bitMask mp
    outIndex.getD bucket 0 ::
      scatterIndices lowBit bitMask rest (outIndex.set bucket (outIndex.getD bucket 0 + 1))

/-- The decoding of a linear array from index `i`, as the traversal reads it: a node with
`nPrimitives > 0` is a leaf with `primitivesOffset` and its count; any other node is an
interior node with its axis, its first child at `i + 1` and its second child at
`secondChildOffset`. The first argument bounds the depth. -/
def unflatten (nodes : List LinearBVHNode) : Nat → Nat → Option BVHBuildNode
  | 0, _ => none
  | fuel + 1, i =>
    match nodes[i]? with
    | none => none
    | some ln =>
      if ln.nPrimitives > 0 then some (.node ln.bounds .null .null 0 ln.offset ln.nPrimitives)
      else
        match unflatten nodes fuel (i + 1), unflatten nodes fuel ln.offset with
        | some c0, some c1 => some (.node ln.bounds c0 c1 ln.axis 0 0)
        | _, _ => none

/-- What `flattenBVHTree` reads of a build tree: the bounds of every node, the offset and
the count of a leaf, the split axis and the two children of an interior node. The fields it
does not read are set as `InitLeaf` and `InitInterior` leave them. -/
def BVHBuildNode.stored : BVHBuildNode → BVHBuildNode
  | .null => .null
  | .node b c0 c1 ax f n =>
    if n > 0 then .node b .null .null 0 f n else .node b c0.stored c1.stored ax 0 0

/-- The split axes of the interior nodes of a tree. -/
def BVHBuildNode.axes : BVHBuildNode → List Nat
  | .null => []
  | .node _ c0 c1 ax _ n => if n > 0 then [] else ax :: (c0.axes ++ c1.axes)

/-- A tree whose nodes are as `InitLeaf` and `InitInterior` make them: a leaf has the split
axis 0 of a fresh node, an interior node has `firstPrimOffset` 0. -/
def BVHBuildNode.Fresh : BVHBuildNode → Prop
  | .null => True
  | .node _ c0 c1 ax f n => if n > 0 then ax = 0 else f = 0 ∧ c0.Fresh ∧ c1.Fresh
/-- The centre of a box as `buildUpperSAH` computes it: `(bounds.pmin + bounds.pmax) * 0.5f`. -/
def boxCentroid (b : Bounds3f) : Point3f := Vector3f.smul (1 / 2) (b.pmin.add b.pmax)

/-- One iteration of the loop `while (true)` of `BVHAccel::IntersectP` on the current node,
the stack height and the stack: the result where the loop ends in this iteration, else the
state of the next iteration. -/
def intersectPStep (nodes : List LinearBVHNode) (primitives : List ShapePtr) (ray : Ray)
    (invDir : Vector3f) (dirIsNeg : Nat → Nat) (currentNodeIndex toVisitOffset : Nat)
    (nodesToVisit : List Nat) : Option (Bool ⊕ (Nat × Nat × List Nat)) :=
  match nodes[currentNodeIndex]? with
  | none => none
  | some node =>
    if node.bounds.IntersectP ray invDir dirIsNeg then
      if node.nPrimitives > 0 then
        match intersectPLeaf primitives ray node.nPrimitives node.offset with
        | none => none
        | some true => some (.inl true)
        | some false =>
          if toVisitOffset = 0 then some (.inl false)
          else
            match nodesToVisit[toVisitOffset - 1]? with
            | none => none
            | some next => some (.inr (next, toVisitOffset - 1, nodesToVisit))
      else if toVisitOffset < nodesToVisit.length then
        if dirIsNeg node.axis ≠ 0 then
          some (.inr (node.offset, toVisitOffset + 1,
            nodesToVisit.set toVisitOffset (currentNodeIndex + 1)))
        else
          some (.inr (currentNodeIndex + 1, toVisitOffset + 1,
            nodesToVisit.set toVisitOffset node.offset))
      else none
    else if toVisitOffset = 0 then some (.inl false)
    else
      match nodesToVisit[toVisitOffset - 1]? with
      | none => none
      | some next => some (.inr (next, toVisitOffset - 1, nodesToVisit))

/-- The pairs `(currentNodeIndex, toVisitOffset)` at the start of each iteration of the loop
of `Intersect`, over a run of at most the given number of iterations. -/
def visitTrace (nodes : List LinearBVHNode) (primitives : List ShapePtr) (ray : Ray)
    (invDir : Vector3f) (dirIsNeg : Nat → Nat) : Nat → TraversalState → List (Nat × Nat)
  | 0, _ => []
  | fuel + 1, st =>
    (st.currentNodeIndex, st.toVisitOffset) ::
      match intersectStep nodes primitives ray invDir dirIsNeg st with
      | some (.inr st1) => visitTrace nodes primitives ray invDir dirIsNeg fuel st1
      | _ => []

/-- The pairs `(currentNodeIndex, toVisitOffset)` at the start of each iteration of the loop
of `IntersectP`, over a run of at most the given number of iterations. -/
def visitTraceP (nodes : List LinearBVHNode) (primitives : List ShapePtr) (ray : Ray)
    (invDir : Vector3f) (dirIsNeg : Nat → Nat) : Nat → Nat → Nat → List Nat → List (Nat × Nat)
  | 0, _, _, _ => []
  | fuel + 1, cur, k, stack =>
    (cur, k) ::
      match intersectPStep nodes primitives ray invDir dirIsNeg cur k stack with
      | some (.inr (c1, k1, s1)) => visitTraceP nodes primitives ray invDir dirIsNeg fuel c1 k1 s1
      | _ => []

/-- The pairs `(currentNodeIndex, toVisitOffset)` over a call of `BVHAccel::Intersect`. -/
def BVHAccel.visitTrace (self : BVHAccel ShapePtr) (fuel : Nat) (ray : Ray) : List (Nat × Nat) :=
  match self.nodes with
  | none => []
  | some nodes =>
    let invDir : Vector3f := ⟨1 / ray.d.x, 1 / ray.d.y, 1 / ray.d.z⟩
    let dirIsNeg : Nat → Nat := fun i => b2n (decide (invDir.get i < 0))
    MinRay.visitTrace nodes self.primitives ray invDir dirIsNeg fuel
      ⟨0, 0, List.replicate 64 0, ray.tmax, false⟩

/-- The pairs `(currentNodeIndex, toVisitOffset)` over a call of `BVHAccel::IntersectP`. -/
def BVHAccel.visitTraceP (self : BVHAccel ShapePtr) (fuel : Nat) (ray : Ray) :
    List (Nat × Nat) :=
  match self.nodes with
  | none => []
  | some nodes =>
    let invDir : Vector3f := ⟨1 / ray.d.x, 1 / ray.d.y, 1 / ray.d.z⟩
    let dirIsNeg : Nat → Nat := fun i => b2n (decide (invDir.get i < 0))
    MinRay.visitTraceP nodes self.primitives ray invDir dirIsNeg fuel 0 0 (List.replicate 64 0)

/-- The number of interior ancestors of the node at the pre-order offset `j` of a tree; none
where the tree has no such node. -/
def BVHBuildNode.depthAt : BVHBuildNode → Nat → Option Nat
  | .null, _ => none
  | .node _ c0 c1 _ _ n, j =>
    if j = 0 then some 0
    else if n > 0 then none
    else if j - 1 < c0.numNodes then (c0.depthAt (j - 1)).map (fun d => d + 1)
    else (c1.depthAt (j - 1 - c0.numNodes)).map (fun d => d + 1)

/-- The stack discipline that the loops of `Intersect` and `IntersectP` share, one
iteration: the node is skipped where `boxTest` fails; a leaf runs `leafAct` on the state `s`
of the caller and pops the stack, or ends the loop on the empty stack; an interior node
pushes the far child and goes to the near one. -/
def walkStep {σ : Type} (nodes : List LinearBVHNode) (dirIsNeg : Nat → Nat)
    (boxTest : LinearBVHNode → σ → Bool) (leafAct : LinearBVHNode → σ → Option σ)
    (cur k : Nat) (stack : List Nat) (s : σ) : Option (σ ⊕ (Nat × Nat × List Nat × σ)) :=
  match nodes[cur]? with
  | none => none
  | some node =>
    if boxTest node s then
      if node.nPrimitives > 0 then
        match leafAct node s with
        | none => none
        | some s1 =>
          if k = 0 then some (.inl s1)
          else
            match stack[k - 1]? with
            | none => none
            | some next => some (.inr (next, k - 1, stack, s1))
      else if k < stack.length then
        if dirIsNeg node.axis ≠ 0 then some (.inr (node.offset, k + 1, stack.set k (cur + 1), s))
        else some (.inr (cur + 1, k + 1, stack.set k node.offset, s))
      else none
    else if k = 0 then some (.inl s)
    else
      match stack[k - 1]? with
      | none => none
      | some next => some (.inr (next, k - 1, stack, s))

/-- The loop over `walkStep`, for at most the given number of iterations. -/
def walkLoop {σ : Type} (nodes : List LinearBVHNode) (dirIsNeg : Nat → Nat)
    (boxTest : LinearBVHNode → σ → Bool) (leafAct : LinearBVHNode → σ → Option σ) :
    Nat → Nat → Nat → List Nat → σ → Option σ
  | 0, _, _, _, _ => none
  | fuel + 1, cur, k, stack, s =>
    match walkStep nodes dirIsNeg boxTest leafAct cur k stack s with
    | none => none
    | some (.inl r) => some r
    | some (.inr (c1, k1, s1, t1)) => walkLoop nodes dirIsNeg boxTest leafAct fuel c1 k1 s1 t1

/-- The pairs `(cur, k)` at the start of each iteration of `walkLoop`. -/
def walkTrace {σ : Type} (nodes : List LinearBVHNode) (dirIsNeg : Nat → Nat)
    (boxTest : LinearBVHNode → σ → Bool) (leafAct : LinearBVHNode → σ → Option σ) :
    Nat → Nat → Nat → List Nat → σ → List (Nat × Nat)
  | 0, _, _, _, _ => []
  | fuel + 1, cur, k, stack, s =>
    (cur, k) ::
      match walkStep nodes dirIsNeg boxTest leafAct cur k stack s with
      | some (.inr (c1, k1, s1, t1)) => walkTrace nodes dirIsNeg boxTest leafAct fuel c1 k1 s1 t1
      | _ => []

/-- How `walkLoop` goes on once a subtree is done, with `k` nodes on the stack. -/
def walkResume {σ : Type} (nodes : List LinearBVHNode) (dirIsNeg : Nat → Nat)
    (boxTest : LinearBVHNode → σ → Bool) (leafAct : LinearBVHNode → σ → Option σ)
    (fuel k : Nat) (stack : List Nat) (s : σ) : Option σ :=
  if k = 0 then some s
  else
    match stack[k - 1]? with
    | none => none
    | some next => walkLoop nodes dirIsNeg boxTest leafAct fuel next (k - 1) stack s

/-- The trace of `walkLoop` once a subtree is done, with `k` nodes on the stack. -/
def walkResumeTrace {σ : Type} (nodes : List LinearBVHNode) (dirIsNeg : Nat → Nat)
    (boxTest : LinearBVHNode → σ → Bool) (leafAct : LinearBVHNode → σ → Option σ)
    (fuel k : Nat) (stack : List Nat) (s : σ) : List (Nat × Nat) :=
  if k = 0 then []
  else
    match stack[k - 1]? with
    | none => []
    | some next => walkTrace nodes dirIsNeg boxTest leafAct fuel next (k - 1) stack s

/-- What holds of the pairs `(j, d)` of a list `V` of visits within a tree `t` laid out from
the index `i`: `j` is the pre-order offset of a node of `t` that has at least `d` interior
ancestors, `d` is below the height of `t` where the node is an interior node, and no node
occurs twice. -/
def VisitsOK (nodes : List LinearBVHNode) (t : BVHBuildNode) (i : Nat) (V : List (Nat × Nat)) :
    Prop :=
  (∀ v ∈ V, v.1 < t.numNodes ∧ (∃ d, t.depthAt v.1 = some d ∧ v.2 ≤ d) ∧
    ∀ ln, nodes[i + v.1]? = some ln → ln.nPrimitives = 0 → v.2 < t.height) ∧
  (V.map Prod.fst).Nodup

/-- Three flat boxes in a row, unit squares in the plane `z = 0` at `x = 0`, `x = 2` and
`x = 4`, as the array `primitiveInfo` of three primitives. -/
def flatInfo3 : List BVHPrimitiveInfo :=
  [BVHPrimitiveInfo.create 0 ⟨⟨0, 0, 0⟩, ⟨1, 1, 0⟩⟩, BVHPrimitiveInfo.create 1 ⟨⟨2, 0, 0⟩, ⟨3, 1, 0⟩⟩,
   BVHPrimitiveInfo.create 2 ⟨⟨4, 0, 0⟩, ⟨5, 1, 0⟩⟩]

theorem slice_append3 {α : Type} (pre mid post : List α) :
    slice (pre ++ mid ++ post) pre.length (pre.length + mid.length) = mid := by
  simp [slice]

theorem splice_append3 {α : Type} (pre mid post m : List α) :
    splice (pre ++ mid ++ post) pre.length (pre.length + mid.length) m = pre ++ m ++ post := by
  simp [splice]

theorem split3 {α : Type} (l : List α) (s e : Nat) (hse : s ≤ e) (he : e ≤ l.length) :
    ∃ pre mid post, l = pre ++ mid ++ post ∧ pre.length = s ∧ mid.length = e - s ∧
      pre.length + mid.length = e := by
  refine ⟨l.take s, (l.drop s).take (e - s), l.drop e, ?_, ?_, ?_, ?_⟩
  · have h1 : l.drop e = (l.drop s).drop (e - s) := by
      rw [List.drop_drop]
      congr 1
      omega
    rw [h1, List.append_assoc, List.take_append_drop, List.take_append_drop]
  · simp
    omega
  · simp
    omega
  · simp
    omega

theorem slice_length {α : Type} (l : List α) (s e : Nat) (he : e ≤ l.length) :
    (slice l s e).length = e - s := by
  simp [slice]
  omega

/-! ## Boxes -/

theorem Encloses.refl (a : Bounds3f) : Encloses a a := by
  simp [Encloses]

theorem Encloses.trans {a b c : Bounds3f} (h1 : Encloses a b) (h2 : Encloses b c) :
    Encloses a c := by
  obtain ⟨h11, h12, h13, h14, h15, h16⟩ := h1
  obtain ⟨h21, h22, h23, h24, h25, h26⟩ := h2
  exact ⟨le_trans h11 h21, le_trans h12 h22, le_trans h13 h23, le_trans h24 h14,
    le_trans h25 h15, le_trans h26 h16⟩

theorem Union_encloses_left (a b : Bounds3f) : Encloses (Union a b) a := by
  simp [Encloses, Union, Min, Max]

theorem Union_encloses_right (a b : Bounds3f) : Encloses (Union a b) b := by
  simp [Encloses, Union, Min, Max]

theorem Inside_of_encloses {p : Point3f} {a b : Bounds3f} (h : Encloses a b)
    (hp : Inside p b = true) : Inside p a = true := by
  simp only [Inside, decide_eq_true_eq, ge_iff_le] at hp ⊢
  obtain ⟨h1, h2, h3, h4, h5, h6⟩ := h
  obtain ⟨p1, p2, p3, p4, p5, p6⟩ := hp
  exact ⟨le_trans h1 p1, le_trans p2 h4, le_trans h2 p3, le_trans p4 h5, le_trans h3 p5,
    le_trans p6 h6⟩

theorem foldl_Union_encloses_init {α : Type} (f : α → Bounds3f) (l : List α) (b : Bounds3f) :
    Encloses (l.foldl (fun acc p => Union acc (f p)) b) b := by
  induction l generalizing b with
  | nil => exact Encloses.refl b
  | cons x xs ih =>
    simp only [List.foldl_cons]
    exact (ih _).trans (Union_encloses_left b (f x))

theorem foldl_Union_encloses_mem {α : Type} (f : α → Bounds3f) (l : List α) (b : Bounds3f)
    (x : α) (hx : x ∈ l) : Encloses (l.foldl (fun acc p => Union acc (f p)) b) (f x) := by
  induction l generalizing b with
  | nil => cases hx
  | cons y ys ih =>
    simp only [List.foldl_cons]
    rcases List.mem_cons.mp hx with h | h
    · subst h
      exact (foldl_Union_encloses_init f ys _).trans (Union_encloses_right b (f x))
    · exact ih _ h

theorem unionOf_encloses {α : Type} (wb : α → Bounds3f) (l : List α) (x : α) (hx : x ∈ l) :
    Encloses (unionOf wb l) (wb x) :=
  foldl_Union_encloses_mem wb l Bounds3f.new x hx

/-! ## The top-down build: what a call guarantees -/

theorem pushPrims_spec {α : Type} (primitives : List α) (l : List BVHPrimitiveInfo)
    (ord ord1 : List α) (h : pushPrims primitives l ord = some ord1) :
    ∃ L, ord1 = ord ++ L ∧
      L.map some = l.map (fun pi => primitives[pi.primitiveNumber]?) := by
  induction l generalizing ord with
  | nil =>
    simp only [pushPrims, Option.some.injEq] at h
    exact ⟨[], by simp [h]⟩
  | cons pi rest ih =>
    simp only [pushPrims] at h
    split at h
    · cases h
    · rename_i p hp
      obtain ⟨L, hL, hmap⟩ := ih _ h
      refine ⟨p :: L, ?_, ?_⟩
      · simp [hL]
      · simp [hmap, hp]

theorem Consecutive_append {l1 l2 : List LeafInfo} {a b c : Nat}
    (h1 : Consecutive l1 a b) (h2 : Consecutive l2 b c) : Consecutive (l1 ++ l2) a c := by
  induction l1 generalizing a with
  | nil =>
    simp only [Consecutive] at h1
    subst h1
    simpa using h2
  | cons x xs ih =>
    obtain ⟨hx1, hx2, hx3⟩ := h1
    exact ⟨hx1, hx2, ih hx3⟩

theorem Consecutive_le {l : List LeafInfo} {a b : Nat} (h : Consecutive l a b) : a ≤ b := by
  induction l generalizing a with
  | nil =>
    simp only [Consecutive] at h
    omega
  | cons x xs ih =>
    obtain ⟨_, _, hx3⟩ := h
    have := ih hx3
    omega

theorem Consecutive_range {l : List LeafInfo} {a b : Nat} (h : Consecutive l a b) :
    ∀ x ∈ l, a ≤ x.firstPrimOffset ∧ x.firstPrimOffset + x.nPrimitives ≤ b ∧
      1 ≤ x.nPrimitives := by
  induction l generalizing a with
  | nil => intro x hx; cases hx
  | cons y ys ih =>
    obtain ⟨hy1, hy2, hy3⟩ := h
    intro x hx
    rcases List.mem_cons.mp hx with hxy | hxy
    · subst hxy
      have := Consecutive_le hy3
      omega
    · have := ih hy3 x hxy
      omega

theorem slice_append_left {α : Type} (l more : List α) (s e : Nat) (he : e ≤ l.length) :
    slice (l ++ more) s e = slice l s e := by
  unfold slice
  by_cases hs : s ≤ l.length
  · rw [List.drop_append_of_le_length hs, List.take_append_of_le_length]
    simp
    omega
  · have h1 : e - s = 0 := by omega
    simp [h1]

theorem LeafBoundsOK_append {α : Type} (wb : α → Bounds3f) (ord more : List α)
    (ls : List LeafInfo) (h : LeafBoundsOK wb ord ls) : LeafBoundsOK wb (ord ++ more) ls := by
  intro l hl
  obtain ⟨h1, h2⟩ := h l hl
  refine ⟨?_, ?_⟩
  · simp
    omega
  · rw [slice_append_left _ _ _ _ h1]
    exact h2

theorem LeafBoundsOK_app {α : Type} (wb : α → Bounds3f) (ord : List α)
    (l1 l2 : List LeafInfo) (h1 : LeafBoundsOK wb ord l1) (h2 : LeafBoundsOK wb ord l2) :
    LeafBoundsOK wb ord (l1 ++ l2) := by
  intro l hl
  rcases List.mem_append.mp hl with h | h
  · exact h1 l h
  · exact h2 l h

theorem slice_self_append {α : Type} (ord L : List α) :
    slice (ord ++ L) ord.length (ord.length + L.length) = L := by
  simp [slice]

theorem boundsOf_eq_unionOf {α : Type} (wb : α → Bounds3f) (primitives : List α)
    (l : List BVHPrimitiveInfo) (L : List α)
    (hmap : L.map some = l.map (fun pi => primitives[pi.primitiveNumber]?))
    (hwb : ∀ pi ∈ l, ∀ p, primitives[pi.primitiveNumber]? = some p → wb p = pi.bounds)
    (b : Bounds3f) :
    l.foldl (fun acc pi => Union acc pi.bounds) b = L.foldl (fun acc p => Union acc (wb p)) b := by
  induction l generalizing L b with
  | nil =>
    cases L with
    | nil => rfl
    | cons x xs => simp at hmap
  | cons pi rest ih =>
    cases L with
    | nil => simp at hmap
    | cons x xs =>
      simp only [List.map_cons, List.cons.injEq] at hmap
      simp only [List.foldl_cons]
      have hx : wb x = pi.bounds := hwb pi (List.mem_cons_self _ _) x hmap.1.symm
      rw [hx]
      exact ih xs hmap.2 (fun q hq => hwb q (List.mem_cons_of_mem _ hq)) _

theorem makeLeaf_spec {α : Type} (E : Env) (self : BVHAccel α) (wb : α → Bounds3f)
    (pre mid post : List BVHPrimitiveInfo) (tn : Nat) (ord : List α) (r : BuildState α)
    (hne : 0 < mid.length)
    (h : makeLeaf self.primitives (pre ++ mid ++ post) pre.length (pre.length + mid.length)
      (tn + 1) ord (boundsOf mid) = some r) :
    BuildPost E self wb pre mid post tn ord r := by
  unfold makeLeaf at h
  rw [slice_append3] at h
  split at h
  · cases h
  · rename_i ordered hpush
    obtain ⟨L, hL, hmap⟩ := pushPrims_spec _ _ _ _ hpush
    have hlen : L.length = mid.length := by
      have := congrArg List.length hmap
      simpa using this
    simp only [Option.some.injEq] at h
    subst h
    have hsub : pre.length + mid.length - pre.length = mid.length := by omega
    refine ⟨⟨mid, rfl, List.Perm.refl _⟩, ?_, ?_, ⟨L, mid, hL, List.Perm.refl _, hmap⟩, ?_, ?_⟩
    · simp [BVHBuildNode.InitLeaf, BVHBuildNode.numNodes]
    · simp [BVHBuildNode.InitLeaf, BVHBuildNode.Invariant, hsub, hne]
    · simp only [BVHBuildNode.InitLeaf, BVHBuildNode.leavesIn, hsub]
      rw [if_pos hne]
      exact ⟨rfl, hne, rfl⟩
    · intro hwb
      simp only [BVHBuildNode.InitLeaf, BVHBuildNode.leavesIn, hsub]
      rw [if_pos hne]
      intro l hl
      simp only [List.mem_singleton] at hl
      subst hl
      simp only
      subst hL
      refine ⟨by simp [hlen], ?_⟩
      rw [← hlen, slice_self_append]
      exact boundsOf_eq_unionOf wb self.primitives mid L hmap hwb _
theorem splitEqualCounts_spec (E : Env) (pre mid post : List BVHPrimitiveInfo) (dim : Nat)
    (s e : Nat) (hs : s = pre.length) (he : e = pre.length + mid.length)
    (info1 : List BVHPrimitiveInfo) (m : Nat)
    (h : splitEqualCounts E (pre ++ mid ++ post) s e dim = .split info1 m) :
    (∃ m1, info1 = pre ++ m1 ++ post ∧ m1.Perm mid) ∧ m = (s + e) / 2 := by
  subst hs he
  simp only [splitEqualCounts, slice_append3, splice_append3, SplitChoice.split.injEq] at h
  obtain ⟨h1, h2⟩ := h
  subst h1 h2
  exact ⟨⟨_, rfl, E.lib.nth_element_perm _ _ _⟩, rfl⟩

theorem splitMiddle_spec (E : Env) (pre mid post : List BVHPrimitiveInfo) (dim : Nat)
    (cb : Bounds3f) (info1 : List BVHPrimitiveInfo) (m : Nat)
    (h : splitMiddle E (pre ++ mid ++ post) pre.length (pre.length + mid.length) dim cb =
      .split info1 m) :
    (∃ m1, info1 = pre ++ m1 ++ post ∧ m1.Perm mid) ∧ pre.length ≤ m ∧
      m ≤ pre.length + mid.length := by
  simp only [splitMiddle, slice_append3, splice_append3] at h
  split at h
  · simp only [SplitChoice.split.injEq] at h
    obtain ⟨h1, h2⟩ := h
    subst h1 h2
    refine ⟨⟨_, rfl, E.lib.partition_perm _ _⟩, by omega, ?_⟩
    have := List.countP_le_length (l := mid)
      (fun pi => decide (pi.centroid.get dim < (cb.pmin.get dim + cb.pmax.get dim) / 2))
    omega
  · have hp := E.lib.partition_perm
      (fun pi : BVHPrimitiveInfo =>
        decide (pi.centroid.get dim < (cb.pmin.get dim + cb.pmax.get dim) / 2)) mid
    obtain ⟨⟨m1, hm1, hperm⟩, hm⟩ := splitEqualCounts_spec E pre _ post dim _ _ rfl
      (by rw [hp.length_eq]) info1 m h
    refine ⟨⟨m1, hm1, hperm.trans hp⟩, ?_, ?_⟩
    · omega
    · omega

theorem splitSAH_spec (E : Env) (maxPrims : Int) (pre mid post : List BVHPrimitiveInfo)
    (dim : Nat) (bounds cb : Bounds3f) (info1 : List BVHPrimitiveInfo) (m : Nat)
    (h : splitSAH E maxPrims (pre ++ mid ++ post) pre.length (pre.length + mid.length) dim
      bounds cb = some (.split info1 m)) :
    (∃ m1, info1 = pre ++ m1 ++ post ∧ m1.Perm mid) ∧ pre.length ≤ m ∧
      m ≤ pre.length + mid.length := by
  simp only [splitSAH, slice_append3, splice_append3] at h
  split at h
  · simp only [Option.some.injEq] at h
    obtain ⟨h1, h2⟩ := splitEqualCounts_spec E pre mid post dim _ _ rfl rfl info1 m h
    exact ⟨h1, by omega, by omega⟩
  · split at h
    · cases h
    · split at h
      · simp only [Option.some.injEq, SplitChoice.split.injEq] at h
        obtain ⟨h1, h2⟩ := h
        subst h1 h2
        refine ⟨⟨_, rfl, E.lib.partition_perm _ _⟩, by omega, ?_⟩
        exact Nat.add_le_add_left (List.countP_le_length _) _
      · cases h

theorem chooseSplit_spec {α : Type} (E : Env) (self : BVHAccel α)
    (pre mid post : List BVHPrimitiveInfo) (dim : Nat) (bounds cb : Bounds3f)
    (info1 : List BVHPrimitiveInfo) (m : Nat)
    (h : chooseSplit E self (pre ++ mid ++ post) pre.length (pre.length + mid.length) dim
      bounds cb = some (.split info1 m)) :
    (∃ m1, info1 = pre ++ m1 ++ post ∧ m1.Perm mid) ∧ pre.length ≤ m ∧
      m ≤ pre.length + mid.length := by
  unfold chooseSplit at h
  split at h
  · simp only [Option.some.injEq] at h
    exact splitMiddle_spec E pre mid post dim cb info1 m h
  · simp only [Option.some.injEq] at h
    obtain ⟨h1, h2⟩ := splitEqualCounts_spec E pre mid post dim _ _ rfl rfl info1 m h
    exact ⟨h1, by omega, by omega⟩
  · exact splitSAH_spec E _ pre mid post dim bounds cb info1 m h
theorem InitInterior_spec (dim : Nat) (c0 c1 n : BVHBuildNode)
    (h : BVHBuildNode.InitInterior dim c0 c1 = some n) (h0 : c0.Invariant) (h1 : c1.Invariant) :
    n = .node (Union c0.boundsD c1.boundsD) c0 c1 dim 0 0 ∧
    n.Invariant ∧ n.numNodes = 1 + c0.numNodes + c1.numNodes ∧
    (∀ b, n.leavesIn b =
      if b then c0.leavesIn b ++ c1.leavesIn b else c1.leavesIn b ++ c0.leavesIn b) := by
  cases c0 with
  | null => simp [BVHBuildNode.Invariant] at h0
  | node b0 c00 c01 a0 f0 n0 =>
    cases c1 with
    | null => simp [BVHBuildNode.Invariant] at h1
    | node b1 c10 c11 a1 f1 n1 =>
      simp only [BVHBuildNode.InitInterior, Option.some.injEq] at h
      subst h
      refine ⟨by simp [BVHBuildNode.boundsD, BVHBuildNode.bounds?], ?_, ?_, ?_⟩
      · rw [BVHBuildNode.Invariant]
        right
        exact ⟨rfl, h0, h1, by simp [BVHBuildNode.boundsD, BVHBuildNode.bounds?]⟩
      · simp [BVHBuildNode.numNodes]
      · intro b
        cases b <;> simp [BVHBuildNode.leavesIn]

theorem map_some_length {α β : Type} {L : List α} {σ : List β} {f : β → Option α}
    (h : L.map some = σ.map f) : L.length = σ.length := by
  have := congrArg List.length h
  simpa using this

theorem recursiveBuild_spec {α : Type} (E : Env) (self : BVHAccel α) (wb : α → Bounds3f) :
    ∀ (fuel : Nat) (pre mid post : List BVHPrimitiveInfo) (tn : Nat) (ord : List α)
      (r : BuildState α),
      recursiveBuild E self fuel (pre ++ mid ++ post) pre.length (pre.length + mid.length)
        tn ord = some r →
      BuildPost E self wb pre mid post tn ord r := by
  intro fuel
  induction fuel with
  | zero =>
    intro pre mid post tn ord r h
    simp [recursiveBuild] at h
  | succ fuel ih =>
    intro pre mid post tn ord r h
    rw [recursiveBuild] at h
    have hsub : pre.length + mid.length - pre.length = mid.length := by omega
    simp only [slice_append3, hsub] at h
    split at h
    · cases h
    · rename_i hguard
      have hne : 0 < mid.length := by omega
      split at h
      · exact makeLeaf_spec E self wb pre mid post tn ord r hne h
      · split at h
        · exact makeLeaf_spec E self wb pre mid post tn ord r hne h
        · split at h
          · cases h
          · exact makeLeaf_spec E self wb pre mid post tn ord r hne h
          · rename_i info1 m hchoice
            obtain ⟨⟨m1, hinfo1, hperm1⟩, hm_lo, hm_hi⟩ :=
              chooseSplit_spec E self pre mid post _ _ _ info1 m hchoice
            subst hinfo1
            obtain ⟨k, hk⟩ : ∃ k, m = pre.length + k := ⟨m - pre.length, by omega⟩
            subst hk
            have hlen1 : m1.length = mid.length := hperm1.length_eq
            have hk_le : k ≤ m1.length := by omega
            have htake : (m1.take k).length = k := by simp [hk_le]
            have hdrop : (m1.drop k).length = mid.length - k := by simp [hlen1]
            have hsplit : m1.take k ++ m1.drop k = m1 := List.take_append_drop k m1
            split at h
            · -- child 0 is built first
              rename_i hltr
              split at h
              · cases h
              · rename_i r0 hr0
                split at h
                · cases h
                · rename_i r1 hr1
                  split at h
                  · cases h
                  · rename_i n hn
                    simp only [Option.some.injEq] at h
                    subst h
                    have e0 : pre ++ m1 ++ post = pre ++ m1.take k ++ (m1.drop k ++ post) := by
                      conv_lhs => rw [← hsplit]
                      simp only [List.append_assoc]
                    have P0 := ih pre (m1.take k) (m1.drop k ++ post) (tn + 1) ord r0
                      (by rw [← e0, htake]; exact hr0)
                    obtain ⟨m0, hm0, hperm0⟩ := P0.info
                    have hm0len : m0.length = k := by rw [hperm0.length_eq, htake]
                    have e1 : r0.primitiveInfo = (pre ++ m0) ++ m1.drop k ++ post := by
                      rw [hm0]
                      simp
                    have P1 := ih (pre ++ m0) (m1.drop k) post r0.totalNodes r0.orderedPrims r1
                      (by
                        rw [← e1]
                        have : (pre ++ m0).length = pre.length + k := by simp [hm0len]
                        rw [this, hdrop]
                        have : pre.length + k + (mid.length - k) = pre.length + mid.length := by
                          omega
                        rw [this]
                        exact hr1)
                    obtain ⟨m1', hm1', hperm1'⟩ := P1.info
                    obtain ⟨L0, σ0, hL0, hσ0, hmap0⟩ := P0.ordered
                    obtain ⟨L1, σ1, hL1, hσ1, hmap1⟩ := P1.ordered
                    have hL0len : L0.length = k := by
                      rw [map_some_length hmap0, hσ0.length_eq, htake]
                    obtain ⟨hnode, hinv, hnum, hleaves⟩ :=
                      InitInterior_spec _ _ _ _ hn P0.inv P1.inv
                    refine ⟨⟨m0 ++ m1', ?_, ?_⟩, ?_, hinv, ⟨L0 ++ L1, σ0 ++ σ1, ?_, ?_, ?_⟩, ?_, ?_⟩
                    · simp [hm1']
                    · exact ((hperm0.append hperm1').trans (by rw [hsplit])).trans hperm1
                    · simp only [hnum, P1.total, P0.total]
                      omega
                    · simp [hL1, hL0]
                    · exact ((hσ0.append hσ1).trans (by rw [hsplit])).trans hperm1
                    · simp [hmap0, hmap1]
                    · simp only [hleaves, hltr, if_true]
                      refine Consecutive_append (b := ord.length + k) ?_ ?_
                      · have := P0.chain
                        rw [htake, hltr] at this
                        exact this
                      · have := P1.chain
                        rw [hdrop, hltr, hL0] at this
                        simp only [List.length_append, hL0len] at this
                        have e : ord.length + k + (mid.length - k) = ord.length + mid.length := by
                          omega
                        rw [e] at this
                        exact this
                    · intro hwb
                      have hwb1 : ∀ pi ∈ m1, ∀ p, self.primitives[pi.primitiveNumber]? = some p →
                          wb p = pi.bounds := fun pi hpi => hwb pi (hperm1.subset hpi)
                      simp only [hleaves, hltr, if_true]
                      apply LeafBoundsOK_app
                      · have := P0.bounds (fun pi hpi => hwb1 pi (List.mem_of_mem_take hpi))
                        rw [hltr] at this
                        simp only [hL1]
                        exact LeafBoundsOK_append wb _ _ _ this
                      · have := P1.bounds (fun pi hpi => hwb1 pi (List.mem_of_mem_drop hpi))
                        rw [hltr] at this
                        exact this
            · -- child 1 is built first
              rename_i hltr
              have hrtl : E.argsLeftToRight = false := by simpa using hltr
              split at h
              · cases h
              · rename_i r1 hr1
                split at h
                · cases h
                · rename_i r0 hr0
                  split at h
                  · cases h
                  · rename_i n hn
                    simp only [Option.some.injEq] at h
                    subst h
                    have e0 : pre ++ m1 ++ post = (pre ++ m1.take k) ++ m1.drop k ++ post := by
                      conv_lhs => rw [← hsplit]
                      simp only [List.append_assoc]
                    have P1 := ih (pre ++ m1.take k) (m1.drop k) post (tn + 1) ord r1
                      (by
                        rw [← e0]
                        have : (pre ++ m1.take k).length = pre.length + k := by simp [hk_le]
                        rw [this, hdrop]
                        have : pre.length + k + (mid.length - k) = pre.length + mid.length := by
                          omega
                        rw [this]
                        exact hr1)
                    obtain ⟨m1', hm1', hperm1'⟩ := P1.info
                    have e1 : r1.primitiveInfo = pre ++ m1.take k ++ (m1' ++ post) := by
                      rw [hm1']
                      simp
                    have P0 := ih pre (m1.take k) (m1' ++ post) r1.totalNodes r1.orderedPrims r0
                      (by rw [← e1, htake]; exact hr0)
                    obtain ⟨m0, hm0, hperm0⟩ := P0.info
                    obtain ⟨L0, σ0, hL0, hσ0, hmap0⟩ := P0.ordered
                    obtain ⟨L1, σ1, hL1, hσ1, hmap1⟩ := P1.ordered
                    have hL1len : L1.length = mid.length - k := by
                      rw [map_some_length hmap1, hσ1.length_eq, hdrop]
                    obtain ⟨hnode, hinv, hnum, hleaves⟩ :=
                      InitInterior_spec _ _ _ _ hn P0.inv P1.inv
                    refine ⟨⟨m0 ++ m1', ?_, ?_⟩, ?_, hinv, ⟨L1 ++ L0, σ1 ++ σ0, ?_, ?_, ?_⟩, ?_, ?_⟩
                    · simp [hm0]
                    · exact ((hperm0.append hperm1').trans (by rw [hsplit])).trans hperm1
                    · simp only [hnum, P1.total, P0.total]
                      omega
                    · simp [hL1, hL0]
                    · exact ((hσ1.append hσ0).trans
                        (List.perm_append_comm.trans (by rw [hsplit]))).trans hperm1
                    · simp [hmap0, hmap1]
                    · simp only [hleaves, hrtl]
                      refine Consecutive_append (b := ord.length + (mid.length - k)) ?_ ?_
                      · have := P1.chain
                        rw [hdrop, hrtl] at this
                        exact this
                      · have := P0.chain
                        rw [htake, hrtl, hL1] at this
                        simp only [List.length_append, hL1len] at this
                        have e : ord.length + (mid.length - k) + k = ord.length + mid.length := by
                          omega
                        rw [e] at this
                        exact this
                    · intro hwb
                      have hwb1 : ∀ pi ∈ m1, ∀ p, self.primitives[pi.primitiveNumber]? = some p →
                          wb p = pi.bounds := fun pi hpi => hwb pi (hperm1.subset hpi)
                      simp only [hleaves, hrtl]
                      apply LeafBoundsOK_app
                      · have := P1.bounds (fun pi hpi => hwb1 pi (List.mem_of_mem_drop hpi))
                        rw [hrtl] at this
                        simp only [hL0]
                        exact LeafBoundsOK_append wb _ _ _ this
                      · have := P0.bounds (fun pi hpi => hwb1 pi (List.mem_of_mem_take hpi))
                        rw [hrtl] at this
                        exact this

/-! ## The top-down build terminates -/

theorem get_Min (a b : Vector3f) (i : Nat) : (Min a b).get i = min (a.get i) (b.get i) := by
  unfold Vector3f.get Min
  split
  · rfl
  · split <;> rfl

theorem get_Max (a b : Vector3f) (i : Nat) : (Max a b).get i = max (a.get i) (b.get i) := by
  unfold Vector3f.get Max
  split
  · rfl
  · split <;> rfl

theorem get_finite (v : Vector3f) (h : v.IsFinite) (i : Nat) : FiniteFloat (v.get i) := by
  unfold Vector3f.get
  split
  · exact h.1
  · split
    · exact h.2.1
    · exact h.2.2

theorem centroid_fold_bounds (i : Nat) (l : List BVHPrimitiveInfo) (b : Bounds3f) :
    let r := l.foldl (fun acc pi => UnionP acc pi.centroid) b
    r.pmin.get i ≤ b.pmin.get i ∧ b.pmax.get i ≤ r.pmax.get i ∧
    (∀ pi ∈ l, r.pmin.get i ≤ pi.centroid.get i ∧ pi.centroid.get i ≤ r.pmax.get i) ∧
    (r.pmin.get i = b.pmin.get i ∨ ∃ pi ∈ l, r.pmin.get i = pi.centroid.get i) ∧
    (r.pmax.get i = b.pmax.get i ∨ ∃ pi ∈ l, r.pmax.get i = pi.centroid.get i) := by
  induction l generalizing b with
  | nil => simp
  | cons x xs ih =>
    simp only [List.foldl_cons]
    obtain ⟨h1, h2, h3, h4, h5⟩ := ih (UnionP b x.centroid)
    have e1 : (UnionP b x.centroid).pmin.get i = min (b.pmin.get i) (x.centroid.get i) := by
      simp [UnionP, get_Min]
    have e2 : (UnionP b x.centroid).pmax.get i = max (b.pmax.get i) (x.centroid.get i) := by
      simp [UnionP, get_Max]
    rw [e1] at h1 h4
    rw [e2] at h2 h5
    refine ⟨le_trans h1 (min_le_left _ _), le_trans (le_max_left _ _) h2, ?_, ?_, ?_⟩
    · intro pi hpi
      rcases List.mem_cons.mp hpi with h | h
      · subst h
        exact ⟨le_trans h1 (min_le_right _ _), le_trans (le_max_right _ _) h2⟩
      · exact h3 pi h
    · rcases h4 with h | ⟨pi, hpi, h⟩
      · rcases min_choice (b.pmin.get i) (x.centroid.get i) with hm | hm
        · left
          rw [h, hm]
        · right
          exact ⟨x, List.mem_cons_self _ _, by rw [h, hm]⟩
      · right
        exact ⟨pi, List.mem_cons_of_mem _ hpi, h⟩
    · rcases h5 with h | ⟨pi, hpi, h⟩
      · rcases max_choice (b.pmax.get i) (x.centroid.get i) with hm | hm
        · left
          rw [h, hm]
        · right
          exact ⟨x, List.mem_cons_self _ _, by rw [h, hm]⟩
      · right
        exact ⟨pi, List.mem_cons_of_mem _ hpi, h⟩

theorem new_get (i : Nat) :
    Bounds3f.new.pmin.get i = max_num ∧ Bounds3f.new.pmax.get i = min_num := by
  unfold Vector3f.get Bounds3f.new
  constructor
  · split
    · rfl
    · split <;> rfl
  · split
    · rfl
    · split <;> rfl

/-- The centroid bounds of a range lie around every centroid of the range, and where the
centroids are finite both extremes are attained, in every dimension. -/
theorem centroidBoundsOf_spec (i : Nat) (l : List BVHPrimitiveInfo) :
    (∀ pi ∈ l, (centroidBoundsOf l).pmin.get i ≤ pi.centroid.get i ∧
      pi.centroid.get i ≤ (centroidBoundsOf l).pmax.get i) ∧
    (l ≠ [] → (∀ pi ∈ l, pi.centroid.IsFinite) →
      (∃ pi ∈ l, pi.centroid.get i = (centroidBoundsOf l).pmin.get i) ∧
      (∃ pi ∈ l, pi.centroid.get i = (centroidBoundsOf l).pmax.get i)) := by
  obtain ⟨h1, h2, h3, h4, h5⟩ := centroid_fold_bounds i l Bounds3f.new
  rw [(new_get i).1] at h1 h4
  rw [(new_get i).2] at h2 h5
  refine ⟨h3, ?_⟩
  intro hne hfin
  obtain ⟨x, hx⟩ := List.exists_mem_of_ne_nil l hne
  have hxf := get_finite _ (hfin x hx) i
  constructor
  · rcases h4 with h | ⟨pi, hpi, h⟩
    · refine ⟨x, hx, ?_⟩
      have := (h3 x hx).1
      unfold centroidBoundsOf
      rw [h] at this ⊢
      exact le_antisymm hxf.2 this
    · exact ⟨pi, hpi, h.symm⟩
  · rcases h5 with h | ⟨pi, hpi, h⟩
    · refine ⟨x, hx, ?_⟩
      have := (h3 x hx).2
      unfold centroidBoundsOf
      rw [h] at this ⊢
      exact le_antisymm this hxf.1
    · exact ⟨pi, hpi, h.symm⟩
theorem Offset_get (b : Bounds3f) (p : Point3f) (i : Nat) :
    (b.Offset p).get i =
      if b.pmax.get i > b.pmin.get i then
        (p.get i - b.pmin.get i) / (b.pmax.get i - b.pmin.get i)
      else p.get i - b.pmin.get i := by
  unfold Vector3f.get Bounds3f.Offset Vector3f.sub
  split
  · rfl
  · split <;> rfl

theorem ftoi_of_nonneg (q : Float) (h : 0 ≤ q) : ftoi q = ⌊q⌋ := by
  simp [ftoi, h]

/-- The bucket of a centroid that lies within the centroid bounds, on an axis where these
have extent, is one of the buckets `0 .. nBuckets - 1` (here twelve). -/
theorem bucketOf_range (cb : Bounds3f) (dim : Nat) (c : Point3f)
    (hext : cb.pmin.get dim < cb.pmax.get dim)
    (hlo : cb.pmin.get dim ≤ c.get dim) (hhi : c.get dim ≤ cb.pmax.get dim) :
    0 ≤ bucketOf 12 cb dim c ∧ bucketOf 12 cb dim c < 12 := by
  have hd : 0 < cb.pmax.get dim - cb.pmin.get dim := by linarith
  have hoff0 : 0 ≤ (c.get dim - cb.pmin.get dim) / (cb.pmax.get dim - cb.pmin.get dim) :=
    div_nonneg (by linarith) hd.le
  have hoff1 : (c.get dim - cb.pmin.get dim) / (cb.pmax.get dim - cb.pmin.get dim) ≤ 1 := by
    rw [div_le_one hd]
    linarith
  unfold bucketOf
  rw [Offset_get, if_pos hext]
  have hq0 : (0 : Float) ≤ ((12 : Nat) : Float) *
      ((c.get dim - cb.pmin.get dim) / (cb.pmax.get dim - cb.pmin.get dim)) := by
    have : (0 : Float) ≤ ((12 : Nat) : Float) := by norm_num
    exact mul_nonneg this hoff0
  have hq1 : ((12 : Nat) : Float) *
      ((c.get dim - cb.pmin.get dim) / (cb.pmax.get dim - cb.pmin.get dim)) ≤ 12 := by
    have : ((12 : Nat) : Float) = 12 := by norm_num
    rw [this]
    linarith
  rw [ftoi_of_nonneg _ hq0]
  have hf0 : 0 ≤ ⌊((12 : Nat) : Float) *
      ((c.get dim - cb.pmin.get dim) / (cb.pmax.get dim - cb.pmin.get dim))⌋ :=
    Int.floor_nonneg.mpr hq0
  have hf1 : ⌊((12 : Nat) : Float) *
      ((c.get dim - cb.pmin.get dim) / (cb.pmax.get dim - cb.pmin.get dim))⌋ ≤ 12 := by
    have := Int.floor_le_floor hq1
    simpa using this
  simp only
  split
  · constructor <;> norm_num
  · rename_i hne
    constructor
    · exact hf0
    · have : ⌊((12 : Nat) : Float) *
        ((c.get dim - cb.pmin.get dim) / (cb.pmax.get dim - cb.pmin.get dim))⌋ ≠ 12 := by
        simpa using hne
      omega

theorem bucketOf_at_min (cb : Bounds3f) (dim : Nat) (c : Point3f)
    (hext : cb.pmin.get dim < cb.pmax.get dim) (hc : c.get dim = cb.pmin.get dim) :
    bucketOf 12 cb dim c = 0 := by
  unfold bucketOf
  rw [Offset_get, if_pos hext, hc]
  simp [ftoi]

theorem bucketOf_at_max (cb : Bounds3f) (dim : Nat) (c : Point3f)
    (hext : cb.pmin.get dim < cb.pmax.get dim) (hc : c.get dim = cb.pmax.get dim) :
    bucketOf 12 cb dim c = 11 := by
  have hd : cb.pmax.get dim - cb.pmin.get dim ≠ 0 := by
    intro h
    linarith
  unfold bucketOf
  rw [Offset_get, if_pos hext, hc, div_self hd]
  have : ftoi (((12 : Nat) : Float) * 1) = ((12 : Nat) : Int) := by
    rw [ftoi_of_nonneg _ (by norm_num)]
    norm_num
  rw [this]
  norm_num

theorem fillBuckets_total (cb : Bounds3f) (dim : Nat) (l : List BVHPrimitiveInfo)
    (buckets : List BucketInfo) (hlen : buckets.length = 12)
    (h : ∀ pi ∈ l, 0 ≤ bucketOf 12 cb dim pi.centroid ∧ bucketOf 12 cb dim pi.centroid < 12) :
    ∃ bs, fillBuckets 12 cb dim l buckets = some bs ∧ bs.length = 12 := by
  induction l generalizing buckets with
  | nil => exact ⟨buckets, rfl, hlen⟩
  | cons pi rest ih =>
    obtain ⟨h0, h1⟩ := h pi (List.mem_cons_self _ _)
    have hidx : (bucketOf 12 cb dim pi.centroid).toNat < buckets.length := by
      rw [hlen]
      omega
    simp only [fillBuckets]
    rw [if_pos ⟨h0, by exact_mod_cast h1⟩]
    rw [List.getElem?_eq_getElem hidx]
    simp only
    apply ih
    · simp [hlen]
    · intro q hq
      exact h q (List.mem_cons_of_mem _ hq)

theorem minCostSplit_fold_le (cost : List Cost) (l : List Nat) (m : Cost × Nat) (bound : Nat)
    (hm : m.2 ≤ bound) (hl : ∀ i ∈ l, i ≤ bound) :
    (l.foldl (fun m i => if Cost.lt (cost.getD i .nan) m.1 then (cost.getD i .nan, i) else m)
      m).2 ≤ bound := by
  induction l generalizing m with
  | nil => exact hm
  | cons i rest ih =>
    simp only [List.foldl_cons]
    apply ih
    · split
      · exact hl i (List.mem_cons_self _ _)
      · exact hm
    · intro j hj
      exact hl j (List.mem_cons_of_mem _ hj)

/-- The bucket chosen by the search for the minimal cost is one of the split candidates. -/
theorem minCostSplit_le (cost : List Cost) : (minCostSplit cost).2 ≤ cost.length - 1 := by
  unfold minCostSplit
  apply minCostSplit_fold_le
  · exact Nat.zero_le _
  · intro i hi
    rw [List.mem_range'_1] at hi
    omega

theorem splitCosts_length (base : Float) (n : Nat) (buckets : List BucketInfo) (b : Bounds3f) :
    (splitCosts base n buckets b).length = n - 1 := by
  simp [splitCosts]
theorem countP_lt_length_of_mem {α : Type} (p : α → Bool) (l : List α) (a : α) (ha : a ∈ l)
    (hp : p a = false) : l.countP p < l.length := by
  apply lt_of_le_of_ne (List.countP_le_length _)
  intro h
  rw [List.countP_eq_length] at h
  have := h a ha
  rw [hp] at this
  exact Bool.noConfusion this

theorem splitEqualCounts_strict (E : Env) (pre mid post : List BVHPrimitiveInfo) (dim : Nat)
    (s e : Nat) (hs : s = pre.length) (he : e = pre.length + mid.length)
    (h2 : 2 ≤ mid.length) (info1 : List BVHPrimitiveInfo) (m : Nat)
    (h : splitEqualCounts E (pre ++ mid ++ post) s e dim = .split info1 m) :
    pre.length < m ∧ m < pre.length + mid.length := by
  obtain ⟨_, hm⟩ := splitEqualCounts_spec E pre mid post dim s e hs he info1 m h
  subst hs he hm
  omega

theorem splitEqualCounts_is_split (E : Env) (info : List BVHPrimitiveInfo) (s e dim : Nat) :
    ∃ info1 m, splitEqualCounts E info s e dim = .split info1 m :=
  ⟨_, _, rfl⟩

/-- The statement `switch (splitMethod)` always yields a result on a range of at least two
primitives whose finite centroids differ on `dim`, and a split point it yields lies
strictly inside the range. -/
theorem chooseSplit_total {α : Type} (E : Env) (self : BVHAccel α)
    (pre mid post : List BVHPrimitiveInfo) (bounds : Bounds3f)
    (h2 : 2 ≤ mid.length) (hfin : ∀ pi ∈ mid, pi.centroid.IsFinite)
    (hne : (centroidBoundsOf mid).pmax.get (centroidBoundsOf mid).MaximumExtent ≠
      (centroidBoundsOf mid).pmin.get (centroidBoundsOf mid).MaximumExtent) :
    ∃ c, chooseSplit E self (pre ++ mid ++ post) pre.length (pre.length + mid.length)
        (centroidBoundsOf mid).MaximumExtent bounds (centroidBoundsOf mid) = some c ∧
      ∀ info1 m, c = .split info1 m → pre.length < m ∧ m < pre.length + mid.length := by
  have hmidne : mid ≠ [] := by
    intro h
    rw [h] at h2
    simp at h2
  obtain ⟨hin, hatt⟩ := centroidBoundsOf_spec (centroidBoundsOf mid).MaximumExtent mid
  obtain ⟨⟨pmin_el, hmin_mem, hmin_eq⟩, ⟨pmax_el, hmax_mem, hmax_eq⟩⟩ := hatt hmidne hfin
  have hext : (centroidBoundsOf mid).pmin.get (centroidBoundsOf mid).MaximumExtent <
      (centroidBoundsOf mid).pmax.get (centroidBoundsOf mid).MaximumExtent := by
    have := hin pmin_el hmin_mem
    exact lt_of_le_of_ne (le_trans this.1 this.2) (Ne.symm hne)
  unfold chooseSplit
  split
  · -- Middle
    refine ⟨_, rfl, ?_⟩
    intro info1 m hc
    have hb := (splitMiddle_spec E pre mid post _ _ info1 m hc).2
    simp only [splitMiddle, slice_append3, splice_append3] at hc
    split at hc
    · rename_i hcond
      simp only [SplitChoice.split.injEq] at hc
      obtain ⟨_, hm⟩ := hc
      subst hm
      omega
    · have hp := E.lib.partition_perm
        (fun pi : BVHPrimitiveInfo =>
          decide (pi.centroid.get (centroidBoundsOf mid).MaximumExtent <
            ((centroidBoundsOf mid).pmin.get (centroidBoundsOf mid).MaximumExtent +
              (centroidBoundsOf mid).pmax.get (centroidBoundsOf mid).MaximumExtent) / 2)) mid
      have := splitEqualCounts_strict E pre _ post _ _ _ rfl (by rw [hp.length_eq])
        (by rw [hp.length_eq]; exact h2) info1 m hc
      rw [hp.length_eq] at this
      exact this
  · -- EqualCounts
    refine ⟨_, rfl, ?_⟩
    intro info1 m hc
    exact splitEqualCounts_strict E pre mid post _ _ _ rfl rfl h2 info1 m hc
  · -- SAH
    have hsub : pre.length + mid.length - pre.length = mid.length := by omega
    simp only [splitSAH, slice_append3, splice_append3, hsub]
    split
    · refine ⟨_, rfl, ?_⟩
      intro info1 m hc
      exact splitEqualCounts_strict E pre mid post _ _ _ rfl rfl h2 info1 m hc
    · have hrange : ∀ pi ∈ mid,
          0 ≤ bucketOf 12 (centroidBoundsOf mid) (centroidBoundsOf mid).MaximumExtent pi.centroid ∧
          bucketOf 12 (centroidBoundsOf mid) (centroidBoundsOf mid).MaximumExtent pi.centroid
            < 12 := by
        intro pi hpi
        exact bucketOf_range _ _ _ hext (hin pi hpi).1 (hin pi hpi).2
      obtain ⟨bs, hbs, hbslen⟩ := fillBuckets_total (centroidBoundsOf mid)
        (centroidBoundsOf mid).MaximumExtent mid (List.replicate 12 ⟨0, Bounds3f.new⟩)
        (by simp) hrange
      rw [hbs]
      simp only
      split
      · refine ⟨_, rfl, ?_⟩
        intro info1 m hc
        simp only [SplitChoice.split.injEq] at hc
        obtain ⟨_, hm⟩ := hc
        subst hm
        have hk : (minCostSplit (splitCosts 1 12 bs bounds)).2 ≤ 10 := by
          have := minCostSplit_le (splitCosts 1 12 bs bounds)
          rw [splitCosts_length] at this
          exact this
        constructor
        · have : 0 < List.countP (fun pi : BVHPrimitiveInfo =>
              decide (bucketOf 12 (centroidBoundsOf mid) (centroidBoundsOf mid).MaximumExtent
                pi.centroid ≤ ((minCostSplit (splitCosts 1 12 bs bounds)).2 : Int))) mid := by
            rw [List.countP_pos_iff]
            refine ⟨pmin_el, hmin_mem, ?_⟩
            rw [bucketOf_at_min _ _ _ hext hmin_eq]
            simp
          omega
        · have : List.countP (fun pi : BVHPrimitiveInfo =>
              decide (bucketOf 12 (centroidBoundsOf mid) (centroidBoundsOf mid).MaximumExtent
                pi.centroid ≤ ((minCostSplit (splitCosts 1 12 bs bounds)).2 : Int))) mid
              < mid.length := by
            apply countP_lt_length_of_mem _ _ pmax_el hmax_mem
            rw [bucketOf_at_max _ _ _ hext hmax_eq]
            simp only [decide_eq_false_iff_not, not_le]
            omega
          omega
      · refine ⟨_, rfl, ?_⟩
        intro info1 m hc
        cases hc
theorem pushPrims_total {α : Type} (primitives : List α) (l : List BVHPrimitiveInfo)
    (ord : List α) (h : ∀ pi ∈ l, pi.primitiveNumber < primitives.length) :
    ∃ ord1, pushPrims primitives l ord = some ord1 := by
  induction l generalizing ord with
  | nil => exact ⟨ord, rfl⟩
  | cons pi rest ih =>
    simp only [pushPrims]
    rw [List.getElem?_eq_getElem (h pi (List.mem_cons_self _ _))]
    exact ih _ (fun q hq => h q (List.mem_cons_of_mem _ hq))

theorem makeLeaf_total {α : Type} (primitives : List α) (pre mid post : List BVHPrimitiveInfo)
    (tn : Nat) (ord : List α) (b : Bounds3f)
    (h : ∀ pi ∈ mid, pi.primitiveNumber < primitives.length) :
    ∃ r, makeLeaf primitives (pre ++ mid ++ post) pre.length (pre.length + mid.length) tn ord b
      = some r := by
  unfold makeLeaf
  rw [slice_append3]
  obtain ⟨ord1, h1⟩ := pushPrims_total primitives mid ord h
  rw [h1]
  exact ⟨_, rfl⟩

/-- The method `recursiveBuild` returns on every non-empty range of primitives with finite
centroids and valid primitive numbers, within a recursion depth of the size of the range. -/
theorem recursiveBuild_total {α : Type} (E : Env) (self : BVHAccel α) :
    ∀ (fuel : Nat) (pre mid post : List BVHPrimitiveInfo) (tn : Nat) (ord : List α),
      0 < mid.length → mid.length ≤ fuel →
      (∀ pi ∈ mid, pi.primitiveNumber < self.primitives.length) →
      (∀ pi ∈ mid, pi.centroid.IsFinite) →
      ∃ r, recursiveBuild E self fuel (pre ++ mid ++ post) pre.length
        (pre.length + mid.length) tn ord = some r := by
  intro fuel
  induction fuel with
  | zero =>
    intro pre mid post tn ord h0 h1
    omega
  | succ fuel ih =>
    intro pre mid post tn ord h0 hfuel hidx hfin
    rw [recursiveBuild]
    have hsub : pre.length + mid.length - pre.length = mid.length := by omega
    simp only [slice_append3, hsub]
    have hguard : ¬(pre.length = pre.length + mid.length ∨
        pre.length + mid.length < pre.length ∨
        (pre ++ mid ++ post).length < pre.length + mid.length) := by
      simp only [List.length_append]
      omega
    rw [if_neg hguard]
    split
    · exact makeLeaf_total _ pre mid post _ ord _ hidx
    · rename_i hn1
      split
      · exact makeLeaf_total _ pre mid post _ ord _ hidx
      · rename_i hcb
        obtain ⟨c, hc, hstrict⟩ := chooseSplit_total E self pre mid post (boundsOf mid)
          (by omega) hfin hcb
        rw [hc]
        cases c with
        | leaf => exact makeLeaf_total _ pre mid post _ ord _ hidx
        | split info1 m =>
          simp only
          obtain ⟨⟨m1, hinfo1, hperm1⟩, _, _⟩ :=
            chooseSplit_spec E self pre mid post _ _ _ info1 m hc
          obtain ⟨hlo, hhi⟩ := hstrict info1 m rfl
          subst hinfo1
          obtain ⟨k, hk⟩ : ∃ k, m = pre.length + k := ⟨m - pre.length, by omega⟩
          subst hk
          have hlen1 : m1.length = mid.length := hperm1.length_eq
          have hk_le : k ≤ m1.length := by omega
          have htake : (m1.take k).length = k := by simp [hk_le]
          have hdrop : (m1.drop k).length = mid.length - k := by simp [hlen1]
          have hsplit : m1.take k ++ m1.drop k = m1 := List.take_append_drop k m1
          have hidx1 : ∀ pi ∈ m1, pi.primitiveNumber < self.primitives.length :=
            fun pi hpi => hidx pi (hperm1.subset hpi)
          have hfin1 : ∀ pi ∈ m1, pi.centroid.IsFinite :=
            fun pi hpi => hfin pi (hperm1.subset hpi)
          have e0 : pre ++ m1 ++ post = pre ++ m1.take k ++ (m1.drop k ++ post) := by
            conv_lhs => rw [← hsplit]
            simp only [List.append_assoc]
          have e0' : pre ++ m1 ++ post = (pre ++ m1.take k) ++ m1.drop k ++ post := by
            conv_lhs => rw [← hsplit]
            simp only [List.append_assoc]
          split
          · -- child 0 first
            obtain ⟨r0, hr0⟩ := ih pre (m1.take k) (m1.drop k ++ post) (tn + 1) ord
              (by rw [htake]; omega) (by rw [htake]; omega)
              (fun pi hpi => hidx1 pi (List.mem_of_mem_take hpi))
              (fun pi hpi => hfin1 pi (List.mem_of_mem_take hpi))
            rw [← e0, htake] at hr0
            rw [hr0]
            simp only
            have P0 := recursiveBuild_spec E self (fun _ => Bounds3f.new) fuel pre (m1.take k)
              (m1.drop k ++ post) (tn + 1) ord r0 (by rw [← e0, htake]; exact hr0)
            obtain ⟨m0, hm0, hperm0⟩ := P0.info
            have hm0len : m0.length = k := by rw [hperm0.length_eq, htake]
            have e1 : r0.primitiveInfo = (pre ++ m0) ++ m1.drop k ++ post := by
              rw [hm0]
              simp
            obtain ⟨r1, hr1⟩ := ih (pre ++ m0) (m1.drop k) post r0.totalNodes r0.orderedPrims
              (by rw [hdrop]; omega) (by rw [hdrop]; omega)
              (fun pi hpi => hidx1 pi (List.mem_of_mem_drop hpi))
              (fun pi hpi => hfin1 pi (List.mem_of_mem_drop hpi))
            have P1 := recursiveBuild_spec E self (fun _ => Bounds3f.new) fuel (pre ++ m0)
              (m1.drop k) post r0.totalNodes r0.orderedPrims r1 hr1
            have hl : (pre ++ m0).length = pre.length + k := by simp [hm0len]
            have hl2 : pre.length + k + (mid.length - k) = pre.length + mid.length := by omega
            rw [← e1, hl, hdrop, hl2] at hr1
            rw [hr1]
            simp only
            have hi0 := P0.inv
            have hi1 := P1.inv
            cases hn0 : r0.node with
            | null => rw [hn0] at hi0; simp [BVHBuildNode.Invariant] at hi0
            | node b0 c00 c01 a0 f0 n0 =>
              cases hn1' : r1.node with
              | null => rw [hn1'] at hi1; simp [BVHBuildNode.Invariant] at hi1
              | node b1 c10 c11 a1 f1 n1 =>
                simp [BVHBuildNode.InitInterior]
          · -- child 1 first
            obtain ⟨r1, hr1⟩ := ih (pre ++ m1.take k) (m1.drop k) post (tn + 1) ord
              (by rw [hdrop]; omega) (by rw [hdrop]; omega)
              (fun pi hpi => hidx1 pi (List.mem_of_mem_drop hpi))
              (fun pi hpi => hfin1 pi (List.mem_of_mem_drop hpi))
            have P1 := recursiveBuild_spec E self (fun _ => Bounds3f.new) fuel
              (pre ++ m1.take k) (m1.drop k) post (tn + 1) ord r1 hr1
            have hl : (pre ++ m1.take k).length = pre.length + k := by simp [hk_le]
            have hl2 : pre.length + k + (mid.length - k) = pre.length + mid.length := by omega
            rw [← e0', hl, hdrop, hl2] at hr1
            rw [hr1]
            simp only
            obtain ⟨m1', hm1', hperm1'⟩ := P1.info
            have e1 : r1.primitiveInfo = pre ++ m1.take k ++ (m1' ++ post) := by
              rw [hm1']
              simp
            obtain ⟨r0, hr0⟩ := ih pre (m1.take k) (m1' ++ post) r1.totalNodes r1.orderedPrims
              (by rw [htake]; omega) (by rw [htake]; omega)
              (fun pi hpi => hidx1 pi (List.mem_of_mem_take hpi))
              (fun pi hpi => hfin1 pi (List.mem_of_mem_take hpi))
            have P0 := recursiveBuild_spec E self (fun _ => Bounds3f.new) fuel pre (m1.take k)
              (m1' ++ post) r1.totalNodes r1.orderedPrims r0 hr0
            rw [← e1, htake] at hr0
            rw [hr0]
            simp only
            have hi0 := P0.inv
            have hi1 := P1.inv
            cases hn0 : r0.node with
            | null => rw [hn0] at hi0; simp [BVHBuildNode.Invariant] at hi0
            | node b0 c00 c01 a0 f0 n0 =>
              cases hn1' : r1.node with
              | null => rw [hn1'] at hi1; simp [BVHBuildNode.Invariant] at hi1
              | node b1 c10 c11 a1 f1 n1 =>
                simp [BVHBuildNode.InitInterior]

/-! ## Properties of the top-down build -/

theorem filterMap_id_map_some {α : Type} (L : List α) : (L.map some).filterMap id = L := by
  induction L with
  | nil => rfl
  | cons x xs ih => simp [List.filterMap_cons, ih]

theorem perm_of_map_some {α : Type} {L M : List α} (h : (L.map some).Perm (M.map some)) :
    L.Perm M := by
  have := h.filterMap id
  rwa [filterMap_id_map_some, filterMap_id_map_some] at this

theorem range_map_getElem? {α : Type} (l : List α) :
    (List.range l.length).map (fun i => l[i]?) = l.map some := by
  apply List.ext_getElem
  · simp
  · intro i h1 h2
    simp at h1
    simp [h1]

theorem lookup_by_number {α : Type} (primitives : List α) (σ : List BVHPrimitiveInfo) :
    σ.map (fun pi => primitives[pi.primitiveNumber]?) =
      (σ.map (fun pi => pi.primitiveNumber)).map (fun i => primitives[i]?) := by
  simp

/-- What `Build` passes to `recursiveBuild`, for any numbering: the call on the whole of
`primitiveInfo` returns, and its six guarantees hold. -/
theorem recursiveBuild_whole {α : Type} (E : Env) (self : BVHAccel α) (wb : α → Bounds3f)
    (primitiveInfo : List BVHPrimitiveInfo) (fuel : Nat)
    (hne : primitiveInfo ≠ [])
    (hidx : ∀ pi ∈ primitiveInfo, pi.primitiveNumber < self.primitives.length)
    (hfin : ∀ pi ∈ primitiveInfo, pi.centroid.IsFinite)
    (hfuel : primitiveInfo.length ≤ fuel) :
    ∃ r, recursiveBuild E self fuel primitiveInfo 0 primitiveInfo.length 0 [] = some r ∧
      BuildPost E self wb [] primitiveInfo [] 0 [] r := by
  have hpos : 0 < primitiveInfo.length := List.length_pos.mpr hne
  obtain ⟨r, hr⟩ := recursiveBuild_total E self fuel [] primitiveInfo [] 0 [] hpos hfuel hidx hfin
  have hP := recursiveBuild_spec E self wb fuel [] primitiveInfo [] 0 [] r hr
  simp only [List.nil_append, List.append_nil, List.length_nil, Nat.zero_add] at hr
  exact ⟨r, hr, hP⟩
theorem leavesIn_perm (b : Bool) (t : BVHBuildNode) : (t.leavesIn b).Perm t.leaves := by
  induction t with
  | null => simp [BVHBuildNode.leaves, BVHBuildNode.leavesIn]
  | node bd c0 c1 ax f n ih0 ih1 =>
    unfold BVHBuildNode.leaves at ih0 ih1 ⊢
    simp only [BVHBuildNode.leavesIn]
    split
    · exact List.Perm.refl _
    · cases b
      · simp only [Bool.false_eq_true, if_false, if_true]
        exact List.perm_append_comm.trans (ih0.append ih1)
      · simp only [if_true]
        exact ih0.append ih1

theorem leafSlots_of_consecutive {l : List LeafInfo} {a b : Nat} (h : Consecutive l a b) :
    leafSlots l = List.range' a (b - a) := by
  induction l generalizing a with
  | nil =>
    simp only [Consecutive] at h
    subst h
    simp [leafSlots]
  | cons x xs ih =>
    obtain ⟨h1, h2, h3⟩ := h
    have hle := Consecutive_le h3
    have := ih h3
    unfold leafSlots at this ⊢
    simp only [List.flatMap_cons, this, h1]
    have e : b - a = (b - (a + x.nPrimitives)) + x.nPrimitives := by omega
    rw [e, ← List.range'_append_1]

theorem leafSlots_perm {l1 l2 : List LeafInfo} (h : l1.Perm l2) :
    (leafSlots l1).Perm (leafSlots l2) := by
  unfold leafSlots
  exact h.flatMap_right _

theorem sampleInfo_finite : ∀ pi ∈ sampleInfo, pi.centroid.IsFinite := by
  intro pi hpi
  simp only [sampleInfo, List.mem_cons, List.mem_singleton, List.not_mem_nil, or_false] at hpi
  rcases hpi with rfl | rfl <;>
    norm_num [BVHPrimitiveInfo.create, Vector3f.IsFinite, FiniteFloat, Vector3f.smul,
      Vector3f.add, max_num, min_num]

theorem Invariant_numNodes_pos (t : BVHBuildNode) (h : t.Invariant) : 1 ≤ t.numNodes := by
  cases t with
  | null => simp [BVHBuildNode.Invariant] at h
  | node b c0 c1 ax f n =>
    simp [BVHBuildNode.numNodes]
    omega

theorem PreOrder_congr (nodes nodes' : List LinearBVHNode) (t : BVHBuildNode) :
    ∀ i, (∀ j, i ≤ j → j < i + t.numNodes → nodes'[j]? = nodes[j]?) →
      PreOrder nodes i t → PreOrder nodes' i t := by
  induction t with
  | null =>
    intro i _ h
    simp [PreOrder] at h
  | node b c0 c1 ax f n ih0 ih1 =>
    intro i hagree h
    simp only [BVHBuildNode.numNodes] at hagree
    rw [PreOrder] at h ⊢
    split
    · rename_i hn
      rw [if_pos hn] at h
      rw [hagree i (le_refl _) (by omega)]
      exact h
    · rename_i hn
      rw [if_neg hn] at h
      obtain ⟨h1, h2, h3⟩ := h
      refine ⟨?_, ?_, ?_⟩
      · rw [hagree i (le_refl _) (by omega)]
        exact h1
      · exact ih0 (i + 1) (fun j hj1 hj2 => hagree j (by omega) (by omega)) h2
      · exact ih1 (i + 1 + c0.numNodes) (fun j hj1 hj2 => hagree j (by omega) (by omega)) h3

theorem getElem?_set_ne' {α : Type} (l : List α) (i j : Nat) (a : α) (h : i ≠ j) :
    (l.set i a)[j]? = l[j]? := by
  simp [List.getElem?_set, h]

theorem getElem?_set_self' {α : Type} (l : List α) (i : Nat) (a : α) (h : i < l.length) :
    (l.set i a)[i]? = some a := by
  simp [List.getElem?_set, h]

/-- What a call of `flattenBVHTree` that returns has done: it returns the offset it started
from, advances the offset by the number of nodes of the tree, writes only the slots in
between, and lays the tree out there in pre-order. -/
theorem flattenBVHTree_spec (E : Env) (t : BVHBuildNode) :
    ∀ (nodes : List LinearBVHNode) (off my : Nat) (nodes' : List LinearBVHNode) (off' : Nat),
      t.Invariant → flattenBVHTree E t nodes off = some (my, nodes', off') →
      my = off ∧ off' = off + t.numNodes ∧ nodes'.length = nodes.length ∧
      off + t.numNodes ≤ nodes.length ∧
      (∀ i, (i < off ∨ off + t.numNodes ≤ i) → nodes'[i]? = nodes[i]?) ∧
      PreOrder nodes' off t := by
  induction t with
  | null =>
    intro nodes off my nodes' off' hinv
    simp [BVHBuildNode.Invariant] at hinv
  | node b c0 c1 ax f n ih0 ih1 =>
    intro nodes off my nodes' off' hinv h
    rw [flattenBVHTree] at h
    split at h
    · cases h
    · rename_i ln hln
      have hoff : off < nodes.length := by
        by_contra hc
        rw [List.getElem?_eq_none (by omega)] at hln
        cases hln
      simp only at h
      rw [BVHBuildNode.Invariant] at hinv
      split at h
      · rename_i hn
        split at h
        · simp only [Option.some.injEq, Prod.mk.injEq] at h
          obtain ⟨h1, h2, h3⟩ := h
          subst h1 h2 h3
          rcases hinv with ⟨_, hc0, hc1⟩ | ⟨hn0, _⟩
          · subst hc0 hc1
            refine ⟨rfl, ?_, ?_, ?_, ?_, ?_⟩
            · simp [BVHBuildNode.numNodes]
            · simp
            · simp [BVHBuildNode.numNodes]
              omega
            · intro i hi
              simp only [BVHBuildNode.numNodes] at hi
              apply getElem?_set_ne'
              omega
            · rw [PreOrder, if_pos hn]
              exact ⟨_, getElem?_set_self' _ _ _ hoff, rfl, rfl, rfl⟩
          · omega
        · cases h
      · rename_i hn
        have hn0 : n = 0 := by omega
        rcases hinv with ⟨hpos, _⟩ | ⟨_, hi0, hi1, hb⟩
        · omega
        · split at h
          · cases h
          · rename_i r0 x0 nodes0 off0 hr0
            split at h
            · cases h
            · rename_i r1 second nodes1 off1 hr1
              split at h
              · cases h
              · rename_i ln1 hln1
                simp only [Option.some.injEq, Prod.mk.injEq] at h
                obtain ⟨h1, h2, h3⟩ := h
                subst h1 h2 h3
                obtain ⟨_, e0, l0, b0, a0, p0⟩ := ih0 _ _ _ _ _ hi0 hr0
                obtain ⟨es, e1, l1, b1, a1, p1⟩ := ih1 _ _ _ _ _ hi1 hr1
                subst e0 e1 es
                simp only [List.length_set] at l0 b0
                have hc0pos := Invariant_numNodes_pos c0 hi0
                have hself : nodes1[off]? =
                    some ⟨b, ln.offset, 0, ax % 2 ^ 8⟩ := by
                  rw [a1 off (by omega), a0 off (by omega)]
                  exact getElem?_set_self' _ _ _ hoff
                rw [hself] at hln1
                simp only [Option.some.injEq] at hln1
                subst hln1
                have hmy1 : off < nodes1.length := by omega
                refine ⟨rfl, ?_, ?_, ?_, ?_, ?_⟩
                · simp only [BVHBuildNode.numNodes]
                  omega
                · simp only [List.length_set]
                  omega
                · simp only [BVHBuildNode.numNodes]
                  omega
                · intro i hi
                  simp only [BVHBuildNode.numNodes] at hi
                  rw [getElem?_set_ne' _ _ _ _ (by omega), a1 i (by omega), a0 i (by omega)]
                  apply getElem?_set_ne'
                  omega
                · rw [PreOrder, if_neg hn]
                  refine ⟨⟨_, getElem?_set_self' _ _ _ hmy1, rfl, rfl, rfl, rfl, ?_⟩, ?_, ?_⟩
                  · show off + 1 < off + 1 + c0.numNodes
                    omega
                  · apply PreOrder_congr nodes0 _ c0 (off + 1) _ p0
                    intro j hj1 hj2
                    rw [getElem?_set_ne' _ _ _ _ (by omega), a1 j (by omega)]
                  · apply PreOrder_congr nodes1 _ c1 (off + 1 + c0.numNodes) _ p1
                    intro j hj1 hj2
                    rw [getElem?_set_ne' _ _ _ _ (by omega)]
theorem MIN_ASSERT_of_true (E : Env) (c : Bool) (h : c = true) : MIN_ASSERT E c = some () := by
  simp [MIN_ASSERT, h]

theorem MIN_ASSERT_of_skipped (E : Env) (c : Bool) (h : E.assertAborts = false) :
    MIN_ASSERT E c = some () := by
  simp [MIN_ASSERT, h]

/-- The method `flattenBVHTree` returns on every build tree that fits into the array, unless
assertions abort and a leaf holds 65536 primitives or more. -/
theorem flattenBVHTree_total (E : Env) (t : BVHBuildNode) :
    ∀ (nodes : List LinearBVHNode) (off : Nat), t.Invariant →
      off + t.numNodes ≤ nodes.length →
      (E.assertAborts = true → ∀ l ∈ t.leaves, l.nPrimitives < 65536) →
      ∃ res, flattenBVHTree E t nodes off = some res := by
  induction t with
  | null =>
    intro nodes off hinv
    simp [BVHBuildNode.Invariant] at hinv
  | node b c0 c1 ax f n ih0 ih1 =>
    intro nodes off hinv hlen hsmall
    simp only [BVHBuildNode.numNodes] at hlen
    have hoff : off < nodes.length := by omega
    rw [flattenBVHTree, List.getElem?_eq_getElem hoff]
    simp only
    rw [BVHBuildNode.Invariant] at hinv
    rcases hinv with ⟨hpos, hc0, hc1⟩ | ⟨hn0, hi0, hi1, hb⟩
    · subst hc0 hc1
      rw [if_pos hpos, MIN_ASSERT_of_true E _ (by simp)]
      have h2 : MIN_ASSERT E (decide (n < 65536)) = some () := by
        cases ha : E.assertAborts with
        | false => exact MIN_ASSERT_of_skipped E _ ha
        | true =>
          apply MIN_ASSERT_of_true
          have := hsmall ha ⟨b, f, n⟩ (by simp [BVHBuildNode.leaves, BVHBuildNode.leavesIn, hpos])
          simpa using this
      rw [h2]
      exact ⟨_, rfl⟩
    · subst hn0
      simp only [gt_iff_lt, Nat.lt_irrefl, if_false]
      have hleaves : (BVHBuildNode.node b c0 c1 ax f 0).leaves = c0.leaves ++ c1.leaves := by
        simp [BVHBuildNode.leaves, BVHBuildNode.leavesIn]
      obtain ⟨⟨x0, nodes0, off0⟩, hr0⟩ := ih0
        (nodes.set off ⟨b, nodes[off].offset, 0, ax % 2 ^ 8⟩) (off + 1) hi0
        (by simp only [List.length_set]; omega)
        (fun ha l hl => hsmall ha l (by rw [hleaves]; exact List.mem_append_left _ hl))
      rw [hr0]
      simp only
      obtain ⟨_, e0, l0, b0, a0, p0⟩ := flattenBVHTree_spec E c0 _ _ _ _ _ hi0 hr0
      subst e0
      simp only [List.length_set] at l0 b0
      obtain ⟨⟨x1, nodes1, off1⟩, hr1⟩ := ih1 nodes0 (off + 1 + c0.numNodes) hi1 (by omega)
        (fun ha l hl => hsmall ha l (by rw [hleaves]; exact List.mem_append_right _ hl))
      rw [hr1]
      simp only
      obtain ⟨_, e1, l1, b1, a1, p1⟩ := flattenBVHTree_spec E c1 _ _ _ _ _ hi1 hr1
      have hoff1 : off < nodes1.length := by omega
      rw [List.getElem?_eq_getElem hoff1]
      exact ⟨_, rfl⟩

/-- C8. On a build tree, `flattenBVHTree` started at an offset (0 in `Build`) returns that
offset, the index at which its argument node is stored, and has written the tree in
depth-first pre-order: an interior node stored at index `i` has its first child at `i + 1`
and `secondChildOffset = i + 1 + (number of nodes of the first child)`, which is greater
than `i + 1`; the offset has advanced by the number of nodes. The call returns whenever the
array has room for the tree, unless assertions abort and a leaf holds 65536 primitives or
more. -/
theorem flattenBVHTree_preorder (E : Env) (t : BVHBuildNode) (nodes : List LinearBVHNode)
    (off : Nat) (hinv : t.Invariant) (hlen : off + t.numNodes ≤ nodes.length) :
    (∀ my nodes' off', flattenBVHTree E t nodes off = some (my, nodes', off') →
      my = off ∧ off' = off + t.numNodes ∧ PreOrder nodes' off t) ∧
    ((E.assertAborts = true → ∀ l ∈ t.leaves, l.nPrimitives < 65536) →
      ∃ res, flattenBVHTree E t nodes off = some res) := by
  constructor
  · intro my nodes' off' h
    obtain ⟨h1, h2, _, _, _, h6⟩ := flattenBVHTree_spec E t nodes off my nodes' off' hinv h
    exact ⟨h1, h2, h6⟩
  · exact flattenBVHTree_total E t nodes off hinv hlen
theorem sampleTree_invariant : sampleTree.Invariant := by
  simp [sampleTree, BVHBuildNode.Invariant, BVHBuildNode.boundsD, BVHBuildNode.bounds?]

/-- A run of C8 on a tree of three nodes and an array of three nodes. -/
theorem flattenBVHTree_preorder_witness :
    sampleTree.Invariant ∧
    0 + sampleTree.numNodes ≤ (List.replicate 3 (⟨Bounds3f.new, 0, 0, 0⟩ : LinearBVHNode)).length ∧
    (∀ my nodes' off', flattenBVHTree (sampleEnv true) sampleTree
        (List.replicate 3 ⟨Bounds3f.new, 0, 0, 0⟩) 0 = some (my, nodes', off') →
      my = 0 ∧ off' = 0 + sampleTree.numNodes ∧ PreOrder nodes' 0 sampleTree) ∧
    (((sampleEnv true).assertAborts = true → ∀ l ∈ sampleTree.leaves, l.nPrimitives < 65536) →
      ∃ res, flattenBVHTree (sampleEnv true) sampleTree
        (List.replicate 3 ⟨Bounds3f.new, 0, 0, 0⟩) 0 = some res) :=
  ⟨sampleTree_invariant, by decide,
    flattenBVHTree_preorder (sampleEnv true) sampleTree
      (List.replicate 3 ⟨Bounds3f.new, 0, 0, 0⟩) 0 sampleTree_invariant (by decide)⟩

/-! ## The radix sort -/

theorem prefixSum_succ (c : Nat → Nat) (b : Nat) : prefixSum c (b + 1) = prefixSum c b + c b := by
  simp [prefixSum, List.range_succ]

theorem prefixSum_congr (c d : Nat → Nat) (b : Nat) (h : ∀ j < b, c j = d j) :
    prefixSum c b = prefixSum d b := by
  induction b with
  | zero => rfl
  | succ b ih =>
    rw [prefixSum_succ, prefixSum_succ, ih (fun j hj => h j (by omega)), h b (by omega)]

theorem length_flatMap_range {α : Type} (f : Nat → List α) (b : Nat) :
    ((List.range b).flatMap f).length = prefixSum (fun j => (f j).length) b := by
  induction b with
  | zero => rfl
  | succ b ih =>
    rw [List.range_succ, List.flatMap_append, List.length_append, ih, prefixSum_succ]
    simp

theorem range_split (N b0 : Nat) (hb : b0 < N) :
    List.range N = List.range b0 ++ b0 :: List.range' (b0 + 1) (N - b0 - 1) := by
  obtain ⟨k, hk⟩ : ∃ k, N = b0 + 1 + k := ⟨N - b0 - 1, by omega⟩
  subst hk
  have e1 : b0 + 1 + k - b0 - 1 = k := by omega
  rw [e1, List.range_eq_range', List.range_eq_range']
  have e2 : b0 + 1 + k = (k + 1) + b0 := by omega
  rw [e2, ← List.range'_append_1, List.range'_succ]
  simp

theorem set_flatMap_range {α : Type} (f : Nat → List α) (N b0 : Nat) (hb : b0 < N)
    (A B : List α) (g x : α) (hf : f b0 = A ++ g :: B) :
    ((List.range N).flatMap f).set (((List.range b0).flatMap f).length + A.length) x =
      (List.range N).flatMap (Function.update f b0 (A ++ x :: B)) := by
  rw [range_split N b0 hb]
  simp only [List.flatMap_append, List.flatMap_cons]
  rw [List.set_append_right _ _ (by omega)]
  have e1 : (List.range b0).flatMap (Function.update f b0 (A ++ x :: B)) =
      (List.range b0).flatMap f := by
    apply List.flatMap_congr
    intro j hj
    have : j ≠ b0 := by
      have := List.mem_range.mp hj
      omega
    simp [Function.update, this]
  have e2 : (List.range' (b0 + 1) (N - b0 - 1)).flatMap (Function.update f b0 (A ++ x :: B)) =
      (List.range' (b0 + 1) (N - b0 - 1)).flatMap f := by
    apply List.flatMap_congr
    intro j hj
    have : j ≠ b0 := by
      have := (List.mem_range'_1.mp hj).1
      omega
    simp [Function.update, this]
  rw [e1, e2]
  congr 1
  have e3 : ((List.range b0).flatMap f).length + A.length - ((List.range b0).flatMap f).length
      = A.length := by omega
  rw [e3, hf]
  simp [Function.update]

theorem filter_lt_succ {α : Type} (key : α → Nat) (N : Nat) (l : List α) :
    (l.filter (fun x => decide (key x < N)) ++ l.filter (fun x => decide (key x = N))).Perm
      (l.filter (fun x => decide (key x < N + 1))) := by
  have h := List.filter_append_perm (fun x => decide (key x < N))
    (l.filter (fun x => decide (key x < N + 1)))
  rw [List.filter_filter, List.filter_filter] at h
  have e1 : l.filter (fun a => decide (key a < N) && decide (key a < N + 1)) =
      l.filter (fun x => decide (key x < N)) := by
    apply List.filter_congr
    intro x _
    by_cases hx : key x < N
    · simp [hx]
      omega
    · simp [hx]
  have e2 : l.filter (fun a => (!decide (key a < N)) && decide (key a < N + 1)) =
      l.filter (fun x => decide (key x = N)) := by
    apply List.filter_congr
    intro x _
    by_cases hx : key x = N
    · simp [hx]
    · simp only [hx, decide_False]
      by_cases hx2 : key x < N
      · simp [hx2]
      · simp [hx2]
        omega
  rw [e1, e2] at h
  exact h

theorem bucketSort_perm_filter {α : Type} (key : α → Nat) (N : Nat) (l : List α) :
    (bucketSort key N l).Perm (l.filter (fun x => decide (key x < N))) := by
  induction N with
  | zero => simp [bucketSort]
  | succ N ih =>
    have e : bucketSort key (N + 1) l =
        bucketSort key N l ++ l.filter (fun x => decide (key x = N)) := by
      simp [bucketSort, List.range_succ]
    rw [e]
    exact (ih.append_right _).trans (filter_lt_succ key N l)

/-- The counting sort by a key below `n` rearranges the list. -/
theorem bucketSort_perm {α : Type} (key : α → Nat) (N : Nat) (l : List α)
    (h : ∀ x ∈ l, key x < N) : (bucketSort key N l).Perm l := by
  have := bucketSort_perm_filter key N l
  rwa [List.filter_eq_self.mpr (by simpa using h)] at this
theorem getD_set {α : Type} (l : List α) (i j : Nat) (a d : α) (hi : i < l.length) :
    (l.set i a).getD j d = if i = j then a else l.getD j d := by
  simp only [List.getD_eq_getElem?_getD, List.getElem?_set]
  split
  · simp [hi]
  · rfl

theorem countBuckets_fold (key : MortonPrimitive → Nat) (n : Nat) (l : List MortonPrimitive)
    (bc : List Nat) (hlen : bc.length = n) (hkey : ∀ mp ∈ l, key mp < n) :
    (l.foldl (fun bucketCount mp =>
        bucketCount.set (key mp) (bucketCount.getD (key mp) 0 + 1)) bc).length = n ∧
    ∀ b, (l.foldl (fun bucketCount mp =>
        bucketCount.set (key mp) (bucketCount.getD (key mp) 0 + 1)) bc).getD b 0 =
      bc.getD b 0 + l.countP (fun mp => decide (key mp = b)) := by
  induction l generalizing bc with
  | nil => simp [hlen]
  | cons mp rest ih =>
    simp only [List.foldl_cons]
    have hk := hkey mp (List.mem_cons_self _ _)
    obtain ⟨h1, h2⟩ := ih (bc.set (key mp) (bc.getD (key mp) 0 + 1)) (by simp [hlen])
      (fun q hq => hkey q (List.mem_cons_of_mem _ hq))
    refine ⟨h1, ?_⟩
    intro b
    rw [h2 b, getD_set _ _ _ _ _ (by omega), List.countP_cons]
    by_cases hb : key mp = b
    · subst hb
      simp
      omega
    · simp [hb]

theorem countBuckets_spec (lowBit bitMask : Nat) (in_ : List MortonPrimitive) (n : Nat)
    (hkey : ∀ mp ∈ in_, radixBucket lowBit bitMask mp < n) :
    (countBuckets lowBit bitMask in_ n).length = n ∧
    ∀ b, (countBuckets lowBit bitMask in_ n).getD b 0 =
      in_.countP (fun mp => decide (radixBucket lowBit bitMask mp = b)) := by
  obtain ⟨h1, h2⟩ := countBuckets_fold (radixBucket lowBit bitMask) n in_ (List.replicate n 0)
    (by simp) hkey
  refine ⟨h1, ?_⟩
  intro b
  have := h2 b
  unfold countBuckets
  rw [this]
  simp [List.getD_eq_getElem?_getD, List.getElem?_replicate]
  split <;> rfl

theorem startIndices_fold (c : Nat → Nat) (n m : Nat) (hm : m + 1 ≤ n) :
    ((List.range' 1 m).foldl
      (fun outIndex i => outIndex.set i (outIndex.getD (i - 1) 0 + c (i - 1)))
      (List.replicate n 0)).length = n ∧
    ∀ b ≤ m, ((List.range' 1 m).foldl
      (fun outIndex i => outIndex.set i (outIndex.getD (i - 1) 0 + c (i - 1)))
      (List.replicate n 0)).getD b 0 = prefixSum c b := by
  induction m with
  | zero =>
    refine ⟨by simp, ?_⟩
    intro b hb
    have : b = 0 := by omega
    subst this
    simp [prefixSum, List.getD_eq_getElem?_getD, List.getElem?_replicate]
    split <;> rfl
  | succ m ih =>
    obtain ⟨h1, h2⟩ := ih (by omega)
    rw [List.range'_1_concat, List.foldl_append]
    simp only [List.foldl_cons, List.foldl_nil]
    refine ⟨by rw [List.length_set]; exact h1, ?_⟩
    intro b hb
    rw [getD_set _ _ _ _ _ (by omega)]
    have e : 1 + m - 1 = m := by omega
    by_cases hbm : 1 + m = b
    · rw [if_pos hbm, e, h2 m (le_refl _), ← hbm]
      have : 1 + m = m + 1 := by omega
      rw [this, prefixSum_succ]
    · rw [if_neg hbm]
      exact h2 b (by omega)

theorem startIndices_spec (bucketCount : List Nat) (n : Nat) (hn : 1 ≤ n) :
    (startIndices bucketCount n).length = n ∧
    ∀ b < n, (startIndices bucketCount n).getD b 0 =
      prefixSum (fun j => bucketCount.getD j 0) b := by
  obtain ⟨h1, h2⟩ := startIndices_fold (fun j => bucketCount.getD j 0) n (n - 1) (by omega)
  exact ⟨h1, fun b hb => h2 b (by omega)⟩
theorem flatMap_range_length_ge {α : Type} (f : Nat → List α) (N b0 : Nat) (hb : b0 < N) :
    ((List.range b0).flatMap f).length + (f b0).length ≤ ((List.range N).flatMap f).length := by
  rw [range_split N b0 hb]
  simp only [List.flatMap_append, List.flatMap_cons, List.length_append]
  omega

theorem scatter_spec (lowBit bitMask N : Nat) :
    ∀ (rest : List MortonPrimitive) (D G : Nat → List MortonPrimitive) (outIndex : List Nat),
      outIndex.length = N →
      (∀ b < N, outIndex.getD b 0 =
        ((List.range b).flatMap (fun j => D j ++ G j)).length + (D b).length) →
      (∀ b < N, (G b).length =
        rest.countP (fun mp => decide (radixBucket lowBit bitMask mp = b))) →
      (∀ mp ∈ rest, radixBucket lowBit bitMask mp < N) →
      scatter lowBit bitMask rest outIndex ((List.range N).flatMap (fun j => D j ++ G j)) =
        some ((List.range N).flatMap (fun j =>
          D j ++ rest.filter (fun mp => decide (radixBucket lowBit bitMask mp = j)))) := by
  intro rest
  induction rest with
  | nil =>
    intro D G outIndex _ _ hG _
    simp only [scatter, Option.some.injEq]
    apply List.flatMap_congr
    intro j hj
    have := hG j (List.mem_range.mp hj)
    simp only [List.countP_nil, List.length_eq_zero] at this
    simp [this]
  | cons mp rest ih =>
    intro D G outIndex hlen hidx hG hkey
    have hb0 := hkey mp (List.mem_cons_self _ _)
    have hGlen := hG _ hb0
    rw [List.countP_cons] at hGlen
    simp only [decide_True, if_true] at hGlen
    obtain ⟨g, G', hGeq⟩ : ∃ g G', G (radixBucket lowBit bitMask mp) = g :: G' := by
      cases hc : G (radixBucket lowBit bitMask mp) with
      | nil => rw [hc] at hGlen; simp at hGlen
      | cons g G' => exact ⟨g, G', rfl⟩
    have hj := hidx _ hb0
    have hget : outIndex[radixBucket lowBit bitMask mp]? =
        some (outIndex.getD (radixBucket lowBit bitMask mp) 0) := by
      rw [List.getD_eq_getElem?_getD, List.getElem?_eq_getElem (by omega)]
      simp
    have hlt : outIndex.getD (radixBucket lowBit bitMask mp) 0 <
        ((List.range N).flatMap (fun j => D j ++ G j)).length := by
      have := flatMap_range_length_ge (fun j => D j ++ G j) N _ hb0
      simp only [List.length_append, hGeq, List.length_cons] at this
      omega
    rw [scatter]
    simp only [hget]
    rw [if_pos hlt, hj]
    rw [set_flatMap_range (fun j => D j ++ G j) N _ hb0 (D (radixBucket lowBit bitMask mp)) G' g mp
      (by simp [hGeq])]
    have hfun : Function.update (fun j => D j ++ G j) (radixBucket lowBit bitMask mp)
        (D (radixBucket lowBit bitMask mp) ++ mp :: G') =
        fun j => Function.update D (radixBucket lowBit bitMask mp)
            (D (radixBucket lowBit bitMask mp) ++ [mp]) j ++
          Function.update G (radixBucket lowBit bitMask mp) G' j := by
      funext j
      by_cases hjb : j = radixBucket lowBit bitMask mp
      · subst hjb
        simp
      · simp [Function.update, hjb]
    rw [hfun]
    have hsame : ∀ j, (Function.update D (radixBucket lowBit bitMask mp)
            (D (radixBucket lowBit bitMask mp) ++ [mp]) j ++
          Function.update G (radixBucket lowBit bitMask mp) G' j).length =
        (D j ++ G j).length := by
      intro j
      by_cases hjb : j = radixBucket lowBit bitMask mp
      · subst hjb
        simp [hGeq]
      · simp [Function.update, hjb]
    have hprefix : ∀ b, ((List.range b).flatMap (fun j =>
          Function.update D (radixBucket lowBit bitMask mp)
            (D (radixBucket lowBit bitMask mp) ++ [mp]) j ++
          Function.update G (radixBucket lowBit bitMask mp) G' j)).length =
        ((List.range b).flatMap (fun j => D j ++ G j)).length := by
      intro b
      rw [length_flatMap_range, length_flatMap_range]
      exact prefixSum_congr _ _ _ (fun j _ => hsame j)
    rw [ih (Function.update D (radixBucket lowBit bitMask mp)
        (D (radixBucket lowBit bitMask mp) ++ [mp]))
      (Function.update G (radixBucket lowBit bitMask mp) G')
      (outIndex.set (radixBucket lowBit bitMask mp)
        (((List.range (radixBucket lowBit bitMask mp)).flatMap (fun j => D j ++ G j)).length +
          (D (radixBucket lowBit bitMask mp)).length + 1))
      (by simp [hlen])]
    · simp only [Option.some.injEq]
      apply List.flatMap_congr
      intro j _
      by_cases hjb : j = radixBucket lowBit bitMask mp
      · subst hjb
        simp [List.filter_cons]
      · have : ¬ radixBucket lowBit bitMask mp = j := fun h => hjb h.symm
        simp [Function.update, hjb, List.filter_cons, this]
    · intro b hb
      rw [getD_set _ _ _ _ _ (by omega), hprefix]
      by_cases hjb : radixBucket lowBit bitMask mp = b
      · subst hjb
        simp
        omega
      · have : ¬ b = radixBucket lowBit bitMask mp := fun h => hjb h.symm
        rw [if_neg hjb, hidx b hb]
        simp [Function.update, this]
    · intro b hb
      by_cases hjb : b = radixBucket lowBit bitMask mp
      · subst hjb
        simp only [Function.update_same]
        rw [hGeq] at hGlen
        simp only [List.length_cons] at hGlen
        omega
      · have := hG b hb
        rw [List.countP_cons] at this
        have hne : ¬ radixBucket lowBit bitMask mp = b := fun h => hjb h.symm
        simp only [hne, decide_False, Bool.false_eq_true, if_false, Nat.add_zero] at this
        simp [Function.update, hjb, this]
    · intro q hq
      exact hkey q (List.mem_cons_of_mem _ hq)
theorem split_by_lengths {α : Type} (c : Nat → Nat) :
    ∀ (N : Nat) (out : List α), out.length = prefixSum c N →
      ∃ G : Nat → List α, (∀ b < N, (G b).length = c b) ∧ out = (List.range N).flatMap G := by
  intro N
  induction N with
  | zero =>
    intro out h
    refine ⟨fun _ => [], fun b hb => by omega, ?_⟩
    simp only [prefixSum, List.range_zero, List.map_nil, List.sum_nil, List.length_eq_zero] at h
    simp [h]
  | succ N ih =>
    intro out h
    rw [prefixSum_succ] at h
    obtain ⟨G1, hG1, hout1⟩ := ih (out.take (prefixSum c N)) (by simp; omega)
    refine ⟨Function.update G1 N (out.drop (prefixSum c N)), ?_, ?_⟩
    · intro b hb
      by_cases hbN : b = N
      · subst hbN
        simp
        omega
      · simp only [Function.update, hbN, dite_false]
        exact hG1 b (by omega)
    · rw [List.range_succ, List.flatMap_append]
      have e : (List.range N).flatMap (Function.update G1 N (out.drop (prefixSum c N))) =
          (List.range N).flatMap G1 := by
        apply List.flatMap_congr
        intro j hj
        have : j ≠ N := by
          have := List.mem_range.mp hj
          omega
        simp [Function.update, this]
      rw [e, ← hout1]
      simp

theorem radixBucket_lt (lowBit : Nat) (mp : MortonPrimitive) : radixBucket lowBit 63 mp < 64 := by
  unfold radixBucket
  have := Nat.and_le_right (n := mp.mortonCode >>> lowBit) (m := 63)
  omega

/-- One pass of `RadixSort` is the stable counting sort by the six bits of the pass; every
store of the scatter loop falls inside the output vector. -/
theorem radixPass_spec (pass : Nat) (in_ out : List MortonPrimitive)
    (hlen : out.length = in_.length) :
    radixPass pass in_ out = some (bucketSort (radixBucket (pass * 6) 63) 64 in_) := by
  have h64 : (1 <<< 6 : Nat) = 64 := by decide
  unfold radixPass
  simp only [h64]
  have hsub : (64 - 1 : Nat) = 63 := by decide
  rw [hsub]
  have hkey : ∀ mp ∈ in_, radixBucket (pass * 6) 63 mp < 64 := fun mp _ => radixBucket_lt _ mp
  obtain ⟨hc1, hc2⟩ := countBuckets_spec (pass * 6) 63 in_ 64 hkey
  obtain ⟨hs1, hs2⟩ := startIndices_spec (countBuckets (pass * 6) 63 in_ 64) 64 (by omega)
  have hperm := bucketSort_perm (radixBucket (pass * 6) 63) 64 in_ hkey
  have htotal : out.length =
      prefixSum (fun b => in_.countP (fun mp => decide (radixBucket (pass * 6) 63 mp = b))) 64 := by
    rw [hlen, ← hperm.length_eq]
    unfold bucketSort
    rw [length_flatMap_range]
    apply prefixSum_congr
    intro j _
    rw [List.countP_eq_length_filter]
  obtain ⟨G, hG, hout⟩ := split_by_lengths _ 64 out htotal
  have hout' : out = (List.range 64).flatMap (fun j => (fun _ => []) j ++ G j) := by
    simpa using hout
  rw [hout']
  rw [scatter_spec (pass * 6) 63 64 in_ (fun _ => []) G _ hs1 ?_ hG hkey]
  · simp [bucketSort]
  · intro b hb
    rw [hs2 b hb, length_flatMap_range]
    simp only [List.nil_append, List.length_nil, Nat.add_zero]
    apply prefixSum_congr
    intro j hj
    rw [hc2 j, hG j (by omega)]

theorem radixPasses_spec :
    ∀ (n pass : Nat) (v temp : List MortonPrimitive), temp.length = v.length →
      ∃ v1 temp1, radixPasses n pass v temp = some (v1, temp1) ∧
        v1.length = v.length ∧ temp1.length = v.length ∧
        ((n + pass) % 2 = 1 → temp1.Perm (if pass % 2 = 1 then temp else v)) ∧
        ((n + pass) % 2 = 0 → v1.Perm (if pass % 2 = 1 then temp else v)) := by
  intro n
  induction n with
  | zero =>
    intro pass v temp hlen
    refine ⟨v, temp, rfl, rfl, hlen, ?_, ?_⟩
    · intro h
      simp only [Nat.zero_add] at h
      simp [h]
    · intro h
      simp only [Nat.zero_add] at h
      have : ¬ pass % 2 = 1 := by omega
      simp [this]
  | succ n ih =>
    intro pass v temp hlen
    rw [radixPasses]
    by_cases hp : pass % 2 = 1
    · rw [if_pos hp, radixPass_spec pass temp v hlen.symm]
      simp only
      have hperm := bucketSort_perm (radixBucket (pass * 6) 63) 64 temp
        (fun mp _ => radixBucket_lt _ mp)
      obtain ⟨v1, temp1, h1, h2, h3, h4, h5⟩ := ih (pass + 1)
        (bucketSort (radixBucket (pass * 6) 63) 64 temp) temp (by rw [hperm.length_eq])
      rw [hperm.length_eq, hlen] at h2 h3
      have hp1 : ¬ (pass + 1) % 2 = 1 := by omega
      simp only [hp1, if_false] at h4 h5
      refine ⟨v1, temp1, h1, h2, h3, ?_, ?_⟩
      · intro h
        rw [if_pos hp]
        exact (h4 (by omega)).trans hperm
      · intro h
        rw [if_pos hp]
        exact (h5 (by omega)).trans hperm
    · rw [if_neg hp, radixPass_spec pass v temp hlen]
      simp only
      have hperm := bucketSort_perm (radixBucket (pass * 6) 63) 64 v
        (fun mp _ => radixBucket_lt _ mp)
      obtain ⟨v1, temp1, h1, h2, h3, h4, h5⟩ := ih (pass + 1) v
        (bucketSort (radixBucket (pass * 6) 63) 64 v) (by rw [hperm.length_eq])
      have hp1 : (pass + 1) % 2 = 1 := by omega
      simp only [hp1, if_true] at h4 h5
      refine ⟨v1, temp1, h1, h2, h3, ?_, ?_⟩
      · intro h
        rw [if_neg hp]
        exact (h4 (by omega)).trans hperm
      · intro h
        rw [if_neg hp]
        exact (h5 (by omega)).trans hperm

/-- The function `RadixSort` returns, and its result is a rearrangement of its input. -/
theorem RadixSort_perm (v : List MortonPrimitive) :
    ∃ v1, RadixSort v = some v1 ∧ v1.Perm v := by
  unfold RadixSort
  obtain ⟨v1, temp1, h1, _, _, h4, _⟩ := radixPasses_spec (30 / 6) 0 v
    (List.replicate v.length ⟨0, 0⟩) (by simp)
  simp only [h1, if_true]
  refine ⟨temp1, rfl, ?_⟩
  have := h4 (by decide)
  simpa using this

/-! ## The bottom-up build -/

theorem mortonPrimsOf_spec (E : Env) (bounds : Bounds3f) (l : List BVHPrimitiveInfo)
    (mp : List MortonPrimitive) (h : mortonPrimsOf E bounds l = some mp) :
    mp.map (fun m => m.primitiveIndex) = l.map (fun pi => pi.primitiveNumber) := by
  induction l generalizing mp with
  | nil =>
    simp only [mortonPrimsOf, Option.some.injEq] at h
    subst h
    rfl
  | cons pi rest ih =>
    simp only [mortonPrimsOf] at h
    split at h
    · cases h
    · split at h
      · cases h
      · rename_i code _ l' hl'
        simp only [Option.some.injEq] at h
        subst h
        simp [ih l' hl']

theorem TreeletsCover_append {l1 l2 : List LBVHTreelet} {a b c : Nat}
    (h1 : TreeletsCover l1 a b) (h2 : TreeletsCover l2 b c) : TreeletsCover (l1 ++ l2) a c := by
  induction l1 generalizing a with
  | nil =>
    simp only [TreeletsCover] at h1
    subst h1
    simpa using h2
  | cons x xs ih =>
    obtain ⟨hx1, hx2, hx3⟩ := h1
    exact ⟨hx1, hx2, ih hx3⟩

theorem TreeletsCover_le {l : List LBVHTreelet} {a b : Nat} (h : TreeletsCover l a b) :
    a ≤ b := by
  induction l generalizing a with
  | nil =>
    simp only [TreeletsCover] at h
    omega
  | cons x xs ih =>
    obtain ⟨_, _, hx3⟩ := h
    have := ih hx3
    omega

theorem findTreelets_fold (mp : List MortonPrimitive) (k : Nat) (hk : k ≤ mp.length) :
    let st := (List.range' 1 k).foldl
      (fun (st : Nat × List LBVHTreelet) end_ =>
        if end_ = mp.length ∨
            ((mp.getD st.1 default).mortonCode &&& 0x3ffc0000) ≠
              ((mp.getD end_ default).mortonCode &&& 0x3ffc0000) then
          (end_, st.2 ++ [⟨st.1, end_ - st.1⟩])
        else st)
      (0, [])
    st.1 ≤ k ∧ TreeletsCover st.2 0 st.1 ∧ (k = mp.length → st.1 = mp.length) := by
  induction k with
  | zero =>
    simp only [List.range'_zero, List.foldl_nil]
    refine ⟨le_refl _, rfl, ?_⟩
    intro h
    exact h
  | succ k ih =>
    obtain ⟨h1, h2, _⟩ := ih (by omega)
    rw [List.range'_1_concat, List.foldl_append]
    simp only [List.foldl_cons, List.foldl_nil]
    split
    · refine ⟨by omega, ?_, ?_⟩
      · apply TreeletsCover_append h2
        refine ⟨rfl, by simp only; omega, ?_⟩
        simp only [TreeletsCover]
        omega
      · intro h
        simp only
        omega
    · rename_i hc
      refine ⟨by omega, h2, ?_⟩
      intro h
      exfalso
      apply hc
      left
      omega

/-- The treelets that `HLBVHBuild` forms are consecutive, non-empty, and cover the whole
vector of Morton primitives. -/
theorem findTreelets_cover (mp : List MortonPrimitive) :
    TreeletsCover (findTreelets mp) 0 mp.length := by
  obtain ⟨_, h2, h3⟩ := findTreelets_fold mp mp.length (le_refl _)
  unfold findTreelets
  have := h3 rfl
  simp only at this h2 ⊢
  rw [this] at h2
  exact h2
theorem slice_take {α : Type} (l : List α) (s e k : Nat) (hek : e ≤ k) :
    slice (l.take k) s e = slice l s e := by
  unfold slice
  rw [List.drop_take, List.take_take]
  congr 1
  omega

theorem LeafBoundsOK_of_take {α : Type} (wb : α → Bounds3f) (ord ord' : List α)
    (ls : List LeafInfo) (k : Nat)
    (hk : ∀ l ∈ ls, l.firstPrimOffset + l.nPrimitives ≤ k)
    (htake : ord'.take k = ord.take k) (h : LeafBoundsOK wb ord ls) :
    LeafBoundsOK wb ord' ls := by
  intro l hl
  obtain ⟨h1, h2⟩ := h l hl
  have hlk := hk l hl
  have hlen := congrArg List.length htake
  simp only [List.length_take] at hlen
  refine ⟨by omega, ?_⟩
  rw [h2, ← slice_take ord _ _ k hlk, ← slice_take ord' _ _ k hlk, htake]

theorem emitLeafLoop_spec {α : Type} (primitives : List α) (wb : α → Bounds3f)
    (primitiveInfo : List BVHPrimitiveInfo) (l : List MortonPrimitive) :
    ∀ (pre mid post : List α) (b : Bounds3f) (ord1 : List α) (b1 : Bounds3f),
      mid.length = l.length →
      emitLeafLoop primitives primitiveInfo l pre.length (pre ++ mid ++ post) b = some (ord1, b1) →
      ∃ L, ord1 = pre ++ L ++ post ∧
        L.map some = l.map (fun m => primitives[m.primitiveIndex]?) ∧
        ((∀ (i : Nat) (p : α) (pi : BVHPrimitiveInfo), primitives[i]? = some p →
            primitiveInfo[i]? = some pi → wb p = pi.bounds) →
          b1 = L.foldl (fun acc p => Union acc (wb p)) b) := by
  induction l with
  | nil =>
    intro pre mid post b ord1 b1 hlen h
    simp only [emitLeafLoop, Option.some.injEq, Prod.mk.injEq] at h
    obtain ⟨h1, h2⟩ := h
    have hmid : mid = [] := List.length_eq_zero.mp hlen
    subst hmid h1 h2
    exact ⟨[], by simp, rfl, fun _ => rfl⟩
  | cons m rest ih =>
    intro pre mid post b ord1 b1 hlen h
    cases mid with
    | nil => simp at hlen
    | cons x mid' =>
      simp only [List.length_cons, Nat.add_right_cancel_iff] at hlen
      rw [emitLeafLoop] at h
      cases hp : primitives[m.primitiveIndex]? with
      | none => simp [hp] at h
      | some p =>
      cases hpi : primitiveInfo[m.primitiveIndex]? with
      | none => simp [hp, hpi] at h
      | some pi =>
        simp only [hp, hpi] at h
        have hslot : pre.length < (pre ++ x :: mid' ++ post).length := by
          simp only [List.length_append, List.length_cons]
          omega
        rw [if_pos hslot] at h
        have hset : (pre ++ x :: mid' ++ post).set pre.length p = (pre ++ [p]) ++ mid' ++ post := by
          rw [List.append_assoc, List.set_append_right _ _ (le_refl _)]
          simp
        rw [hset] at h
        have hlen2 : pre.length + 1 = (pre ++ [p]).length := by simp
        rw [hlen2] at h
        obtain ⟨L, hL, hmap, hb⟩ := ih (pre ++ [p]) mid' post _ ord1 b1 hlen h
        refine ⟨p :: L, by simp [hL], by simp [hmap, hp], ?_⟩
        intro hwb
        rw [hb hwb]
        simp only [List.foldl_cons]
        rw [hwb _ p pi hp hpi]

theorem findSplit_spec (E : Env) (mp : List MortonPrimitive) (mask : Nat) :
    ∀ (fuel s e r : Nat), findSplit E mp mask fuel s e = some r → s < r ∧ r ≤ e := by
  intro fuel
  induction fuel with
  | zero =>
    intro s e r h
    simp [findSplit] at h
  | succ fuel ih =>
    intro s e r h
    rw [findSplit] at h
    split at h
    · split at h
      · cases h
      · simp only at h
        split at h
        · split at h
          · have := ih _ _ _ h
            omega
          · split at h
            · cases h
            · have := ih _ _ _ h
              omega
        · cases h
    · rename_i hc
      simp only [Option.some.injEq] at h
      omega
theorem take_split_map {α β : Type} (f : α → β) (l : List α) (s n : Nat) (hs : s ≤ n) :
    (l.take s).map f ++ ((l.drop s).take (n - s)).map f = (l.take n).map f := by
  have e : n = s + (n - s) := by omega
  conv_rhs => rw [e, List.take_add]
  simp

theorem emitLBVH_spec {α : Type} (E : Env) (self : BVHAccel α) (wb : α → Bounds3f) (arena : Nat)
    (info : List BVHPrimitiveInfo) :
    ∀ (fuel : Nat) (mp : List MortonPrimitive) (n : Nat) (bitIndex : Int) (st : EmitState α)
      (node : BVHBuildNode) (st1 : EmitState α) (pre mid post : List α),
      st.orderedPrims = pre ++ mid ++ post → pre.length = st.orderedPrimsOffset →
      mid.length = n → 1 ≤ n →
      emitLBVH E self arena info fuel mp n bitIndex st = some (node, st1) →
      EmitPost self wb info mp n pre post st node st1 := by
  intro fuel
  induction fuel with
  | zero =>
    intro mp n bitIndex st node st1 pre mid post _ _ _ _ h
    simp [emitLBVH] at h
  | succ fuel ih =>
    intro mp n bitIndex st node st1 pre mid post hord hpre hmid hn h
    obtain ⟨bn, tn, ord, off⟩ := st
    simp only at hord hpre
    subst hord hpre
    rw [emitLBVH] at h
    split at h
    · cases h
    · split at h
      · cases h
      · rename_i hguard
        have hnle : n ≤ mp.length := by omega
        split at h
        · -- leaf
          split at h
          · cases h
          · simp only at h
            split at h
            · cases h
            · rename_i ordered bounds hloop
              simp only [Option.some.injEq, Prod.mk.injEq] at h
              obtain ⟨h1, h2⟩ := h
              subst h1 h2
              obtain ⟨L, hL, hmap, hb⟩ := emitLeafLoop_spec self.primitives wb info (mp.take n)
                pre mid post Bounds3f.new ordered bounds (by simp [hmid, hnle]) hloop
              have hLlen : L.length = n := by
                have := map_some_length hmap
                simp only [List.length_take] at this
                omega
              refine ⟨⟨L, hL, hmap⟩, hnle, rfl, ?_, ?_, ?_, ?_, ?_⟩
              · simp only [BVHBuildNode.InitLeaf, BVHBuildNode.Invariant]
                left
                exact ⟨hn, trivial, trivial⟩
              · simp only [BVHBuildNode.InitLeaf, BVHBuildNode.leaves, BVHBuildNode.leavesIn]
                rw [if_pos (by omega)]
                exact ⟨rfl, hn, rfl⟩
              · simp [BVHBuildNode.InitLeaf, BVHBuildNode.numNodes]
              · simp [BVHBuildNode.InitLeaf, BVHBuildNode.numNodes]
              · intro hwb
                simp only [BVHBuildNode.InitLeaf, BVHBuildNode.leaves, BVHBuildNode.leavesIn]
                rw [if_pos (by omega)]
                intro l hl
                simp only [List.mem_singleton] at hl
                subst hl
                simp only
                subst hL
                refine ⟨by simp [hLlen], ?_⟩
                have hsl : slice (pre ++ L ++ post) pre.length (pre.length + n) = L := by
                  rw [← hLlen]
                  exact slice_append3 pre L post
                rw [hsl, hb hwb]
                rfl
        · -- no leaf
          simp only at h
          split at h
          · rename_i first last hfirst hlast
            split at h
            · -- no split for this bit
              exact ih mp n (bitIndex - 1) ⟨bn, tn, pre ++ mid ++ post, pre.length⟩ node st1
                pre mid post rfl rfl hmid hn h
            · split at h
              · cases h
              · rename_i s hsplit
                obtain ⟨hs1, hs2⟩ := findSplit_spec E mp _ _ _ _ _ hsplit
                split at h
                · rename_i a b ha hb' hab
                  split at h
                  · cases h
                  · split at h
                    · cases h
                    · split at h
                      · cases h
                      · rename_i r0 c0 st0 hr0
                        split at h
                        · cases h
                        · rename_i r1 c1 st2 hr1
                          split at h
                          · cases h
                          · rename_i nd hnd
                            simp only [Option.some.injEq, Prod.mk.injEq] at h
                            obtain ⟨h1, h2⟩ := h
                            subst h1 h2
                            have hsn : s ≤ mid.length := by omega
                            have e0 : pre ++ mid ++ post =
                                pre ++ mid.take s ++ (mid.drop s ++ post) := by
                              conv_lhs => rw [← List.take_append_drop s mid]
                              simp only [List.append_assoc]
                            have P0 := ih mp s (bitIndex - 1)
                              ⟨bn + 1, tn + 1, pre ++ mid ++ post, pre.length⟩ c0 st0
                              pre (mid.take s) (mid.drop s ++ post) e0 rfl (by simp [hsn])
                              (by omega) hr0
                            obtain ⟨L0, hL0, hmap0⟩ := P0.ordered
                            have hs_mp := P0.bound
                            have hL0len : L0.length = s := by
                              have := map_some_length hmap0
                              simp only [List.length_take] at this
                              omega
                            have hoff0 := P0.offset
                            simp only at hoff0
                            have P1 := ih (mp.drop s) (n - s) (bitIndex - 1) st0 c1 st2
                              (pre ++ L0) (mid.drop s) post
                              (by rw [hL0]; simp only [List.append_assoc])
                              (by rw [hoff0]; simp [hL0len])
                              (by simp [hmid]) (by omega) hr1
                            obtain ⟨L1, hL1, hmap1⟩ := P1.ordered
                            obtain ⟨hnode, hinv, hnum, hleaves⟩ :=
                              InitInterior_spec _ _ _ _ hnd P0.inv P1.inv
                            have hleaves' : nd.leaves = c0.leaves ++ c1.leaves := by
                              have := hleaves true
                              simpa [BVHBuildNode.leaves] using this
                            have hb1 := P1.bound
                            simp only [List.length_drop] at hb1
                            refine ⟨⟨L0 ++ L1, by simp [hL1], ?_⟩, hnle, ?_, hinv, ?_, ?_, ?_, ?_⟩
                            · rw [List.map_append, hmap0, hmap1]
                              exact take_split_map _ mp s n (by omega)
                            · rw [P1.offset, hoff0]
                              simp only
                              omega
                            · rw [hleaves']
                              refine Consecutive_append (b := pre.length + s) ?_ ?_
                              · exact P0.chain
                              · have := P1.chain
                                rw [hoff0] at this
                                have e : pre.length + s + (n - s) = pre.length + n := by omega
                                rw [e] at this
                                exact this
                            · rw [P1.total, P0.total, hnum]
                              simp only
                              omega
                            · rw [P1.arena, P0.arena, hnum]
                              simp only
                              omega
                            · intro hwb
                              rw [hleaves']
                              apply LeafBoundsOK_app
                              · apply LeafBoundsOK_of_take wb st0.orderedPrims _ _ (pre.length + s)
                                  _ _ (P0.bounds hwb)
                                · intro l hl
                                  have := (Consecutive_range P0.chain l hl).2.1
                                  simpa using this
                                · rw [hL1, hL0]
                                  have e1 : (pre ++ L0 ++ L1 ++ post) = (pre ++ L0) ++ (L1 ++ post) := by
                                    simp only [List.append_assoc]
                                  have e2 : (pre ++ L0 ++ (mid.drop s ++ post)) =
                                      (pre ++ L0) ++ (mid.drop s ++ post) := by
                                    simp only [List.append_assoc]
                                  have e3 : pre.length + s = (pre ++ L0).length := by
                                    simp [hL0len]
                                  rw [e1, e2, e3, List.take_left, List.take_left]
                              · exact P1.bounds hwb
                · cases h
          · cases h
theorem emitTreelets_spec {α : Type} (E : Env) (self : BVHAccel α) (wb : α → Bounds3f)
    (info : List BVHPrimitiveInfo) (mp : List MortonPrimitive) (N : Nat) (hmp : mp.length = N) :
    ∀ (ts : List LBVHTreelet) (atomicTotal : Nat) (pre rest : List α) (roots : List BVHBuildNode)
      (total1 : Nat) (ord1 : List α) (off1 : Nat),
      TreeletsCover ts pre.length N → (pre ++ rest).length = N →
      emitTreelets E self info mp ts atomicTotal (pre ++ rest) pre.length =
        some (roots, total1, ord1, off1) →
      (∃ L, ord1 = pre ++ L ∧
        L.map some = (mp.drop pre.length).map (fun m => self.primitives[m.primitiveIndex]?)) ∧
      (∀ r ∈ roots, r.Invariant) ∧
      Consecutive (roots.flatMap BVHBuildNode.leaves) pre.length N ∧
      total1 = atomicTotal + sumNodes roots ∧
      roots.length = ts.length ∧
      ((∀ (i : Nat) (p : α) (pi : BVHPrimitiveInfo), self.primitives[i]? = some p →
          info[i]? = some pi → wb p = pi.bounds) →
        LeafBoundsOK wb ord1 (roots.flatMap BVHBuildNode.leaves)) := by
  intro ts
  induction ts with
  | nil =>
    intro atomicTotal pre rest roots total1 ord1 off1 hcover hlen h
    simp only [emitTreelets, Option.some.injEq, Prod.mk.injEq] at h
    obtain ⟨h1, h2, h3, _⟩ := h
    subst h1 h2 h3
    simp only [TreeletsCover] at hcover
    have hrest : rest = [] := by
      apply List.length_eq_zero.mp
      simp only [List.length_append] at hlen
      omega
    subst hrest
    refine ⟨⟨[], rfl, ?_⟩, ?_, ?_, ?_, rfl, ?_⟩
    · rw [List.drop_of_length_le (by omega)]
      rfl
    · intro r hr
      cases hr
    · simpa [Consecutive] using hcover
    · simp [sumNodes]
    · intro _ l hl
      simp at hl
  | cons t ts ih =>
    intro atomicTotal pre rest roots total1 ord1 off1 hcover hlen h
    obtain ⟨ht1, ht2, ht3⟩ := hcover
    have hle := TreeletsCover_le ht3
    simp only [List.length_append] at hlen
    rw [emitTreelets] at h
    split at h
    · cases h
    · rename_i root st hemit
      split at h
      · cases h
      · rename_i roots' total' ordered' off' hrest
        simp only [Option.some.injEq, Prod.mk.injEq] at h
        obtain ⟨h1, h2, h3, h4⟩ := h
        subst h1 h2 h3 h4
        have htn : t.nPrimitives ≤ rest.length := by omega
        have EP := emitLBVH_spec E self wb (2 * t.nPrimitives) info _ _ _ _
          ⟨0, 0, pre ++ rest, pre.length⟩ root st pre (rest.take t.nPrimitives)
          (rest.drop t.nPrimitives)
          (by simp only [List.append_assoc, List.take_append_drop])
          rfl (by simp [htn]) ht2 hemit
        obtain ⟨L0, hL0, hmap0⟩ := EP.ordered
        have hoff := EP.offset
        simp only at hoff
        have hL0len : L0.length = t.nPrimitives := by
          have := map_some_length hmap0
          have hb := EP.bound
          simp only [List.length_take] at this
          omega
        have e1 : st.orderedPrims = (pre ++ L0) ++ rest.drop t.nPrimitives := by
          rw [hL0]
        have e2 : st.orderedPrimsOffset = (pre ++ L0).length := by
          rw [hoff]
          simp [hL0len]
        rw [e1, e2] at hrest
        obtain ⟨⟨L', hL', hmap'⟩, hinv', hchain', htot', hlen', hbounds'⟩ :=
          ih _ (pre ++ L0) (rest.drop t.nPrimitives) roots' total' ordered' off'
            (by
              have : (pre ++ L0).length = pre.length + t.nPrimitives := by simp [hL0len]
              rw [this]
              exact ht3)
            (by simp [hL0len]; omega) hrest
        have hlenpl : (pre ++ L0).length = pre.length + t.nPrimitives := by simp [hL0len]
        refine ⟨⟨L0 ++ L', by simp [hL'], ?_⟩, ?_, ?_, ?_, by simp [hlen'], ?_⟩
        · rw [List.map_append, hmap0, hmap', hlenpl, ht1, ← List.map_append]
          congr 1
          rw [← List.drop_drop]
          exact List.take_append_drop _ _
        · intro r hr
          rcases List.mem_cons.mp hr with h | h
          · subst h
            exact EP.inv
          · exact hinv' r h
        · simp only [List.flatMap_cons]
          refine Consecutive_append (b := pre.length + t.nPrimitives) EP.chain ?_
          rw [hlenpl] at hchain'
          exact hchain'
        · rw [htot', EP.total]
          simp [sumNodes]
          omega
        · intro hwb
          simp only [List.flatMap_cons]
          apply LeafBoundsOK_app
          · apply LeafBoundsOK_of_take wb st.orderedPrims _ _ (pre.length + t.nPrimitives)
              _ _ (EP.bounds hwb)
            · intro l hl
              exact (Consecutive_range EP.chain l hl).2.1
            · rw [hL', e1, ← hlenpl, List.take_left, List.take_left]
          · exact hbounds' hwb
theorem sumNodes_append (l1 l2 : List BVHBuildNode) :
    sumNodes (l1 ++ l2) = sumNodes l1 + sumNodes l2 := by
  simp [sumNodes]

theorem sumNodes_perm {l1 l2 : List BVHBuildNode} (h : l1.Perm l2) :
    sumNodes l1 = sumNodes l2 := by
  unfold sumNodes
  exact (h.map _).sum_eq

/-- What a call of `buildUpperSAH` on the range `mid` of `pre ++ mid ++ post` guarantees,
when the trees of the range are build trees: only the range is rearranged; the result is a
build tree; its leaves are those of the trees of the range; and the counter grew by the
number of nodes created above them. -/
theorem buildUpperSAH_spec (E : Env) :
    ∀ (fuel : Nat) (pre mid post : List BVHBuildNode) (total : Nat) (node : BVHBuildNode)
      (roots1 : List BVHBuildNode) (total1 : Nat),
      (∀ r ∈ mid, r.Invariant) →
      buildUpperSAH E fuel (pre ++ mid ++ post) pre.length (pre.length + mid.length) total =
        some (node, roots1, total1) →
      (∃ m, roots1 = pre ++ m ++ post ∧ m.Perm mid) ∧ node.Invariant ∧
      node.leaves.Perm (mid.flatMap BVHBuildNode.leaves) ∧
      total1 + sumNodes mid = total + node.numNodes := by
  intro fuel
  induction fuel with
  | zero =>
    intro pre mid post total node roots1 total1 _ h
    simp [buildUpperSAH] at h
  | succ fuel ih =>
    intro pre mid post total node roots1 total1 hinv h
    rw [buildUpperSAH] at h
    have hsub : pre.length + mid.length - pre.length = mid.length := by omega
    simp only [slice_append3, splice_append3, hsub] at h
    split at h
    · cases h
    · split at h
      · cases h
      · split at h
        · -- one node
          rename_i hone
          split at h
          · cases h
          · rename_i nd hnd
            simp only [Option.some.injEq, Prod.mk.injEq] at h
            obtain ⟨h1, h2, h3⟩ := h
            subst h1 h2 h3
            cases mid with
            | nil => simp at hone
            | cons x xs =>
              have hxs : xs = [] := by
                apply List.length_eq_zero.mp
                simpa using hone
              subst hxs
              have : (pre ++ [x] ++ post)[pre.length]? = some x := by
                rw [List.append_assoc, List.getElem?_append_right (le_refl _)]
                simp
              rw [this] at hnd
              simp only [Option.some.injEq] at hnd
              subst hnd
              refine ⟨⟨[x], rfl, List.Perm.refl _⟩, hinv x (List.mem_cons_self _ _), ?_, ?_⟩
              · simp
              · simp [sumNodes]
        · split at h
          · cases h
          · rename_i bs hbs
            split at h
            · cases h
            · split at h
              · cases h
              · rename_i buckets hbuckets
                split at h
                · -- both assertions passed or were skipped
                  obtain ⟨k, hk, hkle⟩ : ∃ k, List.countP (fun node : BVHBuildNode =>
                      decide (upperBucketOf 12
                        (List.foldl (fun cb b => UnionP cb (Vector3f.smul (1 / 2) (b.pmin.add b.pmax)))
                          Bounds3f.new bs)
                        (List.foldl (fun cb b => UnionP cb (Vector3f.smul (1 / 2) (b.pmin.add b.pmax)))
                          Bounds3f.new bs).MaximumExtent node.boundsD ≤
                        ((minCostSplit (splitCosts (1 / 8) 12 buckets
                          (List.foldl Union Bounds3f.new bs))).2 : Int))) mid = k ∧
                      k ≤ mid.length := ⟨_, rfl, List.countP_le_length _⟩
                  rw [hk] at h
                  generalize hm1 : E.lib.partition (fun node : BVHBuildNode =>
                      decide (upperBucketOf 12
                        (List.foldl (fun cb b => UnionP cb (Vector3f.smul (1 / 2) (b.pmin.add b.pmax)))
                          Bounds3f.new bs)
                        (List.foldl (fun cb b => UnionP cb (Vector3f.smul (1 / 2) (b.pmin.add b.pmax)))
                          Bounds3f.new bs).MaximumExtent node.boundsD ≤
                        ((minCostSplit (splitCosts (1 / 8) 12 buckets
                          (List.foldl Union Bounds3f.new bs))).2 : Int))) mid = m1 at h
                  have hperm1 : m1.Perm mid := by
                    rw [← hm1]
                    exact E.lib.partition_perm _ _
                  have hlen1 : m1.length = mid.length := hperm1.length_eq
                  have hk_le : k ≤ m1.length := by omega
                  have htake : (m1.take k).length = k := by simp [hk_le]
                  have hdrop : (m1.drop k).length = mid.length - k := by simp [hlen1]
                  have hsplit : m1.take k ++ m1.drop k = m1 := List.take_append_drop k m1
                  have hinv1 : ∀ r ∈ m1, r.Invariant := fun r hr => hinv r (hperm1.subset hr)
                  have hsum : sumNodes (m1.take k) + sumNodes (m1.drop k) = sumNodes mid := by
                    rw [← sumNodes_append, hsplit]
                    exact sumNodes_perm hperm1
                  have hfl : ((m1.take k).flatMap BVHBuildNode.leaves ++
                      (m1.drop k).flatMap BVHBuildNode.leaves).Perm
                      (mid.flatMap BVHBuildNode.leaves) := by
                    rw [← List.flatMap_append, hsplit]
                    exact hperm1.flatMap_right _
                  split at h
                  · -- child 0 first
                    split at h
                    · cases h
                    · rename_i r0 c0 roots0 total0 hr0
                      split at h
                      · cases h
                      · rename_i r1 c1 roots2 total2 hr1
                        split at h
                        · cases h
                        · rename_i n hn
                          simp only [Option.some.injEq, Prod.mk.injEq] at h
                          obtain ⟨h1, h2, h3⟩ := h
                          subst h1 h2 h3
                          have e0 : pre ++ m1 ++ post = pre ++ m1.take k ++ (m1.drop k ++ post) := by
                            conv_lhs => rw [← hsplit]
                            simp only [List.append_assoc]
                          obtain ⟨⟨m0, hm0, hperm0⟩, hi0, hl0, ht0⟩ :=
                            ih pre (m1.take k) (m1.drop k ++ post) (total + 1) c0 roots0 total0
                              (fun r hr => hinv1 r (List.mem_of_mem_take hr))
                              (by rw [← e0, htake]; exact hr0)
                          have hm0len : m0.length = k := by rw [hperm0.length_eq, htake]
                          have e1 : roots0 = (pre ++ m0) ++ m1.drop k ++ post := by
                            rw [hm0]
                            simp
                          obtain ⟨⟨m1', hm1', hperm1'⟩, hi1, hl1, ht1⟩ :=
                            ih (pre ++ m0) (m1.drop k) post total0 c1 roots2 total2
                              (fun r hr => hinv1 r (List.mem_of_mem_drop hr))
                              (by
                                rw [← e1]
                                have : (pre ++ m0).length = pre.length + k := by simp [hm0len]
                                rw [this, hdrop]
                                have : pre.length + k + (mid.length - k) =
                                    pre.length + mid.length := by omega
                                rw [this]
                                exact hr1)
                          obtain ⟨hnode, hinvn, hnum, hleaves⟩ := InitInterior_spec _ _ _ _ hn hi0 hi1
                          have hleaves' : n.leaves = c0.leaves ++ c1.leaves := by
                            have := hleaves true
                            simpa [BVHBuildNode.leaves] using this
                          refine ⟨⟨m0 ++ m1', by simp [hm1'], ?_⟩, hinvn, ?_, ?_⟩
                          · exact ((hperm0.append hperm1').trans (by rw [hsplit])).trans hperm1
                          · rw [hleaves']
                            exact (hl0.append hl1).trans hfl
                          · rw [hnum]
                            omega
                  · -- child 1 first
                    split at h
                    · cases h
                    · rename_i r1 c1 roots2 total2 hr1
                      split at h
                      · cases h
                      · rename_i r0 c0 roots0 total0 hr0
                        split at h
                        · cases h
                        · rename_i n hn
                          simp only [Option.some.injEq, Prod.mk.injEq] at h
                          obtain ⟨h1, h2, h3⟩ := h
                          subst h1 h2 h3
                          have e0 : pre ++ m1 ++ post = (pre ++ m1.take k) ++ m1.drop k ++ post := by
                            conv_lhs => rw [← hsplit]
                            simp only [List.append_assoc]
                          obtain ⟨⟨m1', hm1', hperm1'⟩, hi1, hl1, ht1⟩ :=
                            ih (pre ++ m1.take k) (m1.drop k) post (total + 1) c1 roots2 total2
                              (fun r hr => hinv1 r (List.mem_of_mem_drop hr))
                              (by
                                rw [← e0]
                                have : (pre ++ m1.take k).length = pre.length + k := by
                                  simp [hk_le]
                                rw [this, hdrop]
                                have : pre.length + k + (mid.length - k) =
                                    pre.length + mid.length := by omega
                                rw [this]
                                exact hr1)
                          have e1 : roots2 = pre ++ m1.take k ++ (m1' ++ post) := by
                            rw [hm1']
                            simp
                          obtain ⟨⟨m0, hm0, hperm0⟩, hi0, hl0, ht0⟩ :=
                            ih pre (m1.take k) (m1' ++ post) total2 c0 roots0 total0
                              (fun r hr => hinv1 r (List.mem_of_mem_take hr))
                              (by rw [← e1, htake]; exact hr0)
                          obtain ⟨hnode, hinvn, hnum, hleaves⟩ := InitInterior_spec _ _ _ _ hn hi0 hi1
                          have hleaves' : n.leaves = c0.leaves ++ c1.leaves := by
                            have := hleaves true
                            simpa [BVHBuildNode.leaves] using this
                          refine ⟨⟨m0 ++ m1', by simp [hm0], ?_⟩, hinvn, ?_, ?_⟩
                          · exact ((hperm0.append hperm1').trans (by rw [hsplit])).trans hperm1
                          · rw [hleaves']
                            exact (hl0.append hl1).trans hfl
                          · rw [hnum]
                            omega
                · cases h

theorem LeafBoundsOK_perm {α : Type} (wb : α → Bounds3f) (ord : List α) {l1 l2 : List LeafInfo}
    (hp : l1.Perm l2) (h : LeafBoundsOK wb ord l2) : LeafBoundsOK wb ord l1 := by
  intro l hl
  exact h l (hp.subset hl)

/-- What a call of `HLBVHBuild` that returns guarantees, on the array `primitiveInfo` that
`Build` makes (primitive numbers `0 .. N-1`) and an empty `orderedPrims`: the result is a
build tree; `totalNodes` is its number of nodes; `orderedPrims` has length `N` and lists
the primitives `primitives[σ 0], primitives[σ 1], ...` for a permutation `σ` of the
primitive numbers; the slots of the leaves form a partition of `[0, N)`; and every leaf has
as bounds the union of the world bounds of the primitives in its slots. -/
theorem HLBVHBuild_spec {α : Type} [Inhabited α] (E : Env) (self : BVHAccel α)
    (wb : α → Bounds3f) (fuel : Nat) (info : List BVHPrimitiveInfo)
    (root : BVHBuildNode) (total : Nat) (ordered : List α)
    (hnum : info.map (fun pi => pi.primitiveNumber) = List.range self.primitives.length)
    (h : HLBVHBuild E self fuel info [] = some (root, total, ordered)) :
    root.Invariant ∧ total = root.numNodes ∧ ordered.length = self.primitives.length ∧
    (∃ σ : List Nat, σ.Perm (List.range self.primitives.length) ∧
      ordered.map some = σ.map (fun i => self.primitives[i]?)) ∧
    (leafSlots root.leaves).Perm (List.range self.primitives.length) ∧
    ((∀ (i : Nat) (p : α) (pi : BVHPrimitiveInfo), self.primitives[i]? = some p →
        info[i]? = some pi → wb p = pi.bounds) →
      LeafBoundsOK wb ordered root.leaves) := by
  have hlen : info.length = self.primitives.length := by
    have := congrArg List.length hnum
    simpa using this
  unfold HLBVHBuild at h
  simp only at h
  split at h
  · cases h
  · rename_i mp0 hmp0
    obtain ⟨mp, hsort, hperm⟩ := RadixSort_perm mp0
    rw [hsort] at h
    simp only at h
    split at h
    · cases h
    · rename_i roots atomicTotal ord1 off1 hemit
      split at h
      · cases h
      · rename_i root' roots1 total1 hupper
        simp only [Option.some.injEq, Prod.mk.injEq] at h
        obtain ⟨h1, h2, h3⟩ := h
        subst h1 h2 h3
        have hidx := mortonPrimsOf_spec E _ info mp0 hmp0
        have hmplen : mp.length = self.primitives.length := by
          rw [hperm.length_eq]
          have := congrArg List.length hidx
          simp only [List.length_map] at this
          omega
        have hres : resize ([] : List α) self.primitives.length =
            [] ++ List.replicate self.primitives.length default := by
          simp [resize]
        rw [hres] at hemit
        obtain ⟨⟨L, hL, hmap⟩, hinv, hchain, htot, _, hbounds⟩ :=
          emitTreelets_spec E self wb info mp self.primitives.length hmplen (findTreelets mp) 0
            [] (List.replicate self.primitives.length default) roots atomicTotal ord1 off1
            (by
              have := findTreelets_cover mp
              rw [hmplen] at this
              exact this)
            (by simp) hemit
        simp only [List.nil_append, List.length_nil, List.drop_zero] at hL hmap hchain hbounds
        subst hL
        obtain ⟨_, hinvr, hleaves, htotal⟩ := buildUpperSAH_spec E fuel [] roots [] atomicTotal
          root' roots1 total1 hinv (by simpa using hupper)
        have hσ : (mp.map (fun m => m.primitiveIndex)).Perm
            (List.range self.primitives.length) := by
          rw [← hnum, ← hidx]
          exact hperm.map _
        have hmap2 : ord1.map some =
            (mp.map (fun m => m.primitiveIndex)).map (fun i => self.primitives[i]?) := by
          rw [hmap]
          simp
        refine ⟨hinvr, by omega, ?_, ⟨_, hσ, hmap2⟩, ?_, ?_⟩
        · rw [map_some_length hmap, hmplen]
        · have h1 := leafSlots_of_consecutive hchain
          have h2 := leafSlots_perm hleaves
          rw [h1] at h2
          rw [List.range_eq_range']
          simpa using h2
        · intro hwb
          exact LeafBoundsOK_perm wb ord1 hleaves (hbounds hwb)
/-! ## Properties of the build trees -/

theorem Invariant_nested (t : BVHBuildNode) (h : t.Invariant) : t.Nested := by
  induction t with
  | null => trivial
  | node b c0 c1 ax f n ih0 ih1 =>
    rw [BVHBuildNode.Invariant] at h
    rw [BVHBuildNode.Nested]
    rcases h with ⟨hn, h0, h1⟩ | ⟨hn, h0, h1, hb⟩
    · subst h0 h1
      refine ⟨fun h => by omega, trivial, trivial⟩
    · refine ⟨fun _ => ?_, ih0 h0, ih1 h1⟩
      rw [hb]
      exact ⟨Union_encloses_left _ _, Union_encloses_right _ _⟩

theorem mem_slice {α : Type} (l : List α) (s e i : Nat) (p : α) (hs : s ≤ i) (he : i < e)
    (h : l[i]? = some p) : p ∈ slice l s e := by
  unfold slice
  rw [List.mem_iff_getElem?]
  refine ⟨i - s, ?_⟩
  rw [List.getElem?_take_of_lt (by omega), List.getElem?_drop]
  have : s + (i - s) = i := by omega
  rw [this]
  exact h

theorem LeafCovers_of_bounds {α : Type} (wb : α → Bounds3f) (ord : List α) (ls : List LeafInfo)
    (h : LeafBoundsOK wb ord ls) : LeafCovers wb ord ls := by
  intro l hl i hi1 hi2 p hp
  obtain ⟨_, h2⟩ := h l hl
  rw [h2]
  exact unionOf_encloses wb _ p (mem_slice ord _ _ i p hi1 hi2 hp)

theorem slot_in_leaf (ls : List LeafInfo) (N i : Nat) (h : (leafSlots ls).Perm (List.range N))
    (hi : i < N) :
    ∃ l ∈ ls, l.firstPrimOffset ≤ i ∧ i < l.firstPrimOffset + l.nPrimitives := by
  have : i ∈ leafSlots ls := h.symm.subset (List.mem_range.mpr hi)
  unfold leafSlots at this
  rw [List.mem_flatMap] at this
  obtain ⟨l, hl, hil⟩ := this
  rw [List.mem_range'_1] at hil
  exact ⟨l, hl, hil.1, hil.2⟩

theorem primitiveInfoOf_spec (prims : List ShapePtr) :
    ∀ (i : Nat) (info : List BVHPrimitiveInfo), primitiveInfoOf prims i = some info →
      info.map (fun pi => pi.primitiveNumber) = List.range' i prims.length ∧
      (∀ (j : Nat) (p : ShapePtr) (pi : BVHPrimitiveInfo), prims[j]? = some p →
        info[j]? = some pi → worldBound p = pi.bounds) ∧
      (∀ p ∈ prims, p ≠ none) := by
  induction prims with
  | nil =>
    intro i info h
    simp only [primitiveInfoOf, Option.some.injEq] at h
    subst h
    simp
  | cons p rest ih =>
    intro i info h
    cases p with
    | none => simp [primitiveInfoOf] at h
    | some shape =>
      simp only [primitiveInfoOf] at h
      split at h
      · cases h
      · rename_i l hl
        simp only [Option.some.injEq] at h
        subst h
        obtain ⟨h1, h2, h3⟩ := ih (i + 1) l hl
        refine ⟨?_, ?_, ?_⟩
        · simp [h1, BVHPrimitiveInfo.create, List.range'_succ]
        · intro j p pi hp hpi
          cases j with
          | zero =>
            simp only [List.getElem?_cons_zero, Option.some.injEq] at hp hpi
            subst hp hpi
            rfl
          | succ j =>
            simp only [List.getElem?_cons_succ] at hp hpi
            exact h2 j p pi hp hpi
        · intro p hp
          rcases List.mem_cons.mp hp with h | h
          · subst h
            simp
          · exact h3 p h

/-- The structure of the tree that `Build` flattens, for every split method: it is a build
tree; `totalNodes` is its number of nodes; `orderedPrims` is a permutation of `primitives`;
the slots of the leaves form a partition of `[0, N)`; and every leaf has as bounds the
union of the world bounds of the shapes in its slots. -/
theorem buildTree_spec (E : Env) (self : BVHAccel ShapePtr) (fuel : Nat) (root : BVHBuildNode)
    (total : Nat) (ordered : List ShapePtr)
    (h : buildTree E self fuel = some (root, total, ordered)) :
    root.Invariant ∧ total = root.numNodes ∧ ordered.length = self.primitives.length ∧
    ordered.Perm self.primitives ∧
    (leafSlots root.leaves).Perm (List.range self.primitives.length) ∧
    LeafBoundsOK worldBound ordered root.leaves := by
  unfold buildTree at h
  split at h
  · cases h
  · rename_i info hinfo
    obtain ⟨hnum, hwb, _⟩ := primitiveInfoOf_spec self.primitives 0 info hinfo
    rw [← List.range_eq_range'] at hnum
    have hlen : info.length = self.primitives.length := by
      have := congrArg List.length hnum
      simpa using this
    split at h
    · obtain ⟨h1, h2, h3, ⟨σ, hσ, hmap⟩, h5, h6⟩ :=
        HLBVHBuild_spec E self worldBound fuel info root total ordered hnum h
      refine ⟨h1, h2, h3, ?_, h5, h6 hwb⟩
      apply perm_of_map_some
      rw [hmap, ← range_map_getElem?]
      exact hσ.map _
    · split at h
      · cases h
      · rename_i r hr
        simp only [Option.some.injEq, Prod.mk.injEq] at h
        obtain ⟨h1, h2, h3⟩ := h
        subst h1 h2 h3
        have hP := recursiveBuild_spec E self worldBound fuel [] info [] 0 [] r
          (by simpa [hlen] using hr)
        obtain ⟨L, σ, hL, hσ, hmap⟩ := hP.ordered
        simp only [List.nil_append] at hL
        subst hL
        have hσnum : (σ.map (fun pi => pi.primitiveNumber)).Perm
            (List.range self.primitives.length) := by
          rw [← hnum]
          exact hσ.map _
        have hc := hP.chain
        simp only [List.length_nil, Nat.zero_add, hlen] at hc
        have hwb' : ∀ pi ∈ info, ∀ p, self.primitives[pi.primitiveNumber]? = some p →
            worldBound p = pi.bounds := by
          intro pi hpi p hp
          obtain ⟨j, hj⟩ := List.mem_iff_getElem?.mp hpi
          have hjn : pi.primitiveNumber = j := by
            have h1 : (info.map (fun pi => pi.primitiveNumber))[j]? = some pi.primitiveNumber := by
              simp [hj]
            rw [hnum] at h1
            have hjlt : j < self.primitives.length := by
              by_contra hc
              rw [List.getElem?_eq_none (by simpa using hc)] at h1
              cases h1
            rw [List.getElem?_range hjlt] at h1
            simp only [Option.some.injEq] at h1
            exact h1.symm
          rw [hjn] at hp
          exact hwb j p pi hp hj
        refine ⟨hP.inv, ?_, ?_, ?_, ?_, ?_⟩
        · have := hP.total
          omega
        · rw [map_some_length hmap, hσ.length_eq, hlen]
        · apply perm_of_map_some
          rw [hmap, lookup_by_number, ← range_map_getElem?]
          exact hσnum.map _
        · have h1 := leafSlots_of_consecutive hc
          have h2 := leafSlots_perm (leavesIn_perm E.argsLeftToRight r.node)
          rw [h1] at h2
          rw [List.range_eq_range']
          exact h2.symm
        · exact LeafBoundsOK_perm worldBound _ (leavesIn_perm E.argsLeftToRight r.node).symm
            (hP.bounds hwb')

theorem sample_numbers :
    sampleInfo.map (fun pi => pi.primitiveNumber) =
      List.range (sampleAccel SplitMethod.HLBVH).primitives.length := by
  decide

set_option maxRecDepth 100000 in
unseal Rat.add Rat.mul Rat.inv Rat.sub in
theorem sample_HLBVHBuild_returns :
    (HLBVHBuild (sampleEnv true) (sampleAccel SplitMethod.HLBVH) 2 sampleInfo []).isSome = true := by
  decide

/-- C4. Whenever `HLBVHBuild` returns on the array `primitiveInfo` that `Build` makes
(primitive numbers `0 .. N-1`), `orderedPrims` has length `N` and is a permutation of the
input primitives: the slots `[firstPrimOffset, firstPrimOffset + nPrimitives)` that the
leaves reserved through the shared counter are pairwise disjoint and cover `[0, N)` (they
list each slot once), and the slots hold `primitives[σ 0], primitives[σ 1], ...` for a
permutation `σ` of the primitive numbers. -/
theorem HLBVHBuild_orderedPrims_permutation {α : Type} [Inhabited α] (E : Env)
    (self : BVHAccel α) (fuel : Nat) (primitiveInfo : List BVHPrimitiveInfo)
    (hnum : primitiveInfo.map (fun pi => pi.primitiveNumber) =
      List.range self.primitives.length)
    (hret : (HLBVHBuild E self fuel primitiveInfo []).isSome = true) :
    ∃ root total ordered, HLBVHBuild E self fuel primitiveInfo [] = some (root, total, ordered) ∧
      ordered.length = self.primitives.length ∧
      ordered.Perm self.primitives ∧
      (leafSlots root.leaves).Perm (List.range self.primitives.length) ∧
      ∃ σ : List Nat, σ.Perm (List.range self.primitives.length) ∧
        ordered.map some = σ.map (fun i => self.primitives[i]?) := by
  obtain ⟨⟨root, total, ordered⟩, hr⟩ := Option.isSome_iff_exists.mp hret
  obtain ⟨_, _, h3, ⟨σ, hσ, hmap⟩, h5, _⟩ :=
    HLBVHBuild_spec E self (fun _ => Bounds3f.new) fuel primitiveInfo root total ordered hnum hr
  refine ⟨root, total, ordered, hr, h3, ?_, h5, σ, hσ, hmap⟩
  apply perm_of_map_some
  rw [hmap, ← range_map_getElem?]
  exact hσ.map _

/-- A run of C4 on two unit cubes. -/
theorem HLBVHBuild_orderedPrims_permutation_witness :
    sampleInfo.map (fun pi => pi.primitiveNumber) =
      List.range (sampleAccel SplitMethod.HLBVH).primitives.length ∧
    (HLBVHBuild (sampleEnv true) (sampleAccel SplitMethod.HLBVH) 2 sampleInfo []).isSome = true ∧
    ∃ root total ordered,
      HLBVHBuild (sampleEnv true) (sampleAccel SplitMethod.HLBVH) 2 sampleInfo [] =
        some (root, total, ordered) ∧
      ordered.length = (sampleAccel SplitMethod.HLBVH).primitives.length ∧
      ordered.Perm (sampleAccel SplitMethod.HLBVH).primitives ∧
      (leafSlots root.leaves).Perm (List.range (sampleAccel SplitMethod.HLBVH).primitives.length) ∧
      ∃ σ : List Nat, σ.Perm (List.range (sampleAccel SplitMethod.HLBVH).primitives.length) ∧
        ordered.map some = σ.map (fun i => (sampleAccel SplitMethod.HLBVH).primitives[i]?) :=
  ⟨sample_numbers, sample_HLBVHBuild_returns,
    HLBVHBuild_orderedPrims_permutation (sampleEnv true) (sampleAccel SplitMethod.HLBVH) 2
      sampleInfo sample_numbers sample_HLBVHBuild_returns⟩
theorem recursiveBuild_range {α : Type} (E : Env) (self : BVHAccel α) (fuel : Nat)
    (info : List BVHPrimitiveInfo) (s e tn : Nat) (ord : List α) (r : BuildState α)
    (h : recursiveBuild E self fuel info s e tn ord = some r) : s < e ∧ e ≤ info.length := by
  cases fuel with
  | zero => simp [recursiveBuild] at h
  | succ fuel =>
    rw [recursiveBuild] at h
    split at h
    · cases h
    · omega

theorem recursiveBuild_post {α : Type} (E : Env) (self : BVHAccel α) (wb : α → Bounds3f)
    (fuel : Nat) (info : List BVHPrimitiveInfo) (s e tn : Nat) (ord : List α) (r : BuildState α)
    (h : recursiveBuild E self fuel info s e tn ord = some r) :
    BuildPost E self wb (info.take s) (slice info s e) (info.drop e) tn ord r := by
  obtain ⟨hse, he⟩ := recursiveBuild_range E self fuel info s e tn ord r h
  have hdec : info = info.take s ++ slice info s e ++ info.drop e := by
    unfold slice
    have h1 : info.drop e = (info.drop s).drop (e - s) := by
      rw [List.drop_drop]
      congr 1
      omega
    rw [h1, List.append_assoc, List.take_append_drop, List.take_append_drop]
  have hl1 : (info.take s).length = s := by
    simp
    omega
  have hl2 : (info.take s).length + (slice info s e).length = e := by
    rw [hl1, slice_length _ _ _ he]
    omega
  apply recursiveBuild_spec E self wb fuel
  rw [← hdec, hl2, hl1]
  exact h

/-- C6. Every leaf produced by `recursiveBuild`, and every leaf produced by `emitLBVH` in
`HLBVHBuild`, has as bounds the union of the world bounds of exactly the primitives stored
in `orderedPrims[firstPrimOffset .. firstPrimOffset + nPrimitives)`; hence the bounds of the
leaf that holds a primitive contain the world bounds of the primitive, and every slot of
`orderedPrims` lies in a leaf. Here `primitiveInfo` is as `Build` makes it: entry `i` has
the number `i` and the world bounds of `primitives[i]`. -/
theorem leaf_bounds_cover_primitives {α : Type} [Inhabited α] (E : Env) (self : BVHAccel α)
    (wb : α → Bounds3f) (fuel : Nat) (primitiveInfo : List BVHPrimitiveInfo)
    (hnum : primitiveInfo.map (fun pi => pi.primitiveNumber) =
      List.range self.primitives.length)
    (hwb : ∀ (i : Nat) (p : α) (pi : BVHPrimitiveInfo), self.primitives[i]? = some p →
      primitiveInfo[i]? = some pi → wb p = pi.bounds) :
    (∀ r, recursiveBuild E self fuel primitiveInfo 0 self.primitives.length 0 [] = some r →
      LeavesBound wb self.primitives.length r.orderedPrims r.node) ∧
    (∀ root total ordered,
      HLBVHBuild E self fuel primitiveInfo [] = some (root, total, ordered) →
      LeavesBound wb self.primitives.length ordered root) := by
  have hlen : primitiveInfo.length = self.primitives.length := by
    have := congrArg List.length hnum
    simpa using this
  constructor
  · intro r hr
    have hP := recursiveBuild_spec E self wb fuel [] primitiveInfo [] 0 [] r
      (by simpa [hlen] using hr)
    have hwb' : ∀ pi ∈ primitiveInfo, ∀ p, self.primitives[pi.primitiveNumber]? = some p →
        wb p = pi.bounds := by
      intro pi hpi p hp
      obtain ⟨j, hj⟩ := List.mem_iff_getElem?.mp hpi
      have hjn : pi.primitiveNumber = j := by
        have h1 : (primitiveInfo.map (fun pi => pi.primitiveNumber))[j]? =
            some pi.primitiveNumber := by
          simp [hj]
        rw [hnum] at h1
        have hjlt : j < self.primitives.length := by
          by_contra hc
          rw [List.getElem?_eq_none (by simpa using hc)] at h1
          cases h1
        rw [List.getElem?_range hjlt] at h1
        simp only [Option.some.injEq] at h1
        exact h1.symm
      rw [hjn] at hp
      exact hwb j p pi hp hj
    have hb := LeafBoundsOK_perm wb _ (leavesIn_perm E.argsLeftToRight r.node).symm
      (hP.bounds hwb')
    have hc := hP.chain
    simp only [List.length_nil, Nat.zero_add, hlen] at hc
    have hslots : (leafSlots r.node.leaves).Perm (List.range self.primitives.length) := by
      have h1 := leafSlots_of_consecutive hc
      have h2 := leafSlots_perm (leavesIn_perm E.argsLeftToRight r.node)
      rw [h1] at h2
      rw [List.range_eq_range']
      exact h2.symm
    exact ⟨hb, LeafCovers_of_bounds wb _ _ hb, fun i hi => slot_in_leaf _ _ i hslots hi⟩
  · intro root total ordered hr
    obtain ⟨_, _, _, _, h5, h6⟩ :=
      HLBVHBuild_spec E self wb fuel primitiveInfo root total ordered hnum hr
    exact ⟨h6 hwb, LeafCovers_of_bounds wb _ _ (h6 hwb), fun i hi => slot_in_leaf _ _ i h5 hi⟩

theorem sample_worldBound : ∀ (i : Nat) (p : Nat) (pi : BVHPrimitiveInfo),
    (sampleAccel SplitMethod.HLBVH).primitives[i]? = some p → sampleInfo[i]? = some pi →
      sampleWorldBound p = pi.bounds := by
  intro i p pi hp hpi
  match i with
  | 0 =>
    simp only [sampleAccel, sampleInfo, List.getElem?_cons_zero, Option.some.injEq] at hp hpi
    subst hp hpi
    rfl
  | 1 =>
    simp only [sampleAccel, sampleInfo, List.getElem?_cons_succ, List.getElem?_cons_zero,
      Option.some.injEq] at hp hpi
    subst hp hpi
    rfl
  | i + 2 =>
    simp [sampleAccel] at hp

/-- A run of C6 on two unit cubes: both builds return, and their leaves bound the
primitives. -/
theorem leaf_bounds_cover_primitives_witness :
    (∃ r, recursiveBuild (sampleEnv true) (sampleAccel SplitMethod.HLBVH) 2 sampleInfo 0
        (sampleAccel SplitMethod.HLBVH).primitives.length 0 [] = some r ∧
      LeavesBound sampleWorldBound (sampleAccel SplitMethod.HLBVH).primitives.length
        r.orderedPrims r.node) ∧
    (∃ root total ordered,
      HLBVHBuild (sampleEnv true) (sampleAccel SplitMethod.HLBVH) 2 sampleInfo [] =
        some (root, total, ordered) ∧
      LeavesBound sampleWorldBound (sampleAccel SplitMethod.HLBVH).primitives.length
        ordered root) := by
  have h := leaf_bounds_cover_primitives (sampleEnv true) (sampleAccel SplitMethod.HLBVH)
    sampleWorldBound 2 sampleInfo sample_numbers sample_worldBound
  constructor
  · obtain ⟨r, hr, _⟩ := recursiveBuild_whole (sampleEnv true) (sampleAccel SplitMethod.HLBVH)
      sampleWorldBound sampleInfo 2 (by decide) (by decide) sampleInfo_finite (by decide)
    exact ⟨r, hr, h.1 r hr⟩
  · obtain ⟨⟨root, total, ordered⟩, hr⟩ := Option.isSome_iff_exists.mp sample_HLBVHBuild_returns
    exact ⟨root, total, ordered, hr, h.2 root total ordered hr⟩
/-- C7. Every tree returned by `recursiveBuild`, by `emitLBVH` (called on at least one
primitive with room for its slots in `orderedPrims`), or by `buildUpperSAH` (called on
build trees) is a build tree: each interior node has `nPrimitives = 0` and bounds equal to
the union of the bounds of its two children, so that its bounds contain the bounds of each
child, and each leaf has both children null. -/
theorem build_tree_structure {α : Type} (E : Env) (self : BVHAccel α) :
    (∀ fuel info start end_ totalNodes orderedPrims r,
      recursiveBuild E self fuel info start end_ totalNodes orderedPrims = some r →
      r.node.Invariant ∧ r.node.Nested) ∧
    (∀ arena info fuel mortonPrims nPrimitives bitIndex st node st1,
      1 ≤ nPrimitives → st.orderedPrimsOffset + nPrimitives ≤ st.orderedPrims.length →
      emitLBVH E self arena info fuel mortonPrims nPrimitives bitIndex st = some (node, st1) →
      node.Invariant ∧ node.Nested) ∧
    (∀ fuel treeletRoots start end_ totalNodes node roots1 total1,
      start < end_ → (∀ t ∈ slice treeletRoots start end_, t.Invariant) →
      buildUpperSAH E fuel treeletRoots start end_ totalNodes = some (node, roots1, total1) →
      node.Invariant ∧ node.Nested) := by
  refine ⟨?_, ?_, ?_⟩
  · intro fuel info s e tn ord r h
    have hP := recursiveBuild_post E self (fun _ => Bounds3f.new) fuel info s e tn ord r h
    exact ⟨hP.inv, Invariant_nested _ hP.inv⟩
  · intro arena info fuel mp n bitIndex st node st1 hn hroom h
    obtain ⟨pre, mid, post, hdec, hpre, hmid, _⟩ :=
      split3 st.orderedPrims st.orderedPrimsOffset (st.orderedPrimsOffset + n) (by omega) hroom
    have hP := emitLBVH_spec E self (fun _ => Bounds3f.new) arena info fuel mp n bitIndex st
      node st1 pre mid post hdec hpre (by omega) hn h
    exact ⟨hP.inv, Invariant_nested _ hP.inv⟩
  · intro fuel roots s e tn node roots1 total1 hse hinv h
    have he : e ≤ roots.length := by
      cases fuel with
      | zero => simp [buildUpperSAH] at h
      | succ fuel =>
        rw [buildUpperSAH] at h
        split at h
        · cases h
        · split at h
          · cases h
          · omega
    obtain ⟨pre, mid, post, hdec, hpre, hmid, hsum⟩ := split3 roots s e (by omega) he
    have hsl : slice roots s e = mid := by
      rw [hdec, ← hpre, ← hsum]
      exact slice_append3 pre mid post
    rw [hsl] at hinv
    rw [hdec, ← hpre, ← hsum] at h
    obtain ⟨_, h2, _, _⟩ := buildUpperSAH_spec E fuel pre mid post tn node roots1 total1 hinv h
    exact ⟨h2, Invariant_nested _ h2⟩

/-- C10. Whenever the build of `Build` returns, for every split method, the counter
`totalNodes` equals the number of nodes of the tree returned; a call of `flattenBVHTree` on
that tree and an array of `totalNodes` nodes that returns therefore ends with
`offset == totalNodes`, and the final assertion of `Build` holds. -/
theorem totalNodes_eq_number_of_nodes (E : Env) (self : BVHAccel ShapePtr) (fuel : Nat)
    (hret : (buildTree E self fuel).isSome = true) :
    ∃ root totalNodes orderedPrims,
      buildTree E self fuel = some (root, totalNodes, orderedPrims) ∧
      totalNodes = root.numNodes ∧
      ∀ my nodes offset,
        flattenBVHTree E root (List.replicate totalNodes ⟨Bounds3f.new, 0, 0, 0⟩) 0 =
          some (my, nodes, offset) →
        offset = totalNodes ∧ MIN_ASSERT E (decide (totalNodes = offset)) = some () := by
  obtain ⟨⟨root, total, ordered⟩, hr⟩ := Option.isSome_iff_exists.mp hret
  obtain ⟨h1, h2, _⟩ := buildTree_spec E self fuel root total ordered hr
  refine ⟨root, total, ordered, hr, h2, ?_⟩
  intro my nodes off hf
  obtain ⟨_, h4, _⟩ := flattenBVHTree_spec E root _ 0 my nodes off h1 hf
  have : off = total := by omega
  exact ⟨this, MIN_ASSERT_of_true E _ (by simp [this])⟩

set_option maxRecDepth 100000 in
unseal Rat.add Rat.mul Rat.inv Rat.sub in
theorem sample_buildTree_returns :
    (buildTree (sampleEnv true) (sampleScene SplitMethod.HLBVH) 2).isSome = true := by
  decide

/-- A run of C10 on the two sample shapes with the HLBVH method. -/
theorem totalNodes_eq_number_of_nodes_witness :
    (buildTree (sampleEnv true) (sampleScene SplitMethod.HLBVH) 2).isSome = true ∧
    ∃ root totalNodes orderedPrims,
      buildTree (sampleEnv true) (sampleScene SplitMethod.HLBVH) 2 =
        some (root, totalNodes, orderedPrims) ∧
      totalNodes = root.numNodes ∧
      ∀ my nodes offset,
        flattenBVHTree (sampleEnv true) root
            (List.replicate totalNodes ⟨Bounds3f.new, 0, 0, 0⟩) 0 = some (my, nodes, offset) →
        offset = totalNodes ∧
          MIN_ASSERT (sampleEnv true) (decide (totalNodes = offset)) = some () :=
  ⟨sample_buildTree_returns,
    totalNodes_eq_number_of_nodes (sampleEnv true) (sampleScene SplitMethod.HLBVH) 2
      sample_buildTree_returns⟩

set_option maxRecDepth 100000 in
unseal Rat.add Rat.mul Rat.inv Rat.sub in
theorem sample_builds_return :
    (recursiveBuild (sampleEnv true) (sampleAccel SplitMethod.SAH) 2 sampleInfo 0 2 0
      []).isSome = true ∧
    (emitLBVH sampleEnvRelease sampleAccelOne 4 sampleInfo 3 sampleMortonPrims 2 29
      ⟨0, 0, [0, 0], 0⟩).isSome = true ∧
    (buildUpperSAH (sampleEnv true) 2 sampleRoots 0 2 0).isSome = true := by
  decide

theorem sampleRoots_invariant : ∀ t ∈ slice sampleRoots 0 2, t.Invariant := by
  intro t ht
  simp only [sampleRoots, slice, List.drop_zero, List.take, List.mem_cons,
    List.mem_singleton, List.not_mem_nil, or_false] at ht
  rcases ht with rfl | rfl <;> simp [BVHBuildNode.InitLeaf, BVHBuildNode.Invariant]

/-- A run of C7: `recursiveBuild` on the two sample boxes, `emitLBVH` on two primitives
whose Morton codes differ in bit 29 with `maxPrimsInNode = 2` and assertions compiled
out, and `buildUpperSAH` on two
leaves. -/
theorem build_tree_structure_witness :
    (∃ r, recursiveBuild (sampleEnv true) (sampleAccel SplitMethod.SAH) 2 sampleInfo 0 2 0 []
        = some r ∧ r.node.Invariant ∧ r.node.Nested) ∧
    (∃ node st1, emitLBVH sampleEnvRelease sampleAccelOne 4 sampleInfo 3 sampleMortonPrims 2
        29 ⟨0, 0, [0, 0], 0⟩ = some (node, st1) ∧ node.Invariant ∧ node.Nested) ∧
    (∃ node roots1 total1, buildUpperSAH (sampleEnv true) 2 sampleRoots 0 2 0 =
        some (node, roots1, total1) ∧ node.Invariant ∧ node.Nested) := by
  refine ⟨?_, ?_, ?_⟩
  · obtain ⟨r, hr⟩ := Option.isSome_iff_exists.mp sample_builds_return.1
    exact ⟨r, hr,
      (build_tree_structure (sampleEnv true) (sampleAccel SplitMethod.SAH)).1 _ _ _ _ _ _ r hr⟩
  · obtain ⟨⟨node, st1⟩, hr⟩ := Option.isSome_iff_exists.mp sample_builds_return.2.1
    exact ⟨node, st1, hr,
      (build_tree_structure sampleEnvRelease sampleAccelOne).2.1 _ _ _ _ _ _ _ node st1
        (by decide) (by decide) hr⟩
  · obtain ⟨⟨node, roots1, total1⟩, hr⟩ := Option.isSome_iff_exists.mp sample_builds_return.2.2
    exact ⟨node, roots1, total1, hr,
      (build_tree_structure (sampleEnv true) sampleAccelOne).2.2 _ _ _ _ _ node roots1 total1
        (by decide) sampleRoots_invariant hr⟩

theorem primitiveInfoOf_coincident (box : Bounds3f) (prims : List ShapePtr)
    (hbox : ∀ p ∈ prims, ∃ s, p = some s ∧ s.WorldBound = box) (i : Nat) :
    primitiveInfoOf prims i =
      some ((List.range' i prims.length).map (fun j => BVHPrimitiveInfo.create j box)) := by
  induction prims generalizing i with
  | nil => rfl
  | cons p rest ih =>
    obtain ⟨s, rfl, hs⟩ := hbox p (List.mem_cons_self _ _)
    simp only [primitiveInfoOf, ih (fun q hq => hbox q (List.mem_cons_of_mem _ hq)) (i + 1),
      List.length_cons, List.range'_succ, List.map_cons, hs]

theorem foldl_Union_const (box : Bounds3f) (l : List BVHPrimitiveInfo)
    (h : ∀ pi ∈ l, pi.bounds = box) (b : Bounds3f) :
    l.foldl (fun acc pi => Union acc pi.bounds) (Union b box) = Union b box := by
  induction l with
  | nil => rfl
  | cons x xs ih =>
    simp only [List.foldl_cons, h x (List.mem_cons_self _ _)]
    have : Union (Union b box) box = Union b box := by
      simp [Union, Min, Max, min_assoc, max_assoc]
    rw [this]
    exact ih (fun q hq => h q (List.mem_cons_of_mem _ hq))

theorem boundsOf_coincident (box : Bounds3f) (l : List BVHPrimitiveInfo) (hne : l ≠ [])
    (h : ∀ pi ∈ l, pi.bounds = box) : boundsOf l = Union Bounds3f.new box := by
  cases l with
  | nil => exact absurd rfl hne
  | cons x xs =>
    simp only [boundsOf, List.foldl_cons, h x (List.mem_cons_self _ _)]
    exact foldl_Union_const box xs (fun q hq => h q (List.mem_cons_of_mem _ hq)) _

theorem pushPrims_in_order {α : Type} (primitives : List α) (l : List BVHPrimitiveInfo)
    (h : l.map (fun pi => pi.primitiveNumber) = List.range primitives.length) :
    pushPrims primitives l [] = some primitives := by
  have hidx : ∀ pi ∈ l, pi.primitiveNumber < primitives.length := by
    intro pi hpi
    have : pi.primitiveNumber ∈ l.map (fun pi => pi.primitiveNumber) :=
      List.mem_map_of_mem _ hpi
    rw [h] at this
    exact List.mem_range.mp this
  obtain ⟨ord1, h1⟩ := pushPrims_total primitives l [] hidx
  obtain ⟨L, hL, hmap⟩ := pushPrims_spec primitives l [] ord1 h1
  rw [lookup_by_number, h, range_map_getElem?] at hmap
  have : L = primitives := List.map_injective_iff.mpr (Option.some_injective α) hmap
  rw [h1, hL, this, List.nil_append]

/-- Where all the centroids of the range coincide, `recursiveBuild` makes one leaf of the
whole range, whatever the split method and `maxPrimsInNode`. -/
theorem recursiveBuild_coincident {α : Type} (E : Env) (self : BVHAccel α) (fuel : Nat)
    (info : List BVHPrimitiveInfo) (c : Point3f) (tn : Nat) (ord : List α)
    (hne : info ≠ []) (hc : ∀ pi ∈ info, pi.centroid = c) (hfin : c.IsFinite) :
    recursiveBuild E self (fuel + 1) info 0 info.length tn ord =
      makeLeaf self.primitives info 0 info.length (tn + 1) ord (boundsOf info) := by
  have hlen : 0 < info.length := List.length_pos.mpr hne
  have hsl : slice info 0 info.length = info := by simp [slice]
  rw [recursiveBuild, hsl]
  rw [if_neg (by omega)]
  simp only [Nat.sub_zero]
  split
  · rfl
  · have hfinAll : ∀ pi ∈ info, pi.centroid.IsFinite := fun pi hpi => by
      rw [hc pi hpi]; exact hfin
    have key : ∀ i, (centroidBoundsOf info).pmax.get i = (centroidBoundsOf info).pmin.get i := by
      intro i
      obtain ⟨_, h2⟩ := centroidBoundsOf_spec i info
      obtain ⟨⟨p, hp, e1⟩, ⟨q, hq, e2⟩⟩ := h2 hne hfinAll
      rw [← e1, ← e2, hc p hp, hc q hq]
    rw [if_pos (key _)]

theorem buildTree_coincident (E : Env) (self : BVHAccel ShapePtr) (box : Bounds3f) (fuel : Nat)
    (hne : self.primitives ≠ []) (hm : self.splitMethod ≠ SplitMethod.HLBVH)
    (hbox : ∀ p ∈ self.primitives, ∃ s, p = some s ∧ s.WorldBound = box)
    (hfin : (BVHPrimitiveInfo.create 0 box).centroid.IsFinite) :
    buildTree E self (fuel + 1) =
      some (BVHBuildNode.InitLeaf 0 self.primitives.length (Union Bounds3f.new box), 1,
        self.primitives) := by
  have hinfo := primitiveInfoOf_coincident box self.primitives hbox 0
  have hN : 0 < self.primitives.length := List.length_pos.mpr hne
  have hnum : ((List.range' 0 self.primitives.length).map
      (fun j => BVHPrimitiveInfo.create j box)).map (fun pi => pi.primitiveNumber) =
      List.range self.primitives.length := by
    rw [List.map_map, List.range_eq_range']
    exact List.map_id _
  have hall : ∀ pi ∈ (List.range' 0 self.primitives.length).map
      (fun j => BVHPrimitiveInfo.create j box),
      pi.centroid = (BVHPrimitiveInfo.create 0 box).centroid ∧ pi.bounds = box := by
    intro pi hpi
    rw [List.mem_map] at hpi
    obtain ⟨j, _, rfl⟩ := hpi
    exact ⟨rfl, rfl⟩
  generalize (List.range' 0 self.primitives.length).map
      (fun j => BVHPrimitiveInfo.create j box) = info at hinfo hnum hall
  have hlen : info.length = self.primitives.length := by
    have := congrArg List.length hnum
    simpa using this
  have hne1 : info ≠ [] := by
    intro h
    rw [h] at hlen
    simp at hlen
    omega
  have hrb := recursiveBuild_coincident E self fuel info (BVHPrimitiveInfo.create 0 box).centroid
    0 [] hne1 (fun pi hpi => (hall pi hpi).1) hfin
  rw [hlen] at hrb
  have hsl : slice info 0 self.primitives.length = info := by
    unfold slice
    rw [List.drop_zero, Nat.sub_zero, List.take_of_length_le (le_of_eq hlen)]
  unfold buildTree
  rw [hinfo]
  simp only [if_neg hm, hrb]
  unfold makeLeaf
  rw [hsl, pushPrims_in_order _ _ hnum,
    boundsOf_coincident box _ hne1 (fun pi hpi => (hall pi hpi).2)]
  simp
theorem unitBox_facts :
    Union Bounds3f.new unitBox = unitBox ∧
    (BVHPrimitiveInfo.create 0 unitBox).centroid.IsFinite := by
  constructor
  · simp only [Union, Min, Max, Bounds3f.new, unitBox, max_num, min_num]
    norm_num
  · norm_num [BVHPrimitiveInfo.create, Vector3f.IsFinite, FiniteFloat, Vector3f.smul,
      Vector3f.add, max_num, min_num, unitBox]

theorem flatten_big_leaf (E : Env) (hE : E.assertAborts = true) :
      flattenBVHTree E (BVHBuildNode.InitLeaf 0 65536 unitBox)
        (List.replicate 1 ⟨Bounds3f.new, 0, 0, 0⟩) 0 = none := by
  unfold BVHBuildNode.InitLeaf
  rw [flattenBVHTree]
  have h1 : (List.replicate 1 (⟨Bounds3f.new, 0, 0, 0⟩ : LinearBVHNode))[0]? = some ⟨Bounds3f.new, 0, 0, 0⟩ := rfl
  rw [h1]
  simp only
  have h2 : MIN_ASSERT E (decide ((65536 : Nat) < 65536)) = none := by
    simp [MIN_ASSERT, hE]
  rw [h2]
  simp

theorem flatten_big_leaf_release (E : Env) (hE : E.assertAborts = false) :
      flattenBVHTree E (BVHBuildNode.InitLeaf 0 65536 unitBox)
        (List.replicate 1 ⟨Bounds3f.new, 0, 0, 0⟩) 0 = some (0, [⟨unitBox, 0, 0, 0⟩], 1) := by
  unfold BVHBuildNode.InitLeaf
  rw [flattenBVHTree]
  have h1 : (List.replicate 1 (⟨Bounds3f.new, 0, 0, 0⟩ : LinearBVHNode))[0]? = some ⟨Bounds3f.new, 0, 0, 0⟩ := rfl
  rw [h1]
  simp only
  rw [MIN_ASSERT_of_skipped E _ hE, MIN_ASSERT_of_skipped E _ hE]
  simp

theorem buildTree_zero_fuel (E : Env) (self : BVHAccel ShapePtr)
    (hm : self.splitMethod ≠ SplitMethod.HLBVH) : buildTree E self 0 = none := by
  unfold buildTree
  split
  · rfl
  · rw [if_neg hm]
    simp [recursiveBuild]

theorem isEmpty_of_ne_nil {α : Type} (l : List α) (h : l ≠ []) : l.isEmpty = false := by
  cases l with
  | nil => exact absurd rfl h
  | cons _ _ => rfl

theorem coincidentScene_facts :
    (coincidentScene SplitMethod.SAH).primitives.length = 65536 ∧
    (coincidentScene SplitMethod.SAH).primitives ≠ [] ∧
    (coincidentScene SplitMethod.SAH).splitMethod ≠ SplitMethod.HLBVH := by
  have hl : (coincidentScene SplitMethod.SAH).primitives.length = 65536 :=
    List.length_replicate _ _
  refine ⟨hl, ?_, ?_⟩
  · intro h
    rw [h] at hl
    exact absurd hl (by decide)
  · intro h
    cases h

theorem coincidentScene_buildTree (E : Env) (fuel : Nat) :
    buildTree E (coincidentScene SplitMethod.SAH) (fuel + 1) =
      some (BVHBuildNode.InitLeaf 0 65536 unitBox, 1,
        (coincidentScene SplitMethod.SAH).primitives) := by
  have h := buildTree_coincident E (coincidentScene SplitMethod.SAH) unitBox fuel
    coincidentScene_facts.2.1 coincidentScene_facts.2.2
    (fun p hp => ⟨_, List.eq_of_mem_replicate hp, rfl⟩)
    unitBox_facts.2
  rw [unitBox_facts.1, coincidentScene_facts.1] at h
  exact h

/-- C9 fails on 65536 shapes that have the unit cube as world bound (split method SAH,
`maxPrimsInNode = 4`): the centroids coincide, so `recursiveBuild` makes one leaf of 65536
primitives. Where assertions abort, `MIN_ASSERT(node->nPrimitives < 65536)` fires and
`Build` has no result; where they are compiled out, the node stored for that leaf has
`nPrimitives == 0` in its 16-bit field, which is how interior nodes are told. -/
theorem Build_leaf_count_overflow :
    (∀ (E : Env) (fuel : Nat), buildTree E (coincidentScene SplitMethod.SAH) (fuel + 1) =
      some (BVHBuildNode.InitLeaf 0 65536 unitBox, 1,
        (coincidentScene SplitMethod.SAH).primitives)) ∧
    (∀ (E : Env), E.assertAborts = true →
      flattenBVHTree E (BVHBuildNode.InitLeaf 0 65536 unitBox)
        (List.replicate 1 ⟨Bounds3f.new, 0, 0, 0⟩) 0 = none) ∧
    (∀ (E : Env) (fuel : Nat), E.assertAborts = true →
      BVHAccel.Build E (coincidentScene SplitMethod.SAH) fuel = none) ∧
    (∀ (E : Env) (fuel : Nat), E.assertAborts = false →
      ∃ accel, BVHAccel.Build E (coincidentScene SplitMethod.SAH) (fuel + 1) = some accel ∧
        accel.nodes = some [⟨unitBox, 0, 0, 0⟩]) := by
  have hemp := isEmpty_of_ne_nil _ coincidentScene_facts.2.1
  refine ⟨coincidentScene_buildTree, flatten_big_leaf, ?_, ?_⟩
  · intro E fuel hE
    unfold BVHAccel.Build
    rw [hemp]
    cases fuel with
    | zero =>
      rw [buildTree_zero_fuel E _ coincidentScene_facts.2.2]
      rfl
    | succ fuel =>
      rw [coincidentScene_buildTree]
      simp only [Bool.false_eq_true, if_false, flatten_big_leaf E hE]
  · intro E fuel hE
    unfold BVHAccel.Build
    rw [hemp, coincidentScene_buildTree]
    simp only [Bool.false_eq_true, if_false, flatten_big_leaf_release E hE,
      MIN_ASSERT_of_skipped E _ hE]
    exact ⟨_, rfl, rfl⟩

theorem flatten_leaf_release (E : Env) (hE : E.assertAborts = false) (n : Nat) (b : Bounds3f)
    (hn : 0 < n) :
    flattenBVHTree E (BVHBuildNode.InitLeaf 0 n b) (List.replicate 1 ⟨Bounds3f.new, 0, 0, 0⟩) 0 =
      some (0, [⟨b, 0, n % 2 ^ 16, 0⟩], 1) := by
  unfold BVHBuildNode.InitLeaf
  rw [flattenBVHTree]
  have h1 : (List.replicate 1 (⟨Bounds3f.new, 0, 0, 0⟩ : LinearBVHNode))[0]? =
      some ⟨Bounds3f.new, 0, 0, 0⟩ := rfl
  rw [h1]
  simp only
  rw [MIN_ASSERT_of_skipped E _ hE, MIN_ASSERT_of_skipped E _ hE, if_pos hn]
  rfl

theorem shadowScene_facts :
    shadowScene.primitives.length = 65537 ∧
    shadowScene.primitives ≠ [] ∧
    shadowScene.splitMethod ≠ SplitMethod.HLBVH ∧
    shadowScene.primitives[0]? = some (some (sampleShape unitBox 200)) ∧
    (∀ p ∈ shadowScene.primitives, ∃ s, p = some s ∧ s.WorldBound = unitBox) := by
  have hl : shadowScene.primitives.length = 65537 := by
    show (List.replicate 65536 _ ++ [_]).length = 65537
    rw [List.length_append, List.length_replicate]
    rfl
  refine ⟨hl, ?_, ?_, ?_, ?_⟩
  · intro h
    rw [h] at hl
    exact absurd hl (by decide)
  · intro h
    cases h
  · show (List.replicate 65536 _ ++ [_])[0]? = _
    rw [List.getElem?_append_left (by rw [List.length_replicate]; decide),
      List.getElem?_replicate, if_pos (by decide)]
  · intro p hp
    rcases List.mem_append.mp hp with h | h
    · exact ⟨_, List.eq_of_mem_replicate h, rfl⟩
    · exact ⟨_, List.mem_singleton.mp h, rfl⟩

unseal Rat.add Rat.mul Rat.inv Rat.sub in
theorem sampleRay_facts :
    unitBox.IntersectP sampleRay ⟨1 / sampleRay.d.x, 1 / sampleRay.d.y, 1 / sampleRay.d.z⟩
      (fun i => b2n (decide (Vector3f.get
        ⟨1 / sampleRay.d.x, 1 / sampleRay.d.y, 1 / sampleRay.d.z⟩ i < 0))) = true ∧
    (sampleShape unitBox 200).IntersectP sampleRay = false ∧
    (sampleShape unitBox (3 / 2)).IntersectP sampleRay = true ∧
    (0 : Float) < 3 / 2 ∧ (3 / 2 : Float) < sampleRay.tmax ∧
    Inside (sampleRay.point (3 / 2)) unitBox = true ∧
    sampleRay.d.x ≠ 0 ∧ sampleRay.d.y ≠ 0 ∧ sampleRay.d.z ≠ 0 := by
  decide

/-- On a node array that is one leaf with `nPrimitives = 1`, `IntersectP` tests the first
shape only. -/
theorem IntersectP_leaf_of_one (prims : List ShapePtr) (maxPrims : Int) (m : SplitMethod)
    (b : Bounds3f) (ray : Ray) (s : Shape) (fuel : Nat)
    (hp0 : prims[0]? = some (some s)) (hs : s.IntersectP ray = false)
    (hslab : b.IntersectP ray ⟨1 / ray.d.x, 1 / ray.d.y, 1 / ray.d.z⟩
      (fun i => b2n (decide (Vector3f.get ⟨1 / ray.d.x, 1 / ray.d.y, 1 / ray.d.z⟩ i < 0))) = true) :
    BVHAccel.IntersectP ⟨prims, maxPrims, m, some [⟨b, 0, 1, 0⟩]⟩ (fuel + 1) ray = some false := by
  simp only [BVHAccel.IntersectP]
  rw [intersectPLoop]
  simp only [List.getElem?_cons_zero, hslab, if_true]
  rw [if_pos (by decide)]
  simp only [intersectPLeaf, hp0, hs, Bool.false_eq_true, if_false, if_true]

/-- C2 fails on 65537 shapes with the unit cube as world bound, of which the ray meets only
the last (at `t = 3/2`, inside the world bound): the centroids coincide, so the tree is one
leaf of 65537 primitives, of height 0. Built without assertions, its node stores
`65537 mod 65536 = 1` in the 16-bit field, `IntersectP` tests the first shape only and
returns false, although `Shape::IntersectP` is true for the last shape. Where assertions
abort, `Build` has no result. -/
theorem IntersectP_misses_shape_beyond_65536 :
    (∀ s, some s ∈ shadowScene.primitives → s.IntersectP sampleRay = true →
      ∃ t, 0 < t ∧ t < sampleRay.tmax ∧ Inside (sampleRay.point t) s.WorldBound = true) ∧
    (sampleRay.d.x ≠ 0 ∧ sampleRay.d.y ≠ 0 ∧ sampleRay.d.z ≠ 0) ∧
    (∃ s, some s ∈ shadowScene.primitives ∧ s.IntersectP sampleRay = true) ∧
    (∀ (E : Env) (fuel : Nat), ∃ root ordered,
      buildTree E shadowScene (fuel + 1) = some (root, 1, ordered) ∧ root.height = 0) ∧
    (∀ (E : Env) (fuel : Nat), E.assertAborts = false →
      ∃ accel, BVHAccel.Build E shadowScene (fuel + 1) = some accel ∧
        ∀ fuel1, accel.IntersectP (fuel1 + 1) sampleRay = some false) ∧
    (∀ (E : Env) (fuel : Nat), E.assertAborts = true →
      BVHAccel.Build E shadowScene fuel = none) := by
  obtain ⟨hlen, hne, hm, hp0, hbox⟩ := shadowScene_facts
  obtain ⟨hslab, hmiss, hhit, ht0, ht1, hin, hd⟩ := sampleRay_facts
  have hemp := isEmpty_of_ne_nil _ hne
  have htree : ∀ (E : Env) (fuel : Nat), buildTree E shadowScene (fuel + 1) =
      some (BVHBuildNode.InitLeaf 0 65537 unitBox, 1, shadowScene.primitives) := by
    intro E fuel
    have h := buildTree_coincident E shadowScene unitBox fuel hne hm hbox unitBox_facts.2
    rw [unitBox_facts.1, hlen] at h
    exact h
  refine ⟨?_, hd, ⟨_, List.mem_append_right _ (List.mem_singleton_self _), hhit⟩, ?_, ?_, ?_⟩
  · intro s hs hP
    rcases List.mem_append.mp hs with h | h
    · have : s = sampleShape unitBox 200 := Option.some.inj (List.eq_of_mem_replicate h)
      rw [this, hmiss] at hP
      cases hP
    · have : s = sampleShape unitBox (3 / 2) := Option.some.inj (List.mem_singleton.mp h)
      rw [this]
      exact ⟨3 / 2, ht0, ht1, hin⟩
  · intro E fuel
    exact ⟨_, _, htree E fuel, by simp [BVHBuildNode.InitLeaf, BVHBuildNode.height]⟩
  · intro E fuel hE
    refine ⟨⟨shadowScene.primitives, 4, SplitMethod.SAH, some [⟨unitBox, 0, 1, 0⟩]⟩, ?_, ?_⟩
    · unfold BVHAccel.Build
      rw [hemp, htree]
      simp only [Bool.false_eq_true, if_false,
        flatten_leaf_release E hE 65537 unitBox (by decide), MIN_ASSERT_of_skipped E _ hE]
      rfl
    · intro fuel1
      exact IntersectP_leaf_of_one shadowScene.primitives 4 SplitMethod.SAH unitBox sampleRay
        (sampleShape unitBox 200) fuel1 hp0 hmiss hslab
  · intro E fuel hE
    unfold BVHAccel.Build
    rw [hemp]
    cases fuel with
    | zero =>
      rw [buildTree_zero_fuel E _ hm]
      rfl
    | succ fuel =>
      rw [htree]
      simp only [Bool.false_eq_true, if_false]
      have : flattenBVHTree E (BVHBuildNode.InitLeaf 0 65537 unitBox)
          (List.replicate 1 ⟨Bounds3f.new, 0, 0, 0⟩) 0 = none := by
        unfold BVHBuildNode.InitLeaf
        rw [flattenBVHTree]
        have h1 : (List.replicate 1 (⟨Bounds3f.new, 0, 0, 0⟩ : LinearBVHNode))[0]? =
            some ⟨Bounds3f.new, 0, 0, 0⟩ := rfl
        rw [h1]
        simp only
        have h2 : MIN_ASSERT E (decide ((65537 : Nat) < 65536)) = none := by
          simp [MIN_ASSERT, hE]
        rw [h2]
        simp
      rw [this]

theorem Gamma_nonneg : 0 ≤ Gamma 3 := by
  norm_num [Gamma]

/-- One axis of the slab test: the entry parameter of a slab that the ray is inside at `t`
is at most `t`, and the exit parameter at least `t`. -/
theorem slab_axis (o d lo hi t : Float) (hd : d ≠ 0) (h1 : lo ≤ o + t * d) (h2 : o + t * d ≤ hi) :
    ((if b2n (decide (1 / d < 0)) = 0 then lo else hi) - o) * (1 / d) ≤ t ∧
    t ≤ ((if 1 - b2n (decide (1 / d < 0)) = 0 then lo else hi) - o) * (1 / d) := by
  rcases lt_or_gt_of_ne hd with hneg | hpos
  · have hinv : 1 / d < 0 := one_div_neg.mpr hneg
    simp only [b2n, hinv, decide_True, if_true]
    norm_num
    constructor
    · rw [← div_eq_mul_inv, div_le_iff_of_neg hneg]
      linarith
    · rw [← div_eq_mul_inv, le_div_iff_of_neg hneg]
      linarith
  · have hinv : ¬ (1 / d < 0) := not_lt.mpr (le_of_lt (one_div_pos.mpr hpos))
    simp only [b2n, hinv, decide_False, if_false]
    norm_num
    constructor
    · rw [← div_eq_mul_inv, div_le_iff₀ hpos]
      linarith
    · rw [← div_eq_mul_inv, le_div_iff₀ hpos]
      linarith
/-- The decision of the slab test on the six entry and exit parameters: where a parameter
`t` in `(0, tmax)` lies between the entry and the exit of every slab, the test succeeds. -/
theorem slab_core (nx fx ny fy nz fz g t T : Float) (hg : 0 ≤ g) (h0 : 0 < t) (h1 : t < T)
    (hnx : nx ≤ t) (hfx : t ≤ fx) (hny : ny ≤ t) (hfy : t ≤ fy) (hnz : nz ≤ t) (hfz : t ≤ fz) :
    (let tMin := nx
     let tMax := fx
     let tyMin := ny
     let tyMax := fy
     let tMax := tMax * (1 + 2 * g)
     let tyMax := tyMax * (1 + 2 * g)
     if tMin > tyMax ∨ tyMin > tMax then false
     else
       let tMin := if tyMin > tMin then tyMin else tMin
       let tMax := if tyMax < tMax then tyMax else tMax
       let tzMin := nz
       let tzMax := fz
       let tzMax := tzMax * (1 + 2 * g)
       if tMin > tzMax ∨ tzMin > tMax then false
       else
         let tMin := if tzMin > tMin then tzMin else tMin
         let tMax := if tzMax < tMax then tzMax else tMax
         decide (tMin < T) && decide (tMax > 0)) = true := by
  have hfx1 : t ≤ fx * (1 + 2 * g) := by nlinarith
  have hfy1 : t ≤ fy * (1 + 2 * g) := by nlinarith
  have hfz1 : t ≤ fz * (1 + 2 * g) := by nlinarith
  simp only []
  split_ifs <;> simp only [Bool.and_eq_true, decide_eq_true_eq, gt_iff_lt] at * <;>
    first
    | (constructor <;> linarith)
    | (exfalso; rcases ‹_ ∨ _› with h | h <;> linarith)

theorem slab_of_inside (b : Bounds3f) (ray : Ray) (t : Float)
    (hd : ray.d.x ≠ 0 ∧ ray.d.y ≠ 0 ∧ ray.d.z ≠ 0) (ht0 : 0 < t) (ht1 : t < ray.tmax)
    (hin : Inside (ray.point t) b = true) :
    b.IntersectP ray ⟨1 / ray.d.x, 1 / ray.d.y, 1 / ray.d.z⟩
      (fun i => b2n (decide (Vector3f.get ⟨1 / ray.d.x, 1 / ray.d.y, 1 / ray.d.z⟩ i < 0))) =
      true := by
  simp only [Inside, Ray.point, Vector3f.add, Vector3f.smul, decide_eq_true_eq, ge_iff_le] at hin
  obtain ⟨x1, x2, y1, y2, z1, z2⟩ := hin
  have hx := slab_axis ray.o.x ray.d.x b.pmin.x b.pmax.x t hd.1 x1 x2
  have hy := slab_axis ray.o.y ray.d.y b.pmin.y b.pmax.y t hd.2.1 y1 y2
  have hz := slab_axis ray.o.z ray.d.z b.pmin.z b.pmax.z t hd.2.2 z1 z2
  have cx : ∀ (c : Prop) [Decidable c], (if c then b.pmin else b.pmax).x =
      if c then b.pmin.x else b.pmax.x := fun c _ => apply_ite Vector3f.x c _ _
  have cy : ∀ (c : Prop) [Decidable c], (if c then b.pmin else b.pmax).y =
      if c then b.pmin.y else b.pmax.y := fun c _ => apply_ite Vector3f.y c _ _
  have cz : ∀ (c : Prop) [Decidable c], (if c then b.pmin else b.pmax).z =
      if c then b.pmin.z else b.pmax.z := fun c _ => apply_ite Vector3f.z c _ _
  exact slab_core _ _ _ _ _ _ (Gamma 3) t ray.tmax Gamma_nonneg ht0 ht1
    (by simpa only [Bounds3f.corner, cx, Vector3f.get, if_true] using hx.1)
    (by simpa only [Bounds3f.corner, cx, Vector3f.get, if_true] using hx.2)
    (by simpa only [Bounds3f.corner, cy, Vector3f.get, if_true, one_ne_zero, if_false] using hy.1)
    (by simpa only [Bounds3f.corner, cy, Vector3f.get, if_true, one_ne_zero, if_false] using hy.2)
    (by simpa [Bounds3f.corner, cz, Vector3f.get] using hz.1)
    (by simpa [Bounds3f.corner, cz, Vector3f.get] using hz.2)

/-- The leaf loop of `Intersect` on the slots `[i, i + n)` folds `hitStep` over the shapes
in these slots. -/
theorem intersectLeaf_spec (primitives : List ShapePtr) (ray : Ray)
    (hnn : ∀ p ∈ primitives, p ≠ none) :
    ∀ (n i : Nat) (tmax : Float) (hit : Bool), i + n ≤ primitives.length →
      intersectLeaf primitives ray n i tmax hit =
        some (((List.range' i n).filterMap (fun j => (primitives[j]?).join)).foldl
          (hitStep ray) (tmax, hit)) := by
  intro n
  induction n with
  | zero =>
    intro i tmax hit _
    rfl
  | succ n ih =>
    intro i tmax hit hle
    have hi : i < primitives.length := by omega
    have hmem : primitives[i] ∈ primitives := List.getElem_mem _
    cases hp : primitives[i] with
    | none => exact absurd hp (hnn _ hmem)
    | some shape =>
      have hget : primitives[i]? = some (some shape) := by
        rw [List.getElem?_eq_getElem hi, hp]
      have hcons : (List.range' i (n + 1)).filterMap (fun j => (primitives[j]?).join) =
          shape :: (List.range' (i + 1) n).filterMap (fun j => (primitives[j]?).join) := by
        rw [List.range'_succ]
        exact List.filterMap_cons_some (by rw [hget]; rfl)
      rw [intersectLeaf, hget, hcons, List.foldl_cons]
      simp only
      cases hI : shape.Intersect { ray with tmax := tmax } with
      | none =>
        have hstep : hitStep ray (tmax, hit) shape = (tmax, hit) := by
          simp only [hitStep, hI]
        rw [hstep]
        exact ih (i + 1) tmax hit (by omega)
      | some t =>
        have hstep : hitStep ray (tmax, hit) shape = (t, true) := by
          simp only [hitStep, hI]
        rw [hstep]
        exact ih (i + 1) t true (by omega)

theorem shapesUnder_leaf (prims : List ShapePtr) (b : Bounds3f) (c0 c1 : BVHBuildNode)
    (ax f n : Nat) (hn : 0 < n) :
    shapesUnder prims (.node b c0 c1 ax f n) =
      (List.range' f n).filterMap (fun j => (prims[j]?).join) := by
  simp [shapesUnder, BVHBuildNode.leaves, BVHBuildNode.leavesIn, leafSlots, hn]

theorem shapesUnder_interior (prims : List ShapePtr) (b : Bounds3f) (c0 c1 : BVHBuildNode)
    (ax f : Nat) :
    shapesUnder prims (.node b c0 c1 ax f 0) = shapesUnder prims c0 ++ shapesUnder prims c1 := by
  simp [shapesUnder, BVHBuildNode.leaves, BVHBuildNode.leavesIn, leafSlots]

theorem leaves_interior (b : Bounds3f) (c0 c1 : BVHBuildNode) (ax f : Nat) :
    (BVHBuildNode.node b c0 c1 ax f 0).leaves = c0.leaves ++ c1.leaves := by
  simp [BVHBuildNode.leaves, BVHBuildNode.leavesIn]

theorem leaves_leaf (b : Bounds3f) (c0 c1 : BVHBuildNode) (ax f n : Nat) (hn : 0 < n) :
    (BVHBuildNode.node b c0 c1 ax f n).leaves = [⟨b, f, n⟩] := by
  simp [BVHBuildNode.leaves, BVHBuildNode.leavesIn, hn]

theorem mem_slots_shape (prims : List ShapePtr) (slots : List Nat) (s : Shape)
    (h : s ∈ slots.filterMap (fun j => (prims[j]?).join)) :
    ∃ j ∈ slots, prims[j]? = some (some s) := by
  rw [List.mem_filterMap] at h
  obtain ⟨j, hj, hjs⟩ := h
  refine ⟨j, hj, ?_⟩
  cases hp : prims[j]? with
  | none => rw [hp] at hjs; cases hjs
  | some p =>
    rw [hp] at hjs
    cases p with
    | none => cases hjs
    | some q =>
      have : q = s := by
        simpa [Option.join] using hjs
      rw [this]

theorem mem_shapesUnder (prims : List ShapePtr) (t : BVHBuildNode) (s : Shape)
    (h : s ∈ shapesUnder prims t) : some s ∈ prims := by
  obtain ⟨j, _, hj⟩ := mem_slots_shape prims _ s h
  exact List.mem_iff_getElem?.mpr ⟨j, hj⟩

theorem Invariant_bounds (t : BVHBuildNode) (h : t.Invariant) :
    ∃ b c0 c1 ax f n, t = .node b c0 c1 ax f n ∧ t.boundsD = b := by
  cases t with
  | null => simp [BVHBuildNode.Invariant] at h
  | node b c0 c1 ax f n => exact ⟨b, c0, c1, ax, f, n, rfl, rfl⟩

/-- The bounds of a build tree contain the world bounds of every shape in the slots of its
leaves. -/
theorem shapesUnder_enclosed (prims : List ShapePtr) (t : BVHBuildNode) :
    t.Invariant → LeafCovers worldBound prims t.leaves →
    ∀ s ∈ shapesUnder prims t, Encloses t.boundsD s.WorldBound := by
  induction t with
  | null =>
    intro h
    simp [BVHBuildNode.Invariant] at h
  | node b c0 c1 ax f n ih0 ih1 =>
    intro hinv hcov s hs
    rw [BVHBuildNode.Invariant] at hinv
    rcases hinv with ⟨hn, _, _⟩ | ⟨hn, h0, h1, hb⟩
    · rw [shapesUnder_leaf prims b c0 c1 ax f n hn] at hs
      obtain ⟨j, hj, hjs⟩ := mem_slots_shape prims _ s hs
      rw [List.mem_range'_1] at hj
      have := hcov ⟨b, f, n⟩ (by rw [leaves_leaf b c0 c1 ax f n hn]; exact List.mem_singleton_self _)
        j hj.1 hj.2 (some s) hjs
      exact this
    · subst hn
      rw [shapesUnder_interior] at hs
      rw [leaves_interior] at hcov
      have hb0 : Encloses b c0.boundsD := by rw [hb]; exact Union_encloses_left _ _
      have hb1 : Encloses b c1.boundsD := by rw [hb]; exact Union_encloses_right _ _
      rcases List.mem_append.mp hs with h | h
      · exact hb0.trans (ih0 h0 (fun l hl => hcov l (List.mem_append_left _ hl)) s h)
      · exact hb1.trans (ih1 h1 (fun l hl => hcov l (List.mem_append_right _ hl)) s h)
theorem buildTree_nonnull (E : Env) (self : BVHAccel ShapePtr) (fuel : Nat)
    (h : (buildTree E self fuel).isSome = true) : ∀ p ∈ self.primitives, p ≠ none := by
  unfold buildTree at h
  split at h
  · cases h
  · rename_i info hinfo
    exact (primitiveInfoOf_spec self.primitives 0 info hinfo).2.2

theorem range_filterMap_join {α : Type} (l : List (Option α)) :
    (List.range l.length).filterMap (fun j => (l[j]?).join) = l.filterMap id := by
  have h := congrArg (List.filterMap Option.join) (range_map_getElem? l)
  rw [List.filterMap_map, List.filterMap_map] at h
  rw [show (fun j => (l[j]?).join) = Option.join ∘ (fun i => l[i]?) from rfl, h]
  congr 1

/-- A build tree has one node less than twice its leaves, and no more leaves than slots. -/
theorem numNodes_le_slots (t : BVHBuildNode) (h : t.Invariant) :
    t.numNodes + 1 = 2 * t.leaves.length ∧ t.leaves.length ≤ (leafSlots t.leaves).length := by
  induction t with
  | null => simp [BVHBuildNode.Invariant] at h
  | node b c0 c1 ax f n ih0 ih1 =>
    rw [BVHBuildNode.Invariant] at h
    rcases h with ⟨hn, h0, h1⟩ | ⟨hn, h0, h1, _⟩
    · subst h0 h1
      rw [leaves_leaf b _ _ ax f n hn]
      simp [BVHBuildNode.numNodes, leafSlots]
      omega
    · subst hn
      obtain ⟨a0, b0⟩ := ih0 h0
      obtain ⟨a1, b1⟩ := ih1 h1
      rw [leaves_interior]
      simp only [BVHBuildNode.numNodes, List.length_append, leafSlots, List.flatMap_append]
      simp only [leafSlots] at b0 b1
      omega
/-- What `Build` has done when it returns on a non-empty list: the build tree it made, the
node array that holds the tree in pre-order, and the reordered primitives. -/
theorem Build_returns (E : Env) (self : BVHAccel ShapePtr) (fuel : Nat) (accel : BVHAccel ShapePtr)
    (hne : self.primitives ≠ []) (h : self.Build E fuel = some accel) :
    ∃ root total ordered nodes, buildTree E self fuel = some (root, total, ordered) ∧
      accel.primitives = ordered ∧ accel.nodes = some nodes ∧ PreOrder nodes 0 root := by
  unfold BVHAccel.Build at h
  rw [isEmpty_of_ne_nil _ hne] at h
  simp only [Bool.false_eq_true, if_false] at h
  split at h
  · cases h
  · rename_i root total ordered hbt
    split at h
    · cases h
    · rename_i my nodes off hfl
      split at h
      · cases h
      · simp only [Option.some.injEq] at h
        subst h
        obtain ⟨hinv, _⟩ := buildTree_spec E self fuel root total ordered hbt
        obtain ⟨_, _, _, _, _, hpre⟩ := flattenBVHTree_spec E root _ 0 my nodes off hinv hfl
        exact ⟨root, total, ordered, nodes, hbt, rfl, rfl, hpre⟩

set_option maxRecDepth 100000 in
unseal Rat.add Rat.mul Rat.inv Rat.sub in
theorem sampleScene_runs :
    (BVHAccel.Build (sampleEnv true) (sampleScene SplitMethod.SAH) 2).isSome = true ∧
    (buildTree (sampleEnv true) (sampleScene SplitMethod.SAH) 2).map (fun r => r.1) =
      some sampleTree ∧
    sampleTree.height ≤ 64 ∧ (∀ l ∈ sampleTree.leaves, l.nPrimitives < 65536) ∧
    (sampleRay.d.x ≠ 0 ∧ sampleRay.d.y ≠ 0 ∧ sampleRay.d.z ≠ 0) ∧
    (0 : Float) < 3 / 2 ∧ (0 : Float) < 7 / 2 ∧
    Inside (sampleRay.point (3 / 2)) ⟨⟨0, 0, 0⟩, ⟨1, 1, 1⟩⟩ = true ∧
    Inside (sampleRay.point (7 / 2)) ⟨⟨2, 0, 0⟩, ⟨3, 1, 1⟩⟩ = true ∧
    (BVHAccel.Build (sampleEnv true) (sampleScene SplitMethod.SAH) 2).bind
      (fun accel => accel.Intersect 4 sampleRay) = some (true, 3 / 2) := by
  decide

/-- The leaf loop of `IntersectP` on the slots `[i, i + n)` tells whether `IntersectP` is
true for one of the shapes in these slots. -/
theorem intersectPLeaf_spec (primitives : List ShapePtr) (ray : Ray)
    (hnn : ∀ p ∈ primitives, p ≠ none) :
    ∀ (n i : Nat), i + n ≤ primitives.length →
      intersectPLeaf primitives ray n i =
        some (((List.range' i n).filterMap (fun j => (primitives[j]?).join)).any
          (fun s => s.IntersectP ray)) := by
  intro n
  induction n with
  | zero =>
    intro i _
    rfl
  | succ n ih =>
    intro i hle
    have hi : i < primitives.length := by omega
    have hmem : primitives[i] ∈ primitives := List.getElem_mem _
    cases hp : primitives[i] with
    | none => exact absurd hp (hnn _ hmem)
    | some shape =>
      have hget : primitives[i]? = some (some shape) := by
        rw [List.getElem?_eq_getElem hi, hp]
      have hcons : (List.range' i (n + 1)).filterMap (fun j => (primitives[j]?).join) =
          shape :: (List.range' (i + 1) n).filterMap (fun j => (primitives[j]?).join) := by
        rw [List.range'_succ]
        exact List.filterMap_cons_some (by rw [hget]; rfl)
      rw [intersectPLeaf, hget, hcons, List.any_cons]
      simp only
      cases hI : shape.IntersectP ray with
      | false =>
        simp only [Bool.false_eq_true, if_false, Bool.false_or]
        exact ih (i + 1) (by omega)
      | true => simp

/-- No shape inside a box that the ray misses below `ray.tmax` reports a hit, where shapes
report hits only inside their world bounds. -/
theorem any_IntersectP_culled (ray : Ray) (L : List Shape) (b : Bounds3f)
    (hd : ray.d.x ≠ 0 ∧ ray.d.y ≠ 0 ∧ ray.d.z ≠ 0)
    (hs : ∀ s ∈ L, s.IntersectP ray = true →
      ∃ t, 0 < t ∧ t < ray.tmax ∧ Inside (ray.point t) s.WorldBound = true)
    (hb : ∀ s ∈ L, Encloses b s.WorldBound)
    (hmiss : b.IntersectP ray ⟨1 / ray.d.x, 1 / ray.d.y, 1 / ray.d.z⟩
      (fun i => b2n (decide (Vector3f.get ⟨1 / ray.d.x, 1 / ray.d.y, 1 / ray.d.z⟩ i < 0))) =
      false) :
    L.any (fun s => s.IntersectP ray) = false := by
  rw [List.any_eq_false]
  intro s hsL hP
  obtain ⟨t, h0, h1, hin⟩ := hs s hsL hP
  have := slab_of_inside b ray t hd h0 h1 (Inside_of_encloses (hb s hsL) hin)
  rw [hmiss] at this
  cases this

/-- The loop of `IntersectP`, started on the root of a subtree laid out in pre-order with
`k` nodes on the stack, returns true where `IntersectP` is true for a shape of the subtree;
otherwise it leaves the stack below `k` as it was and goes on as after a leaf. It takes at
most one iteration per node. -/
theorem intersectPLoop_subtree (nodes : List LinearBVHNode) (prims : List ShapePtr) (ray : Ray)
    (invDir : Vector3f) (dirIsNeg : Nat → Nat)
    (hnn : ∀ p ∈ prims, p ≠ none)
    (hcull : ∀ (b : Bounds3f) (L : List Shape),
      (∀ s ∈ L, some s ∈ prims) → (∀ s ∈ L, Encloses b s.WorldBound) →
      b.IntersectP ray invDir dirIsNeg = false →
      L.any (fun s => s.IntersectP ray) = false) :
    ∀ (t : BVHBuildNode) (i : Nat), t.Invariant → PreOrder nodes i t →
      (∀ l ∈ t.leaves, l.nPrimitives < 65536 ∧
        l.firstPrimOffset + l.nPrimitives ≤ prims.length) →
      LeafCovers worldBound prims t.leaves →
      ∃ c, c ≤ t.numNodes ∧
        ∀ (fuel k : Nat) (stack : List Nat), k + t.height ≤ stack.length →
          ∃ stack1, stack1.length = stack.length ∧ (∀ j, j < k → stack1[j]? = stack[j]?) ∧
            intersectPLoop nodes prims ray invDir dirIsNeg (fuel + c) i k stack =
              if (shapesUnder prims t).any (fun s => s.IntersectP ray) = true then some true
              else resumeP nodes prims ray invDir dirIsNeg fuel k stack1 := by
  intro t
  induction t with
  | null =>
    intro i h
    simp [BVHBuildNode.Invariant] at h
  | node b c0 c1 ax f n ih0 ih1 =>
    intro i hinv hpre hleaf hcov
    have hinv' := hinv
    have henc := shapesUnder_enclosed prims _ hinv' hcov
    have hmem : ∀ s ∈ shapesUnder prims (.node b c0 c1 ax f n), some s ∈ prims :=
      fun s h => mem_shapesUnder prims _ s h
    rw [BVHBuildNode.Invariant] at hinv
    rcases hinv with ⟨hn, _, _⟩ | ⟨hn, hi0, hi1, hb⟩
    · -- a leaf
      rw [PreOrder, if_pos hn] at hpre
      obtain ⟨ln, hln, hlb, hlo, hlp⟩ := hpre
      obtain ⟨hsmall, hroom⟩ := hleaf ⟨b, f, n⟩
        (by rw [leaves_leaf b c0 c1 ax f n hn]; exact List.mem_singleton_self _)
      have hlp1 : ln.nPrimitives = n := by
        rw [hlp]
        exact Nat.mod_eq_of_lt (by norm_num; exact hsmall)
      refine ⟨1, by simp only [BVHBuildNode.numNodes]; omega, ?_⟩
      intro fuel k stack _
      refine ⟨stack, rfl, fun _ _ => rfl, ?_⟩
      rw [intersectPLoop, hln]
      simp only
      rw [hlb]
      by_cases hslab : b.IntersectP ray invDir dirIsNeg = true
      · rw [if_pos hslab, if_pos (by omega : ln.nPrimitives > 0), hlp1, hlo,
          intersectPLeaf_spec prims ray hnn n f hroom,
          shapesUnder_leaf prims b c0 c1 ax f n hn]
        cases ((List.range' f n).filterMap (fun j => (prims[j]?).join)).any
          (fun s => s.IntersectP ray) with
        | true => simp
        | false =>
          simp only [Bool.false_eq_true, if_false]
          rfl
      · rw [if_neg hslab]
        have hfix := hcull b _ hmem henc (by simpa using hslab)
        rw [hfix]
        simp only [Bool.false_eq_true, if_false]
        rfl
    · -- an interior node
      subst hn
      rw [PreOrder, if_neg (by omega)] at hpre
      obtain ⟨⟨ln, hln, hlb, hlp, _, hlo, _⟩, hp0, hp1⟩ := hpre
      rw [leaves_interior] at hleaf hcov
      have hleaf0 := fun l hl => hleaf l (List.mem_append_left _ hl)
      have hleaf1 := fun l hl => hleaf l (List.mem_append_right _ hl)
      have hcov0 : LeafCovers worldBound prims c0.leaves :=
        fun l hl => hcov l (List.mem_append_left _ hl)
      have hcov1 : LeafCovers worldBound prims c1.leaves :=
        fun l hl => hcov l (List.mem_append_right _ hl)
      have hheight : (BVHBuildNode.node b c0 c1 ax f 0).height = 1 + max c0.height c1.height := by
        simp [BVHBuildNode.height]
      obtain ⟨n0, hn0, H0⟩ := ih0 (i + 1) hi0 hp0 hleaf0 hcov0
      obtain ⟨n1, hn1, H1⟩ := ih1 (i + 1 + c0.numNodes) hi1 hp1 hleaf1 hcov1
      rw [shapesUnder_interior, List.any_append]
      by_cases hslab : b.IntersectP ray invDir dirIsNeg = true
      · by_cases hneg : dirIsNeg ln.axis ≠ 0
        · -- the second child first
          cases hany1 : (shapesUnder prims c1).any (fun s => s.IntersectP ray) with
          | true =>
            refine ⟨1 + n1, by simp only [BVHBuildNode.numNodes]; omega, ?_⟩
            intro fuel k stack hk
            rw [hheight] at hk
            have hk0 : k < stack.length := by omega
            obtain ⟨sA, hAlen, hAagree, hA⟩ := H1 fuel (k + 1) (stack.set k (i + 1))
              (by rw [List.length_set]; omega)
            refine ⟨stack, rfl, fun _ _ => rfl, ?_⟩
            have e : fuel + (1 + n1) = fuel + n1 + 1 := by omega
            rw [e, intersectPLoop, hln]
            simp only
            rw [hlb, if_pos hslab, if_neg (by omega : ¬ ln.nPrimitives > 0), if_pos hk0,
              if_pos hneg, hlo, hA, hany1]
            simp
          | false =>
            refine ⟨1 + n1 + n0, by simp only [BVHBuildNode.numNodes]; omega, ?_⟩
            intro fuel k stack hk
            rw [hheight] at hk
            have hk0 : k < stack.length := by omega
            obtain ⟨sA, hAlen, hAagree, hA⟩ := H1 (fuel + n0) (k + 1) (stack.set k (i + 1))
              (by rw [List.length_set]; omega)
            rw [List.length_set] at hAlen
            obtain ⟨sB, hBlen, hBagree, hB⟩ := H0 fuel k sA (by omega)
            refine ⟨sB, by omega, ?_, ?_⟩
            · intro j hj
              rw [hBagree j hj, hAagree j (by omega)]
              exact getElem?_set_ne' _ _ _ _ (by omega)
            · have e : fuel + (1 + n1 + n0) = fuel + n0 + n1 + 1 := by omega
              rw [e, intersectPLoop, hln]
              simp only
              rw [hlb, if_pos hslab, if_neg (by omega : ¬ ln.nPrimitives > 0), if_pos hk0,
                if_pos hneg, hlo, hA, hany1]
              simp only [Bool.false_eq_true, if_false, Bool.or_false]
              unfold resumeP
              rw [if_neg (by omega : ¬ k + 1 = 0)]
              simp only [Nat.add_sub_cancel]
              rw [hAagree k (by omega), getElem?_set_self' _ _ _ hk0]
              simp only
              rw [hB]
              rfl
        · -- the first child first
          cases hany0 : (shapesUnder prims c0).any (fun s => s.IntersectP ray) with
          | true =>
            refine ⟨1 + n0, by simp only [BVHBuildNode.numNodes]; omega, ?_⟩
            intro fuel k stack hk
            rw [hheight] at hk
            have hk0 : k < stack.length := by omega
            obtain ⟨sA, hAlen, hAagree, hA⟩ := H0 fuel (k + 1)
              (stack.set k (i + 1 + c0.numNodes)) (by rw [List.length_set]; omega)
            refine ⟨stack, rfl, fun _ _ => rfl, ?_⟩
            have e : fuel + (1 + n0) = fuel + n0 + 1 := by omega
            rw [e, intersectPLoop, hln]
            simp only
            rw [hlb, if_pos hslab, if_neg (by omega : ¬ ln.nPrimitives > 0), if_pos hk0,
              if_neg hneg, hlo, hA, hany0]
            simp
          | false =>
            refine ⟨1 + n0 + n1, by simp only [BVHBuildNode.numNodes]; omega, ?_⟩
            intro fuel k stack hk
            rw [hheight] at hk
            have hk0 : k < stack.length := by omega
            obtain ⟨sA, hAlen, hAagree, hA⟩ := H0 (fuel + n1) (k + 1)
              (stack.set k (i + 1 + c0.numNodes)) (by rw [List.length_set]; omega)
            rw [List.length_set] at hAlen
            obtain ⟨sB, hBlen, hBagree, hB⟩ := H1 fuel k sA (by omega)
            refine ⟨sB, by omega, ?_, ?_⟩
            · intro j hj
              rw [hBagree j hj, hAagree j (by omega)]
              exact getElem?_set_ne' _ _ _ _ (by omega)
            · have e : fuel + (1 + n0 + n1) = fuel + n1 + n0 + 1 := by omega
              rw [e, intersectPLoop, hln]
              simp only
              rw [hlb, if_pos hslab, if_neg (by omega : ¬ ln.nPrimitives > 0), if_pos hk0,
                if_neg hneg, hlo, hA, hany0]
              simp only [Bool.false_eq_true, if_false, Bool.false_or]
              unfold resumeP
              rw [if_neg (by omega : ¬ k + 1 = 0)]
              simp only [Nat.add_sub_cancel]
              rw [hAagree k (by omega), getElem?_set_self' _ _ _ hk0]
              simp only
              rw [hB]
              rfl
      · -- the ray misses the bounds
        refine ⟨1, by simp only [BVHBuildNode.numNodes]; omega, ?_⟩
        intro fuel k stack _
        refine ⟨stack, rfl, fun _ _ => rfl, ?_⟩
        rw [intersectPLoop, hln]
        simp only
        rw [hlb, if_neg hslab]
        have hfix := hcull b _ hmem henc (by simpa using hslab)
        rw [shapesUnder_interior, List.any_append] at hfix
        rw [hfix]
        simp only [Bool.false_eq_true, if_false]
        rfl
theorem mem_filterMap_id {α : Type} (l : List (Option α)) (a : α) :
    a ∈ l.filterMap id ↔ some a ∈ l := by
  simp [List.mem_filterMap]

/-- Shadow consistency on trees whose leaves hold fewer than 65536 primitives. For every
non-empty list of shapes (each shape's `IntersectP(ray)` is true only if the ray meets the
shape's `WorldBound()` at some `t` in `(0, ray.tmax)`), every split method and every ray
with non-zero direction components: when `Build` returns a tree of height at most 64 whose
leaves hold fewer than 65536 primitives each, `IntersectP` on it returns (within two
iterations per shape), and it returns true if and only if `Shape::IntersectP(ray)` is true
for at least one input shape. -/
theorem IntersectP_iff_some_shape (E : Env) (self : BVHAccel ShapePtr) (fuelB fuel : Nat)
    (ray : Ray)
    (hne : self.primitives ≠ [])
    (hbuilt : (self.Build E fuelB).isSome = true)
    (htree : ∀ root total ordered, buildTree E self fuelB = some (root, total, ordered) →
      root.height ≤ 64 ∧ ∀ l ∈ root.leaves, l.nPrimitives < 65536)
    (hd : ray.d.x ≠ 0 ∧ ray.d.y ≠ 0 ∧ ray.d.z ≠ 0)
    (hs : ∀ s, some s ∈ self.primitives → s.IntersectP ray = true →
      ∃ t, 0 < t ∧ t < ray.tmax ∧ Inside (ray.point t) s.WorldBound = true)
    (hfuel : 2 * self.primitives.length ≤ fuel) :
    ∃ accel r, self.Build E fuelB = some accel ∧ accel.IntersectP fuel ray = some r ∧
      (r = true ↔ ∃ s, some s ∈ self.primitives ∧ s.IntersectP ray = true) := by
  obtain ⟨accel, hacc⟩ := Option.isSome_iff_exists.mp hbuilt
  obtain ⟨root, total, ordered, nodes, hbt, hprims, hnodes, hpre⟩ :=
    Build_returns E self fuelB accel hne hacc
  obtain ⟨hinv, htot, hlen, hperm, hslots, hbounds⟩ :=
    buildTree_spec E self fuelB root total ordered hbt
  obtain ⟨hheight, hsmall⟩ := htree root total ordered hbt
  have hnn0 := buildTree_nonnull E self fuelB (by rw [hbt]; rfl)
  have hnn : ∀ p ∈ ordered, p ≠ none := fun p hp => hnn0 p (hperm.subset hp)
  have hcov := LeafCovers_of_bounds worldBound ordered root.leaves hbounds
  obtain ⟨c, hc, H⟩ := intersectPLoop_subtree nodes ordered ray
    ⟨1 / ray.d.x, 1 / ray.d.y, 1 / ray.d.z⟩
    (fun i => b2n (decide (Vector3f.get ⟨1 / ray.d.x, 1 / ray.d.y, 1 / ray.d.z⟩ i < 0)))
    hnn
    (fun b L h1 h2 h3 => any_IntersectP_culled ray L b hd
      (fun s hsL => hs s (hperm.subset (h1 s hsL))) h2 h3)
    root 0 hinv hpre (fun l hl => ⟨hsmall l hl, (hbounds l hl).1⟩) hcov
  obtain ⟨hnodes2, hleaves⟩ := numNodes_le_slots root hinv
  have hslen : (leafSlots root.leaves).length = self.primitives.length := by
    rw [hslots.length_eq, List.length_range]
  have hcfuel : fuel - c + c = fuel := by omega
  obtain ⟨stack1, _, _, hrun⟩ := H (fuel - c) 0 (List.replicate 64 0)
    (by rw [List.length_replicate]; omega)
  rw [hcfuel] at hrun
  have hshapes : (shapesUnder ordered root).Perm (self.primitives.filterMap id) := by
    have h1 : (shapesUnder ordered root).Perm (ordered.filterMap id) := by
      unfold shapesUnder
      rw [← range_filterMap_join ordered, hlen]
      exact hslots.filterMap _
    exact h1.trans (hperm.filterMap id)
  refine ⟨accel, (shapesUnder ordered root).any (fun s => s.IntersectP ray), hacc, ?_, ?_⟩
  · unfold BVHAccel.IntersectP
    rw [hnodes, hprims]
    simp only
    rw [hrun]
    unfold resumeP
    cases (shapesUnder ordered root).any (fun s => s.IntersectP ray) <;> simp
  · rw [List.any_eq_true]
    constructor
    · rintro ⟨s, hsm, hP⟩
      exact ⟨s, (mem_filterMap_id _ s).mp (hshapes.subset hsm), hP⟩
    · rintro ⟨s, hsm, hP⟩
      exact ⟨s, hshapes.symm.subset ((mem_filterMap_id _ s).mpr hsm), hP⟩

set_option maxRecDepth 100000 in
unseal Rat.add Rat.mul Rat.inv Rat.sub in
theorem sampleScene_shadow_runs :
    (BVHAccel.Build (sampleEnv true) (sampleScene SplitMethod.Middle) 2).isSome = true ∧
    (buildTree (sampleEnv true) (sampleScene SplitMethod.Middle) 2).map (fun r => r.1) =
      some sampleTree ∧
    sampleTree.height ≤ 64 ∧ (∀ l ∈ sampleTree.leaves, l.nPrimitives < 65536) ∧
    (sampleRay.d.x ≠ 0 ∧ sampleRay.d.y ≠ 0 ∧ sampleRay.d.z ≠ 0) ∧
    ((0 : Float) < 3 / 2 ∧ (3 / 2 : Float) < sampleRay.tmax) ∧
    ((0 : Float) < 7 / 2 ∧ (7 / 2 : Float) < sampleRay.tmax) ∧
    Inside (sampleRay.point (3 / 2)) ⟨⟨0, 0, 0⟩, ⟨1, 1, 1⟩⟩ = true ∧
    Inside (sampleRay.point (7 / 2)) ⟨⟨2, 0, 0⟩, ⟨3, 1, 1⟩⟩ = true ∧
    (BVHAccel.Build (sampleEnv true) (sampleScene SplitMethod.Middle) 2).bind
      (fun accel => accel.IntersectP 4 sampleRay) = some true := by
  decide

/-- A run of shadow consistency on the two sample shapes with the method `Middle`:
`IntersectP` returns true. -/
theorem IntersectP_iff_some_shape_witness :
    (∃ accel r, BVHAccel.Build (sampleEnv true) (sampleScene SplitMethod.Middle) 2 = some accel ∧
      accel.IntersectP 4 sampleRay = some r ∧
      (r = true ↔ ∃ s, some s ∈ (sampleScene SplitMethod.Middle).primitives ∧
        s.IntersectP sampleRay = true)) ∧
    (BVHAccel.Build (sampleEnv true) (sampleScene SplitMethod.Middle) 2).bind
      (fun accel => accel.IntersectP 4 sampleRay) = some true := by
  obtain ⟨hb, hroot, hh, hl, hd, h1, h2, hin1, hin2, hres⟩ := sampleScene_shadow_runs
  refine ⟨IntersectP_iff_some_shape (sampleEnv true) (sampleScene SplitMethod.Middle) 2 4
    sampleRay (List.cons_ne_nil _ _) hb ?_ hd ?_ (by decide), hres⟩
  · intro root total ordered hbt
    rw [hbt] at hroot
    simp only [Option.map_some', Option.some.injEq] at hroot
    subst hroot
    exact ⟨hh, hl⟩
  · intro s hs _
    simp only [sampleScene, sampleShapes, List.mem_cons, Option.some.injEq, List.mem_singleton,
      List.not_mem_nil, or_false] at hs
    rcases hs with rfl | rfl
    · exact ⟨3 / 2, h1.1, h1.2, hin1⟩
    · exact ⟨7 / 2, h2.1, h2.2, hin2⟩

/-- On an argument that passes its assertion, `LeftShift3` clamps `1 << 10` to 1023 and
then spreads the bits. -/
theorem LeftShift3_eq (E : Env) (x : Nat) (hx : x ≤ 1024) :
    LeftShift3 E x = some (spreadBits (min x 1023)) := by
  unfold LeftShift3
  have h1024 : (1 <<< 10 : Nat) = 1024 := by decide
  rw [h1024, MIN_ASSERT_of_true E _ (by simpa using hx)]
  simp only
  by_cases h : x = 1024
  · subst h
    rfl
  · rw [if_neg h, Nat.min_eq_left (by omega)]
    rfl

set_option maxRecDepth 1000000 in
set_option maxHeartbeats 4000000 in
/-- The bits of `spreadBits x` for each of the 1024 ten-bit values, by evaluation. -/
theorem spreadBits_table :
    ∀ x < 1024,
      (∀ i < 10, Nat.testBit (spreadBits x) (3 * i) = Nat.testBit x i) ∧
      (∀ j < 32, (j % 3 ≠ 0 ∨ 30 ≤ j) → Nat.testBit (spreadBits x) j = false) ∧
      spreadBits x < 2 ^ 28 := by
  decide

theorem spreadBits_other (x j : Nat) (hx : x < 1024) (hj : j % 3 ≠ 0 ∨ 30 ≤ j) :
    Nat.testBit (spreadBits x) j = false := by
  obtain ⟨_, h2, h3⟩ := spreadBits_table x hx
  by_cases h : j < 32
  · exact h2 j h hj
  · exact Nat.testBit_lt_two_pow (lt_of_lt_of_le h3 (Nat.pow_le_pow_right (by decide) (by omega)))

/-- C13. For every `x` below `2^10`, `LeftShift3(x)` returns a value whose bit `3i` is bit
`i` of `x` for every `i` in `0..9`, and whose other bits are all zero. -/
theorem LeftShift3_spreads_bits (E : Env) (x : Nat) (hx : x < 2 ^ 10) :
    ∃ r, LeftShift3 E x = some r ∧
      (∀ i < 10, Nat.testBit r (3 * i) = Nat.testBit x i) ∧
      (∀ j, (∀ i < 10, j ≠ 3 * i) → Nat.testBit r j = false) := by
  have hx1 : x < 1024 := by simpa using hx
  refine ⟨spreadBits x, ?_, (spreadBits_table x hx1).1, ?_⟩
  · rw [LeftShift3_eq E x (by omega), Nat.min_eq_left (by omega)]
  · intro j hj
    apply spreadBits_other x j hx1
    by_contra hcon
    have h1 : j % 3 = 0 ∧ j < 30 := by omega
    exact hj (j / 3) (by omega) (by omega)

/-- A run of C13 on `x = 5`. -/
theorem LeftShift3_spreads_bits_witness :
    (5 : Nat) < 2 ^ 10 ∧
    ∃ r, LeftShift3 (sampleEnv true) 5 = some r ∧
      (∀ i < 10, Nat.testBit r (3 * i) = Nat.testBit 5 i) ∧
      (∀ j, (∀ i < 10, j ≠ 3 * i) → Nat.testBit r j = false) :=
  ⟨by decide, LeftShift3_spreads_bits (sampleEnv true) 5 (by decide)⟩

theorem ftou_natCast (n : Nat) (h : n < 2 ^ 32) : ftou (n : Float) = some n := by
  unfold ftou ftoi
  have h1 : (-1 : Float) < (n : Float) := by
    have : (0 : Float) ≤ (n : Float) := Nat.cast_nonneg n
    linarith
  have h2 : (n : Float) < 2 ^ 32 := by exact_mod_cast h
  rw [if_pos ⟨h1, h2⟩, if_pos (Nat.cast_nonneg n)]
  simp

theorem testBit_shiftLeft_one (a j : Nat) :
    Nat.testBit (a <<< 1) j = (decide (1 ≤ j) && Nat.testBit a (j - 1)) := by
  rw [Nat.testBit_shiftLeft]

theorem testBit_shiftLeft_two (a j : Nat) :
    Nat.testBit (a <<< 2) j = (decide (2 ≤ j) && Nat.testBit a (j - 2)) := by
  rw [Nat.testBit_shiftLeft]

theorem shifted_bit_false (c j k : Nat) (hc : c < 1024)
    (h : j < k ∨ (j - k) % 3 ≠ 0 ∨ 30 ≤ j - k) :
    (decide (k ≤ j) && Nat.testBit (spreadBits c) (j - k)) = false := by
  rcases h with h | h
  · simp [h]
  · rw [spreadBits_other c (j - k) hc h]
    simp

/-- C14. For all integer coordinates `x, y, z` in `[0, 2^10]`, `EncodeMorton3` returns
`(LeftShift3(z) << 2) | (LeftShift3(y) << 1) | LeftShift3(x)`; the value lies below `2^30`,
and its bits `3i`, `3i + 1` and `3i + 2` are bit `i` of `x`, of `y` and of `z` after the
clamp to 1023, for `i` in `0..9`. -/
theorem EncodeMorton3_interleaves (E : Env) (x y z : Nat) (hx : x ≤ 2 ^ 10) (hy : y ≤ 2 ^ 10)
    (hz : z ≤ 2 ^ 10) :
    ∃ sx sy sz r, LeftShift3 E x = some sx ∧ LeftShift3 E y = some sy ∧
      LeftShift3 E z = some sz ∧
      EncodeMorton3 E ⟨(x : Float), (y : Float), (z : Float)⟩ = some r ∧
      r = ((sz <<< 2) ||| (sy <<< 1)) ||| sx ∧ r < 2 ^ 30 ∧
      ∀ i < 10, Nat.testBit r (3 * i) = Nat.testBit (min x 1023) i ∧
        Nat.testBit r (3 * i + 1) = Nat.testBit (min y 1023) i ∧
        Nat.testBit r (3 * i + 2) = Nat.testBit (min z 1023) i := by
  have hx1 : x ≤ 1024 := by simpa using hx
  have hy1 : y ≤ 1024 := by simpa using hy
  have hz1 : z ≤ 1024 := by simpa using hz
  have cx : min x 1023 < 1024 := by omega
  have cy : min y 1023 < 1024 := by omega
  have cz : min z 1023 < 1024 := by omega
  obtain ⟨bx, _, lx⟩ := spreadBits_table _ cx
  obtain ⟨by_, _, ly⟩ := spreadBits_table _ cy
  obtain ⟨bz, _, lz⟩ := spreadBits_table _ cz
  have ox := fun j => spreadBits_other (min x 1023) j cx
  have oy := fun j => spreadBits_other (min y 1023) j cy
  have oz := fun j => spreadBits_other (min z 1023) j cz
  have lz2 : spreadBits (min z 1023) <<< 2 < 2 ^ 30 := by
    rw [Nat.shiftLeft_eq]
    omega
  have ly1 : spreadBits (min y 1023) <<< 1 < 2 ^ 30 := by
    rw [Nat.shiftLeft_eq]
    omega
  refine ⟨_, _, _, _, LeftShift3_eq E x hx1, LeftShift3_eq E y hy1, LeftShift3_eq E z hz1,
    ?_, rfl, ?_, ?_⟩
  · unfold EncodeMorton3
    rw [MIN_ASSERT_of_true E _ (by simp), MIN_ASSERT_of_true E _ (by simp),
      MIN_ASSERT_of_true E _ (by simp)]
    simp only [ftou_natCast x (by omega), ftou_natCast y (by omega), ftou_natCast z (by omega),
      Option.some_bind, LeftShift3_eq E x hx1, LeftShift3_eq E y hy1, LeftShift3_eq E z hz1]
    rw [Nat.mod_eq_of_lt (lt_trans lz2 (by decide)), Nat.mod_eq_of_lt (lt_trans ly1 (by decide))]
  · exact Nat.or_lt_two_pow (Nat.or_lt_two_pow lz2 ly1) (lt_trans lx (by decide))
  · intro i hi
    simp only [Nat.testBit_or, testBit_shiftLeft_one, testBit_shiftLeft_two]
    refine ⟨?_, ?_, ?_⟩
    · rw [shifted_bit_false _ (3 * i) 2 cz (by omega), shifted_bit_false _ (3 * i) 1 cy (by omega),
        bx i hi]
      rfl
    · rw [shifted_bit_false _ (3 * i + 1) 2 cz (by omega), ox (3 * i + 1) (by omega),
        show 3 * i + 1 - 1 = 3 * i from rfl, by_ i hi]
      simp
    · rw [shifted_bit_false _ (3 * i + 2) 1 cy (by omega), ox (3 * i + 2) (by omega),
        show 3 * i + 2 - 2 = 3 * i from rfl, bz i hi]
      simp

/-- A run of C14 on the coordinates `(3, 1024, 5)`. -/
theorem EncodeMorton3_interleaves_witness :
    ∃ sx sy sz r, LeftShift3 (sampleEnv true) 3 = some sx ∧
      LeftShift3 (sampleEnv true) 1024 = some sy ∧ LeftShift3 (sampleEnv true) 5 = some sz ∧
      EncodeMorton3 (sampleEnv true) ⟨((3 : Nat) : Float), ((1024 : Nat) : Float),
        ((5 : Nat) : Float)⟩ = some r ∧
      r = ((sz <<< 2) ||| (sy <<< 1)) ||| sx ∧ r < 2 ^ 30 ∧
      ∀ i < 10, Nat.testBit r (3 * i) = Nat.testBit (min 3 1023) i ∧
        Nat.testBit r (3 * i + 1) = Nat.testBit (min 1024 1023) i ∧
        Nat.testBit r (3 * i + 2) = Nat.testBit (min 5 1023) i :=
  EncodeMorton3_interleaves (sampleEnv true) 3 1024 5 (by decide) (by decide) (by decide)

theorem ftou_scaled (q : Float) (h0 : 0 ≤ q) (h1 : q ≤ 1) :
    ∃ n, ftou (((1 <<< 10 : Nat) : Float) * q) = some n ∧ n ≤ 1024 ∧ (q = 1 → n = 1024) := by
  have h1024 : (((1 <<< 10 : Nat) : Float)) = 1024 := by
    have : (1 <<< 10 : Nat) = 1024 := by decide
    rw [this]
    norm_num
  rw [h1024]
  have hq0 : (0 : Float) ≤ 1024 * q := by positivity
  have hq1 : 1024 * q ≤ 1024 := by linarith
  refine ⟨(ftoi (1024 * q)).toNat, ?_, ?_, ?_⟩
  · unfold ftou
    rw [if_pos ⟨by linarith, by linarith⟩]
  · unfold ftoi
    rw [if_pos hq0]
    have : ⌊1024 * q⌋ ≤ 1024 := by
      have := Int.floor_le (1024 * q)
      have h3 : ((⌊1024 * q⌋ : Int) : Float) ≤ ((1024 : Int) : Float) := by
        push_cast
        linarith
      exact_mod_cast h3
    omega
  · intro hq
    subst hq
    unfold ftoi
    norm_num
    rfl

/-- C15. The Morton encoder clamps each scaled axis value to `[0, 2^10 - 1]`:
`LeftShift3(1024)` equals `LeftShift3(1023)`; for every `x` in `[0, 2^10]` the value whose
bits are spread is `min(x, 1023)`; and in `HLBVHBuild` a centroid offset in `[0, 1]`, scaled
by `1 << 10`, converts to such an `x`, which is `2^10` for the offset 1, the offset of a
centroid on the upper side of the centroid bounds. -/
theorem LeftShift3_clamps (E : Env) :
    LeftShift3 E 1024 = LeftShift3 E 1023 ∧
    (∀ x, x ≤ 2 ^ 10 → LeftShift3 E x = some (spreadBits (min x 1023)) ∧
      LeftShift3 E x = LeftShift3 E (min x 1023) ∧ min x 1023 ≤ 2 ^ 10 - 1) ∧
    (∀ q : Float, 0 ≤ q → q ≤ 1 →
      ∃ n, ftou (((1 <<< 10 : Nat) : Float) * q) = some n ∧ n ≤ 2 ^ 10 ∧ (q = 1 → n = 2 ^ 10)) ∧
    (∀ (b : Bounds3f) (p : Point3f), b.pmin.x < b.pmax.x → p.x = b.pmax.x →
      (b.Offset p).x = 1) := by
  have hall : ∀ x, x ≤ 1024 → LeftShift3 E x = some (spreadBits (min x 1023)) ∧
      LeftShift3 E x = LeftShift3 E (min x 1023) ∧ min x 1023 ≤ 1023 := by
    intro x hx
    refine ⟨LeftShift3_eq E x hx, ?_, by omega⟩
    rw [LeftShift3_eq E x hx, LeftShift3_eq E (min x 1023) (by omega)]
    congr 2
    omega
  refine ⟨(hall 1024 (by decide)).2.1, fun x hx => hall x (by simpa using hx),
    fun q h0 h1 => by simpa using ftou_scaled q h0 h1, ?_⟩
  intro b p hb hp
  unfold Bounds3f.Offset
  simp only [gt_iff_lt, hb, if_true, Vector3f.sub, hp]
  exact div_self (by linarith)
/-- C16 fails on the unit cube, as on every box: `SurfaceArea()` returns the product
`d.x * d.y * d.z` of the components of the diagonal, the volume, which is 1 for the unit
cube, where the surface area `2 (dx dy + dy dz + dz dx)` is 6. -/
theorem SurfaceArea_is_volume :
    (∀ b : Bounds3f, b.SurfaceArea = b.Diagonal.x * b.Diagonal.y * b.Diagonal.z) ∧
    unitBox.Diagonal = ⟨1, 1, 1⟩ ∧
    unitBox.SurfaceArea = 1 ∧
    2 * (unitBox.Diagonal.x * unitBox.Diagonal.y + unitBox.Diagonal.y * unitBox.Diagonal.z +
      unitBox.Diagonal.z * unitBox.Diagonal.x) = 6 ∧
    unitBox.SurfaceArea ≠ 2 * (unitBox.Diagonal.x * unitBox.Diagonal.y +
      unitBox.Diagonal.y * unitBox.Diagonal.z + unitBox.Diagonal.z * unitBox.Diagonal.x) := by
  refine ⟨fun b => rfl, ?_, ?_, ?_, ?_⟩ <;>
    norm_num [Bounds3f.SurfaceArea, Bounds3f.Diagonal, Vector3f.sub, unitBox]

/-- C17. For every box, `MaximumExtent()` returns an axis `k` in `{0, 1, 2}` whose
component of the diagonal is at least that of each axis, and greater than that of each
axis of higher number: an argmax of the diagonal, the highest one where several axes tie. -/
theorem MaximumExtent_argmax (b : Bounds3f) :
    b.MaximumExtent < 3 ∧
    (∀ j < 3, b.Diagonal.get j ≤ b.Diagonal.get b.MaximumExtent) ∧
    (∀ j < 3, b.MaximumExtent < j → b.Diagonal.get j < b.Diagonal.get b.MaximumExtent) := by
  have g0 : b.Diagonal.get 0 = b.Diagonal.x := rfl
  have g1 : b.Diagonal.get 1 = b.Diagonal.y := rfl
  have g2 : b.Diagonal.get 2 = b.Diagonal.z := rfl
  unfold Bounds3f.MaximumExtent
  simp only
  split_ifs with h1 h2
  · refine ⟨by decide, ?_, ?_⟩
    · intro j hj
      interval_cases j <;> simp only [g0, g1, g2] <;> linarith [h1.1, h1.2]
    · intro j hj hk
      interval_cases j <;> simp only [g0, g1, g2] <;> linarith [h1.1, h1.2]
  · have h3 : b.Diagonal.x ≤ b.Diagonal.y := by
      by_contra hc
      exact h1 ⟨by linarith, by linarith⟩
    refine ⟨by decide, ?_, ?_⟩
    · intro j hj
      interval_cases j <;> simp only [g0, g1, g2] <;> linarith
    · intro j hj hk
      interval_cases j
      simp only [g1, g2]
      linarith
  · have h3 : b.Diagonal.y ≤ b.Diagonal.z := by linarith
    have h4 : b.Diagonal.x ≤ b.Diagonal.z := by
      by_contra hc
      exact h1 ⟨by linarith, by linarith⟩
    refine ⟨by decide, ?_, ?_⟩
    · intro j hj
      interval_cases j <;> simp only [g0, g1, g2] <;> linarith
    · intro j hj hk
      omega

/-- C18. On an accelerator without primitives whose node array is null, `Build()` returns
at once and leaves the node array null; then, for every ray, `Intersect` returns false and
leaves `ray.tmax` as it was, `IntersectP` returns false, neither enters its loop, and
`WorldBound()` returns the default-constructed, empty box. -/
theorem empty_BVH_queries (E : Env) (self : BVHAccel ShapePtr) (fuel : Nat) (ray : Ray)
    (hp : self.primitives = []) (hn : self.nodes = none) :
    self.Build E fuel = some self ∧
    self.Intersect 0 ray = some (false, ray.tmax) ∧
    self.IntersectP 0 ray = some false ∧
    self.WorldBound = some Bounds3f.new := by
  refine ⟨?_, ?_, ?_, ?_⟩
  · unfold BVHAccel.Build
    rw [hp]
    rfl
  · unfold BVHAccel.Intersect
    rw [hn]
  · unfold BVHAccel.IntersectP
    rw [hn]
  · unfold BVHAccel.WorldBound
    rw [hn]

/-- A run of C18 on the empty accelerator with the method SAH and the sample ray. -/
theorem empty_BVH_queries_witness :
    (emptyScene SplitMethod.SAH).primitives = [] ∧ (emptyScene SplitMethod.SAH).nodes = none ∧
    (emptyScene SplitMethod.SAH).Build (sampleEnv true) 0 = some (emptyScene SplitMethod.SAH) ∧
    (emptyScene SplitMethod.SAH).Intersect 0 sampleRay = some (false, sampleRay.tmax) ∧
    (emptyScene SplitMethod.SAH).IntersectP 0 sampleRay = some false ∧
    (emptyScene SplitMethod.SAH).WorldBound = some Bounds3f.new :=
  ⟨rfl, rfl, empty_BVH_queries (sampleEnv true) (emptyScene SplitMethod.SAH) 0 sampleRay rfl rfl⟩

/-- The passes of `RadixSort` compute the passes `lsdPasses` of stable counting sorts; the
result lies in `*v` after an even pass count and in `tempVector` after an odd one. -/
theorem radixPasses_eq :
    ∀ (n pass : Nat) (v temp : List MortonPrimitive), temp.length = v.length →
      ∃ v1 temp1, radixPasses n pass v temp = some (v1, temp1) ∧
        ((n + pass) % 2 = 1 → temp1 = lsdPasses n pass (if pass % 2 = 1 then temp else v)) ∧
        ((n + pass) % 2 = 0 → v1 = lsdPasses n pass (if pass % 2 = 1 then temp else v)) := by
  intro n
  induction n with
  | zero =>
    intro pass v temp hlen
    refine ⟨v, temp, rfl, ?_, ?_⟩
    · intro h
      simp only [Nat.zero_add] at h
      simp [h, lsdPasses]
    · intro h
      simp only [Nat.zero_add] at h
      have : ¬ pass % 2 = 1 := by omega
      simp [this, lsdPasses]
  | succ n ih =>
    intro pass v temp hlen
    rw [radixPasses]
    by_cases hp : pass % 2 = 1
    · rw [if_pos hp, radixPass_spec pass temp v hlen.symm]
      simp only
      have hperm := bucketSort_perm (radixBucket (pass * 6) 63) 64 temp
        (fun mp _ => radixBucket_lt _ mp)
      obtain ⟨v1, temp1, h1, h4, h5⟩ := ih (pass + 1)
        (bucketSort (radixBucket (pass * 6) 63) 64 temp) temp (by rw [hperm.length_eq])
      have hp1 : ¬ (pass + 1) % 2 = 1 := by omega
      simp only [hp1, if_false] at h4 h5
      refine ⟨v1, temp1, h1, ?_, ?_⟩
      · intro h
        rw [if_pos hp, lsdPasses]
        exact h4 (by omega)
      · intro h
        rw [if_pos hp, lsdPasses]
        exact h5 (by omega)
    · rw [if_neg hp, radixPass_spec pass v temp hlen]
      simp only
      have hperm := bucketSort_perm (radixBucket (pass * 6) 63) 64 v
        (fun mp _ => radixBucket_lt _ mp)
      obtain ⟨v1, temp1, h1, h4, h5⟩ := ih (pass + 1) v
        (bucketSort (radixBucket (pass * 6) 63) 64 v) (by rw [hperm.length_eq])
      have hp1 : (pass + 1) % 2 = 1 := by omega
      simp only [hp1, if_true] at h4 h5
      refine ⟨v1, temp1, h1, ?_, ?_⟩
      · intro h
        rw [if_neg hp, lsdPasses]
        exact h4 (by omega)
      · intro h
        rw [if_neg hp, lsdPasses]
        exact h5 (by omega)

/-- The function `RadixSort` returns the five passes of stable counting sorts by six bits,
from the lowest bits on; after the swap that follows the odd number of passes this is the
new value of `*v`. -/
theorem RadixSort_eq (v : List MortonPrimitive) : RadixSort v = some (lsdPasses 5 0 v) := by
  unfold RadixSort
  obtain ⟨v1, temp1, h1, h4, _⟩ := radixPasses_eq (30 / 6) 0 v
    (List.replicate v.length ⟨0, 0⟩) (by simp)
  simp only [h1, if_true]
  have := h4 (by decide)
  simpa using this

theorem bucketSort_succ {α : Type} (key : α → Nat) (N : Nat) (l : List α) :
    bucketSort key (N + 1) l = bucketSort key N l ++ l.filter (fun x => decide (key x = N)) := by
  simp [bucketSort, List.range_succ]

theorem mem_bucketSort {α : Type} (key : α → Nat) (N : Nat) (l : List α) (x : α)
    (h : x ∈ bucketSort key N l) : x ∈ l ∧ key x < N := by
  have := (bucketSort_perm_filter key N l).subset h
  simpa using this

/-- The counting sort is stable: the elements that satisfy a condition that fixes the key
keep their order. -/
theorem bucketSort_filter {α : Type} (key : α → Nat) (q : α → Bool) (d : Nat)
    (hq : ∀ x, q x = true → key x = d) (l : List α) :
    ∀ N, (bucketSort key N l).filter q = if d < N then l.filter q else [] := by
  intro N
  induction N with
  | zero => simp [bucketSort]
  | succ N ih =>
    rw [bucketSort_succ, List.filter_append, ih, List.filter_filter]
    by_cases h1 : d < N
    · rw [if_pos h1, if_pos (by omega)]
      have : l.filter (fun a => q a && decide (key a = N)) = [] := by
        rw [List.filter_eq_nil_iff]
        intro a _ ha
        simp only [Bool.and_eq_true, decide_eq_true_eq] at ha
        have := hq a ha.1
        omega
      rw [this, List.append_nil]
    · rw [if_neg h1, List.nil_append]
      by_cases h2 : d = N
      · rw [if_pos (by omega)]
        apply List.filter_congr
        intro a _
        cases hqa : q a with
        | false => rfl
        | true =>
          have := hq a hqa
          simp [this, h2]
      · rw [if_neg (by omega), List.filter_eq_nil_iff]
        intro a _ ha
        simp only [Bool.and_eq_true, decide_eq_true_eq] at ha
        have := hq a ha.1
        omega

/-- The counting sort by a digit of a list sorted by the lower digits is sorted by the
digit and the lower digits together. -/
theorem bucketSort_sorted {α : Type} (key low : α → Nat) (M : Nat) (hlow : ∀ x, low x < M)
    (l : List α) (hl : l.Pairwise (fun a b => low a ≤ low b)) :
    ∀ N, (bucketSort key N l).Pairwise
      (fun a b => key a * M + low a ≤ key b * M + low b) := by
  intro N
  induction N with
  | zero => simp [bucketSort]
  | succ N ih =>
    rw [bucketSort_succ, List.pairwise_append]
    refine ⟨ih, ?_, ?_⟩
    · apply (hl.filter _).imp_of_mem
      intro a b ha hb hab
      simp only [List.mem_filter, decide_eq_true_eq] at ha hb
      rw [ha.2, hb.2]
      omega
    · intro a ha b hb
      have h1 := (mem_bucketSort key N l a ha).2
      simp only [List.mem_filter, decide_eq_true_eq] at hb
      have h2 : (key a + 1) * M ≤ key b * M := Nat.mul_le_mul_right M (by omega)
      have h3 := hlow a
      have h4 : (key a + 1) * M = key a * M + M := by ring
      omega

theorem radixBucket_eq (p : Nat) (mp : MortonPrimitive) :
    radixBucket (p * 6) 63 mp = mp.mortonCode / 64 ^ p % 64 := by
  unfold radixBucket
  have h63 : (63 : Nat) = 2 ^ 6 - 1 := by decide
  rw [h63, Nat.and_pow_two_sub_one_eq_mod, Nat.shiftRight_eq_div_pow, Nat.mul_comm p 6,
    Nat.pow_mul]

theorem low_digits_succ (c p : Nat) :
    c % 64 ^ (p + 1) = c / 64 ^ p % 64 * 64 ^ p + c % 64 ^ p := by
  rw [Nat.mod_pow_succ]
  ring

/-- After the passes `pass, ..., pass + n - 1` a list that was sorted by the low `6 * pass`
bits of the code is sorted by the low `6 * (pass + n)` bits. -/
theorem lsdPasses_sorted :
    ∀ (n pass : Nat) (l : List MortonPrimitive),
      l.Pairwise (fun a b => a.mortonCode % 64 ^ pass ≤ b.mortonCode % 64 ^ pass) →
      (lsdPasses n pass l).Pairwise
        (fun a b => a.mortonCode % 64 ^ (pass + n) ≤ b.mortonCode % 64 ^ (pass + n)) := by
  intro n
  induction n with
  | zero =>
    intro pass l h
    exact h
  | succ n ih =>
    intro pass l h
    rw [lsdPasses]
    have hs := bucketSort_sorted (radixBucket (pass * 6) 63)
      (fun mp => mp.mortonCode % 64 ^ pass) (64 ^ pass)
      (fun x => Nat.mod_lt _ (Nat.pow_pos (by decide))) l h 64
    have hs1 : (bucketSort (radixBucket (pass * 6) 63) 64 l).Pairwise
        (fun a b => a.mortonCode % 64 ^ (pass + 1) ≤ b.mortonCode % 64 ^ (pass + 1)) := by
      apply hs.imp
      intro a b hab
      rw [low_digits_succ, low_digits_succ, ← radixBucket_eq, ← radixBucket_eq]
      exact hab
    have := ih (pass + 1) _ hs1
    rw [show pass + (n + 1) = pass + 1 + n by omega]
    exact this

/-- The passes keep the order of the elements that have one Morton code. -/
theorem lsdPasses_filter (c : Nat) :
    ∀ (n pass : Nat) (l : List MortonPrimitive),
      (lsdPasses n pass l).filter (fun mp => decide (mp.mortonCode = c)) =
        l.filter (fun mp => decide (mp.mortonCode = c)) := by
  intro n
  induction n with
  | zero =>
    intro pass l
    rfl
  | succ n ih =>
    intro pass l
    rw [lsdPasses, ih]
    have := bucketSort_filter (radixBucket (pass * 6) 63)
      (fun mp => decide (mp.mortonCode = c)) (radixBucket (pass * 6) 63 ⟨0, c⟩)
      (by
        intro x hx
        simp only [decide_eq_true_eq] at hx
        simp [radixBucket, hx]) l 64
    rw [this, if_pos (radixBucket_lt _ _)]

/-- C11. For every vector of Morton primitives whose codes lie below `2^30`, `RadixSort`
returns, and the vector `*v` itself then holds the elements of the input (each as often as
before) in ascending order of `mortonCode`. -/
theorem RadixSort_sorts (v : List MortonPrimitive) (h : ∀ mp ∈ v, mp.mortonCode < 2 ^ 30) :
    ∃ v1, RadixSort v = some v1 ∧ v1.Perm v ∧
      v1.Pairwise (fun a b => a.mortonCode ≤ b.mortonCode) := by
  obtain ⟨v1, h1, hperm⟩ := RadixSort_perm v
  refine ⟨v1, h1, hperm, ?_⟩
  rw [RadixSort_eq, Option.some.injEq] at h1
  have hs := lsdPasses_sorted 5 0 v (List.pairwise_of_forall (fun a b => by simp [Nat.mod_one]))
  rw [h1] at hs
  apply hs.imp_of_mem
  intro a b ha hb hab
  have e : (64 : Nat) ^ (0 + 5) = 2 ^ 30 := by decide
  rw [e, Nat.mod_eq_of_lt (h a (hperm.subset ha)), Nat.mod_eq_of_lt (h b (hperm.subset hb))] at hab
  exact hab

/-- A run of C11 on four Morton primitives. -/
theorem RadixSort_sorts_witness :
    (∀ mp ∈ ([⟨0, 70000⟩, ⟨1, 5⟩, ⟨2, 70000⟩, ⟨3, 64⟩] : List MortonPrimitive),
      mp.mortonCode < 2 ^ 30) ∧
    (∃ v1, RadixSort [⟨0, 70000⟩, ⟨1, 5⟩, ⟨2, 70000⟩, ⟨3, 64⟩] = some v1 ∧
      v1.Perm [⟨0, 70000⟩, ⟨1, 5⟩, ⟨2, 70000⟩, ⟨3, 64⟩] ∧
      v1.Pairwise (fun a b => a.mortonCode ≤ b.mortonCode)) ∧
    RadixSort [⟨0, 70000⟩, ⟨1, 5⟩, ⟨2, 70000⟩, ⟨3, 64⟩] =
      some [⟨1, 5⟩, ⟨3, 64⟩, ⟨0, 70000⟩, ⟨2, 70000⟩] :=
  ⟨by decide, RadixSort_sorts _ (by decide), by decide⟩

/-- C12. `RadixSort` is stable: for every input vector it returns, and the elements of any
one Morton code stand in the output in the order in which they stood in the input; so of
two elements with equal codes, the one that came first in the input comes first in the
output. -/
theorem RadixSort_stable (v : List MortonPrimitive) :
    ∃ v1, RadixSort v = some v1 ∧
      (∀ c, v1.filter (fun mp => decide (mp.mortonCode = c)) =
        v.filter (fun mp => decide (mp.mortonCode = c))) ∧
      ∀ a b : MortonPrimitive, a.mortonCode = b.mortonCode →
        List.Sublist [a, b] v → List.Sublist [a, b] v1 := by
  refine ⟨lsdPasses 5 0 v, RadixSort_eq v, fun c => lsdPasses_filter c 5 0 v, ?_⟩
  intro a b hab hsub
  have h1 := hsub.filter (fun mp => decide (mp.mortonCode = b.mortonCode))
  rw [← lsdPasses_filter b.mortonCode 5 0 v] at h1
  have h2 : [a, b].filter (fun mp => decide (mp.mortonCode = b.mortonCode)) = [a, b] := by
    simp [hab]
  rw [h2] at h1
  exact h1.trans (List.filter_sublist _)

theorem sub_get (a b : Vector3f) (i : Nat) : (a.sub b).get i = a.get i - b.get i := by
  unfold Vector3f.get Vector3f.sub
  split_ifs <;> rfl

theorem get_ext (a b : Vector3f) (h : ∀ i < 3, a.get i = b.get i) : a = b := by
  have h0 := h 0 (by decide)
  have h1 := h 1 (by decide)
  have h2 := h 2 (by decide)
  simp only [Vector3f.get, if_true, one_ne_zero, if_false] at h0 h1
  have h2' : a.z = b.z := h2
  cases a
  cases b
  simp_all

/-- The axis that `MaximumExtent()` returns has the largest extent. -/
theorem MaximumExtent_ge (b : Bounds3f) :
    ∀ j < 3, b.Diagonal.get j ≤ b.Diagonal.get b.MaximumExtent := by
  have g0 : b.Diagonal.get 0 = b.Diagonal.x := rfl
  have g1 : b.Diagonal.get 1 = b.Diagonal.y := rfl
  have g2 : b.Diagonal.get 2 = b.Diagonal.z := rfl
  intro j hj
  unfold Bounds3f.MaximumExtent
  simp only
  split_ifs with h1 h2
  · interval_cases j <;> simp only [g0, g1, g2] <;> linarith [h1.1, h1.2]
  · have h3 : b.Diagonal.x ≤ b.Diagonal.y := by
      by_contra hc
      exact h1 ⟨by linarith, by linarith⟩
    interval_cases j <;> simp only [g0, g1, g2] <;> linarith
  · have h4 : b.Diagonal.x ≤ b.Diagonal.z := by
      by_contra hc
      exact h1 ⟨by linarith, by linarith⟩
    interval_cases j <;> simp only [g0, g1, g2] <;> linarith

/-- The test of `recursiveBuild` for coincident centroids, on a non-empty range with finite
centroids: the centroid bounds have no extent on their axis of maximum extent if and only
if all the centroids of the range are equal. -/
theorem coincident_test_iff (l : List BVHPrimitiveInfo) (hne : l ≠ [])
    (hfin : ∀ pi ∈ l, pi.centroid.IsFinite) :
    (centroidBoundsOf l).pmax.get (centroidBoundsOf l).MaximumExtent =
        (centroidBoundsOf l).pmin.get (centroidBoundsOf l).MaximumExtent ↔
      ∀ pi ∈ l, ∀ qi ∈ l, pi.centroid = qi.centroid := by
  constructor
  · intro htest pi hpi qi hqi
    apply get_ext
    intro j hj
    have hmax := MaximumExtent_ge (centroidBoundsOf l) j hj
    unfold Bounds3f.Diagonal at hmax
    rw [sub_get, sub_get, htest, sub_self] at hmax
    obtain ⟨hb, _⟩ := centroidBoundsOf_spec j l
    have hp := hb pi hpi
    have hq := hb qi hqi
    linarith [hp.1, hp.2, hq.1, hq.2]
  · intro hall
    obtain ⟨_, h2⟩ := centroidBoundsOf_spec (centroidBoundsOf l).MaximumExtent l
    obtain ⟨⟨p, hp, e1⟩, ⟨q, hq, e2⟩⟩ := h2 hne hfin
    rw [← e1, ← e2, hall p hp q hq]

/-- Where the test for coincident centroids holds on a range of at least two primitives,
`recursiveBuild` makes a leaf of the whole range at once. -/
theorem recursiveBuild_leaf_of_test {α : Type} (E : Env) (self : BVHAccel α) (fuel : Nat)
    (pre mid post : List BVHPrimitiveInfo) (tn : Nat) (ord : List α) (h2 : 2 ≤ mid.length)
    (htest : (centroidBoundsOf mid).pmax.get (centroidBoundsOf mid).MaximumExtent =
      (centroidBoundsOf mid).pmin.get (centroidBoundsOf mid).MaximumExtent) :
    recursiveBuild E self (fuel + 1) (pre ++ mid ++ post) pre.length
        (pre.length + mid.length) tn ord =
      makeLeaf self.primitives (pre ++ mid ++ post) pre.length (pre.length + mid.length)
        (tn + 1) ord (boundsOf mid) := by
  rw [recursiveBuild, slice_append3]
  rw [if_neg (by simp only [List.length_append]; omega)]
  simp only
  rw [if_neg (by omega), if_pos htest]

/-- C20. For every range of at least two primitives (with finite centroids) in
`recursiveBuild`: the test `centroidBounds.pmax[dim] == centroidBounds.pmin[dim]`, with
`dim` the axis of maximum extent, holds if and only if all the centroids of the range are
identical; and when it holds the call makes, for every split method and every
`maxPrimsInNode`, a single leaf that starts at the end of `orderedPrims` and holds all the
primitives of the range, which it appends to `orderedPrims` in their order. -/
theorem coincident_centroids_leaf {α : Type} (E : Env) (self : BVHAccel α) (fuel : Nat)
    (pre mid post : List BVHPrimitiveInfo) (tn : Nat) (ord : List α)
    (h2 : 2 ≤ mid.length) (hfin : ∀ pi ∈ mid, pi.centroid.IsFinite)
    (hidx : ∀ pi ∈ mid, pi.primitiveNumber < self.primitives.length) :
    ((centroidBoundsOf mid).pmax.get (centroidBoundsOf mid).MaximumExtent =
        (centroidBoundsOf mid).pmin.get (centroidBoundsOf mid).MaximumExtent ↔
      ∀ pi ∈ mid, ∀ qi ∈ mid, pi.centroid = qi.centroid) ∧
    ((centroidBoundsOf mid).pmax.get (centroidBoundsOf mid).MaximumExtent =
        (centroidBoundsOf mid).pmin.get (centroidBoundsOf mid).MaximumExtent →
      ∃ r, recursiveBuild E self (fuel + 1) (pre ++ mid ++ post) pre.length
          (pre.length + mid.length) tn ord = some r ∧
        r.node = BVHBuildNode.InitLeaf ord.length mid.length (boundsOf mid) ∧
        r.node.leaves = [⟨boundsOf mid, ord.length, mid.length⟩] ∧
        r.totalNodes = tn + 1 ∧ r.primitiveInfo = pre ++ mid ++ post ∧
        ∃ L, r.orderedPrims = ord ++ L ∧
          L.map some = mid.map (fun pi => self.primitives[pi.primitiveNumber]?)) := by
  have hne : mid ≠ [] := by
    intro h
    rw [h] at h2
    simp at h2
  refine ⟨coincident_test_iff mid hne hfin, ?_⟩
  intro htest
  rw [recursiveBuild_leaf_of_test E self fuel pre mid post tn ord h2 htest]
  unfold makeLeaf
  rw [slice_append3]
  obtain ⟨ord1, h1⟩ := pushPrims_total self.primitives mid ord hidx
  obtain ⟨L, hL, hmap⟩ := pushPrims_spec self.primitives mid ord ord1 h1
  rw [h1]
  refine ⟨_, rfl, ?_, ?_, rfl, rfl, L, hL, hmap⟩
  · simp only [Nat.add_sub_cancel_left]
  · simp only [Nat.add_sub_cancel_left]
    exact leaves_leaf _ _ _ _ _ _ (by omega)
theorem coincidentInfo_finite : ∀ pi ∈ coincidentInfo, pi.centroid.IsFinite := by
  intro pi hpi
  simp only [coincidentInfo, List.mem_cons, List.mem_singleton, List.not_mem_nil, or_false]
    at hpi
  rcases hpi with rfl | rfl <;>
    norm_num [BVHPrimitiveInfo.create, Vector3f.IsFinite, FiniteFloat, Vector3f.smul,
      Vector3f.add, max_num, min_num, unitBox]

set_option maxRecDepth 100000 in
unseal Rat.add Rat.mul Rat.inv Rat.sub in
theorem coincidentInfo_runs :
    (centroidBoundsOf coincidentInfo).pmax.get (centroidBoundsOf coincidentInfo).MaximumExtent =
      (centroidBoundsOf coincidentInfo).pmin.get (centroidBoundsOf coincidentInfo).MaximumExtent ∧
    (recursiveBuild (sampleEnv true) (sampleAccel SplitMethod.Middle) 1 coincidentInfo 0 2 0
      []).map (fun r => (r.node, r.orderedPrims)) =
      some (BVHBuildNode.InitLeaf 0 2 unitBox, [0, 1]) := by
  decide

/-- A run of C20 on two primitives in the unit cube, with the method `Middle` and
`maxPrimsInNode = 4`: the test holds and the call returns one leaf of two primitives. -/
theorem coincident_centroids_leaf_witness :
    (((centroidBoundsOf coincidentInfo).pmax.get (centroidBoundsOf coincidentInfo).MaximumExtent =
        (centroidBoundsOf coincidentInfo).pmin.get
          (centroidBoundsOf coincidentInfo).MaximumExtent ↔
      ∀ pi ∈ coincidentInfo, ∀ qi ∈ coincidentInfo, pi.centroid = qi.centroid) ∧
    ((centroidBoundsOf coincidentInfo).pmax.get (centroidBoundsOf coincidentInfo).MaximumExtent =
        (centroidBoundsOf coincidentInfo).pmin.get
          (centroidBoundsOf coincidentInfo).MaximumExtent →
      ∃ r, recursiveBuild (sampleEnv true) (sampleAccel SplitMethod.Middle) (0 + 1)
          ([] ++ coincidentInfo ++ []) ([] : List BVHPrimitiveInfo).length
          (([] : List BVHPrimitiveInfo).length + coincidentInfo.length) 0 [] = some r ∧
        r.node = BVHBuildNode.InitLeaf ([] : List Nat).length coincidentInfo.length
          (boundsOf coincidentInfo) ∧
        r.node.leaves = [⟨boundsOf coincidentInfo, ([] : List Nat).length,
          coincidentInfo.length⟩] ∧
        r.totalNodes = 0 + 1 ∧ r.primitiveInfo = [] ++ coincidentInfo ++ [] ∧
        ∃ L, r.orderedPrims = [] ++ L ∧
          L.map some = coincidentInfo.map
            (fun pi => (sampleAccel SplitMethod.Middle).primitives[pi.primitiveNumber]?))) ∧
    (centroidBoundsOf coincidentInfo).pmax.get (centroidBoundsOf coincidentInfo).MaximumExtent =
      (centroidBoundsOf coincidentInfo).pmin.get (centroidBoundsOf coincidentInfo).MaximumExtent ∧
    (recursiveBuild (sampleEnv true) (sampleAccel SplitMethod.Middle) 1 coincidentInfo 0 2 0
      []).map (fun r => (r.node, r.orderedPrims)) =
      some (BVHBuildNode.InitLeaf 0 2 unitBox, [0, 1]) :=
  ⟨coincident_centroids_leaf (sampleEnv true) (sampleAccel SplitMethod.Middle) 0 []
    coincidentInfo [] 0 [] (by decide) coincidentInfo_finite (by decide),
    coincidentInfo_runs.1, coincidentInfo_runs.2⟩

theorem EncodeMorton3_zero (E : Env) :
    EncodeMorton3 E ⟨((0 : Nat) : Float), ((0 : Nat) : Float), ((0 : Nat) : Float)⟩ = some 0 := by
  unfold EncodeMorton3
  rw [MIN_ASSERT_of_true E _ (by simp)]
  simp only [ftou_natCast 0 (by decide), Option.some_bind, LeftShift3_eq E 0 (by decide)]
  rfl
/-- On one primitive `emitLBVH` makes one leaf, at whatever bit it starts and whatever
`maxPrimsInNode` is: while it does not make the leaf, the first and the last Morton code are
the same code, so it goes on to the next bit; at `bitIndex == -1` it makes the leaf. -/
theorem emitLBVH_single {α : Type} (E : Env) (self : BVHAccel α)
    (info : List BVHPrimitiveInfo) (mp : MortonPrimitive) (rest : List MortonPrimitive)
    (p ord0 : α) (pi : BVHPrimitiveInfo)
    (hp : self.primitives[mp.primitiveIndex]? = some p)
    (hpi : info[mp.primitiveIndex]? = some pi) :
    ∀ k : Nat, emitLBVH E self 2 info (k + 1) (mp :: rest) 1 ((k : Int) - 1) ⟨0, 0, [ord0], 0⟩ =
      some (BVHBuildNode.InitLeaf 0 1 (Union Bounds3f.new pi.bounds), ⟨1, 1, [p], 1⟩) := by
  have hleaf : emitLeafLoop self.primitives info ((mp :: rest).take 1) 0 [ord0] Bounds3f.new =
      some ([p], Union Bounds3f.new pi.bounds) := by
    simp [emitLeafLoop, hp, hpi]
  intro k
  induction k with
  | zero =>
    rw [emitLBVH, MIN_ASSERT_of_true E _ (by decide)]
    simp only [List.length_cons]
    rw [if_neg (by simp), if_pos (by simp), if_neg (by decide), hleaf]
  | succ k ih =>
    rw [emitLBVH, MIN_ASSERT_of_true E _ (by decide)]
    simp only [List.length_cons]
    rw [if_neg (by
      simp only [not_or, not_lt]
      constructor
      · omega
      · push_cast
        omega)]
    by_cases hleafCase : ((((k + 1 : Nat) : Int) - 1 = -1) ∨ ((1 : Nat) : Int) < self.maxPrimsInNode)
    · rw [if_pos hleafCase, if_neg (by decide), hleaf]
    · rw [if_neg hleafCase]
      simp only [List.getElem?_cons_zero, Nat.sub_self, if_true]
      have e : (((k + 1 : Nat) : Int) - 1 - 1) = (k : Int) - 1 := by
        push_cast
        omega
      rw [e]
      exact ih

theorem RadixSort_single (mp : MortonPrimitive) : RadixSort [mp] = some [mp] := by
  obtain ⟨v1, h1, hperm⟩ := RadixSort_perm [mp]
  rw [h1, List.perm_singleton.mp hperm]

theorem Union_new_finite (b : Bounds3f) (h : b.IsFinite) : Union Bounds3f.new b = b := by
  obtain ⟨⟨⟨_, x1⟩, ⟨_, y1⟩, ⟨_, z1⟩⟩, ⟨⟨x2, _⟩, ⟨y2, _⟩, ⟨z2, _⟩⟩⟩ := h
  unfold Union Min Max Bounds3f.new
  simp only [min_eq_right x1, min_eq_right y1, min_eq_right z1, max_eq_right x2,
    max_eq_right y2, max_eq_right z2]

theorem centroid_finite (n : Nat) (b : Bounds3f) (h : b.IsFinite) :
    (BVHPrimitiveInfo.create n b).centroid.IsFinite := by
  obtain ⟨⟨⟨a1, a2⟩, ⟨b1, b2⟩, ⟨c1, c2⟩⟩, ⟨⟨d1, d2⟩, ⟨e1, e2⟩, ⟨f1, f2⟩⟩⟩ := h
  simp only [BVHPrimitiveInfo.create, Vector3f.IsFinite, FiniteFloat, Vector3f.smul,
    Vector3f.add]
  refine ⟨⟨?_, ?_⟩, ⟨?_, ?_⟩, ⟨?_, ?_⟩⟩ <;> linarith

/-- The Morton code of a single centroid is 0: its offset in the centroid bounds, which
have no extent, is 0 on every axis. -/
theorem mortonPrimsOf_single (E : Env) (n : Nat) (b : Bounds3f) (h : b.IsFinite) :
    mortonPrimsOf E (centroidBoundsOf [BVHPrimitiveInfo.create n b])
      [BVHPrimitiveInfo.create n b] = some [⟨n, 0⟩] := by
  obtain ⟨⟨x1, x2⟩, ⟨y1, y2⟩, ⟨z1, z2⟩⟩ := centroid_finite n b h
  have hcb : centroidBoundsOf [BVHPrimitiveInfo.create n b] =
      ⟨(BVHPrimitiveInfo.create n b).centroid, (BVHPrimitiveInfo.create n b).centroid⟩ := by
    simp only [centroidBoundsOf, List.foldl_cons, List.foldl_nil, UnionP, Min, Max,
      Bounds3f.new, min_eq_right x2, min_eq_right y2, min_eq_right z2, max_eq_right x1,
      max_eq_right y1, max_eq_right z1]
  rw [hcb]
  have hoff : Vector3f.smul (((1 <<< 10 : Nat)) : Float)
      (Bounds3f.Offset ⟨(BVHPrimitiveInfo.create n b).centroid,
        (BVHPrimitiveInfo.create n b).centroid⟩ (BVHPrimitiveInfo.create n b).centroid) =
      ⟨((0 : Nat) : Float), ((0 : Nat) : Float), ((0 : Nat) : Float)⟩ := by
    simp [Bounds3f.Offset, Vector3f.smul, Vector3f.sub]
  have henc := EncodeMorton3_zero E
  simp only [mortonPrimsOf, hoff, henc]
  rfl
theorem HLBVHBuild_single (E : Env) (shape : Shape) (maxPrimsInNode : Int)
    (splitMethod : SplitMethod) (fuel : Nat) (hfin : shape.WorldBound.IsFinite) :
    HLBVHBuild E ⟨[some shape], maxPrimsInNode, splitMethod, none⟩ (fuel + 1)
        [BVHPrimitiveInfo.create 0 shape.WorldBound] [] =
      some (BVHBuildNode.InitLeaf 0 1 shape.WorldBound, 1, [some shape]) := by
  have hemit := emitLBVH_single E
    (⟨[some shape], maxPrimsInNode, splitMethod, none⟩ : BVHAccel ShapePtr)
    [BVHPrimitiveInfo.create 0 shape.WorldBound] ⟨0, 0⟩ [] (some shape) none
    (BVHPrimitiveInfo.create 0 shape.WorldBound) rfl rfl 18
  have hb : (BVHPrimitiveInfo.create 0 shape.WorldBound).bounds = shape.WorldBound := rfl
  rw [hb, Union_new_finite _ hfin] at hemit
  have htreelets : findTreelets [(⟨0, 0⟩ : MortonPrimitive)] = [⟨0, 1⟩] := by decide
  unfold HLBVHBuild
  simp only [mortonPrimsOf_single E 0 shape.WorldBound hfin, RadixSort_single, htreelets]
  have hemit2 : emitTreelets E (⟨[some shape], maxPrimsInNode, splitMethod, none⟩ : BVHAccel ShapePtr)
      [BVHPrimitiveInfo.create 0 shape.WorldBound] [⟨0, 0⟩] [⟨0, 1⟩] 0
      (resize [] ([some shape] : List ShapePtr).length) 0 =
      some ([BVHBuildNode.InitLeaf 0 1 shape.WorldBound], 1, [some shape], 1) := by
    simp only [emitTreelets]
    have e : emitLBVH E (⟨[some shape], maxPrimsInNode, splitMethod, none⟩ : BVHAccel ShapePtr)
        (2 * 1) [BVHPrimitiveInfo.create 0 shape.WorldBound] (((29 : Int) - 12 + 2).toNat)
        (List.drop 0 [(⟨0, 0⟩ : MortonPrimitive)]) 1 (29 - 12)
        ⟨0, 0, resize [] ([some shape] : List ShapePtr).length, 0⟩ =
        some (BVHBuildNode.InitLeaf 0 1 shape.WorldBound, ⟨1, 1, [some shape], 1⟩) := hemit
    rw [e]
    rfl
  rw [hemit2]
  simp only [List.length_singleton]
  rw [buildUpperSAH, MIN_ASSERT_of_true E _ (by decide)]
  simp

/-- C19. For a list of exactly one primitive (with finite bounds), every split method and
every `maxPrimsInNode`, `Build()` makes `totalNodes = 1` and a node array of one node: a
leaf at index 0 with `primitivesOffset = 0`, `nPrimitives = 1` and the bounds
`WorldBound()` of the primitive. -/
theorem single_primitive_build (E : Env) (shape : Shape) (maxPrimsInNode : Int)
    (splitMethod : SplitMethod) (fuel : Nat) (hfin : shape.WorldBound.IsFinite)
    (hfuel : 1 ≤ fuel) :
    buildTree E ⟨[some shape], maxPrimsInNode, splitMethod, none⟩ fuel =
      some (BVHBuildNode.InitLeaf 0 1 shape.WorldBound, 1, [some shape]) ∧
    BVHAccel.Build E ⟨[some shape], maxPrimsInNode, splitMethod, none⟩ fuel =
      some ⟨[some shape], maxPrimsInNode, splitMethod,
        some [⟨shape.WorldBound, 0, 1, 0⟩]⟩ := by
  obtain ⟨f, rfl⟩ : ∃ f, fuel = f + 1 := ⟨fuel - 1, by omega⟩
  have htree : buildTree E ⟨[some shape], maxPrimsInNode, splitMethod, none⟩ (f + 1) =
      some (BVHBuildNode.InitLeaf 0 1 shape.WorldBound, 1, [some shape]) := by
    unfold buildTree
    simp only [primitiveInfoOf]
    by_cases hm : splitMethod = SplitMethod.HLBVH
    · rw [if_pos hm]
      exact HLBVHBuild_single E shape maxPrimsInNode splitMethod f hfin
    · rw [if_neg hm]
      have hb : boundsOf [BVHPrimitiveInfo.create 0 shape.WorldBound] = shape.WorldBound := by
        simp only [boundsOf, List.foldl_cons, List.foldl_nil]
        exact Union_new_finite _ hfin
      simp [recursiveBuild, makeLeaf, slice, pushPrims, hb]
      rfl
  refine ⟨htree, ?_⟩
  unfold BVHAccel.Build
  simp only [List.isEmpty_cons, Bool.false_eq_true, if_false, htree]
  have hflat : flattenBVHTree E (BVHBuildNode.InitLeaf 0 1 shape.WorldBound)
      (List.replicate 1 ⟨Bounds3f.new, 0, 0, 0⟩) 0 =
      some (0, [⟨shape.WorldBound, 0, 1, 0⟩], 1) := by
    unfold BVHBuildNode.InitLeaf
    rw [flattenBVHTree]
    have h1 : (List.replicate 1 (⟨Bounds3f.new, 0, 0, 0⟩ : LinearBVHNode))[0]? =
        some ⟨Bounds3f.new, 0, 0, 0⟩ := rfl
    rw [h1]
    simp only
    rw [MIN_ASSERT_of_true E _ (by decide), MIN_ASSERT_of_true E _ (by decide),
      if_pos (by decide)]
    rfl
  rw [hflat]
  simp only
  rw [MIN_ASSERT_of_true E _ (by decide)]

set_option maxRecDepth 100000 in
unseal Rat.add Rat.mul Rat.inv Rat.sub in
theorem unitBox_finite : unitBox.IsFinite := by
  unfold Bounds3f.IsFinite Vector3f.IsFinite FiniteFloat
  decide

/-- A run of C19 on one shape in the unit cube with the method HLBVH and
`maxPrimsInNode = 1`. -/
theorem single_primitive_build_witness :
    buildTree (sampleEnv true) ⟨[some (sampleShape unitBox (3 / 2))], 1, SplitMethod.HLBVH, none⟩
        1 =
      some (BVHBuildNode.InitLeaf 0 1 (sampleShape unitBox (3 / 2)).WorldBound, 1,
        [some (sampleShape unitBox (3 / 2))]) ∧
    BVHAccel.Build (sampleEnv true)
        ⟨[some (sampleShape unitBox (3 / 2))], 1, SplitMethod.HLBVH, none⟩ 1 =
      some ⟨[some (sampleShape unitBox (3 / 2))], 1, SplitMethod.HLBVH,
        some [⟨(sampleShape unitBox (3 / 2)).WorldBound, 0, 1, 0⟩]⟩ :=
  single_primitive_build (sampleEnv true) (sampleShape unitBox (3 / 2)) 1 SplitMethod.HLBVH 1
    unitBox_finite (by decide)

/-- Along a path of a build tree, the bounds of every node contain the bounds of the leaf,
and the leaf is a leaf of the tree. -/
theorem paths_enclose (t : BVHBuildNode) :
    t.Invariant → ∀ pl ∈ t.paths, pl.2 ∈ t.leaves ∧ ∀ b ∈ pl.1, Encloses b pl.2.bounds := by
  induction t with
  | null =>
    intro h
    simp [BVHBuildNode.Invariant] at h
  | node b c0 c1 ax f n ih0 ih1 =>
    intro hinv pl hpl
    rw [BVHBuildNode.Invariant] at hinv
    rcases hinv with ⟨hn, _, _⟩ | ⟨hn, h0, h1, hb⟩
    · rw [BVHBuildNode.paths, if_pos hn, List.mem_singleton] at hpl
      subst hpl
      rw [leaves_leaf b c0 c1 ax f n hn]
      refine ⟨List.mem_singleton_self _, ?_⟩
      intro b1 hb1
      rw [List.mem_singleton.mp hb1]
      exact Encloses.refl b
    · subst hn
      rw [BVHBuildNode.paths, if_neg (by omega), List.mem_map] at hpl
      obtain ⟨q, hq, rfl⟩ := hpl
      rw [leaves_interior]
      have hbc0 : Encloses b c0.boundsD := by rw [hb]; exact Union_encloses_left _ _
      have hbc1 : Encloses b c1.boundsD := by rw [hb]; exact Union_encloses_right _ _
      have hroot : ∀ (c : BVHBuildNode), c.Invariant → ∀ pl ∈ c.paths,
          (∀ b ∈ pl.1, Encloses b pl.2.bounds) → Encloses c.boundsD pl.2.bounds := by
        intro c hc pl hpl hall
        cases c with
        | null => simp [BVHBuildNode.Invariant] at hc
        | node b2 d0 d1 ax2 f2 n2 =>
          apply hall
          rw [BVHBuildNode.paths] at hpl
          split_ifs at hpl with hn2
          · rw [List.mem_singleton.mp hpl]
            exact List.mem_singleton_self _
          · rw [List.mem_map] at hpl
            obtain ⟨q2, _, rfl⟩ := hpl
            exact List.mem_cons_self _ _
      rcases List.mem_append.mp hq with h | h
      · obtain ⟨hl, hall⟩ := ih0 h0 q h
        refine ⟨List.mem_append_left _ hl, ?_⟩
        intro b1 hb1
        rcases List.mem_cons.mp hb1 with rfl | hb1
        · exact hbc0.trans (hroot c0 h0 q h hall)
        · exact hall b1 hb1
      · obtain ⟨hl, hall⟩ := ih1 h1 q h
        refine ⟨List.mem_append_right _ hl, ?_⟩
        intro b1 hb1
        rcases List.mem_cons.mp hb1 with rfl | hb1
        · exact hbc1.trans (hroot c1 h1 q h hall)
        · exact hall b1 hb1

/-- C22. No false misses of the slab test, in exact arithmetic with the slack factor
`1 + 2 γ(3) ≥ 1`: for every box, every ray with all direction components non-zero (with
`invDir = 1 / d` and `dirIsNeg[k] = invDir[k] < 0`) and every `t` with `0 < t < ray.tmax`
whose point `o + t d` lies inside the box, `Bounds3::IntersectP` returns true; hence, in a
build tree whose leaves contain the world bounds of their primitives, it accepts the bounds
of every node on the path from the root to the leaf of a primitive whose world bound
contains the point. -/
theorem slab_test_no_false_miss {α : Type} (ray : Ray) (t : Float)
    (hd : ray.d.x ≠ 0 ∧ ray.d.y ≠ 0 ∧ ray.d.z ≠ 0) (ht0 : 0 < t) (ht1 : t < ray.tmax) :
    1 ≤ 1 + 2 * Gamma 3 ∧
    (∀ b : Bounds3f, Inside (ray.point t) b = true →
      b.IntersectP ray ⟨1 / ray.d.x, 1 / ray.d.y, 1 / ray.d.z⟩
        (fun k => b2n (decide (Vector3f.get ⟨1 / ray.d.x, 1 / ray.d.y, 1 / ray.d.z⟩ k < 0))) =
        true) ∧
    (∀ (tree : BVHBuildNode) (wb : α → Bounds3f) (orderedPrims : List α), tree.Invariant →
      LeafCovers wb orderedPrims tree.leaves →
      ∀ pl ∈ tree.paths, ∀ (i : Nat) (p : α), pl.2.firstPrimOffset ≤ i →
        i < pl.2.firstPrimOffset + pl.2.nPrimitives → orderedPrims[i]? = some p →
        Inside (ray.point t) (wb p) = true →
        ∀ b ∈ pl.1, b.IntersectP ray ⟨1 / ray.d.x, 1 / ray.d.y, 1 / ray.d.z⟩
          (fun k => b2n (decide (Vector3f.get ⟨1 / ray.d.x, 1 / ray.d.y, 1 / ray.d.z⟩ k < 0))) =
          true) := by
  refine ⟨by linarith [Gamma_nonneg], fun b hin => slab_of_inside b ray t hd ht0 ht1 hin, ?_⟩
  intro tree wb ord hinv hcov pl hpl i p hi1 hi2 hp hin b hb
  obtain ⟨hl, hall⟩ := paths_enclose tree hinv pl hpl
  have h1 : Encloses pl.2.bounds (wb p) := hcov pl.2 hl i hi1 hi2 p hp
  exact slab_of_inside b ray t hd ht0 ht1 (Inside_of_encloses ((hall b hb).trans h1) hin)

set_option maxRecDepth 100000 in
unseal Rat.add Rat.mul Rat.inv Rat.sub in
theorem sampleTree_paths :
    (sampleRay.d.x ≠ 0 ∧ sampleRay.d.y ≠ 0 ∧ sampleRay.d.z ≠ 0) ∧
    (0 : Float) < 7 / 2 ∧ (7 / 2 : Float) < sampleRay.tmax ∧
    sampleTree.paths.map (fun pl => (pl.1.length, pl.2.firstPrimOffset)) = [(2, 0), (2, 1)] ∧
    Inside (sampleRay.point (7 / 2)) (sampleWorldBound 1) = true := by
  decide

/-- A run of C22 on the sample ray at `t = 7/2`, where it is inside the second sample box:
the slab test accepts that box, and in the sample tree the bounds of the root and of the
second leaf. -/
theorem slab_test_no_false_miss_witness :
    (sampleRay.d.x ≠ 0 ∧ sampleRay.d.y ≠ 0 ∧ sampleRay.d.z ≠ 0) ∧
    (0 : Float) < 7 / 2 ∧ (7 / 2 : Float) < sampleRay.tmax ∧
    Inside (sampleRay.point (7 / 2)) (sampleWorldBound 1) = true ∧
    (sampleWorldBound 1).IntersectP sampleRay
        ⟨1 / sampleRay.d.x, 1 / sampleRay.d.y, 1 / sampleRay.d.z⟩
        (fun k => b2n (decide (Vector3f.get
          ⟨1 / sampleRay.d.x, 1 / sampleRay.d.y, 1 / sampleRay.d.z⟩ k < 0))) = true :=
  ⟨sampleTree_paths.1, sampleTree_paths.2.1, sampleTree_paths.2.2.1, sampleTree_paths.2.2.2.2,
    (@slab_test_no_false_miss Nat sampleRay (7 / 2) sampleTree_paths.1
      sampleTree_paths.2.1 sampleTree_paths.2.2.1).2.1 _ sampleTree_paths.2.2.2.2⟩

/-- The loop of `Intersect` is the iteration of `intersectStep`. -/
theorem intersectLoop_step (nodes : List LinearBVHNode) (primitives : List ShapePtr) (ray : Ray)
    (invDir : Vector3f) (dirIsNeg : Nat → Nat) (fuel : Nat) (st : TraversalState) :
    intersectLoop nodes primitives ray invDir dirIsNeg (fuel + 1) st =
      match intersectStep nodes primitives ray invDir dirIsNeg st with
      | none => none
      | some (.inl r) => some r
      | some (.inr st1) => intersectLoop nodes primitives ray invDir dirIsNeg fuel st1 := by
  rw [intersectLoop]
  unfold intersectStep
  cases nodes[st.currentNodeIndex]? with
  | none => rfl
  | some node =>
    simp only
    by_cases hs : node.bounds.IntersectP { ray with tmax := st.tmax } invDir dirIsNeg = true
    · simp only [if_pos hs]
      by_cases hn : node.nPrimitives > 0
      · simp only [if_pos hn]
        cases intersectLeaf primitives ray node.nPrimitives node.offset st.tmax st.hit with
        | none => rfl
        | some r =>
          simp only
          by_cases hk : st.toVisitOffset = 0
          · simp only [if_pos hk]
          · simp only [if_neg hk]
            cases st.nodesToVisit[st.toVisitOffset - 1]? <;> rfl
      · simp only [if_neg hn]
        by_cases hk : st.toVisitOffset < st.nodesToVisit.length
        · simp only [if_pos hk]
          by_cases hd : dirIsNeg node.axis ≠ 0
          · simp only [if_pos hd]
          · simp only [if_neg hd]
        · simp only [if_neg hk]
    · simp only [if_neg hs]
      by_cases hk : st.toVisitOffset = 0
      · simp only [if_pos hk]
      · simp only [if_neg hk]
        cases st.nodesToVisit[st.toVisitOffset - 1]? <;> rfl
/-- The leaf loop of `Intersect` ends with the `tmax` it started with or with a value that
a call of `Shape::Intersect` on one of the primitives returned; with shapes that only lower
`tmax`, it ends with a value that is not above the one it started with. -/
theorem intersectLeaf_tmax (primitives : List ShapePtr) (ray : Ray) :
    ∀ (n i : Nat) (T : Float) (hit : Bool) (T1 : Float) (hit1 : Bool),
      intersectLeaf primitives ray n i T hit = some (T1, hit1) →
      (T1 = T ∨ ∃ s T0, some s ∈ primitives ∧ s.Intersect { ray with tmax := T0 } = some T1) ∧
      ((∀ s, some s ∈ primitives → ∀ T0 t, s.Intersect { ray with tmax := T0 } = some t →
        t ≤ T0) → T1 ≤ T) := by
  intro n
  induction n with
  | zero =>
    intro i T hit T1 hit1 h
    simp only [intersectLeaf, Option.some.injEq, Prod.mk.injEq] at h
    rw [h.1]
    exact ⟨Or.inl rfl, fun _ => le_refl _⟩
  | succ n ih =>
    intro i T hit T1 hit1 h
    rw [intersectLeaf] at h
    cases hp : primitives[i]? with
    | none => rw [hp] at h; cases h
    | some p =>
      cases p with
      | none => rw [hp] at h; cases h
      | some shape =>
        rw [hp] at h
        simp only at h
        have hmem : some shape ∈ primitives := List.mem_iff_getElem?.mpr ⟨i, hp⟩
        cases hI : shape.Intersect { ray with tmax := T } with
        | none =>
          rw [hI] at h
          exact ih (i + 1) T hit T1 hit1 h
        | some t =>
          rw [hI] at h
          obtain ⟨h1, h2⟩ := ih (i + 1) t true T1 hit1 h
          constructor
          · rcases h1 with h1 | h1
            · right
              exact ⟨shape, T, hmem, by rw [h1]; exact hI⟩
            · exact Or.inr h1
          · intro hlow
            exact le_trans (h2 hlow) (hlow shape hmem T t hI)

/-- One iteration of the loop of `Intersect` changes `ray.tmax` only in the leaf loop. -/
theorem intersectStep_tmax (nodes : List LinearBVHNode) (primitives : List ShapePtr) (ray : Ray)
    (invDir : Vector3f) (dirIsNeg : Nat → Nat) (st : TraversalState)
    (r : (Bool × Float) ⊕ TraversalState)
    (h : intersectStep nodes primitives ray invDir dirIsNeg st = some r) :
    (Sum.elim (fun x => x.2) (fun s => s.tmax) r = st.tmax) ∨
      ∃ node hit1, nodes[st.currentNodeIndex]? = some node ∧ node.nPrimitives > 0 ∧
        intersectLeaf primitives ray node.nPrimitives node.offset st.tmax st.hit =
          some (Sum.elim (fun x => x.2) (fun s => s.tmax) r, hit1) := by
  unfold intersectStep at h
  cases hnode : nodes[st.currentNodeIndex]? with
  | none => rw [hnode] at h; cases h
  | some node =>
    rw [hnode] at h
    simp only at h
    by_cases hs : node.bounds.IntersectP { ray with tmax := st.tmax } invDir dirIsNeg = true
    · simp only [if_pos hs] at h
      by_cases hn : node.nPrimitives > 0
      · simp only [if_pos hn] at h
        cases hleaf : intersectLeaf primitives ray node.nPrimitives node.offset st.tmax st.hit with
        | none => rw [hleaf] at h; cases h
        | some res =>
          obtain ⟨T1, hit1⟩ := res
          rw [hleaf] at h
          simp only at h
          right
          refine ⟨node, hit1, rfl, hn, ?_⟩
          by_cases hk : st.toVisitOffset = 0
          · simp only [if_pos hk, Option.some.injEq] at h
            subst h
            exact hleaf
          · simp only [if_neg hk] at h
            cases hnext : st.nodesToVisit[st.toVisitOffset - 1]? with
            | none => rw [hnext] at h; cases h
            | some next =>
              rw [hnext] at h
              simp only [Option.some.injEq] at h
              subst h
              exact hleaf
      · simp only [if_neg hn] at h
        left
        by_cases hk : st.toVisitOffset < st.nodesToVisit.length
        · simp only [if_pos hk] at h
          by_cases hd : dirIsNeg node.axis ≠ 0
          · simp only [if_pos hd, Option.some.injEq] at h
            subst h
            rfl
          · simp only [if_neg hd, Option.some.injEq] at h
            subst h
            rfl
        · simp only [if_neg hk] at h
          cases h
    · simp only [if_neg hs] at h
      left
      by_cases hk : st.toVisitOffset = 0
      · simp only [if_pos hk, Option.some.injEq] at h
        subst h
        rfl
      · simp only [if_neg hk] at h
        cases hnext : st.nodesToVisit[st.toVisitOffset - 1]? with
        | none => rw [hnext] at h; cases h
        | some next =>
          rw [hnext] at h
          simp only [Option.some.injEq] at h
          subst h
          rfl

theorem intersectStep_le (nodes : List LinearBVHNode) (primitives : List ShapePtr) (ray : Ray)
    (invDir : Vector3f) (dirIsNeg : Nat → Nat)
    (hlow : ∀ s, some s ∈ primitives → ∀ T0 t, s.Intersect { ray with tmax := T0 } = some t →
      t ≤ T0)
    (st : TraversalState) (r : (Bool × Float) ⊕ TraversalState)
    (h : intersectStep nodes primitives ray invDir dirIsNeg st = some r) :
    Sum.elim (fun x => x.2) (fun s => s.tmax) r ≤ st.tmax := by
  rcases intersectStep_tmax nodes primitives ray invDir dirIsNeg st r h with h1 | ⟨_, _, _, _, h1⟩
  · exact le_of_eq h1
  · exact (intersectLeaf_tmax primitives ray _ _ _ _ _ _ h1).2 hlow

theorem tmaxTrace_le (nodes : List LinearBVHNode) (primitives : List ShapePtr) (ray : Ray)
    (invDir : Vector3f) (dirIsNeg : Nat → Nat)
    (hlow : ∀ s, some s ∈ primitives → ∀ T0 t, s.Intersect { ray with tmax := T0 } = some t →
      t ≤ T0) :
    ∀ (fuel : Nat) (st : TraversalState),
      (∀ x ∈ tmaxTrace nodes primitives ray invDir dirIsNeg fuel st, x ≤ st.tmax) ∧
      (tmaxTrace nodes primitives ray invDir dirIsNeg fuel st).Pairwise (fun a b => a ≥ b) := by
  intro fuel
  induction fuel with
  | zero =>
    intro st
    simp [tmaxTrace]
  | succ fuel ih =>
    intro st
    rw [tmaxTrace]
    have hrest : ∀ x ∈ (match intersectStep nodes primitives ray invDir dirIsNeg st with
        | none => []
        | some (.inl r) => [r.2]
        | some (.inr st1) => tmaxTrace nodes primitives ray invDir dirIsNeg fuel st1),
        x ≤ st.tmax := by
      intro x hx
      cases hstep : intersectStep nodes primitives ray invDir dirIsNeg st with
      | none => rw [hstep] at hx; cases hx
      | some r =>
        have hle := intersectStep_le nodes primitives ray invDir dirIsNeg hlow st r hstep
        rw [hstep] at hx
        cases r with
        | inl res =>
          simp only [List.mem_singleton] at hx
          rw [hx]
          exact hle
        | inr st1 =>
          exact le_trans ((ih st1).1 x hx) hle
    constructor
    · intro x hx
      rcases List.mem_cons.mp hx with rfl | hx
      · exact le_refl _
      · exact hrest x hx
    · rw [List.pairwise_cons]
      refine ⟨fun x hx => hrest x hx, ?_⟩
      cases hstep : intersectStep nodes primitives ray invDir dirIsNeg st with
      | none => exact List.Pairwise.nil
      | some r =>
        cases r with
        | inl res => exact List.pairwise_singleton _ _
        | inr st1 => exact (ih st1).2

theorem leafTrace_le (primitives : List ShapePtr) (ray : Ray)
    (hlow : ∀ s, some s ∈ primitives → ∀ T0 t, s.Intersect { ray with tmax := T0 } = some t →
      t ≤ T0) :
    ∀ (n i : Nat) (T : Float),
      (∀ x ∈ leafTrace primitives ray n i T, x ≤ T) ∧
      (leafTrace primitives ray n i T).Pairwise (fun a b => a ≥ b) := by
  intro n
  induction n with
  | zero =>
    intro i T
    simp [leafTrace]
  | succ n ih =>
    intro i T
    rw [leafTrace]
    cases hp : primitives[i]? with
    | none => simp
    | some p =>
      cases p with
      | none => simp
      | some shape =>
        simp only
        have hmem : some shape ∈ primitives := List.mem_iff_getElem?.mpr ⟨i, hp⟩
        cases hI : shape.Intersect { ray with tmax := T } with
        | none =>
          simp only
          obtain ⟨h1, h2⟩ := ih (i + 1) T
          exact ⟨fun x hx => by
              rcases List.mem_cons.mp hx with rfl | hx
              · exact le_refl _
              · exact h1 x hx,
            List.pairwise_cons.mpr ⟨fun x hx => h1 x hx, h2⟩⟩
        | some t =>
          simp only
          obtain ⟨h1, h2⟩ := ih (i + 1) t
          have ht := hlow shape hmem T t hI
          exact ⟨fun x hx => by
              rcases List.mem_cons.mp hx with rfl | hx
              · exact le_refl _
              · exact le_trans (h1 x hx) ht,
            List.pairwise_cons.mpr ⟨fun x hx => le_trans (h1 x hx) ht, h2⟩⟩

/-- The value of `ray.tmax` that the loop of `Intersect` returns is the last of the values
of its run. -/
theorem tmaxTrace_last (nodes : List LinearBVHNode) (primitives : List ShapePtr) (ray : Ray)
    (invDir : Vector3f) (dirIsNeg : Nat → Nat) :
    ∀ (fuel : Nat) (st : TraversalState) (r : Bool × Float),
      intersectLoop nodes primitives ray invDir dirIsNeg fuel st = some r →
      r.2 ∈ tmaxTrace nodes primitives ray invDir dirIsNeg fuel st ∧
      (tmaxTrace nodes primitives ray invDir dirIsNeg fuel st).getLast? = some r.2 := by
  intro fuel
  induction fuel with
  | zero =>
    intro st r h
    simp [intersectLoop] at h
  | succ fuel ih =>
    intro st r h
    rw [intersectLoop_step] at h
    rw [tmaxTrace]
    cases hstep : intersectStep nodes primitives ray invDir dirIsNeg st with
    | none => rw [hstep] at h; cases h
    | some res =>
      rw [hstep] at h
      cases res with
      | inl r1 =>
        simp only [Option.some.injEq] at h
        subst h
        simp
      | inr st1 =>
        simp only at h
        obtain ⟨h1, h2⟩ := ih st1 r h
        refine ⟨List.mem_cons_of_mem _ h1, ?_⟩
        simp only
        cases htr : tmaxTrace nodes primitives ray invDir dirIsNeg fuel st1 with
        | nil => rw [htr] at h1; cases h1
        | cons a l =>
          rw [htr] at h2
          rw [List.getLast?_cons_cons]
          exact h2
theorem tmaxTrace_head (nodes : List LinearBVHNode) (primitives : List ShapePtr) (ray : Ray)
    (invDir : Vector3f) (dirIsNeg : Nat → Nat) (fuel : Nat) (st : TraversalState) :
    (tmaxTrace nodes primitives ray invDir dirIsNeg fuel st).head? = some st.tmax := by
  cases fuel with
  | zero => rfl
  | succ fuel => rw [tmaxTrace]; rfl

/-- C23: given shapes whose `Intersect` returns only hit parameters that are not above the
current `ray.tmax` (and that leave `ray.tmax` as it is on a miss, as in the interface), the
values of `ray.tmax` over the iterations of the loop of `BVHAccel::Intersect`, and over the
calls of `Shape::Intersect` in a leaf, never increase; a call that returns ends with the
last of these values, which is not above the value on entry. The code of the accelerator
does not write `ray.tmax`: an iteration of the loop (`intersectStep` is the body of the
loop) leaves it as it is unless it runs the leaf loop, and the leaf loop ends with the value
it started with or with a value that `Shape::Intersect` stored. -/
theorem Intersect_tmax_nonincreasing (self : BVHAccel ShapePtr) (ray : Ray)
    (hlow : ∀ s, some s ∈ self.primitives → ∀ T0 t,
      s.Intersect { ray with tmax := T0 } = some t → t ≤ T0) :
    (∀ fuel, (self.tmaxTrace fuel ray).Pairwise (fun a b => a ≥ b)) ∧
    (∀ fuel r, self.Intersect fuel ray = some r →
      (self.tmaxTrace fuel ray).head? = some ray.tmax ∧
      (self.tmaxTrace fuel ray).getLast? = some r.2 ∧ r.2 ≤ ray.tmax) ∧
    (∀ n i T, (leafTrace self.primitives ray n i T).Pairwise (fun a b => a ≥ b)) ∧
    (∀ nodes invDir dirIsNeg fuel st,
      intersectLoop nodes self.primitives ray invDir dirIsNeg (fuel + 1) st =
        match intersectStep nodes self.primitives ray invDir dirIsNeg st with
        | none => none
        | some (.inl r) => some r
        | some (.inr st1) => intersectLoop nodes self.primitives ray invDir dirIsNeg fuel st1) ∧
    (∀ nodes invDir dirIsNeg st r,
      intersectStep nodes self.primitives ray invDir dirIsNeg st = some r →
      (Sum.elim (fun x => x.2) (fun s => s.tmax) r = st.tmax) ∨
      ∃ node hit1, nodes[st.currentNodeIndex]? = some node ∧ node.nPrimitives > 0 ∧
        intersectLeaf self.primitives ray node.nPrimitives node.offset st.tmax st.hit =
          some (Sum.elim (fun x => x.2) (fun s => s.tmax) r, hit1)) ∧
    (∀ n i T hit T1 hit1, intersectLeaf self.primitives ray n i T hit = some (T1, hit1) →
      T1 = T ∨ ∃ s T0, some s ∈ self.primitives ∧
        s.Intersect { ray with tmax := T0 } = some T1) := by
  refine ⟨?_, ?_, fun n i T => (leafTrace_le self.primitives ray hlow n i T).2,
    fun nodes invDir dirIsNeg fuel st =>
      intersectLoop_step nodes self.primitives ray invDir dirIsNeg fuel st,
    fun nodes invDir dirIsNeg st r h =>
      intersectStep_tmax nodes self.primitives ray invDir dirIsNeg st r h,
    fun n i T hit T1 hit1 h => (intersectLeaf_tmax self.primitives ray n i T hit T1 hit1 h).1⟩
  · intro fuel
    unfold BVHAccel.tmaxTrace
    cases self.nodes with
    | none => exact List.pairwise_singleton _ _
    | some nodes => exact (tmaxTrace_le nodes self.primitives ray _ _ hlow fuel _).2
  · intro fuel r h
    unfold BVHAccel.Intersect at h
    unfold BVHAccel.tmaxTrace
    cases hn : self.nodes with
    | none =>
      rw [hn] at h
      simp only [Option.some.injEq] at h
      subst h
      exact ⟨rfl, rfl, le_refl _⟩
    | some nodes =>
      rw [hn] at h
      simp only at h ⊢
      obtain ⟨h1, h2⟩ := tmaxTrace_last nodes self.primitives ray _ _ fuel _ r h
      exact ⟨tmaxTrace_head nodes self.primitives ray _ _ fuel _, h2,
        (tmaxTrace_le nodes self.primitives ray _ _ hlow fuel _).1 r.2 h1⟩

theorem sampleShape_lowers (b : Bounds3f) (t : Float) (ray : Ray) (t1 : Float)
    (h : (sampleShape b t).Intersect ray = some t1) : t1 < ray.tmax := by
  simp only [sampleShape] at h
  split_ifs at h with hc
  simp only [Option.some.injEq] at h
  rw [← h]
  exact hc.2

unseal Rat.add Rat.mul Rat.inv Rat.sub in
set_option maxRecDepth 100000 in
theorem sampleScene_tmaxTrace :
    (BVHAccel.Build (sampleEnv true) (sampleScene SplitMethod.SAH) 2).map
      (fun accel => (accel.primitives.map (fun p => p.map (fun s => s.WorldBound)),
        accel.tmaxTrace 4 sampleRay, accel.Intersect 4 sampleRay)) =
      some ([some ⟨⟨0, 0, 0⟩, ⟨1, 1, 1⟩⟩, some ⟨⟨2, 0, 0⟩, ⟨3, 1, 1⟩⟩],
        [100, 100, 3 / 2, 3 / 2], some (true, 3 / 2)) := by
  decide

/-- A run of C23 on the two sample shapes: over the call of `Intersect` on the built sample
scene, `ray.tmax` takes the values 100, 100, 3/2, 3/2. -/
theorem Intersect_tmax_nonincreasing_witness :
    ∃ accel, BVHAccel.Build (sampleEnv true) (sampleScene SplitMethod.SAH) 2 = some accel ∧
      accel.primitives.Perm sampleShapes ∧
      accel.tmaxTrace 4 sampleRay = [100, 100, 3 / 2, 3 / 2] ∧
      (accel.tmaxTrace 4 sampleRay).Pairwise (fun a b => a ≥ b) ∧
      accel.Intersect 4 sampleRay = some (true, 3 / 2) := by
  have hrun := sampleScene_tmaxTrace
  cases hb : BVHAccel.Build (sampleEnv true) (sampleScene SplitMethod.SAH) 2 with
  | none => rw [hb] at hrun; cases hrun
  | some accel =>
    rw [hb] at hrun
    simp only [Option.map_some', Option.some.injEq, Prod.mk.injEq] at hrun
    obtain ⟨root, total, ordered, nodes, hbt, hord, _, _⟩ :=
      Build_returns (sampleEnv true) (sampleScene SplitMethod.SAH) 2 accel
        (List.cons_ne_nil _ _) hb
    have hp : accel.primitives.Perm sampleShapes := by
      rw [hord]
      exact (buildTree_spec _ _ _ _ _ _ hbt).2.2.2.1
    have hlow : ∀ s, some s ∈ accel.primitives → ∀ T0 t,
        s.Intersect { sampleRay with tmax := T0 } = some t → t ≤ T0 := by
      intro s hs T0 t ht
      have hs := hp.subset hs
      simp only [sampleShapes, List.mem_cons, Option.some.injEq, List.mem_singleton,
        List.not_mem_nil, or_false] at hs
      rcases hs with rfl | rfl
      · exact le_of_lt (sampleShape_lowers _ _ _ _ ht)
      · exact le_of_lt (sampleShape_lowers _ _ _ _ ht)
    exact ⟨accel, rfl, hp, hrun.2.1,
      (Intersect_tmax_nonincreasing accel sampleRay hlow).1 4, hrun.2.2⟩

theorem Union_least {A a b : Bounds3f} (ha : Encloses A a) (hb : Encloses A b) :
    Encloses A (Union a b) := by
  obtain ⟨a1, a2, a3, a4, a5, a6⟩ := ha
  obtain ⟨b1, b2, b3, b4, b5, b6⟩ := hb
  simp only [Encloses, Union, Min, Max]
  exact ⟨le_min a1 b1, le_min a2 b2, le_min a3 b3, max_le a4 b4, max_le a5 b5, max_le a6 b6⟩

theorem foldl_Union_least {α : Type} (f : α → Bounds3f) (A : Bounds3f) (l : List α) :
    ∀ b, Encloses A b → (∀ x ∈ l, Encloses A (f x)) →
      Encloses A (l.foldl (fun acc p => Union acc (f p)) b) := by
  induction l with
  | nil => intro b hb _; exact hb
  | cons x xs ih =>
    intro b hb hl
    simp only [List.foldl_cons]
    exact ih _ (Union_least hb (hl x (List.mem_cons_self _ _)))
      (fun y hy => hl y (List.mem_cons_of_mem _ hy))

theorem Encloses.antisymm {a b : Bounds3f} (h1 : Encloses a b) (h2 : Encloses b a) : a = b := by
  obtain ⟨a1, a2, a3, a4, a5, a6⟩ := h1
  obtain ⟨b1, b2, b3, b4, b5, b6⟩ := h2
  obtain ⟨⟨x0, y0, z0⟩, ⟨x1, y1, z1⟩⟩ := a
  obtain ⟨⟨u0, v0, w0⟩, ⟨u1, v1, w1⟩⟩ := b
  simp only at a1 a2 a3 a4 a5 a6 b1 b2 b3 b4 b5 b6
  rw [le_antisymm a1 b1, le_antisymm a2 b2, le_antisymm a3 b3, le_antisymm b4 a4,
    le_antisymm b5 a5, le_antisymm b6 a6]

theorem mem_of_mem_slice {α : Type} (l : List α) (s e : Nat) (p : α) (h : p ∈ slice l s e) :
    p ∈ l :=
  List.mem_of_mem_drop (List.mem_of_mem_take h)

/-- The bounds of a build tree lie in every box that contains the empty box `Bounds3()` and
the world bounds of all the primitives. -/
theorem tree_bounds_below {α : Type} (wb : α → Bounds3f) (ord : List α) (X : Bounds3f)
    (hX : Encloses X Bounds3f.new) (hp : ∀ p ∈ ord, Encloses X (wb p)) (t : BVHBuildNode) :
    t.Invariant → LeafBoundsOK wb ord t.leaves → Encloses X t.boundsD := by
  induction t with
  | null =>
    intro h
    simp [BVHBuildNode.Invariant] at h
  | node b c0 c1 ax f n ih0 ih1 =>
    intro hinv hl
    rw [BVHBuildNode.Invariant] at hinv
    rcases hinv with ⟨hn, _, _⟩ | ⟨hn, h0, h1, hb⟩
    · rw [leaves_leaf b c0 c1 ax f n hn] at hl
      obtain ⟨_, hbd⟩ := hl ⟨b, f, n⟩ (List.mem_singleton.mpr rfl)
      simp only at hbd
      show Encloses X b
      rw [hbd]
      exact foldl_Union_least wb X _ _ hX (fun x hx => hp x (mem_of_mem_slice _ _ _ _ hx))
    · subst hn
      rw [leaves_interior] at hl
      show Encloses X b
      rw [hb]
      exact Union_least (ih0 h0 (fun l hlm => hl l (List.mem_append_left _ hlm)))
        (ih1 h1 (fun l hlm => hl l (List.mem_append_right _ hlm)))

/-- The bounds of a build tree contain the empty box `Bounds3()` and the bounds of each of
its leaves. -/
theorem tree_bounds_above {α : Type} (wb : α → Bounds3f) (ord : List α) (t : BVHBuildNode) :
    t.Invariant → LeafBoundsOK wb ord t.leaves →
    Encloses t.boundsD Bounds3f.new ∧ ∀ l ∈ t.leaves, Encloses t.boundsD l.bounds := by
  induction t with
  | null =>
    intro h
    simp [BVHBuildNode.Invariant] at h
  | node b c0 c1 ax f n ih0 ih1 =>
    intro hinv hl
    rw [BVHBuildNode.Invariant] at hinv
    rcases hinv with ⟨hn, _, _⟩ | ⟨hn, h0, h1, hb⟩
    · rw [leaves_leaf b c0 c1 ax f n hn] at hl ⊢
      obtain ⟨_, hbd⟩ := hl ⟨b, f, n⟩ (List.mem_singleton.mpr rfl)
      simp only at hbd
      refine ⟨?_, ?_⟩
      · show Encloses b Bounds3f.new
        rw [hbd]
        exact foldl_Union_encloses_init wb _ _
      · intro l hlm
        rw [List.mem_singleton] at hlm
        subst hlm
        exact Encloses.refl b
    · subst hn
      rw [leaves_interior] at hl ⊢
      obtain ⟨a0, a1⟩ := ih0 h0 (fun l hlm => hl l (List.mem_append_left _ hlm))
      obtain ⟨b0, b1⟩ := ih1 h1 (fun l hlm => hl l (List.mem_append_right _ hlm))
      have e0 : Encloses b c0.boundsD := by rw [hb]; exact Union_encloses_left _ _
      have e1 : Encloses b c1.boundsD := by rw [hb]; exact Union_encloses_right _ _
      refine ⟨e0.trans a0, ?_⟩
      intro l hlm
      rcases List.mem_append.mp hlm with hlm | hlm
      · exact e0.trans (a1 l hlm)
      · exact e1.trans (b1 l hlm)

/-- C24: after `Build()` on a non-empty primitive list, whatever the split method, the node
array has a node 0, `WorldBound()` returns the bounds of node 0, and these are the union of
the world bounds of all the primitives of the input (accumulated from `Bounds3()` with
`Union`). -/
theorem WorldBound_after_Build (E : Env) (self : BVHAccel ShapePtr) (fuel : Nat)
    (accel : BVHAccel ShapePtr) (hne : self.primitives ≠ [])
    (h : self.Build E fuel = some accel) :
    ∃ nodes ln, accel.nodes = some nodes ∧ nodes[0]? = some ln ∧
      accel.WorldBound = some ln.bounds ∧
      ln.bounds = unionOf worldBound self.primitives := by
  obtain ⟨root, total, ordered, nodes, hbt, hord, hnodes, hpre⟩ :=
    Build_returns E self fuel accel hne h
  obtain ⟨hinv, _, hlen, hperm, hslots, hlb⟩ := buildTree_spec E self fuel root total ordered hbt
  obtain ⟨b, c0, c1, ax, f, n, hroot, hbd⟩ := Invariant_bounds root hinv
  have hln : ∃ ln, nodes[0]? = some ln ∧ ln.bounds = b := by
    rw [hroot, PreOrder] at hpre
    split_ifs at hpre
    · obtain ⟨ln, h1, h2, _⟩ := hpre
      exact ⟨ln, h1, h2⟩
    · obtain ⟨⟨ln, h1, h2, _⟩, _⟩ := hpre
      exact ⟨ln, h1, h2⟩
  obtain ⟨ln, hln0, hlnb⟩ := hln
  refine ⟨nodes, ln, hnodes, hln0, ?_, ?_⟩
  · unfold BVHAccel.WorldBound
    rw [hnodes]
    simp only [hln0, Option.map_some']
  · rw [hlnb, ← hbd]
    obtain ⟨hnew, hleaves⟩ := tree_bounds_above worldBound ordered root hinv hlb
    have hcov := LeafCovers_of_bounds worldBound ordered root.leaves hlb
    apply Encloses.antisymm
    · apply foldl_Union_least worldBound _ _ _ hnew
      intro p hp
      have hp1 : p ∈ ordered := hperm.symm.subset hp
      obtain ⟨i, hi⟩ := List.mem_iff_getElem?.mp hp1
      have hiN : i < self.primitives.length := by
        rw [← hlen]
        by_contra hc
        rw [List.getElem?_eq_none (by omega)] at hi
        cases hi
      obtain ⟨l, hl, hl1, hl2⟩ := slot_in_leaf root.leaves _ i hslots hiN
      exact (hleaves l hl).trans (hcov l hl i hl1 hl2 p hi)
    · exact tree_bounds_below worldBound ordered _ (foldl_Union_encloses_init worldBound _ _)
        (fun p hp => unionOf_encloses worldBound _ p (hperm.subset hp)) root hinv hlb

unseal Rat.add Rat.mul Rat.inv Rat.sub in
set_option maxRecDepth 100000 in
theorem sampleScene_WorldBound :
    (BVHAccel.Build (sampleEnv true) (sampleScene SplitMethod.SAH) 2).map
      (fun accel => accel.WorldBound) = some (some ⟨⟨0, 0, 0⟩, ⟨3, 1, 1⟩⟩) ∧
    (BVHAccel.Build (sampleEnv true) (sampleScene SplitMethod.Middle) 2).map
      (fun accel => accel.WorldBound) = some (some ⟨⟨0, 0, 0⟩, ⟨3, 1, 1⟩⟩) ∧
    (BVHAccel.Build (sampleEnv true) (sampleScene SplitMethod.EqualCounts) 2).map
      (fun accel => accel.WorldBound) = some (some ⟨⟨0, 0, 0⟩, ⟨3, 1, 1⟩⟩) ∧
    (BVHAccel.Build sampleEnvRelease (sampleScene SplitMethod.HLBVH) 2).map
      (fun accel => accel.WorldBound) = some (some ⟨⟨0, 0, 0⟩, ⟨3, 1, 1⟩⟩) := by
  decide

/-- A run of C24 on the two sample shapes: `Build` returns, and `WorldBound()` is the box
from `(0, 0, 0)` to `(3, 1, 1)`, the union of the two cubes. -/
theorem WorldBound_after_Build_witness :
    (sampleScene SplitMethod.SAH).primitives ≠ [] ∧
    ∃ accel, BVHAccel.Build (sampleEnv true) (sampleScene SplitMethod.SAH) 2 = some accel ∧
      (∃ nodes ln, accel.nodes = some nodes ∧ nodes[0]? = some ln ∧
        accel.WorldBound = some ln.bounds ∧
        ln.bounds = unionOf worldBound (sampleScene SplitMethod.SAH).primitives) ∧
      accel.WorldBound = some ⟨⟨0, 0, 0⟩, ⟨3, 1, 1⟩⟩ := by
  have hrun := sampleScene_WorldBound.1
  cases hb : BVHAccel.Build (sampleEnv true) (sampleScene SplitMethod.SAH) 2 with
  | none => rw [hb] at hrun; cases hrun
  | some accel =>
    rw [hb] at hrun
    simp only [Option.map_some', Option.some.injEq] at hrun
    exact ⟨List.cons_ne_nil _ _, accel, rfl,
      WorldBound_after_Build (sampleEnv true) (sampleScene SplitMethod.SAH) 2 accel
        (List.cons_ne_nil _ _) hb, hrun⟩
/-- C25 (defect): `BVHAccel::initialize` compares the option `split_method` with `"sah"`
only. With `"sah"`, or without the option, the split method becomes SAH, and
`maxPrimsInNode` is the option `maxnodeprims` or 4 without it; but `"equal"`, `"middle"` and
`"hlbvh"` (as every other string) leave the member `splitMethod` as it was, so that on an
accelerator whose split method is SAH they select SAH, not EqualCounts, Middle or HLBVH. -/
theorem initialize_split_method_only_sah :
    (∀ (self : BVHAccel ShapePtr) (json : Json),
      (json.split_method = some "sah" ∨ json.split_method = none →
        (self.initialize_ json).splitMethod = SplitMethod.SAH) ∧
      (json.maxnodeprims = none → (self.initialize_ json).maxPrimsInNode = 4) ∧
      (∀ str, json.split_method = some str → str ≠ "sah" →
        (self.initialize_ json).splitMethod = self.splitMethod) ∧
      (json.split_method = some "equal" ∨ json.split_method = some "middle" ∨
          json.split_method = some "hlbvh" →
        (self.initialize_ json).splitMethod = self.splitMethod)) ∧
    ((sampleScene SplitMethod.SAH).initialize_ ⟨some "equal", none⟩).splitMethod =
      SplitMethod.SAH ∧
    ((sampleScene SplitMethod.SAH).initialize_ ⟨some "middle", none⟩).splitMethod =
      SplitMethod.SAH ∧
    ((sampleScene SplitMethod.SAH).initialize_ ⟨some "hlbvh", none⟩).splitMethod =
      SplitMethod.SAH ∧
    ((sampleScene SplitMethod.Middle).initialize_ ⟨some "equal", none⟩).splitMethod =
      SplitMethod.Middle := by
  refine ⟨?_, by decide, by decide, by decide, by decide⟩
  intro self json
  have hother : ∀ str, json.split_method = some str → str ≠ "sah" →
      (self.initialize_ json).splitMethod = self.splitMethod := by
    intro str hs hne
    simp only [BVHAccel.initialize_, Value, hs, Option.getD_some, if_neg hne]
  refine ⟨?_, ?_, hother, ?_⟩
  · rintro (h | h) <;> simp [BVHAccel.initialize_, Value, h]
  · intro h
    simp [BVHAccel.initialize_, Value, h]
  · rintro (h | h | h)
    · exact hother _ h (by decide)
    · exact hother _ h (by decide)
    · exact hother _ h (by decide)
theorem chooseSplit_congr {α : Type} (E : Env) (self self1 : BVHAccel α)
    (hm : self.maxPrimsInNode = self1.maxPrimsInNode) (hs : self.splitMethod = self1.splitMethod)
    (info : List BVHPrimitiveInfo) (s e dim : Nat) (bounds cb : Bounds3f) :
    chooseSplit E self info s e dim bounds cb = chooseSplit E self1 info s e dim bounds cb := by
  unfold chooseSplit
  rw [hm, hs]

theorem recursiveBuild_congr {α : Type} (E : Env) (self self1 : BVHAccel α)
    (hp : self.primitives = self1.primitives)
    (hm : self.maxPrimsInNode = self1.maxPrimsInNode)
    (hs : self.splitMethod = self1.splitMethod) :
    ∀ (fuel : Nat) (info : List BVHPrimitiveInfo) (s e tn : Nat) (ord : List α),
      recursiveBuild E self fuel info s e tn ord = recursiveBuild E self1 fuel info s e tn ord := by
  intro fuel
  induction fuel with
  | zero =>
    intro info s e tn ord
    rfl
  | succ fuel ih =>
    intro info s e tn ord
    rw [recursiveBuild, recursiveBuild]
    simp only [ih, hp, chooseSplit_congr E self self1 hm hs]

theorem emitLBVH_congr {α : Type} (E : Env) (self self1 : BVHAccel α)
    (hp : self.primitives = self1.primitives)
    (hm : self.maxPrimsInNode = self1.maxPrimsInNode) (arena : Nat)
    (info : List BVHPrimitiveInfo) :
    ∀ (fuel : Nat) (mp : List MortonPrimitive) (n : Nat) (bit : Int) (st : EmitState α),
      emitLBVH E self arena info fuel mp n bit st = emitLBVH E self1 arena info fuel mp n bit st := by
  intro fuel
  induction fuel with
  | zero =>
    intro mp n bit st
    rfl
  | succ fuel ih =>
    intro mp n bit st
    rw [emitLBVH, emitLBVH]
    simp only [ih, hp, hm]

theorem emitTreelets_congr {α : Type} (E : Env) (self self1 : BVHAccel α)
    (hp : self.primitives = self1.primitives)
    (hm : self.maxPrimsInNode = self1.maxPrimsInNode)
    (info : List BVHPrimitiveInfo) (mp : List MortonPrimitive) :
    ∀ (trs : List LBVHTreelet) (total : Nat) (ord : List α) (off : Nat),
      emitTreelets E self info mp trs total ord off =
        emitTreelets E self1 info mp trs total ord off := by
  intro trs
  induction trs with
  | nil =>
    intro total ord off
    rfl
  | cons tr rest ih =>
    intro total ord off
    rw [emitTreelets, emitTreelets]
    simp only [ih, emitLBVH_congr E self self1 hp hm]

/-- The method `Build` reads the primitive vector and the two build options of the
accelerator, not the node array. -/
theorem Build_congr (E : Env) (p : List ShapePtr) (m : Int) (s : SplitMethod)
    (n1 n2 : Option (List LinearBVHNode)) (fuel : Nat) (hne : p ≠ []) :
    BVHAccel.Build E ⟨p, m, s, n1⟩ fuel = BVHAccel.Build E ⟨p, m, s, n2⟩ fuel := by
  have hbt : buildTree E ⟨p, m, s, n1⟩ fuel = buildTree E ⟨p, m, s, n2⟩ fuel := by
    unfold buildTree HLBVHBuild
    simp only [recursiveBuild_congr E ⟨p, m, s, n1⟩ ⟨p, m, s, n2⟩ rfl rfl rfl,
      emitTreelets_congr E ⟨p, m, s, n1⟩ ⟨p, m, s, n2⟩ rfl rfl]
  unfold BVHAccel.Build
  rw [hbt]
  simp only [isEmpty_of_ne_nil p hne, Bool.false_eq_true, if_false]

unseal Rat.add Rat.mul Rat.inv Rat.sub in
set_option maxRecDepth 100000 in
theorem sampleScene_rebuilds :
    ((BVHAccel.Build (sampleEnv true) (sampleScene SplitMethod.SAH) 2).map
      (fun a => a.nodes.map (fun ns => ns.length))) = some (some 3) ∧
    ((BVHAccel.Build (sampleEnv true) (sampleScene SplitMethod.SAH) 2).bind
      (fun a => (BVHAccel.Build (sampleEnv true) a 2).map
        (fun a1 => a1.nodes.map (fun ns => ns.length)))) = some (some 3) ∧
    ((BVHAccel.Build (sampleEnv true) (sampleScene SplitMethod.SAH) 2).bind
      (fun a => (BVHAccel.Build (sampleEnv true)
          (a.AddShape [some (sampleShape ⟨⟨4, 0, 0⟩, ⟨5, 1, 1⟩⟩ (11 / 2))]) 3).map
        (fun a1 => (a1.primitives.length, a1.nodes.map (fun ns => ns.length))))) =
      some (3, some 5) ∧
    ((BVHAccel.Build (sampleEnv true) (sampleScene SplitMethod.SAH) 2).map
      (fun a => ((a.AddShape [some (sampleShape ⟨⟨4, 0, 0⟩, ⟨5, 1, 1⟩⟩ (11 / 2))]).primitives.length,
        (a.AddShape [some (sampleShape ⟨⟨4, 0, 0⟩, ⟨5, 1, 1⟩⟩ (11 / 2))]).nodes.map
          (fun ns => ns.length)))) = some (3, some 3) := by
  decide
theorem Build_options (E : Env) (self : BVHAccel ShapePtr) (fuel : Nat)
    (accel : BVHAccel ShapePtr) (h : self.Build E fuel = some accel) :
    accel.maxPrimsInNode = self.maxPrimsInNode ∧ accel.splitMethod = self.splitMethod := by
  unfold BVHAccel.Build at h
  split at h
  · simp only [Option.some.injEq] at h
    subst h
    exact ⟨rfl, rfl⟩
  · split at h
    · cases h
    · split at h
      · cases h
      · split at h
        · cases h
        · simp only [Option.some.injEq] at h
          subst h
          exact ⟨rfl, rfl⟩

/-- C26 (amended): nothing in `Build` or `AddShape` looks at the node array. After a
`Build()` on a non-empty primitive list, a second `Build()` is the build of a fresh
accelerator over the primitive vector as the first call reordered it, with the same options
(and so stores a new node array whenever that build returns); `AddShape` appends the shapes
and keeps the node array, and a `Build()` after it is the build of a fresh accelerator over
the longer vector. -/
theorem Build_again_rebuilds (E : Env) (self : BVHAccel ShapePtr) (fuel : Nat)
    (accel : BVHAccel ShapePtr) (hne : self.primitives ≠ [])
    (h : self.Build E fuel = some accel) :
    accel.primitives ≠ [] ∧
    (∀ fuel1, accel.Build E fuel1 =
      BVHAccel.Build E ⟨accel.primitives, self.maxPrimsInNode, self.splitMethod, none⟩ fuel1) ∧
    (∀ shape, (accel.AddShape shape).primitives = accel.primitives ++ shape ∧
      (accel.AddShape shape).nodes = accel.nodes ∧
      ∀ fuel1, (accel.AddShape shape).Build E fuel1 =
        BVHAccel.Build E
          ⟨accel.primitives ++ shape, self.maxPrimsInNode, self.splitMethod, none⟩ fuel1) := by
  obtain ⟨hm, hs⟩ := Build_options E self fuel accel h
  obtain ⟨root, total, ordered, nodes, hbt, hord, _, _⟩ := Build_returns E self fuel accel hne h
  have hlen := (buildTree_spec E self fuel root total ordered hbt).2.2.1
  have hane : accel.primitives ≠ [] := by
    intro hc
    rw [hord] at hc
    rw [hc] at hlen
    exact hne (List.length_eq_zero.mp hlen.symm)
  refine ⟨hane, ?_, ?_⟩
  · intro fuel1
    rw [← hm, ← hs]
    exact Build_congr E accel.primitives accel.maxPrimsInNode accel.splitMethod accel.nodes none
      fuel1 hane
  · intro shape
    refine ⟨rfl, rfl, ?_⟩
    intro fuel1
    rw [← hm, ← hs]
    exact Build_congr E (accel.primitives ++ shape) accel.maxPrimsInNode accel.splitMethod
      accel.nodes none fuel1 (fun hc => hane (List.append_eq_nil.mp hc).1)

/-- A run of the amended C26 on the two sample shapes. -/
theorem Build_again_rebuilds_witness :
    (sampleScene SplitMethod.SAH).primitives ≠ [] ∧
    ∃ accel, BVHAccel.Build (sampleEnv true) (sampleScene SplitMethod.SAH) 2 = some accel ∧
      accel.primitives ≠ [] ∧
      (∀ fuel1, accel.Build (sampleEnv true) fuel1 =
        BVHAccel.Build (sampleEnv true) ⟨accel.primitives, 4, SplitMethod.SAH, none⟩ fuel1) ∧
      (BVHAccel.Build (sampleEnv true) accel 2).isSome = true := by
  have hrun := sampleScene_rebuilds.2.1
  cases hb : BVHAccel.Build (sampleEnv true) (sampleScene SplitMethod.SAH) 2 with
  | none => rw [hb] at hrun; cases hrun
  | some accel =>
    rw [hb] at hrun
    simp only [Option.some_bind] at hrun
    have h := Build_again_rebuilds (sampleEnv true) (sampleScene SplitMethod.SAH) 2 accel
      (List.cons_ne_nil _ _) hb
    refine ⟨List.cons_ne_nil _ _, accel, rfl, h.1, h.2.1, ?_⟩
    cases hb2 : BVHAccel.Build (sampleEnv true) accel 2 with
    | none => rw [hb2] at hrun; cases hrun
    | some a1 => rfl

unseal Rat.add Rat.mul Rat.inv Rat.sub in
set_option maxRecDepth 100000 in
/-- C26 as stated fails: with assertions that abort, on the two sample shapes, the first
`Build()` stores an array of 3 nodes; a second `Build()` on the built accelerator returns
and again stores an array of 3 nodes; `AddShape` of a third shape on the built accelerator
returns an accelerator with 3 primitives and the old array of 3 nodes, and a `Build()` after
it returns and stores an array of 5 nodes. -/
theorem Build_twice_not_rejected :
    ((BVHAccel.Build (sampleEnv true) (sampleScene SplitMethod.SAH) 2).map
      (fun a => a.nodes.map (fun ns => ns.length))) = some (some 3) ∧
    ((BVHAccel.Build (sampleEnv true) (sampleScene SplitMethod.SAH) 2).bind
      (fun a => (BVHAccel.Build (sampleEnv true) a 2).map
        (fun a1 => a1.nodes.map (fun ns => ns.length)))) = some (some 3) ∧
    ((BVHAccel.Build (sampleEnv true) (sampleScene SplitMethod.SAH) 2).bind
      (fun a => (BVHAccel.Build (sampleEnv true)
          (a.AddShape [some (sampleShape ⟨⟨4, 0, 0⟩, ⟨5, 1, 1⟩⟩ (11 / 2))]) 3).map
        (fun a1 => (a1.primitives.length, a1.nodes.map (fun ns => ns.length))))) =
      some (3, some 5) ∧
    ((BVHAccel.Build (sampleEnv true) (sampleScene SplitMethod.SAH) 2).map
      (fun a => ((a.AddShape [some (sampleShape ⟨⟨4, 0, 0⟩, ⟨5, 1, 1⟩⟩ (11 / 2))]).primitives.length,
        (a.AddShape [some (sampleShape ⟨⟨4, 0, 0⟩, ⟨5, 1, 1⟩⟩ (11 / 2))]).nodes.map
          (fun ns => ns.length)))) = some (3, some 3) := by
  decide

/-- The bucket loop counts: after it, the count of bucket `j` has grown by the number of
primitives of the range whose bucket index is `j`. -/
theorem fillBuckets_count (n : Nat) (cb : Bounds3f) (dim : Nat) (l : List BVHPrimitiveInfo) :
    ∀ (buckets bs : List BucketInfo), fillBuckets n cb dim l buckets = some bs →
      ∀ (j : Nat) (bk : BucketInfo), buckets[j]? = some bk →
        ∃ bk1, bs[j]? = some bk1 ∧
          bk1.count = bk.count +
            l.countP (fun pi => decide (bucketOf n cb dim pi.centroid = (j : Int))) := by
  induction l with
  | nil =>
    intro buckets bs h j bk hj
    simp only [fillBuckets, Option.some.injEq] at h
    subst h
    exact ⟨bk, hj, by simp⟩
  | cons pi rest ih =>
    intro buckets bs h j bk hj
    simp only [fillBuckets] at h
    split at h
    · rename_i hrange
      split at h
      · cases h
      · rename_i bk0 hbk0
        have hlt : (bucketOf n cb dim pi.centroid).toNat < buckets.length := by
          by_contra hc
          rw [List.getElem?_eq_none (by omega)] at hbk0
          cases hbk0
        by_cases hjb : j = (bucketOf n cb dim pi.centroid).toNat
        · have hset : (buckets.set (bucketOf n cb dim pi.centroid).toNat
              ⟨bk0.count + 1, Union bk0.bounds pi.bounds⟩)[j]? =
              some ⟨bk0.count + 1, Union bk0.bounds pi.bounds⟩ := by
            rw [hjb, List.getElem?_set_self hlt]
          obtain ⟨bk1, h1, h2⟩ := ih _ bs h j _ hset
          refine ⟨bk1, h1, ?_⟩
          rw [h2]
          have hbk : bk0 = bk := by
            rw [hjb] at hj
            rw [hj] at hbk0
            exact (Option.some.inj hbk0).symm
          have hpi : bucketOf n cb dim pi.centroid = (j : Int) := by
            rw [hjb]
            exact (Int.toNat_of_nonneg hrange.1).symm
          rw [List.countP_cons_of_pos _ _ (by simpa using hpi), hbk]
          simp only
          omega
        · have hset : (buckets.set (bucketOf n cb dim pi.centroid).toNat
              ⟨bk0.count + 1, Union bk0.bounds pi.bounds⟩)[j]? = some bk := by
            rw [List.getElem?_set_ne (Ne.symm hjb)]
            exact hj
          obtain ⟨bk1, h1, h2⟩ := ih _ bs h j _ hset
          refine ⟨bk1, h1, ?_⟩
          rw [h2]
          have hpi : ¬ bucketOf n cb dim pi.centroid = (j : Int) := by
            intro hc
            apply hjb
            rw [hc]
            rfl
          rw [List.countP_cons_of_neg _ _ (by simpa using hpi)]
    · cases h

/-- C28: under exact arithmetic, on a non-empty range with finite centroids whose centroid
bounds have non-zero extent on `dim`: the bucket index of every primitive of the range,
`floor(12 * Offset(centroid)[dim])` with 12 replaced by 11, lies in `0 .. 11`, so that both
assertions of the bucket loop hold and the loop returns the twelve buckets; a primitive of
least centroid on `dim` has index 0 and one of greatest centroid has index 11, so that
bucket 0 and bucket 11 both end with a positive count. -/
theorem bucket_index_in_range (mid : List BVHPrimitiveInfo) (dim : Nat) (hmid : mid ≠ [])
    (hfin : ∀ pi ∈ mid, pi.centroid.IsFinite)
    (hne : (centroidBoundsOf mid).pmax.get dim ≠ (centroidBoundsOf mid).pmin.get dim) :
    (∀ pi ∈ mid,
      bucketOf 12 (centroidBoundsOf mid) dim pi.centroid =
        (if ⌊(12 : Float) * ((pi.centroid.get dim - (centroidBoundsOf mid).pmin.get dim) /
            ((centroidBoundsOf mid).pmax.get dim - (centroidBoundsOf mid).pmin.get dim))⌋ = 12
          then 11
          else ⌊(12 : Float) * ((pi.centroid.get dim - (centroidBoundsOf mid).pmin.get dim) /
            ((centroidBoundsOf mid).pmax.get dim - (centroidBoundsOf mid).pmin.get dim))⌋) ∧
      0 ≤ bucketOf 12 (centroidBoundsOf mid) dim pi.centroid ∧
      bucketOf 12 (centroidBoundsOf mid) dim pi.centroid ≤ 11) ∧
    (∃ pi ∈ mid, bucketOf 12 (centroidBoundsOf mid) dim pi.centroid = 0) ∧
    (∃ pi ∈ mid, bucketOf 12 (centroidBoundsOf mid) dim pi.centroid = 11) ∧
    (∃ bs b0 b11, fillBuckets 12 (centroidBoundsOf mid) dim mid
        (List.replicate 12 ⟨0, Bounds3f.new⟩) = some bs ∧ bs.length = 12 ∧
      bs[0]? = some b0 ∧ 0 < b0.count ∧ bs[11]? = some b11 ∧ 0 < b11.count) := by
  obtain ⟨hin, hatt⟩ := centroidBoundsOf_spec dim mid
  obtain ⟨⟨pmin_el, hmin_mem, hmin_eq⟩, ⟨pmax_el, hmax_mem, hmax_eq⟩⟩ := hatt hmid hfin
  have hext : (centroidBoundsOf mid).pmin.get dim < (centroidBoundsOf mid).pmax.get dim := by
    have := hin pmin_el hmin_mem
    exact lt_of_le_of_ne (le_trans this.1 this.2) (Ne.symm hne)
  have hrange : ∀ pi ∈ mid, 0 ≤ bucketOf 12 (centroidBoundsOf mid) dim pi.centroid ∧
      bucketOf 12 (centroidBoundsOf mid) dim pi.centroid < 12 :=
    fun pi hpi => bucketOf_range _ _ _ hext (hin pi hpi).1 (hin pi hpi).2
  have h0 := bucketOf_at_min _ _ _ hext hmin_eq
  have h11 := bucketOf_at_max _ _ _ hext hmax_eq
  refine ⟨?_, ⟨pmin_el, hmin_mem, h0⟩, ⟨pmax_el, hmax_mem, h11⟩, ?_⟩
  · intro pi hpi
    obtain ⟨r0, r1⟩ := hrange pi hpi
    refine ⟨?_, r0, by omega⟩
    have hd : 0 < (centroidBoundsOf mid).pmax.get dim - (centroidBoundsOf mid).pmin.get dim := by
      linarith
    have hq0 : (0 : Float) ≤ (12 : Float) *
        ((pi.centroid.get dim - (centroidBoundsOf mid).pmin.get dim) /
          ((centroidBoundsOf mid).pmax.get dim - (centroidBoundsOf mid).pmin.get dim)) :=
      mul_nonneg (by norm_num) (div_nonneg (by linarith [(hin pi hpi).1]) hd.le)
    unfold bucketOf
    rw [Offset_get, if_pos hext]
    have hc : (((12 : Nat) : Float)) = (12 : Float) := by norm_num
    rw [hc, ftoi_of_nonneg _ hq0]
    rfl
  · obtain ⟨bs, hbs, hlen⟩ := fillBuckets_total (centroidBoundsOf mid) dim mid
      (List.replicate 12 ⟨0, Bounds3f.new⟩) (by simp) hrange
    obtain ⟨b0, hb0, hc0⟩ := fillBuckets_count 12 (centroidBoundsOf mid) dim mid _ bs hbs 0
      ⟨0, Bounds3f.new⟩ (by simp)
    obtain ⟨b11, hb11, hc11⟩ := fillBuckets_count 12 (centroidBoundsOf mid) dim mid _ bs hbs 11
      ⟨0, Bounds3f.new⟩ (by simp)
    refine ⟨bs, b0, b11, hbs, hlen, hb0, ?_, hb11, ?_⟩
    · rw [hc0]
      have : 0 < mid.countP (fun pi =>
          decide (bucketOf 12 (centroidBoundsOf mid) dim pi.centroid = ((0 : Nat) : Int))) := by
        rw [List.countP_pos_iff]
        exact ⟨pmin_el, hmin_mem, by simpa using h0⟩
      omega
    · rw [hc11]
      have : 0 < mid.countP (fun pi =>
          decide (bucketOf 12 (centroidBoundsOf mid) dim pi.centroid = ((11 : Nat) : Int))) := by
        rw [List.countP_pos_iff]
        exact ⟨pmax_el, hmax_mem, by simpa using h11⟩
      omega

theorem sampleInfo_extent :
    (centroidBoundsOf sampleInfo).pmax.get 0 ≠ (centroidBoundsOf sampleInfo).pmin.get 0 := by
  simp only [centroidBoundsOf, sampleInfo, List.foldl_cons, List.foldl_nil, UnionP, Min, Max,
    Bounds3f.new, BVHPrimitiveInfo.create, Vector3f.smul, Vector3f.add, Vector3f.get]
  norm_num [max_num, min_num]

/-- A run of C28 on the two sample boxes, whose centroids differ on the axis 0. -/
theorem bucket_index_in_range_witness :
    sampleInfo ≠ [] ∧ (∀ pi ∈ sampleInfo, pi.centroid.IsFinite) ∧
    (centroidBoundsOf sampleInfo).pmax.get 0 ≠ (centroidBoundsOf sampleInfo).pmin.get 0 ∧
    (∃ pi ∈ sampleInfo, bucketOf 12 (centroidBoundsOf sampleInfo) 0 pi.centroid = 0) ∧
    (∃ pi ∈ sampleInfo, bucketOf 12 (centroidBoundsOf sampleInfo) 0 pi.centroid = 11) :=
  ⟨List.cons_ne_nil _ _, sampleInfo_finite, sampleInfo_extent,
    (bucket_index_in_range sampleInfo 0 (List.cons_ne_nil _ _) sampleInfo_finite
      sampleInfo_extent).2.1,
    (bucket_index_in_range sampleInfo 0 (List.cons_ne_nil _ _) sampleInfo_finite
      sampleInfo_extent).2.2.1⟩
/-- C29: with the split method `Middle`, the `switch` of `recursiveBuild` runs the case `Middle`:
the range is rearranged by `std::partition` with
the predicate `centroid[dim] < pmid`, where `pmid = (pmin[dim] + pmax[dim]) / 2` of the
centroid bounds; with `count` the number of primitives of the range that satisfy it, the
`count` primitives before `start + count` have `centroid[dim] < pmid` and those from there on
have `centroid[dim] >= pmid`. When both sides are non-empty the split index is
`mid = start + count`; when one side is empty (`mid == start` or `mid == end`) control falls
through to `EqualCounts` on the partitioned array, which uses `mid = (start + end) / 2` and
rearranges the range once more. -/
theorem splitMiddle_partition {α : Type} (E : Env) (self : BVHAccel α)
    (pre mid post : List BVHPrimitiveInfo) (dim : Nat) (cb : Bounds3f) :
    (self.splitMethod = SplitMethod.Middle → ∀ bounds,
      chooseSplit E self (pre ++ mid ++ post) pre.length (pre.length + mid.length) dim bounds cb =
        some (splitMiddle E (pre ++ mid ++ post) pre.length (pre.length + mid.length) dim cb)) ∧
    (E.lib.partition
      (fun pi => decide (pi.centroid.get dim < (cb.pmin.get dim + cb.pmax.get dim) / 2))
      mid).Perm mid ∧
    (∀ x ∈ (E.lib.partition
        (fun pi => decide (pi.centroid.get dim < (cb.pmin.get dim + cb.pmax.get dim) / 2))
        mid).take (mid.countP
          (fun pi => decide (pi.centroid.get dim < (cb.pmin.get dim + cb.pmax.get dim) / 2))),
      x.centroid.get dim < (cb.pmin.get dim + cb.pmax.get dim) / 2) ∧
    (∀ x ∈ (E.lib.partition
        (fun pi => decide (pi.centroid.get dim < (cb.pmin.get dim + cb.pmax.get dim) / 2))
        mid).drop (mid.countP
          (fun pi => decide (pi.centroid.get dim < (cb.pmin.get dim + cb.pmax.get dim) / 2))),
      (cb.pmin.get dim + cb.pmax.get dim) / 2 ≤ x.centroid.get dim) ∧
    ((mid.countP
          (fun pi => decide (pi.centroid.get dim < (cb.pmin.get dim + cb.pmax.get dim) / 2)) ≠ 0 ∧
        mid.countP
          (fun pi => decide (pi.centroid.get dim < (cb.pmin.get dim + cb.pmax.get dim) / 2)) ≠
          mid.length) →
      splitMiddle E (pre ++ mid ++ post) pre.length (pre.length + mid.length) dim cb =
        .split (pre ++ E.lib.partition
            (fun pi => decide (pi.centroid.get dim < (cb.pmin.get dim + cb.pmax.get dim) / 2))
            mid ++ post)
          (pre.length + mid.countP
            (fun pi => decide (pi.centroid.get dim < (cb.pmin.get dim + cb.pmax.get dim) / 2)))) ∧
    ((mid.countP
          (fun pi => decide (pi.centroid.get dim < (cb.pmin.get dim + cb.pmax.get dim) / 2)) = 0 ∨
        mid.countP
          (fun pi => decide (pi.centroid.get dim < (cb.pmin.get dim + cb.pmax.get dim) / 2)) =
          mid.length) →
      splitMiddle E (pre ++ mid ++ post) pre.length (pre.length + mid.length) dim cb =
        splitEqualCounts E (pre ++ E.lib.partition
            (fun pi => decide (pi.centroid.get dim < (cb.pmin.get dim + cb.pmax.get dim) / 2))
            mid ++ post) pre.length (pre.length + mid.length) dim ∧
      ∃ m2, m2.Perm mid ∧
        splitMiddle E (pre ++ mid ++ post) pre.length (pre.length + mid.length) dim cb =
          .split (pre ++ m2 ++ post) ((pre.length + (pre.length + mid.length)) / 2)) := by
  have hperm := E.lib.partition_perm
    (fun pi : BVHPrimitiveInfo =>
      decide (pi.centroid.get dim < (cb.pmin.get dim + cb.pmax.get dim) / 2)) mid
  refine ⟨?_, hperm, ?_, ?_, ?_, ?_⟩
  · intro hs bounds
    unfold chooseSplit
    rw [hs]
  · intro x hx
    exact of_decide_eq_true (E.lib.partition_left _ _ x hx)
  · intro x hx
    exact not_lt.mp (of_decide_eq_false (E.lib.partition_right _ _ x hx))
  · intro hc
    simp only [splitMiddle, slice_append3, splice_append3]
    rw [if_pos]
    constructor
    · omega
    · omega
  · intro hc
    have hfall : splitMiddle E (pre ++ mid ++ post) pre.length (pre.length + mid.length) dim cb =
        splitEqualCounts E (pre ++ E.lib.partition
            (fun pi => decide (pi.centroid.get dim < (cb.pmin.get dim + cb.pmax.get dim) / 2))
            mid ++ post) pre.length (pre.length + mid.length) dim := by
      simp only [splitMiddle, slice_append3, splice_append3]
      rw [if_neg]
      intro hboth
      omega
    refine ⟨hfall, ?_⟩
    rw [hfall]
    have hlen := hperm.length_eq
    refine ⟨E.lib.nth_element
      (fun a b => decide (a.centroid.get dim < b.centroid.get dim))
      ((pre.length + (pre.length + mid.length)) / 2 - pre.length)
      (E.lib.partition
        (fun pi => decide (pi.centroid.get dim < (cb.pmin.get dim + cb.pmax.get dim) / 2))
        mid), (E.lib.nth_element_perm _ _ _).trans hperm, ?_⟩
    rw [← hlen]
    simp only [splitEqualCounts, slice_append3, splice_append3]
theorem TreeletsCover_mem {l : List LBVHTreelet} {a b : Nat} (h : TreeletsCover l a b) :
    ∀ tr ∈ l, a ≤ tr.startIndex ∧ tr.startIndex + tr.nPrimitives ≤ b ∧ 1 ≤ tr.nPrimitives := by
  induction l generalizing a with
  | nil =>
    intro tr htr
    cases htr
  | cons x xs ih =>
    obtain ⟨hx1, hx2, hx3⟩ := h
    intro tr htr
    rcases List.mem_cons.mp htr with rfl | htr
    · have := TreeletsCover_le hx3
      exact ⟨by omega, by omega, hx2⟩
    · obtain ⟨h1, h2, h3⟩ := ih hx3 tr htr
      exact ⟨by omega, h2, h3⟩

theorem findTreelets_fold_runs (mp : List MortonPrimitive) (k : Nat) (hk : k ≤ mp.length) :
    let st := (List.range' 1 k).foldl
      (fun (st : Nat × List LBVHTreelet) end_ =>
        if end_ = mp.length ∨
            ((mp.getD st.1 default).mortonCode &&& 0x3ffc0000) ≠
              ((mp.getD end_ default).mortonCode &&& 0x3ffc0000) then
          (end_, st.2 ++ [⟨st.1, end_ - st.1⟩])
        else st)
      (0, [])
    (∀ tr ∈ st.2, ∀ j, tr.startIndex ≤ j → j < tr.startIndex + tr.nPrimitives →
      (mp.getD j default).mortonCode &&& 0x3ffc0000 =
        (mp.getD tr.startIndex default).mortonCode &&& 0x3ffc0000) ∧
    (∀ j, st.1 ≤ j → j ≤ k → j < mp.length →
      (mp.getD j default).mortonCode &&& 0x3ffc0000 =
        (mp.getD st.1 default).mortonCode &&& 0x3ffc0000) ∧
    List.Chain' (fun t1 t2 : LBVHTreelet =>
      (mp.getD t1.startIndex default).mortonCode &&& 0x3ffc0000 ≠
        (mp.getD t2.startIndex default).mortonCode &&& 0x3ffc0000) st.2 ∧
    (∀ tr ∈ st.2.getLast?, st.1 < mp.length →
      (mp.getD tr.startIndex default).mortonCode &&& 0x3ffc0000 ≠
        (mp.getD st.1 default).mortonCode &&& 0x3ffc0000) := by
  induction k with
  | zero =>
    simp only [List.range'_zero, List.foldl_nil]
    refine ⟨?_, ?_, List.chain'_nil, ?_⟩
    · intro tr htr
      cases htr
    · intro j h1 h2 _
      have : j = 0 := by omega
      rw [this]
    · intro tr htr
      simp at htr
  | succ k ih =>
    obtain ⟨hst, _, _⟩ := findTreelets_fold mp k (by omega)
    obtain ⟨h1, h2, h3, h4⟩ := ih (by omega)
    rw [List.range'_1_concat, List.foldl_append]
    simp only [List.foldl_cons, List.foldl_nil]
    split
    · rename_i hc
      simp only
      refine ⟨?_, ?_, ?_, ?_⟩
      · intro tr htr j hj1 hj2
        rcases List.mem_append.mp htr with htr | htr
        · exact h1 tr htr j hj1 hj2
        · rw [List.mem_singleton] at htr
          subst htr
          simp only at hj1 hj2 ⊢
          exact h2 j hj1 (by omega) (by omega)
      · intro j hj1 hj2 _
        have : j = 1 + k := by omega
        rw [this]
      · apply List.Chain'.append h3 (List.chain'_singleton _)
        intro x hx y hy
        simp only [List.head?_cons, Option.mem_def, Option.some.injEq] at hy
        subst hy
        exact h4 x hx (by omega)
      · intro tr htr hlt
        simp only [List.getLast?_concat, Option.mem_def, Option.some.injEq] at htr
        subst htr
        simp only
        rcases hc with hc | hc
        · omega
        · exact hc
    · rename_i hc
      rw [not_or, not_not] at hc
      refine ⟨h1, ?_, h3, h4⟩
      intro j hj1 hj2 hj3
      by_cases hj : j ≤ k
      · exact h2 j hj1 hj hj3
      · have : j = 1 + k := by omega
        rw [this]
        exact hc.2.symm

/-- C30: for every vector of Morton primitives (sorted or not, of any length `N`), the
treelets that `HLBVHBuild` forms have ranges `(startIndex, nPrimitives)` that follow one
another from 0 to `N`, none empty; all the codes of a treelet agree with its first code on
the masked bits `code & 0x3ffc0000`; and the first codes of two adjacent treelets differ
on the masked bits, so that each treelet is a maximal run of equal masked bits. -/
theorem findTreelets_maximal_runs (mp : List MortonPrimitive) :
    TreeletsCover (findTreelets mp) 0 mp.length ∧
    (∀ tr ∈ findTreelets mp, 1 ≤ tr.nPrimitives ∧ tr.startIndex + tr.nPrimitives ≤ mp.length ∧
      ∀ j, tr.startIndex ≤ j → j < tr.startIndex + tr.nPrimitives →
        ∃ a b, mp[tr.startIndex]? = some a ∧ mp[j]? = some b ∧
          b.mortonCode &&& 0x3ffc0000 = a.mortonCode &&& 0x3ffc0000) ∧
    List.Chain' (fun t1 t2 : LBVHTreelet =>
      ∃ a b, mp[t1.startIndex]? = some a ∧ mp[t2.startIndex]? = some b ∧
        a.mortonCode &&& 0x3ffc0000 ≠ b.mortonCode &&& 0x3ffc0000) (findTreelets mp) := by
  have hcov := findTreelets_cover mp
  have hmem := TreeletsCover_mem hcov
  obtain ⟨h1, _, h3, _⟩ := findTreelets_fold_runs mp mp.length (le_refl _)
  have hget : ∀ j, j < mp.length → ∃ a, mp[j]? = some a ∧ mp.getD j default = a := by
    intro j hj
    refine ⟨mp[j], List.getElem?_eq_getElem hj, ?_⟩
    rw [List.getD_eq_getElem?_getD, List.getElem?_eq_getElem hj]
    rfl
  have hft : findTreelets mp = ((List.range' 1 mp.length).foldl
      (fun (st : Nat × List LBVHTreelet) end_ =>
        if end_ = mp.length ∨
            ((mp.getD st.1 default).mortonCode &&& 0x3ffc0000) ≠
              ((mp.getD end_ default).mortonCode &&& 0x3ffc0000) then
          (end_, st.2 ++ [⟨st.1, end_ - st.1⟩])
        else st)
      (0, [])).2 := rfl
  rw [← hft] at h1 h3
  refine ⟨hcov, ?_, ?_⟩
  · intro tr htr
    obtain ⟨_, m2, m3⟩ := hmem tr htr
    refine ⟨m3, m2, ?_⟩
    intro j hj1 hj2
    obtain ⟨a, ha, hga⟩ := hget tr.startIndex (by omega)
    obtain ⟨b, hb, hgb⟩ := hget j (by omega)
    refine ⟨a, b, ha, hb, ?_⟩
    rw [← hga, ← hgb]
    exact h1 tr htr j hj1 hj2
  · have hall : ∀ tr ∈ findTreelets mp, tr.startIndex < mp.length := by
      intro tr htr
      obtain ⟨_, m2, m3⟩ := hmem tr htr
      omega
    revert h3 hall
    generalize findTreelets mp = l
    intro h3 hall
    induction l with
    | nil => exact List.chain'_nil
    | cons x xs ih =>
      cases xs with
      | nil => exact List.chain'_singleton _
      | cons y ys =>
        rw [List.chain'_cons] at h3 ⊢
        refine ⟨?_, ih h3.2 (fun tr htr => hall tr (List.mem_cons_of_mem _ htr))⟩
        obtain ⟨a, ha, hga⟩ := hget x.startIndex (hall x (List.mem_cons_self _ _))
        obtain ⟨b, hb, hgb⟩ := hget y.startIndex
          (hall y (List.mem_cons_of_mem _ (List.mem_cons_self _ _)))
        refine ⟨a, b, ha, hb, ?_⟩
        rw [← hga, ← hgb]
        exact h3.1

/-- Where the scatter loop returns, every index at which it stored lies inside `out`. -/
theorem scatter_indices_lt (lowBit bitMask : Nat) :
    ∀ (l : List MortonPrimitive) (outIndex : List Nat) (out r : List MortonPrimitive),
      scatter lowBit bitMask l outIndex out = some r →
      r.length = out.length ∧ ∀ j ∈ scatterIndices lowBit bitMask l outIndex, j < out.length := by
  intro l
  induction l with
  | nil =>
    intro outIndex out r h
    simp only [scatter, Option.some.injEq] at h
    subst h
    exact ⟨rfl, fun j hj => by cases hj⟩
  | cons mp rest ih =>
    intro outIndex out r h
    rw [scatter] at h
    cases hb : outIndex[radixBucket lowBit bitMask mp]? with
    | none => rw [hb] at h; cases h
    | some j0 =>
      rw [hb] at h
      simp only at h
      by_cases hj0 : j0 < out.length
      · rw [if_pos hj0] at h
        obtain ⟨h1, h2⟩ := ih _ _ r h
        rw [List.length_set] at h1 h2
        have hget : outIndex.getD (radixBucket lowBit bitMask mp) 0 = j0 := by
          rw [List.getD_eq_getElem?_getD, hb]
          rfl
        refine ⟨h1, ?_⟩
        intro j hj
        rw [scatterIndices] at hj
        simp only [hget] at hj
        rcases List.mem_cons.mp hj with rfl | hj
        · exact hj0
        · exact h2 j hj
      · rw [if_neg hj0] at h
        cases h

/-- C40: for every input vector, of any length and with arbitrary codes, `RadixSort`
returns, and its output is a permutation of its input: the same length, and every pair
`(primitiveIndex, mortonCode)` as often as in the input. Every pass returns on vectors of
equal length, and every index `outIndex[bucket]` at which its scatter loop stores lies in
`[0, size)`. -/
theorem RadixSort_permutation (v : List MortonPrimitive) :
    (∃ v1, RadixSort v = some v1 ∧ v1.Perm v ∧ v1.length = v.length ∧
      ∀ mp, v1.count mp = v.count mp) ∧
    (∀ (pass : Nat) (in_ out : List MortonPrimitive), out.length = in_.length →
      ∃ r, radixPass pass in_ out = some r ∧ r.Perm in_ ∧ r.length = in_.length ∧
        ∀ j ∈ scatterIndices (pass * 6) ((1 <<< 6) - 1) in_
            (startIndices (countBuckets (pass * 6) ((1 <<< 6) - 1) in_ (1 <<< 6)) (1 <<< 6)),
          j < in_.length) := by
  constructor
  · obtain ⟨v1, h1, hperm⟩ := RadixSort_perm v
    exact ⟨v1, h1, hperm, hperm.length_eq, fun mp => hperm.count_eq mp⟩
  · intro pass in_ out hlen
    have hspec := radixPass_spec pass in_ out hlen
    have hperm := bucketSort_perm (radixBucket (pass * 6) 63) 64 in_
      (fun mp _ => radixBucket_lt _ mp)
    refine ⟨_, hspec, hperm, hperm.length_eq, ?_⟩
    have hsc : scatter (pass * 6) ((1 <<< 6) - 1) in_
        (startIndices (countBuckets (pass * 6) ((1 <<< 6) - 1) in_ (1 <<< 6)) (1 <<< 6)) out =
        some (bucketSort (radixBucket (pass * 6) 63) 64 in_) := hspec
    have := (scatter_indices_lt _ _ in_ _ out _ hsc).2
    rw [hlen] at this
    exact this
/-- C37: under exact arithmetic, on a range with finite centroids whose centroid bounds have
non-zero extent on `dim` (as where `recursiveBuild` reaches the `switch`), the case `Middle`
never falls through: a primitive of least centroid on `dim` lies strictly below
`pmid = (pmin[dim] + pmax[dim]) / 2` and one of greatest centroid lies at or above `pmid`, so
the partition leaves both sides non-empty, `mid` differs from `start` and from `end`, and
the case splits at `mid = start + count`. -/
theorem splitMiddle_no_fall_through (E : Env) (pre mid post : List BVHPrimitiveInfo)
    (dim : Nat) (hmid : mid ≠ []) (hfin : ∀ pi ∈ mid, pi.centroid.IsFinite)
    (hne : (centroidBoundsOf mid).pmax.get dim ≠ (centroidBoundsOf mid).pmin.get dim) :
    (∃ pi ∈ mid, pi.centroid.get dim = (centroidBoundsOf mid).pmin.get dim ∧
      pi.centroid.get dim <
        ((centroidBoundsOf mid).pmin.get dim + (centroidBoundsOf mid).pmax.get dim) / 2) ∧
    (∃ pi ∈ mid, pi.centroid.get dim = (centroidBoundsOf mid).pmax.get dim ∧
      ((centroidBoundsOf mid).pmin.get dim + (centroidBoundsOf mid).pmax.get dim) / 2 ≤
        pi.centroid.get dim) ∧
    0 < mid.countP (fun pi => decide (pi.centroid.get dim <
      ((centroidBoundsOf mid).pmin.get dim + (centroidBoundsOf mid).pmax.get dim) / 2)) ∧
    mid.countP (fun pi => decide (pi.centroid.get dim <
      ((centroidBoundsOf mid).pmin.get dim + (centroidBoundsOf mid).pmax.get dim) / 2)) <
      mid.length ∧
    splitMiddle E (pre ++ mid ++ post) pre.length (pre.length + mid.length) dim
        (centroidBoundsOf mid) =
      .split (pre ++ E.lib.partition (fun pi => decide (pi.centroid.get dim <
          ((centroidBoundsOf mid).pmin.get dim + (centroidBoundsOf mid).pmax.get dim) / 2))
          mid ++ post)
        (pre.length + mid.countP (fun pi => decide (pi.centroid.get dim <
          ((centroidBoundsOf mid).pmin.get dim + (centroidBoundsOf mid).pmax.get dim) / 2))) := by
  obtain ⟨hin, hatt⟩ := centroidBoundsOf_spec dim mid
  obtain ⟨⟨pmin_el, hmin_mem, hmin_eq⟩, ⟨pmax_el, hmax_mem, hmax_eq⟩⟩ := hatt hmid hfin
  have hext : (centroidBoundsOf mid).pmin.get dim < (centroidBoundsOf mid).pmax.get dim := by
    have := hin pmin_el hmin_mem
    exact lt_of_le_of_ne (le_trans this.1 this.2) (Ne.symm hne)
  have hlo : pmin_el.centroid.get dim <
      ((centroidBoundsOf mid).pmin.get dim + (centroidBoundsOf mid).pmax.get dim) / 2 := by
    rw [hmin_eq]
    linarith
  have hhi : ((centroidBoundsOf mid).pmin.get dim + (centroidBoundsOf mid).pmax.get dim) / 2 ≤
      pmax_el.centroid.get dim := by
    rw [hmax_eq]
    linarith
  have hpos : 0 < mid.countP (fun pi => decide (pi.centroid.get dim <
      ((centroidBoundsOf mid).pmin.get dim + (centroidBoundsOf mid).pmax.get dim) / 2)) := by
    rw [List.countP_pos_iff]
    exact ⟨pmin_el, hmin_mem, by simpa using hlo⟩
  have hlt : mid.countP (fun pi => decide (pi.centroid.get dim <
      ((centroidBoundsOf mid).pmin.get dim + (centroidBoundsOf mid).pmax.get dim) / 2)) <
      mid.length := by
    apply countP_lt_length_of_mem _ _ pmax_el hmax_mem
    simpa using hhi
  refine ⟨⟨pmin_el, hmin_mem, hmin_eq, hlo⟩, ⟨pmax_el, hmax_mem, hmax_eq, hhi⟩, hpos, hlt, ?_⟩
  simp only [splitMiddle, slice_append3, splice_append3]
  rw [if_pos]
  constructor
  · omega
  · omega

/-- A run of C37 on the two sample boxes, whose centroids differ on the axis 0. -/
theorem splitMiddle_no_fall_through_witness :
    sampleInfo ≠ [] ∧ (∀ pi ∈ sampleInfo, pi.centroid.IsFinite) ∧
    (centroidBoundsOf sampleInfo).pmax.get 0 ≠ (centroidBoundsOf sampleInfo).pmin.get 0 ∧
    0 < sampleInfo.countP (fun pi => decide (pi.centroid.get 0 <
      ((centroidBoundsOf sampleInfo).pmin.get 0 + (centroidBoundsOf sampleInfo).pmax.get 0) / 2)) ∧
    sampleInfo.countP (fun pi => decide (pi.centroid.get 0 <
      ((centroidBoundsOf sampleInfo).pmin.get 0 + (centroidBoundsOf sampleInfo).pmax.get 0) / 2)) <
      sampleInfo.length :=
  ⟨List.cons_ne_nil _ _, sampleInfo_finite, sampleInfo_extent,
    (splitMiddle_no_fall_through (sampleEnv true) [] sampleInfo [] 0 (List.cons_ne_nil _ _)
      sampleInfo_finite sampleInfo_extent).2.2.1,
    (splitMiddle_no_fall_through (sampleEnv true) [] sampleInfo [] 0 (List.cons_ne_nil _ _)
      sampleInfo_finite sampleInfo_extent).2.2.2.1⟩
theorem and_b2n_le_one (a : Nat) (c : Bool) : a &&& b2n c ≤ 1 := by
  have h : b2n c ≤ 1 := by
    unfold b2n
    split <;> omega
  exact le_trans Nat.and_le_right h

theorem le_one_and_shift (v b : Nat) (hv : v ≤ 1) (hb : 1 ≤ b) : v &&& (1 <<< b) = 0 := by
  apply Nat.eq_of_testBit_eq
  intro j
  rw [Nat.testBit_and, Nat.zero_testBit, Nat.shiftLeft_eq, Nat.one_mul, Nat.testBit_two_pow]
  by_cases hj : b = j
  · subst hj
    have : v.testBit b = false := by
      apply Nat.testBit_lt_two_pow
      calc v < 2 := by omega
        _ = 2 ^ 1 := rfl
        _ ≤ 2 ^ b := Nat.pow_le_pow_right (by decide) hb
    simp [this]
  · simp [hj]

/-- C32: as C++ parses them, the two asserted expressions of `emitLBVH` are
`(a & (mask == b)) & mask` and `(a & (mask != b)) & mask`; for `mask = 1 << bitIndex` with
`bitIndex >= 1` both are 0 whatever the codes `a` and `b` are, since the comparison yields 0
or 1 and bit 0 of the mask is clear. So, with assertions that abort, a call of `emitLBVH`
that reaches a split with `bitIndex >= 1` (it is not a leaf, and the first and the last code
differ on the mask) has no result: if the binary search returns at all, the assertion at the
split point fails. -/
theorem emitLBVH_assertion_always_fails {α : Type} (E : Env) (self : BVHAccel α) (arena : Nat)
    (info : List BVHPrimitiveInfo) (fuel : Nat) (mp : List MortonPrimitive) (n : Nat)
    (bitIndex : Int) (st : EmitState α) (first last : MortonPrimitive)
    (hE : E.assertAborts = true) (hbit : 1 ≤ bitIndex)
    (hnoleaf : ¬ (n : Int) < self.maxPrimsInNode)
    (hfirst : mp[0]? = some first) (hlast : mp[n - 1]? = some last)
    (hdiff : first.mortonCode &&& (1 <<< bitIndex.toNat) ≠
      last.mortonCode &&& (1 <<< bitIndex.toNat)) :
    (∀ a b : Nat, assertedNe a (1 <<< bitIndex.toNat) b = 0 ∧
      assertedEq a (1 <<< bitIndex.toNat) b = 0) ∧
    emitLBVH E self arena info fuel mp n bitIndex st = none := by
  have hb1 : 1 ≤ bitIndex.toNat := by omega
  have hzero : ∀ a b : Nat, assertedNe a (1 <<< bitIndex.toNat) b = 0 ∧
      assertedEq a (1 <<< bitIndex.toNat) b = 0 := by
    intro a b
    exact ⟨le_one_and_shift _ _ (and_b2n_le_one a _) hb1,
      le_one_and_shift _ _ (and_b2n_le_one a _) hb1⟩
  refine ⟨hzero, ?_⟩
  cases fuel with
  | zero => rfl
  | succ fuel =>
    rw [emitLBVH]
    split
    · rfl
    · split
      · rfl
      · rw [if_neg (by
          intro hc
          rcases hc with hc | hc
          · omega
          · exact hnoleaf hc)]
        simp only [hfirst, hlast]
        rw [if_neg hdiff]
        split
        · rfl
        · rename_i so hso
          split
          · rename_i u a b hu ha hb
            have hfail : MIN_ASSERT E (decide (assertedNe a.mortonCode (1 <<< bitIndex.toNat)
                b.mortonCode ≠ 0)) = none := by
              rw [(hzero a.mortonCode b.mortonCode).1]
              simp [MIN_ASSERT, hE]
            rw [hfail]
          · rfl

/-- A run of C32: with assertions that abort, `emitLBVH` on the two sample Morton
primitives, whose codes differ in bit 29, has no result. -/
theorem emitLBVH_assertion_always_fails_witness :
    (sampleEnv true).assertAborts = true ∧ (1 : Int) ≤ 29 ∧
    ¬ ((2 : Nat) : Int) < sampleAccelOne.maxPrimsInNode ∧
    sampleMortonPrims[0]? = some ⟨0, 0⟩ ∧ sampleMortonPrims[2 - 1]? = some ⟨1, 1 <<< 29⟩ ∧
    emitLBVH (sampleEnv true) sampleAccelOne 4 sampleInfo 31 sampleMortonPrims 2 29
      ⟨0, 0, [0, 0], 0⟩ = none ∧
    (emitLBVH sampleEnvRelease sampleAccelOne 4 sampleInfo 31 sampleMortonPrims 2 29
      ⟨0, 0, [0, 0], 0⟩).isSome = true :=
  ⟨rfl, by decide, by decide, rfl, rfl,
    (emitLBVH_assertion_always_fails (sampleEnv true) sampleAccelOne 4 sampleInfo 31
      sampleMortonPrims 2 29 ⟨0, 0, [0, 0], 0⟩ ⟨0, 0⟩ ⟨1, 1 <<< 29⟩ rfl (by decide) (by decide)
      rfl rfl (by decide)).2, by decide⟩
/-- The value and the bits of `EncodeMorton3` on integer coordinates below `2^10`. -/
theorem EncodeMorton3_bits (E : Env) (x y z : Nat) (hx : x < 1024) (hy : y < 1024)
    (hz : z < 1024) :
    ∃ r, EncodeMorton3 E ⟨(x : Float), (y : Float), (z : Float)⟩ = some r ∧ r < 2 ^ 30 ∧
      ∀ i < 10, Nat.testBit r (3 * i) = Nat.testBit x i ∧
        Nat.testBit r (3 * i + 1) = Nat.testBit y i ∧
        Nat.testBit r (3 * i + 2) = Nat.testBit z i := by
  obtain ⟨bx, _, lx⟩ := spreadBits_table _ hx
  obtain ⟨by_, _, ly⟩ := spreadBits_table _ hy
  obtain ⟨bz, _, lz⟩ := spreadBits_table _ hz
  have ox := fun j => spreadBits_other x j hx
  have oy := fun j => spreadBits_other y j hy
  have oz := fun j => spreadBits_other z j hz
  have lz2 : spreadBits z <<< 2 < 2 ^ 30 := by
    rw [Nat.shiftLeft_eq]
    omega
  have ly1 : spreadBits y <<< 1 < 2 ^ 30 := by
    rw [Nat.shiftLeft_eq]
    omega
  have ex : LeftShift3 E x = some (spreadBits x) := by
    rw [LeftShift3_eq E x (by omega), Nat.min_eq_left (by omega)]
  have ey : LeftShift3 E y = some (spreadBits y) := by
    rw [LeftShift3_eq E y (by omega), Nat.min_eq_left (by omega)]
  have ez : LeftShift3 E z = some (spreadBits z) := by
    rw [LeftShift3_eq E z (by omega), Nat.min_eq_left (by omega)]
  refine ⟨((spreadBits z <<< 2) ||| (spreadBits y <<< 1)) ||| spreadBits x, ?_, ?_, ?_⟩
  · unfold EncodeMorton3
    rw [MIN_ASSERT_of_true E _ (by simp), MIN_ASSERT_of_true E _ (by simp),
      MIN_ASSERT_of_true E _ (by simp)]
    simp only [ftou_natCast x (by omega), ftou_natCast y (by omega), ftou_natCast z (by omega),
      Option.some_bind, ex, ey, ez]
    rw [Nat.mod_eq_of_lt (lt_trans lz2 (by decide)), Nat.mod_eq_of_lt (lt_trans ly1 (by decide))]
  · exact Nat.or_lt_two_pow (Nat.or_lt_two_pow lz2 ly1) (lt_trans lx (by decide))
  · intro i hi
    simp only [Nat.testBit_or, testBit_shiftLeft_one, testBit_shiftLeft_two]
    refine ⟨?_, ?_, ?_⟩
    · rw [shifted_bit_false _ (3 * i) 2 hz (by omega), shifted_bit_false _ (3 * i) 1 hy (by omega),
        bx i hi]
      rfl
    · rw [shifted_bit_false _ (3 * i + 1) 2 hz (by omega), ox (3 * i + 1) (by omega),
        show 3 * i + 1 - 1 = 3 * i from rfl, by_ i hi]
      simp
    · rw [shifted_bit_false _ (3 * i + 2) 1 hy (by omega), ox (3 * i + 2) (by omega),
        show 3 * i + 2 - 2 = 3 * i from rfl, bz i hi]
      simp

/-- C34: for all integer coordinates `x, y, z` in `[0, 2^10)` and every bit `b` in `0..29`,
bit `b` of `EncodeMorton3(x, y, z)` is bit `b div 3` of `x` when `b mod 3 = 0`, of `y` when
`b mod 3 = 1` and of `z` when `b mod 3 = 2`; and an interior node that `emitLBVH` makes at
`bitIndex` (the range is not made a leaf and its first and last code differ in the bit) has
`bitIndex mod 3` as its split axis: the axis whose coordinate the bit encodes. -/
theorem splitAxis_is_morton_axis {α : Type} (E : Env) (x y z : Nat) (hx : x < 2 ^ 10)
    (hy : y < 2 ^ 10) (hz : z < 2 ^ 10) :
    (∃ r, EncodeMorton3 E ⟨(x : Float), (y : Float), (z : Float)⟩ = some r ∧
      ∀ b < 30, Nat.testBit r b =
        if b % 3 = 0 then Nat.testBit x (b / 3)
        else if b % 3 = 1 then Nat.testBit y (b / 3)
        else Nat.testBit z (b / 3)) ∧
    (∀ (self : BVHAccel α) (arena : Nat) (info : List BVHPrimitiveInfo) (fuel : Nat)
      (mp : List MortonPrimitive) (n : Nat) (bitIndex : Int) (st st1 : EmitState α)
      (node : BVHBuildNode) (first last : MortonPrimitive),
      0 ≤ bitIndex → ¬ (n : Int) < self.maxPrimsInNode →
      mp[0]? = some first → mp[n - 1]? = some last →
      first.mortonCode &&& (1 <<< bitIndex.toNat) ≠ last.mortonCode &&& (1 <<< bitIndex.toNat) →
      emitLBVH E self arena info fuel mp n bitIndex st = some (node, st1) →
      ∃ b c0 c1, node = .node b c0 c1 (bitIndex.toNat % 3) 0 0) := by
  have hx1 : x < 1024 := by simpa using hx
  have hy1 : y < 1024 := by simpa using hy
  have hz1 : z < 1024 := by simpa using hz
  constructor
  · obtain ⟨r, hr, _, hbits⟩ := EncodeMorton3_bits E x y z hx1 hy1 hz1
    refine ⟨r, hr, ?_⟩
    intro b hb
    obtain ⟨h0, h1, h2⟩ := hbits (b / 3) (by omega)
    by_cases c0 : b % 3 = 0
    · rw [if_pos c0, ← h0]
      congr 1
      omega
    · rw [if_neg c0]
      by_cases c1 : b % 3 = 1
      · rw [if_pos c1, ← h1]
        congr 1
        omega
      · rw [if_neg c1, ← h2]
        congr 1
        omega
  · intro self arena info fuel mp n bitIndex st st1 node first last hbit hnoleaf hfirst hlast
      hdiff h
    cases fuel with
    | zero => simp [emitLBVH] at h
    | succ fuel =>
      rw [emitLBVH] at h
      split at h
      · cases h
      · split at h
        · cases h
        · rw [if_neg (by
            intro hc
            rcases hc with hc | hc
            · omega
            · exact hnoleaf hc)] at h
          simp only [hfirst, hlast] at h
          rw [if_neg hdiff] at h
          split at h
          · cases h
          · split at h
            · split at h
              · cases h
              · split at h
                · cases h
                · split at h
                  · cases h
                  · split at h
                    · cases h
                    · rename_i c0 st0 _ c1 st1a _
                      split at h
                      · cases h
                      · rename_i nd hnd
                        simp only [Option.some.injEq, Prod.mk.injEq] at h
                        obtain ⟨h1, _⟩ := h
                        subst h1
                        unfold BVHBuildNode.InitInterior at hnd
                        split at hnd
                        · simp only [Option.some.injEq] at hnd
                          exact ⟨_, _, _, hnd.symm⟩
                        · cases hnd
            · cases h

/-- A run of C34 on the coordinates `(3, 1023, 5)`. -/
theorem splitAxis_is_morton_axis_witness :
    (3 : Nat) < 2 ^ 10 ∧ (1023 : Nat) < 2 ^ 10 ∧ (5 : Nat) < 2 ^ 10 ∧
    ∃ r, EncodeMorton3 (sampleEnv true) ⟨((3 : Nat) : Float), ((1023 : Nat) : Float),
        ((5 : Nat) : Float)⟩ = some r ∧
      ∀ b < 30, Nat.testBit r b =
        if b % 3 = 0 then Nat.testBit 3 (b / 3)
        else if b % 3 = 1 then Nat.testBit 1023 (b / 3)
        else Nat.testBit 5 (b / 3) :=
  ⟨by decide, by decide, by decide,
    (@splitAxis_is_morton_axis Nat (sampleEnv true) 3 1023 5 (by decide) (by decide)
      (by decide)).1⟩

/-- C39: `EncodeMorton3` is injective on the 10-bit grid: on integer coordinates in
`[0, 2^10)` it returns a code, and two triples with the same code are the same triple;
bits `3i`, `3i + 1`, `3i + 2` of the code give back bit `i` of `x`, `y`, `z`. -/
theorem EncodeMorton3_injective (E : Env) (x y z x1 y1 z1 : Nat) (hx : x < 2 ^ 10)
    (hy : y < 2 ^ 10) (hz : z < 2 ^ 10) (hx1 : x1 < 2 ^ 10) (hy1 : y1 < 2 ^ 10)
    (hz1 : z1 < 2 ^ 10)
    (h : EncodeMorton3 E ⟨(x : Float), (y : Float), (z : Float)⟩ =
      EncodeMorton3 E ⟨(x1 : Float), (y1 : Float), (z1 : Float)⟩) :
    (∃ r, EncodeMorton3 E ⟨(x : Float), (y : Float), (z : Float)⟩ = some r ∧
      ∀ i < 10, Nat.testBit r (3 * i) = Nat.testBit x i ∧
        Nat.testBit r (3 * i + 1) = Nat.testBit y i ∧
        Nat.testBit r (3 * i + 2) = Nat.testBit z i) ∧
    x = x1 ∧ y = y1 ∧ z = z1 := by
  obtain ⟨r, hr, _, hbits⟩ := EncodeMorton3_bits E x y z (by simpa using hx) (by simpa using hy)
    (by simpa using hz)
  obtain ⟨r1, hr1, _, hbits1⟩ := EncodeMorton3_bits E x1 y1 z1 (by simpa using hx1)
    (by simpa using hy1) (by simpa using hz1)
  rw [hr, hr1, Option.some.injEq] at h
  subst h
  have hext : ∀ a b : Nat, a < 2 ^ 10 → b < 2 ^ 10 →
      (∀ i < 10, Nat.testBit a i = Nat.testBit b i) → a = b := by
    intro a b ha hb hab
    apply Nat.eq_of_testBit_eq
    intro i
    by_cases hi : i < 10
    · exact hab i hi
    · rw [Nat.testBit_lt_two_pow (lt_of_lt_of_le ha (Nat.pow_le_pow_right (by decide) (by omega))),
        Nat.testBit_lt_two_pow (lt_of_lt_of_le hb (Nat.pow_le_pow_right (by decide) (by omega)))]
  refine ⟨⟨r, hr, hbits⟩, ?_, ?_, ?_⟩
  · exact hext x x1 hx hx1 (fun i hi => by rw [← (hbits i hi).1, (hbits1 i hi).1])
  · exact hext y y1 hy hy1 (fun i hi => by rw [← (hbits i hi).2.1, (hbits1 i hi).2.1])
  · exact hext z z1 hz hz1 (fun i hi => by rw [← (hbits i hi).2.2, (hbits1 i hi).2.2])

/-- A run of C39: the triples `(3, 1023, 5)` and `(3, 1023, 5)` have one code, and the
triple `(5, 1023, 3)` has another. -/
theorem EncodeMorton3_injective_witness :
    ((3 : Nat) = 3 ∧ (1023 : Nat) = 1023 ∧ (5 : Nat) = 5) ∧
    EncodeMorton3 (sampleEnv true) ⟨((3 : Nat) : Float), ((1023 : Nat) : Float),
        ((5 : Nat) : Float)⟩ ≠
      EncodeMorton3 (sampleEnv true) ⟨((5 : Nat) : Float), ((1023 : Nat) : Float),
        ((3 : Nat) : Float)⟩ :=
  ⟨(EncodeMorton3_injective (sampleEnv true) 3 1023 5 3 1023 5 (by decide) (by decide)
      (by decide) (by decide) (by decide) (by decide) rfl).2,
    fun h => absurd (EncodeMorton3_injective (sampleEnv true) 3 1023 5 5 1023 3 (by decide)
      (by decide) (by decide) (by decide) (by decide) (by decide) h).2.1 (by decide)⟩
theorem and_mask_eq_iff (a c b : Nat) :
    a &&& (1 <<< b) = c &&& (1 <<< b) ↔ Nat.testBit a b = Nat.testBit c b := by
  rw [Nat.shiftLeft_eq, Nat.one_mul, Nat.and_two_pow, Nat.and_two_pow]
  have hpos : 0 < 2 ^ b := Nat.pow_pos (by decide)
  constructor
  · intro h
    have := Nat.eq_of_mul_eq_mul_right hpos h
    cases ha : Nat.testBit a b <;> cases hc : Nat.testBit c b <;> simp [ha, hc] at this ⊢
  · intro h
    rw [h]

/-- The binary search of `emitLBVH` keeps a clear bit at `searchStart` and a set bit at
`searchEnd`; where it returns, the bit flips just before the index returned. -/
theorem findSplit_flip (E : Env) (mp : List MortonPrimitive) (b : Nat) :
    ∀ (fuel s e r : Nat), s < e → e < mp.length →
      Nat.testBit (mp.getD s default).mortonCode b = false →
      Nat.testBit (mp.getD e default).mortonCode b = true →
      findSplit E mp (1 <<< b) fuel s e = some r →
      s < r ∧ r ≤ e ∧ Nat.testBit (mp.getD (r - 1) default).mortonCode b = false ∧
        Nat.testBit (mp.getD r default).mortonCode b = true := by
  intro fuel
  induction fuel with
  | zero =>
    intro s e r _ _ _ _ h
    simp [findSplit] at h
  | succ fuel ih =>
    intro s e r hse he hs0 he1 h
    have hget : ∀ i, i < mp.length → mp[i]? = some (mp.getD i default) := by
      intro i hi
      rw [List.getD_eq_getElem?_getD, List.getElem?_eq_getElem hi]
      rfl
    rw [findSplit] at h
    by_cases hloop : s + 1 ≠ e
    · rw [if_pos hloop] at h
      split at h
      · cases h
      · have hm : (s + e) / 2 < mp.length := by omega
        simp only [hget s (by omega), hget _ hm, hget e he] at h
        by_cases hc : (mp.getD s default).mortonCode &&& (1 <<< b) =
            (mp.getD ((s + e) / 2) default).mortonCode &&& (1 <<< b)
        · rw [if_pos hc] at h
          have hbit := (and_mask_eq_iff _ _ b).mp hc
          obtain ⟨a1, a2, a3, a4⟩ := ih _ _ r (by omega) he (by rw [← hbit]; exact hs0) he1 h
          exact ⟨by omega, a2, a3, a4⟩
        · rw [if_neg hc] at h
          have hbit : Nat.testBit (mp.getD ((s + e) / 2) default).mortonCode b = true := by
            have hne : ¬ Nat.testBit (mp.getD s default).mortonCode b =
                Nat.testBit (mp.getD ((s + e) / 2) default).mortonCode b :=
              fun hh => hc ((and_mask_eq_iff _ _ b).mpr hh)
            rw [hs0] at hne
            cases hv : Nat.testBit (mp.getD ((s + e) / 2) default).mortonCode b
            · rw [hv] at hne
              exact absurd rfl hne
            · rfl
          split at h
          · cases h
          · obtain ⟨a1, a2, a3, a4⟩ := ih _ _ r (by omega) (by omega) hs0 hbit h
            exact ⟨a1, by omega, a3, a4⟩
    · rw [if_neg hloop, Option.some.injEq] at h
      have hes : e = s + 1 := by omega
      subst h
      subst hes
      exact ⟨by omega, le_refl _, by simpa using hs0, he1⟩

/-- Without aborting assertions the binary search of `emitLBVH` returns within as many
iterations as the range is long. -/
theorem findSplit_total (E : Env) (hE : E.assertAborts = false) (mp : List MortonPrimitive)
    (mask : Nat) :
    ∀ (fuel s e : Nat), s < e → e < mp.length → e - s ≤ fuel →
      ∃ r, findSplit E mp mask fuel s e = some r := by
  intro fuel
  induction fuel with
  | zero =>
    intro s e hse _ hf
    omega
  | succ fuel ih =>
    intro s e hse he hf
    have hget : ∀ i, i < mp.length → mp[i]? = some (mp.getD i default) := by
      intro i hi
      rw [List.getD_eq_getElem?_getD, List.getElem?_eq_getElem hi]
      rfl
    rw [findSplit]
    by_cases hloop : s + 1 ≠ e
    · rw [if_pos hloop, MIN_ASSERT_of_skipped E _ hE]
      have hm : (s + e) / 2 < mp.length := by omega
      simp only [hget s (by omega), hget _ hm, hget e he]
      split
      · exact ih _ _ (by omega) he (by omega)
      · rw [MIN_ASSERT_of_skipped E _ hE]
        exact ih _ _ (by omega) (by omega) (by omega)
    · rw [if_neg hloop]
      exact ⟨e, rfl⟩

/-- C31: on a range of `n >= 2` Morton primitives sorted ascending by code, whose codes
agree on all bits above `bitIndex` and whose first and last code differ in bit `bitIndex`,
the binary search of `emitLBVH` (run as `emitLBVH` runs it, with `mask = 1 << bitIndex`),
where it returns `splitOffset`, has `1 <= splitOffset <= n - 1`, every code at an index
below `splitOffset` has the bit clear and every code from `splitOffset` on has it set, so
the masked codes at `splitOffset - 1` and `splitOffset` differ; and it does return when
assertions do not abort (its own assertion is mis-parsed and would stop it). -/
theorem findSplit_finds_flip (E : Env) (mp : List MortonPrimitive) (n b : Nat) (hn : 2 ≤ n)
    (hlen : n ≤ mp.length)
    (hsorted : ∀ i j, i ≤ j → j < n →
      (mp.getD i default).mortonCode ≤ (mp.getD j default).mortonCode)
    (habove : ∀ i j k, i < n → j < n → b < k →
      Nat.testBit (mp.getD i default).mortonCode k = Nat.testBit (mp.getD j default).mortonCode k)
    (hdiff : (mp.getD 0 default).mortonCode &&& (1 <<< b) ≠
      (mp.getD (n - 1) default).mortonCode &&& (1 <<< b)) :
    (E.assertAborts = false → ∃ r, findSplit E mp (1 <<< b) n 0 (n - 1) = some r) ∧
    (∀ r, findSplit E mp (1 <<< b) n 0 (n - 1) = some r →
      1 ≤ r ∧ r ≤ n - 1 ∧
      (∀ i, i < r → Nat.testBit (mp.getD i default).mortonCode b = false) ∧
      (∀ i, r ≤ i → i < n → Nat.testBit (mp.getD i default).mortonCode b = true) ∧
      (mp.getD (r - 1) default).mortonCode &&& (1 <<< b) ≠
        (mp.getD r default).mortonCode &&& (1 <<< b)) := by
  have hmono : ∀ i j, i ≤ j → j < n →
      Nat.testBit (mp.getD i default).mortonCode b = true →
      Nat.testBit (mp.getD j default).mortonCode b = true := by
    intro i j hij hj hi
    by_contra hc
    have hjf : Nat.testBit (mp.getD j default).mortonCode b = false := by
      cases hv : Nat.testBit (mp.getD j default).mortonCode b
      · rfl
      · exact absurd hv hc
    have := Nat.lt_of_testBit b hjf hi (fun k hk => habove j i k hj (by omega) hk)
    have := hsorted i j hij hj
    omega
  have hbits : Nat.testBit (mp.getD 0 default).mortonCode b = false ∧
      Nat.testBit (mp.getD (n - 1) default).mortonCode b = true := by
    have hne : ¬ Nat.testBit (mp.getD 0 default).mortonCode b =
        Nat.testBit (mp.getD (n - 1) default).mortonCode b :=
      fun hh => hdiff ((and_mask_eq_iff _ _ b).mpr hh)
    cases h0 : Nat.testBit (mp.getD 0 default).mortonCode b
    · cases h1 : Nat.testBit (mp.getD (n - 1) default).mortonCode b
      · rw [h0, h1] at hne
        exact absurd rfl hne
      · exact ⟨rfl, rfl⟩
    · have := hmono 0 (n - 1) (by omega) (by omega) h0
      rw [h0, this] at hne
      exact absurd rfl hne
  constructor
  · intro hE
    exact findSplit_total E hE mp _ n 0 (n - 1) (by omega) (by omega) (by omega)
  · intro r hr
    obtain ⟨h1, h2, h3, h4⟩ := findSplit_flip E mp b n 0 (n - 1) r (by omega) (by omega)
      hbits.1 hbits.2 hr
    refine ⟨by omega, h2, ?_, ?_, ?_⟩
    · intro i hi
      cases hv : Nat.testBit (mp.getD i default).mortonCode b
      · rfl
      · have := hmono i (r - 1) (by omega) (by omega) hv
        rw [h3] at this
        cases this
    · intro i hi1 hi2
      exact hmono r i hi1 hi2 h4
    · intro hc
      have := (and_mask_eq_iff _ _ b).mp hc
      rw [h3, h4] at this
      cases this

/-- A run of C31 on the two sample Morton primitives, whose codes differ in bit 29: the
search returns the split offset 1. -/
theorem findSplit_finds_flip_witness :
    2 ≤ 2 ∧ 2 ≤ sampleMortonPrims.length ∧
    (sampleMortonPrims.getD 0 default).mortonCode &&& (1 <<< 29) ≠
      (sampleMortonPrims.getD (2 - 1) default).mortonCode &&& (1 <<< 29) ∧
    findSplit sampleEnvRelease sampleMortonPrims (1 <<< 29) 2 0 (2 - 1) = some 1 ∧
    ∀ r, findSplit sampleEnvRelease sampleMortonPrims (1 <<< 29) 2 0 (2 - 1) = some r →
      1 ≤ r ∧ r ≤ 2 - 1 ∧
      (∀ i, i < r → Nat.testBit (sampleMortonPrims.getD i default).mortonCode 29 = false) ∧
      (∀ i, r ≤ i → i < 2 →
        Nat.testBit (sampleMortonPrims.getD i default).mortonCode 29 = true) ∧
      (sampleMortonPrims.getD (r - 1) default).mortonCode &&& (1 <<< 29) ≠
        (sampleMortonPrims.getD r default).mortonCode &&& (1 <<< 29) := by
  refine ⟨le_refl _, by decide, by decide, by decide, ?_⟩
  refine (findSplit_finds_flip sampleEnvRelease sampleMortonPrims 2 29 (le_refl _) (by decide)
    ?_ ?_ (by decide)).2
  · intro i j hij hj
    have hi : i < 2 := by omega
    interval_cases j <;> interval_cases i <;> decide
  · intro i j k hi hj hk
    have h0 : ∀ m, m < 2 → Nat.testBit (sampleMortonPrims.getD m default).mortonCode k = false := by
      intro m hm
      interval_cases m
      · simp [sampleMortonPrims]
      · simp only [sampleMortonPrims, List.getD_cons_succ, List.getD_cons_zero,
          Nat.shiftLeft_eq, Nat.one_mul, Nat.testBit_two_pow]
        simp
        omega
    rw [h0 i hi, h0 j hj]
/-- Where `emitLBVH` returns on `n >= 1` primitives it has made a build tree of at most
`2 n - 1` nodes, and the arena pointer has moved on by the number of nodes. -/
theorem emitLBVH_count {α : Type} (E : Env) (self : BVHAccel α) (arena : Nat)
    (info : List BVHPrimitiveInfo) :
    ∀ (fuel : Nat) (mp : List MortonPrimitive) (n : Nat) (bitIndex : Int) (st : EmitState α)
      (node : BVHBuildNode) (st1 : EmitState α), 1 ≤ n →
      emitLBVH E self arena info fuel mp n bitIndex st = some (node, st1) →
      node.Invariant ∧ node.numNodes ≤ 2 * n - 1 ∧
        st1.buildNodes = st.buildNodes + node.numNodes ∧ st1.buildNodes ≤ arena := by
  intro fuel
  induction fuel with
  | zero =>
    intro mp n bitIndex st node st1 _ h
    simp [emitLBVH] at h
  | succ fuel ih =>
    intro mp n bitIndex st node st1 hn h
    rw [emitLBVH] at h
    split at h
    · cases h
    · split at h
      · cases h
      · split at h
        · -- a leaf
          split at h
          · cases h
          · rename_i harena
            simp only at h
            split at h
            · cases h
            · simp only [Option.some.injEq, Prod.mk.injEq] at h
              obtain ⟨h1, h2⟩ := h
              subst h1 h2
              refine ⟨?_, ?_, ?_, ?_⟩
              · simp only [BVHBuildNode.InitLeaf, BVHBuildNode.Invariant]
                left
                exact ⟨by omega, trivial, trivial⟩
              · simp only [BVHBuildNode.InitLeaf, BVHBuildNode.numNodes]
                omega
              · simp only [BVHBuildNode.InitLeaf, BVHBuildNode.numNodes]
              · simp only
                omega
        · simp only at h
          split at h
          · split at h
            · exact ih _ _ _ _ _ _ hn h
            · split at h
              · cases h
              · rename_i so hso
                have hsplit := findSplit_spec E mp _ _ _ _ so hso
                split at h
                · split at h
                  · cases h
                  · split at h
                    · cases h
                    · rename_i harena
                      split at h
                      · cases h
                      · rename_i c0 st0 hc0
                        split at h
                        · cases h
                        · rename_i c1 st1a hc1
                          split at h
                          · cases h
                          · rename_i nd hnd
                            simp only [Option.some.injEq, Prod.mk.injEq] at h
                            obtain ⟨h1, h2⟩ := h
                            subst h1 h2
                            obtain ⟨i0, n0, b0, a0⟩ := ih _ _ _ _ _ _ (by omega) hc0
                            obtain ⟨i1, n1, b1, a1⟩ := ih _ _ _ _ _ _ (by omega) hc1
                            obtain ⟨_, hinv, hnum, _⟩ := InitInterior_spec _ c0 c1 nd hnd i0 i1
                            simp only at b0
                            refine ⟨hinv, ?_, ?_, a1⟩
                            · rw [hnum]
                              omega
                            · rw [hnum, b1, b0]
                              omega
                · cases h
          · cases h

/-- The arena of `emitLBVH` is large enough where it holds `2 n - 1` more nodes: a larger
arena gives the same result. -/
theorem emitLBVH_arena {α : Type} (E : Env) (self : BVHAccel α) (arena A : Nat)
    (hA : arena ≤ A) (info : List BVHPrimitiveInfo) :
    ∀ (fuel : Nat) (mp : List MortonPrimitive) (n : Nat) (bitIndex : Int) (st : EmitState α),
      1 ≤ n → st.buildNodes + (2 * n - 1) ≤ arena →
      emitLBVH E self arena info fuel mp n bitIndex st =
        emitLBVH E self A info fuel mp n bitIndex st := by
  intro fuel
  induction fuel with
  | zero =>
    intro mp n bitIndex st _ _
    rfl
  | succ fuel ih =>
    intro mp n bitIndex st hn hroom
    rw [emitLBVH, emitLBVH]
    have hg1 : ¬ arena ≤ st.buildNodes := by omega
    have hg2 : ¬ A ≤ st.buildNodes := by omega
    simp only [if_neg hg1, if_neg hg2]
    split
    · rfl
    · split
      · rfl
      · split
        · rfl
        · split
          · split
            · exact ih _ _ _ _ hn hroom
            · split
              · rfl
              · rename_i so hso
                have hsplit := findSplit_spec E mp _ _ _ _ so hso
                split
                · split
                  · rfl
                  · have e0 := ih mp so (bitIndex - 1)
                      ⟨st.buildNodes + 1, st.totalNodes + 1, st.orderedPrims,
                        st.orderedPrimsOffset⟩ (by omega) (by simp only; omega)
                    rw [← e0]
                    split
                    · rfl
                    · rename_i c0 st0 hc0
                      obtain ⟨_, n0, b0, _⟩ := emitLBVH_count E self arena info _ _ _ _ _ _ _
                        (by omega) hc0
                      simp only at b0
                      have e1 := ih (mp.drop so) (n - so) (bitIndex - 1) st0 (by omega)
                        (by omega)
                      rw [← e1]
                · rfl
          · rfl
/-- C33: for every range of `n >= 1` Morton primitives and every `maxPrimsInNode`, a call of
`emitLBVH` that starts with room for `2 n` nodes in the arena (as `HLBVHBuild` provides for
a treelet of `n` primitives), where it returns, has made a build tree (every leaf holds at
least one primitive, every interior node has two children) of at most `2 n - 1` nodes, and
the arena pointer has moved on by that number and stays inside the arena; the limit of the
arena never decides the outcome: with any larger arena the call gives the same result. -/
theorem emitLBVH_within_arena {α : Type} (E : Env) (self : BVHAccel α)
    (info : List BVHPrimitiveInfo) (fuel : Nat) (mp : List MortonPrimitive) (n : Nat)
    (bitIndex : Int) (st : EmitState α) (hn : 1 ≤ n) :
    (∀ node st1,
      emitLBVH E self (st.buildNodes + 2 * n) info fuel mp n bitIndex st = some (node, st1) →
      node.Invariant ∧ node.numNodes ≤ 2 * n - 1 ∧
        st1.buildNodes = st.buildNodes + node.numNodes ∧
        st1.buildNodes < st.buildNodes + 2 * n) ∧
    (∀ A, st.buildNodes + 2 * n ≤ A →
      emitLBVH E self (st.buildNodes + 2 * n) info fuel mp n bitIndex st =
        emitLBVH E self A info fuel mp n bitIndex st) := by
  constructor
  · intro node st1 h
    obtain ⟨h1, h2, h3, _⟩ := emitLBVH_count E self _ info fuel mp n bitIndex st node st1 hn h
    exact ⟨h1, h2, h3, by omega⟩
  · intro A hA
    exact emitLBVH_arena E self _ A hA info fuel mp n bitIndex st hn (by omega)

theorem sample_emitLBVH_runs :
    (emitLBVH sampleEnvRelease sampleAccelOne (0 + 2 * 2) sampleInfo 31 sampleMortonPrims 2 29
      ⟨0, 0, [0, 0], 0⟩).map (fun r => (r.1.numNodes, r.2.buildNodes)) = some (3, 3) := by
  decide

/-- A run of C33 on the two sample Morton primitives: three nodes in an arena of four. -/
theorem emitLBVH_within_arena_witness :
    1 ≤ 2 ∧
    ∃ node st1, emitLBVH sampleEnvRelease sampleAccelOne (0 + 2 * 2) sampleInfo 31
        sampleMortonPrims 2 29 ⟨0, 0, [0, 0], 0⟩ = some (node, st1) ∧
      node.numNodes = 3 ∧ node.numNodes ≤ 2 * 2 - 1 ∧ st1.buildNodes < 0 + 2 * 2 := by
  have hrun := sample_emitLBVH_runs
  cases hb : emitLBVH sampleEnvRelease sampleAccelOne (0 + 2 * 2) sampleInfo 31
      sampleMortonPrims 2 29 ⟨0, 0, [0, 0], 0⟩ with
  | none => rw [hb] at hrun; cases hrun
  | some r =>
    obtain ⟨node, st1⟩ := r
    rw [hb] at hrun
    simp only [Option.map_some', Option.some.injEq, Prod.mk.injEq] at hrun
    have h := (emitLBVH_within_arena sampleEnvRelease sampleAccelOne sampleInfo 31
      sampleMortonPrims 2 29 ⟨0, 0, [0, 0], 0⟩ (by decide)).1 node st1 hb
    exact ⟨by decide, node, st1, rfl, hrun.1, h.2.1, h.2.2.2⟩

theorem unflatten_preorder (nodes : List LinearBVHNode) :
    ∀ (t : BVHBuildNode) (i : Nat), t.Invariant → PreOrder nodes i t →
      (∀ l ∈ t.leaves, l.nPrimitives < 65536) → (∀ a ∈ t.axes, a < 256) →
      ∀ fuel, t.height < fuel → unflatten nodes fuel i = some t.stored := by
  intro t
  induction t with
  | null =>
    intro i h
    simp [BVHBuildNode.Invariant] at h
  | node b c0 c1 ax f n ih0 ih1 =>
    intro i hinv hpre hleaf hax fuel hfuel
    cases fuel with
    | zero => omega
    | succ fuel =>
      rw [BVHBuildNode.Invariant] at hinv
      rcases hinv with ⟨hn, h0, h1⟩ | ⟨hn, hi0, hi1, _⟩
      · rw [PreOrder, if_pos hn] at hpre
        obtain ⟨ln, hln, hlb, hlo, hlp⟩ := hpre
        have hsmall := hleaf ⟨b, f, n⟩
          (by rw [leaves_leaf b c0 c1 ax f n hn]; exact List.mem_singleton_self _)
        have hlp1 : ln.nPrimitives = n := by
          rw [hlp]
          exact Nat.mod_eq_of_lt (by norm_num; exact hsmall)
        rw [unflatten, hln]
        simp only
        rw [if_pos (by omega : ln.nPrimitives > 0), hlb, hlo, hlp1, BVHBuildNode.stored,
          if_pos hn]
      · subst hn
        rw [PreOrder, if_neg (by omega)] at hpre
        obtain ⟨⟨ln, hln, hlb, hlp, hla, hlo, _⟩, hp0, hp1⟩ := hpre
        rw [leaves_interior] at hleaf
        have hax0 : ∀ a ∈ c0.axes, a < 256 := by
          intro a ha
          apply hax
          simp only [BVHBuildNode.axes, gt_iff_lt, lt_self_iff_false, if_false, List.mem_cons,
            List.mem_append]
          exact Or.inr (Or.inl ha)
        have hax1 : ∀ a ∈ c1.axes, a < 256 := by
          intro a ha
          apply hax
          simp only [BVHBuildNode.axes, gt_iff_lt, lt_self_iff_false, if_false, List.mem_cons,
            List.mem_append]
          exact Or.inr (Or.inr ha)
        have haxr : ax < 256 := by
          apply hax
          simp only [BVHBuildNode.axes, gt_iff_lt, lt_self_iff_false, if_false, List.mem_cons,
            List.mem_append]
          exact Or.inl trivial
        have hheight : (BVHBuildNode.node b c0 c1 ax f 0).height =
            1 + max c0.height c1.height := by
          simp [BVHBuildNode.height]
        rw [hheight] at hfuel
        have e0 := ih0 (i + 1) hi0 hp0 (fun l hl => hleaf l (List.mem_append_left _ hl)) hax0
          fuel (by have := le_max_left c0.height c1.height; omega)
        have e1 := ih1 (i + 1 + c0.numNodes) hi1 hp1
          (fun l hl => hleaf l (List.mem_append_right _ hl)) hax1
          fuel (by have := le_max_right c0.height c1.height; omega)
        rw [unflatten, hln]
        simp only
        rw [if_neg (by omega : ¬ ln.nPrimitives > 0), e0, hlo, e1]
        simp only
        rw [hlb, hla, Nat.mod_eq_of_lt (by norm_num; exact haxr), BVHBuildNode.stored,
          if_neg (by omega)]

theorem stored_of_fresh (t : BVHBuildNode) : t.Invariant → t.Fresh → t.stored = t := by
  induction t with
  | null =>
    intro h
    simp [BVHBuildNode.Invariant] at h
  | node b c0 c1 ax f n ih0 ih1 =>
    intro hinv hfresh
    rw [BVHBuildNode.Invariant] at hinv
    rcases hinv with ⟨hn, h0, h1⟩ | ⟨hn, hi0, hi1, _⟩
    · rw [BVHBuildNode.Fresh, if_pos hn] at hfresh
      rw [BVHBuildNode.stored, if_pos hn, h0, h1, hfresh]
    · subst hn
      rw [BVHBuildNode.Fresh, if_neg (by omega)] at hfresh
      obtain ⟨hf, f0, f1⟩ := hfresh
      rw [BVHBuildNode.stored, if_neg (by omega), ih0 hi0 f0, ih1 hi1 f1, hf]

/-- C38: flattening loses no information. For every build tree whose leaves hold fewer than
65536 primitives (and whose split axes fit the 8-bit field, as the axes 0, 1, 2 do) and
every array with room for it, `flattenBVHTree` returns, and decoding the array it has
written from the offset of the root (node 0 for the whole tree) gives back the tree as far
as `flattenBVHTree` reads it: the same shape, bounds, split axes, leaf offsets and leaf
counts; for a tree as `InitLeaf` and `InitInterior` make it, that is the tree itself. -/
theorem unflatten_flattenBVHTree (E : Env) (t : BVHBuildNode) (nodes : List LinearBVHNode)
    (off : Nat) (hinv : t.Invariant) (hleaf : ∀ l ∈ t.leaves, l.nPrimitives < 65536)
    (hax : ∀ a ∈ t.axes, a < 256) (hlen : off + t.numNodes ≤ nodes.length) :
    ∃ my nodes1 off1, flattenBVHTree E t nodes off = some (my, nodes1, off1) ∧ my = off ∧
      (∀ fuel, t.height < fuel → unflatten nodes1 fuel my = some t.stored) ∧
      (t.Fresh → t.stored = t) := by
  obtain ⟨⟨my, nodes1, off1⟩, hres⟩ := flattenBVHTree_total E t nodes off hinv hlen
    (fun _ => hleaf)
  obtain ⟨h1, _, _, _, _, hpre⟩ := flattenBVHTree_spec E t nodes off my nodes1 off1 hinv hres
  refine ⟨my, nodes1, off1, hres, h1, ?_, stored_of_fresh t hinv⟩
  intro fuel hfuel
  rw [h1]
  exact unflatten_preorder nodes1 t off hinv hpre hleaf hax fuel hfuel

set_option maxRecDepth 100000 in
unseal Rat.add Rat.mul Rat.inv Rat.sub in
theorem sampleTree_facts :
    (∀ l ∈ sampleTree.leaves, l.nPrimitives < 65536) ∧ (∀ a ∈ sampleTree.axes, a < 256) ∧
    sampleTree.stored = sampleTree ∧
    (flattenBVHTree (sampleEnv true) sampleTree (List.replicate 3 ⟨Bounds3f.new, 0, 0, 0⟩) 0).bind
      (fun r => unflatten r.2.1 2 r.1) = some sampleTree := by
  decide

/-- A run of C38 on the sample tree of three nodes: flattening it into an array of three
nodes and decoding the array from node 0 gives the sample tree. -/
theorem unflatten_flattenBVHTree_witness :
    sampleTree.Invariant ∧ (∀ l ∈ sampleTree.leaves, l.nPrimitives < 65536) ∧
    (∀ a ∈ sampleTree.axes, a < 256) ∧
    0 + sampleTree.numNodes ≤
      (List.replicate 3 (⟨Bounds3f.new, 0, 0, 0⟩ : LinearBVHNode)).length ∧
    (∃ my nodes1 off1, flattenBVHTree (sampleEnv true) sampleTree
        (List.replicate 3 ⟨Bounds3f.new, 0, 0, 0⟩) 0 = some (my, nodes1, off1) ∧ my = 0 ∧
      (∀ fuel, sampleTree.height < fuel → unflatten nodes1 fuel my = some sampleTree.stored) ∧
      (sampleTree.Fresh → sampleTree.stored = sampleTree)) ∧
    (flattenBVHTree (sampleEnv true) sampleTree (List.replicate 3 ⟨Bounds3f.new, 0, 0, 0⟩) 0).bind
      (fun r => unflatten r.2.1 2 r.1) = some sampleTree :=
  ⟨sampleTree_invariant, sampleTree_facts.1, sampleTree_facts.2.1, by decide,
    unflatten_flattenBVHTree (sampleEnv true) sampleTree _ 0 sampleTree_invariant
      sampleTree_facts.1 sampleTree_facts.2.1 (by decide), sampleTree_facts.2.2.2⟩
theorem sampleRoots_finite : ∀ r ∈ sampleRoots, (boxCentroid r.boundsD).IsFinite := by
  intro r hr
  simp only [sampleRoots, List.mem_cons, List.mem_singleton, List.not_mem_nil, or_false] at hr
  rcases hr with rfl | rfl <;>
    simp only [BVHBuildNode.InitLeaf, BVHBuildNode.boundsD, BVHBuildNode.bounds?,
      Option.getD_some, boxCentroid, Vector3f.IsFinite, FiniteFloat, Vector3f.smul,
      Vector3f.add, min_num, max_num] <;> norm_num

theorem VisitsOK_perm (nodes : List LinearBVHNode) (t : BVHBuildNode) (i : Nat)
    (V W : List (Nat × Nat)) (hp : V.Perm W) (h : VisitsOK nodes t i V) :
    VisitsOK nodes t i W :=
  ⟨fun v hv => h.1 v (hp.symm.subset hv), ((hp.map Prod.fst).nodup_iff).mp h.2⟩

theorem numNodes_node (b : Bounds3f) (c0 c1 : BVHBuildNode) (ax f n : Nat) :
    (BVHBuildNode.node b c0 c1 ax f n).numNodes = 1 + c0.numNodes + c1.numNodes := rfl

theorem VisitsOK_single (nodes : List LinearBVHNode) (b : Bounds3f) (c0 c1 : BVHBuildNode)
    (ax f n i : Nat) (ln : LinearBVHNode) (hln : nodes[i]? = some ln)
    (h : ln.nPrimitives = 0 → n = 0) :
    VisitsOK nodes (.node b c0 c1 ax f n) i [(0, 0)] := by
  constructor
  · intro v hv
    rw [List.mem_singleton] at hv
    subst hv
    refine ⟨by rw [numNodes_node]; omega, ⟨0, by simp [BVHBuildNode.depthAt], le_refl _⟩, ?_⟩
    intro ln1 hln1 hz
    simp only [Nat.add_zero] at hln1
    rw [hln] at hln1
    have := Option.some.inj hln1
    subst this
    have hn := h hz
    subst hn
    simp [BVHBuildNode.height]
  · simp

theorem VisitsOK_interior (nodes : List LinearBVHNode) (b : Bounds3f) (c0 c1 : BVHBuildNode)
    (ax f i a0 a1 : Nat) (ha0 : a0 ≤ 1) (ha1 : a1 ≤ 1) (V0 V1 : List (Nat × Nat))
    (h0 : VisitsOK nodes c0 (i + 1) V0) (h1 : VisitsOK nodes c1 (i + 1 + c0.numNodes) V1) :
    VisitsOK nodes (.node b c0 c1 ax f 0) i
      ((0, 0) :: (V0.map (fun v => (1 + v.1, a0 + v.2)) ++
        V1.map (fun v => (1 + c0.numNodes + v.1, a1 + v.2)))) := by
  have hheight : (BVHBuildNode.node b c0 c1 ax f 0).height = 1 + max c0.height c1.height := by
    simp [BVHBuildNode.height]
  have hm0 := le_max_left c0.height c1.height
  have hm1 := le_max_right c0.height c1.height
  constructor
  · intro v hv
    rcases List.mem_cons.mp hv with rfl | hv
    · refine ⟨by rw [numNodes_node]; omega, ⟨0, by simp [BVHBuildNode.depthAt], le_refl _⟩, ?_⟩
      intro _ _ _
      rw [hheight]
      omega
    · rcases List.mem_append.mp hv with hv | hv
      · rw [List.mem_map] at hv
        obtain ⟨w, hw, rfl⟩ := hv
        obtain ⟨w1, ⟨d, hd, hwd⟩, w3⟩ := h0.1 w hw
        refine ⟨by rw [numNodes_node]; simp only; omega, ⟨d + 1, ?_, by simp only; omega⟩, ?_⟩
        · simp only
          rw [BVHBuildNode.depthAt, if_neg (by omega), if_neg (by omega),
            if_pos (by omega), show 1 + w.1 - 1 = w.1 by omega, hd]
          rfl
        · intro ln hln hz
          simp only at hln ⊢
          have := w3 ln (by rw [← hln]; congr 1; omega) hz
          rw [hheight]
          omega
      · rw [List.mem_map] at hv
        obtain ⟨w, hw, rfl⟩ := hv
        obtain ⟨w1, ⟨d, hd, hwd⟩, w3⟩ := h1.1 w hw
        refine ⟨by rw [numNodes_node]; simp only; omega, ⟨d + 1, ?_, by simp only; omega⟩, ?_⟩
        · simp only
          rw [BVHBuildNode.depthAt, if_neg (by omega), if_neg (by omega),
            if_neg (by omega),
            show 1 + c0.numNodes + w.1 - 1 - c0.numNodes = w.1 by omega, hd]
          rfl
        · intro ln hln hz
          simp only at hln ⊢
          have := w3 ln (by rw [← hln]; congr 1; omega) hz
          rw [hheight]
          omega
  · simp only [List.map_cons, List.map_append, List.map_map]
    rw [List.nodup_cons]
    constructor
    · intro hc
      rcases List.mem_append.mp hc with hc | hc
      · rw [List.mem_map] at hc
        obtain ⟨w, _, hw⟩ := hc
        simp only [Function.comp] at hw
        omega
      · rw [List.mem_map] at hc
        obtain ⟨w, _, hw⟩ := hc
        simp only [Function.comp] at hw
        omega
    · rw [List.nodup_append]
      refine ⟨?_, ?_, ?_⟩
      · have : V0.map (Prod.fst ∘ fun v => (1 + v.1, a0 + v.2)) =
            (V0.map Prod.fst).map (fun a => 1 + a) := by
          rw [List.map_map]
          rfl
        rw [this]
        exact h0.2.map (fun a b hab => by omega)
      · have : V1.map (Prod.fst ∘ fun v => (1 + c0.numNodes + v.1, a1 + v.2)) =
            (V1.map Prod.fst).map (fun a => 1 + c0.numNodes + a) := by
          rw [List.map_map]
          rfl
        rw [this]
        exact h1.2.map (fun a b hab => by omega)
      · intro a hA hB
        rw [List.mem_map] at hA hB
        obtain ⟨w, hw, hwa⟩ := hA
        obtain ⟨u, hu, hua⟩ := hB
        simp only [Function.comp] at hwa hua
        have := (h0.1 w hw).1
        omega

theorem walkLoop_succ {σ : Type} (nodes : List LinearBVHNode) (dirIsNeg : Nat → Nat)
    (boxTest : LinearBVHNode → σ → Bool) (leafAct : LinearBVHNode → σ → Option σ)
    (fuel cur k : Nat) (stack : List Nat) (s : σ) :
    walkLoop nodes dirIsNeg boxTest leafAct (fuel + 1) cur k stack s =
      match walkStep nodes dirIsNeg boxTest leafAct cur k stack s with
      | none => none
      | some (.inl r) => some r
      | some (.inr (c1, k1, s1, t1)) => walkLoop nodes dirIsNeg boxTest leafAct fuel c1 k1 s1 t1 :=
  rfl

theorem walkTrace_succ {σ : Type} (nodes : List LinearBVHNode) (dirIsNeg : Nat → Nat)
    (boxTest : LinearBVHNode → σ → Bool) (leafAct : LinearBVHNode → σ → Option σ)
    (fuel cur k : Nat) (stack : List Nat) (s : σ) :
    walkTrace nodes dirIsNeg boxTest leafAct (fuel + 1) cur k stack s =
      (cur, k) ::
        match walkStep nodes dirIsNeg boxTest leafAct cur k stack s with
        | some (.inr (c1, k1, s1, t1)) =>
          walkTrace nodes dirIsNeg boxTest leafAct fuel c1 k1 s1 t1
        | _ => [] :=
  rfl

/-- A step of the walk that pops the stack, or ends on the empty stack, goes on as
`walkResume` says. -/
theorem walk_pop {σ : Type} (nodes : List LinearBVHNode) (dirIsNeg : Nat → Nat)
    (boxTest : LinearBVHNode → σ → Bool) (leafAct : LinearBVHNode → σ → Option σ)
    (fuel cur k : Nat) (stack : List Nat) (s s1 : σ)
    (hstep : walkStep nodes dirIsNeg boxTest leafAct cur k stack s =
      if k = 0 then some (.inl s1)
      else
        match stack[k - 1]? with
        | none => none
        | some next => some (.inr (next, k - 1, stack, s1))) :
    walkLoop nodes dirIsNeg boxTest leafAct (fuel + 1) cur k stack s =
      walkResume nodes dirIsNeg boxTest leafAct fuel k stack s1 ∧
    walkTrace nodes dirIsNeg boxTest leafAct (fuel + 1) cur k stack s =
      (cur, k) :: walkResumeTrace nodes dirIsNeg boxTest leafAct fuel k stack s1 := by
  rw [walkLoop_succ, walkTrace_succ, hstep]
  unfold walkResume walkResumeTrace
  by_cases hk : k = 0
  · simp [hk]
  · cases h : stack[k - 1]? <;> simp [hk, h]

/-- The walk, started on the root of a subtree laid out in pre-order with `k` nodes on the
stack, visits nodes of the subtree only, each at most once and with at most as many nodes
above `k` on the stack as the node has interior ancestors in the subtree; then it goes on as
after a leaf, with the stack below `k` as it was. -/
theorem walk_subtree {σ : Type} (nodes : List LinearBVHNode) (dirIsNeg : Nat → Nat)
    (boxTest : LinearBVHNode → σ → Bool) (leafAct : LinearBVHNode → σ → Option σ)
    (hleaf : ∀ ln ∈ nodes, 0 < ln.nPrimitives → ∀ s, ∃ s1, leafAct ln s = some s1) :
    ∀ (t : BVHBuildNode) (i : Nat), t.Invariant → PreOrder nodes i t →
      (∀ l ∈ t.leaves, l.nPrimitives < 65536) →
      ∀ s : σ, ∃ (s1 : σ) (V : List (Nat × Nat)), V.length ≤ t.numNodes ∧
        VisitsOK nodes t i V ∧
        ∀ (fuel k : Nat) (stack : List Nat), k + t.height ≤ stack.length →
          ∃ stack1, stack1.length = stack.length ∧ (∀ j, j < k → stack1[j]? = stack[j]?) ∧
            walkLoop nodes dirIsNeg boxTest leafAct (fuel + V.length) i k stack s =
              walkResume nodes dirIsNeg boxTest leafAct fuel k stack1 s1 ∧
            walkTrace nodes dirIsNeg boxTest leafAct (fuel + V.length) i k stack s =
              V.map (fun v => (i + v.1, k + v.2)) ++
                walkResumeTrace nodes dirIsNeg boxTest leafAct fuel k stack1 s1 := by
  intro t
  induction t with
  | null =>
    intro i h
    simp [BVHBuildNode.Invariant] at h
  | node b c0 c1 ax f n ih0 ih1 =>
    intro i hinv hpre hsmall s
    -- the linear node of the root
    have hroot : ∃ ln, nodes[i]? = some ln ∧ (ln.nPrimitives = 0 → n = 0) ∧
        (0 < n → 0 < ln.nPrimitives) := by
      rw [PreOrder] at hpre
      by_cases hn : n > 0
      · rw [if_pos hn] at hpre
        obtain ⟨ln, hln, _, _, hlp⟩ := hpre
        have hs := hsmall ⟨b, f, n⟩
          (by rw [leaves_leaf b c0 c1 ax f n hn]; exact List.mem_singleton_self _)
        have hlp1 : ln.nPrimitives = n := by
          rw [hlp]
          exact Nat.mod_eq_of_lt (by norm_num; exact hs)
        exact ⟨ln, hln, fun hz => by omega, fun _ => by omega⟩
      · rw [if_neg hn] at hpre
        obtain ⟨⟨ln, hln, _, _, _⟩, _⟩ := hpre
        exact ⟨ln, hln, fun _ => by omega, fun h => absurd h hn⟩
    obtain ⟨ln, hln, hlz, hlpos⟩ := hroot
    have hsingle := VisitsOK_single nodes b c0 c1 ax f n i ln hln hlz
    have hone : ([(0, 0)] : List (Nat × Nat)).length ≤
        (BVHBuildNode.node b c0 c1 ax f n).numNodes := by
      rw [numNodes_node]
      simp only [List.length_singleton]
      omega
    by_cases hbox : boxTest ln s = true
    · rw [BVHBuildNode.Invariant] at hinv
      rcases hinv with ⟨hn, _, _⟩ | ⟨hn, hi0, hi1, _⟩
      · -- a leaf that the ray meets
        obtain ⟨s1, hs1⟩ := hleaf ln (List.mem_iff_getElem?.mpr ⟨i, hln⟩) (hlpos hn) s
        refine ⟨s1, [(0, 0)], hone, hsingle, ?_⟩
        intro fuel k stack _
        refine ⟨stack, rfl, fun _ _ => rfl, ?_⟩
        have hstep : walkStep nodes dirIsNeg boxTest leafAct i k stack s =
            if k = 0 then some (.inl s1)
            else
              match stack[k - 1]? with
              | none => none
              | some next => some (.inr (next, k - 1, stack, s1)) := by
          unfold walkStep
          rw [hln]
          simp only
          rw [if_pos hbox, if_pos (hlpos hn), hs1]
        obtain ⟨e1, e2⟩ := walk_pop nodes dirIsNeg boxTest leafAct fuel i k stack s s1 hstep
        exact ⟨e1, by rw [List.length_singleton, e2]; rfl⟩
      · -- an interior node that the ray meets
        subst hn
        rw [PreOrder, if_neg (by omega)] at hpre
        obtain ⟨⟨ln1, hln1, _, hlp, _, hlo, _⟩, hp0, hp1⟩ := hpre
        rw [hln] at hln1
        have := Option.some.inj hln1
        subst this
        rw [leaves_interior] at hsmall
        have hsmall0 := fun l hl => hsmall l (List.mem_append_left _ hl)
        have hsmall1 := fun l hl => hsmall l (List.mem_append_right _ hl)
        have hheight : (BVHBuildNode.node b c0 c1 ax f 0).height =
            1 + max c0.height c1.height := by
          simp [BVHBuildNode.height]
        have hm0 := le_max_left c0.height c1.height
        have hm1 := le_max_right c0.height c1.height
        by_cases hneg : dirIsNeg ln.axis ≠ 0
        · -- the second child first
          obtain ⟨sA, V1, hV1, hok1, H1⟩ := ih1 (i + 1 + c0.numNodes) hi1 hp1 hsmall1 s
          obtain ⟨sB, V0, hV0, hok0, H0⟩ := ih0 (i + 1) hi0 hp0 hsmall0 sA
          refine ⟨sB, (0, 0) :: (V1.map (fun v => (1 + c0.numNodes + v.1, 1 + v.2)) ++
            V0.map (fun v => (1 + v.1, 0 + v.2))), ?_, ?_, ?_⟩
          · rw [numNodes_node]
            simp only [List.length_cons, List.length_append, List.length_map]
            omega
          · apply VisitsOK_perm nodes _ i _ _ _
              (VisitsOK_interior nodes b c0 c1 ax f i 0 1 (by omega) (by omega) V0 V1 hok0 hok1)
            exact List.Perm.cons _ List.perm_append_comm
          · intro fuel k stack hk
            rw [hheight] at hk
            have hk0 : k < stack.length := by omega
            obtain ⟨stA, hAlen, hAagree, hA, hAt⟩ := H1 (fuel + V0.length) (k + 1)
              (stack.set k (i + 1)) (by rw [List.length_set]; omega)
            rw [List.length_set] at hAlen
            obtain ⟨stB, hBlen, hBagree, hB, hBt⟩ := H0 fuel k stA (by omega)
            refine ⟨stB, by omega, ?_, ?_, ?_⟩
            · intro j hj
              rw [hBagree j hj, hAagree j (by omega)]
              exact getElem?_set_ne' _ _ _ _ (by omega)
            · have e : fuel + ((0, 0) :: (V1.map (fun v => (1 + c0.numNodes + v.1, 1 + v.2)) ++
                  V0.map (fun v => (1 + v.1, 0 + v.2)))).length =
                  fuel + V0.length + V1.length + 1 := by
                simp only [List.length_cons, List.length_append, List.length_map]
                omega
              have hstep : walkStep nodes dirIsNeg boxTest leafAct i k stack s =
                  some (.inr (i + 1 + c0.numNodes, k + 1, stack.set k (i + 1), s)) := by
                unfold walkStep
                rw [hln]
                simp only
                rw [if_pos hbox, if_neg (by omega : ¬ ln.nPrimitives > 0), if_pos hk0,
                  if_pos hneg, hlo]
              have hres : walkResume nodes dirIsNeg boxTest leafAct (fuel + V0.length) (k + 1)
                  stA sA = walkLoop nodes dirIsNeg boxTest leafAct (fuel + V0.length) (i + 1) k
                    stA sA := by
                unfold walkResume
                rw [if_neg (by omega : ¬ k + 1 = 0)]
                simp only [Nat.add_sub_cancel]
                rw [hAagree k (by omega), getElem?_set_self' _ _ _ hk0]
              rw [e, walkLoop_succ, hstep]
              simp only
              rw [hA, hres, hB]
            · have e : fuel + ((0, 0) :: (V1.map (fun v => (1 + c0.numNodes + v.1, 1 + v.2)) ++
                  V0.map (fun v => (1 + v.1, 0 + v.2)))).length =
                  fuel + V0.length + V1.length + 1 := by
                simp only [List.length_cons, List.length_append, List.length_map]
                omega
              have hstep : walkStep nodes dirIsNeg boxTest leafAct i k stack s =
                  some (.inr (i + 1 + c0.numNodes, k + 1, stack.set k (i + 1), s)) := by
                unfold walkStep
                rw [hln]
                simp only
                rw [if_pos hbox, if_neg (by omega : ¬ ln.nPrimitives > 0), if_pos hk0,
                  if_pos hneg, hlo]
              have hres : walkResumeTrace nodes dirIsNeg boxTest leafAct (fuel + V0.length)
                  (k + 1) stA sA = walkTrace nodes dirIsNeg boxTest leafAct (fuel + V0.length)
                    (i + 1) k stA sA := by
                unfold walkResumeTrace
                rw [if_neg (by omega : ¬ k + 1 = 0)]
                simp only [Nat.add_sub_cancel]
                rw [hAagree k (by omega), getElem?_set_self' _ _ _ hk0]
              rw [e, walkTrace_succ, hstep]
              simp only
              rw [hAt, hres, hBt]
              simp only [List.map_cons, List.map_append, List.map_map, List.cons_append,
                List.append_assoc, Nat.add_zero]
              congr 1
              congr 1
              · apply List.map_congr_left
                intro v _
                simp only [Function.comp]
                rw [Prod.mk.injEq]
                constructor <;> omega
              · congr 1
                apply List.map_congr_left
                intro v _
                simp only [Function.comp]
                rw [Prod.mk.injEq]
                constructor <;> omega
        · -- the first child first
          obtain ⟨sA, V0, hV0, hok0, H0⟩ := ih0 (i + 1) hi0 hp0 hsmall0 s
          obtain ⟨sB, V1, hV1, hok1, H1⟩ := ih1 (i + 1 + c0.numNodes) hi1 hp1 hsmall1 sA
          refine ⟨sB, (0, 0) :: (V0.map (fun v => (1 + v.1, 1 + v.2)) ++
            V1.map (fun v => (1 + c0.numNodes + v.1, 0 + v.2))), ?_, ?_, ?_⟩
          · rw [numNodes_node]
            simp only [List.length_cons, List.length_append, List.length_map]
            omega
          · exact VisitsOK_interior nodes b c0 c1 ax f i 1 0 (by omega) (by omega) V0 V1 hok0 hok1
          · intro fuel k stack hk
            rw [hheight] at hk
            have hk0 : k < stack.length := by omega
            obtain ⟨stA, hAlen, hAagree, hA, hAt⟩ := H0 (fuel + V1.length) (k + 1)
              (stack.set k (i + 1 + c0.numNodes)) (by rw [List.length_set]; omega)
            rw [List.length_set] at hAlen
            obtain ⟨stB, hBlen, hBagree, hB, hBt⟩ := H1 fuel k stA (by omega)
            refine ⟨stB, by omega, ?_, ?_, ?_⟩
            · intro j hj
              rw [hBagree j hj, hAagree j (by omega)]
              exact getElem?_set_ne' _ _ _ _ (by omega)
            · have e : fuel + ((0, 0) :: (V0.map (fun v => (1 + v.1, 1 + v.2)) ++
                  V1.map (fun v => (1 + c0.numNodes + v.1, 0 + v.2)))).length =
                  fuel + V1.length + V0.length + 1 := by
                simp only [List.length_cons, List.length_append, List.length_map]
                omega
              have hstep : walkStep nodes dirIsNeg boxTest leafAct i k stack s =
                  some (.inr (i + 1, k + 1, stack.set k (i + 1 + c0.numNodes), s)) := by
                unfold walkStep
                rw [hln]
                simp only
                rw [if_pos hbox, if_neg (by omega : ¬ ln.nPrimitives > 0), if_pos hk0,
                  if_neg hneg, hlo]
              have hres : walkResume nodes dirIsNeg boxTest leafAct (fuel + V1.length) (k + 1)
                  stA sA = walkLoop nodes dirIsNeg boxTest leafAct (fuel + V1.length)
                    (i + 1 + c0.numNodes) k stA sA := by
                unfold walkResume
                rw [if_neg (by omega : ¬ k + 1 = 0)]
                simp only [Nat.add_sub_cancel]
                rw [hAagree k (by omega), getElem?_set_self' _ _ _ hk0]
              rw [e, walkLoop_succ, hstep]
              simp only
              rw [hA, hres, hB]
            · have e : fuel + ((0, 0) :: (V0.map (fun v => (1 + v.1, 1 + v.2)) ++
                  V1.map (fun v => (1 + c0.numNodes + v.1, 0 + v.2)))).length =
                  fuel + V1.length + V0.length + 1 := by
                simp only [List.length_cons, List.length_append, List.length_map]
                omega
              have hstep : walkStep nodes dirIsNeg boxTest leafAct i k stack s =
                  some (.inr (i + 1, k + 1, stack.set k (i + 1 + c0.numNodes), s)) := by
                unfold walkStep
                rw [hln]
                simp only
                rw [if_pos hbox, if_neg (by omega : ¬ ln.nPrimitives > 0), if_pos hk0,
                  if_neg hneg, hlo]
              have hres : walkResumeTrace nodes dirIsNeg boxTest leafAct (fuel + V1.length)
                  (k + 1) stA sA = walkTrace nodes dirIsNeg boxTest leafAct (fuel + V1.length)
                    (i + 1 + c0.numNodes) k stA sA := by
                unfold walkResumeTrace
                rw [if_neg (by omega : ¬ k + 1 = 0)]
                simp only [Nat.add_sub_cancel]
                rw [hAagree k (by omega), getElem?_set_self' _ _ _ hk0]
              rw [e, walkTrace_succ, hstep]
              simp only
              rw [hAt, hres, hBt]
              simp only [List.map_cons, List.map_append, List.map_map, List.cons_append,
                List.append_assoc, Nat.add_zero]
              congr 1
              congr 1
              · apply List.map_congr_left
                intro v _
                simp only [Function.comp]
                rw [Prod.mk.injEq]
                constructor <;> omega
              · congr 1
                apply List.map_congr_left
                intro v _
                simp only [Function.comp]
                rw [Prod.mk.injEq]
                constructor <;> omega
    · -- the ray misses the bounds
      refine ⟨s, [(0, 0)], hone, hsingle, ?_⟩
      intro fuel k stack _
      refine ⟨stack, rfl, fun _ _ => rfl, ?_⟩
      have hstep : walkStep nodes dirIsNeg boxTest leafAct i k stack s =
          if k = 0 then some (.inl s)
          else
            match stack[k - 1]? with
            | none => none
            | some next => some (.inr (next, k - 1, stack, s)) := by
        unfold walkStep
        rw [hln]
        simp only
        rw [if_neg hbox]
      obtain ⟨e1, e2⟩ := walk_pop nodes dirIsNeg boxTest leafAct fuel i k stack s s hstep
      exact ⟨e1, by rw [List.length_singleton, e2]; rfl⟩

theorem intersectStep_walk (nodes : List LinearBVHNode) (prims : List ShapePtr) (ray : Ray)
    (invDir : Vector3f) (dirIsNeg : Nat → Nat) (cur k : Nat) (stack : List Nat) (T : Float)
    (hit : Bool) :
    intersectStep nodes prims ray invDir dirIsNeg ⟨cur, k, stack, T, hit⟩ =
      (walkStep nodes dirIsNeg
        (fun node (s : Float × Bool) =>
          node.bounds.IntersectP { ray with tmax := s.1 } invDir dirIsNeg)
        (fun node (s : Float × Bool) =>
          intersectLeaf prims ray node.nPrimitives node.offset s.1 s.2)
        cur k stack (T, hit)).map
        (Sum.map (fun s => (s.2, s.1))
          (fun x => (⟨x.1, x.2.1, x.2.2.1, x.2.2.2.1, x.2.2.2.2⟩ : TraversalState))) := by
  unfold intersectStep walkStep
  simp only
  cases nodes[cur]? with
  | none => rfl
  | some node =>
    simp only
    by_cases hbox : node.bounds.IntersectP { ray with tmax := T } invDir dirIsNeg = true
    · simp only [if_pos hbox]
      by_cases hn : node.nPrimitives > 0
      · simp only [if_pos hn]
        cases intersectLeaf prims ray node.nPrimitives node.offset T hit with
        | none => rfl
        | some res =>
          obtain ⟨T1, hit1⟩ := res
          simp only
          by_cases hk : k = 0
          · simp only [if_pos hk]
            rfl
          · simp only [if_neg hk]
            cases stack[k - 1]? with
            | none => rfl
            | some next => rfl
      · simp only [if_neg hn]
        by_cases hk : k < stack.length
        · simp only [if_pos hk]
          by_cases hd : dirIsNeg node.axis ≠ 0
          · simp only [if_pos hd]
            rfl
          · simp only [if_neg hd]
            rfl
        · simp only [if_neg hk]
          rfl
    · simp only [if_neg hbox]
      by_cases hk : k = 0
      · simp only [if_pos hk]
        rfl
      · simp only [if_neg hk]
        cases stack[k - 1]? with
        | none => rfl
        | some next => rfl

theorem visitTrace_walk (nodes : List LinearBVHNode) (prims : List ShapePtr) (ray : Ray)
    (invDir : Vector3f) (dirIsNeg : Nat → Nat) :
    ∀ (fuel cur k : Nat) (stack : List Nat) (T : Float) (hit : Bool),
      visitTrace nodes prims ray invDir dirIsNeg fuel ⟨cur, k, stack, T, hit⟩ =
        walkTrace nodes dirIsNeg
          (fun node (s : Float × Bool) =>
            node.bounds.IntersectP { ray with tmax := s.1 } invDir dirIsNeg)
          (fun node (s : Float × Bool) =>
            intersectLeaf prims ray node.nPrimitives node.offset s.1 s.2)
          fuel cur k stack (T, hit) ∧
      intersectLoop nodes prims ray invDir dirIsNeg fuel ⟨cur, k, stack, T, hit⟩ =
        (walkLoop nodes dirIsNeg
          (fun node (s : Float × Bool) =>
            node.bounds.IntersectP { ray with tmax := s.1 } invDir dirIsNeg)
          (fun node (s : Float × Bool) =>
            intersectLeaf prims ray node.nPrimitives node.offset s.1 s.2)
          fuel cur k stack (T, hit)).map (fun s => (s.2, s.1)) := by
  intro fuel
  induction fuel with
  | zero =>
    intro cur k stack T hit
    exact ⟨rfl, rfl⟩
  | succ fuel ih =>
    intro cur k stack T hit
    rw [visitTrace, intersectLoop_step, walkTrace_succ, walkLoop_succ, intersectStep_walk]
    cases walkStep nodes dirIsNeg
        (fun node (s : Float × Bool) =>
          node.bounds.IntersectP { ray with tmax := s.1 } invDir dirIsNeg)
        (fun node (s : Float × Bool) =>
          intersectLeaf prims ray node.nPrimitives node.offset s.1 s.2)
        cur k stack (T, hit) with
    | none => exact ⟨rfl, rfl⟩
    | some r =>
      cases r with
      | inl res => exact ⟨rfl, rfl⟩
      | inr x =>
        obtain ⟨c1, k1, s1, T1, hit1⟩ := x
        simp only [Option.map_some', Sum.map_inr]
        obtain ⟨e1, e2⟩ := ih c1 k1 s1 T1 hit1
        exact ⟨by rw [e1], e2⟩

theorem intersectPLoop_step (nodes : List LinearBVHNode) (prims : List ShapePtr) (ray : Ray)
    (invDir : Vector3f) (dirIsNeg : Nat → Nat) (fuel cur k : Nat) (stack : List Nat) :
    intersectPLoop nodes prims ray invDir dirIsNeg (fuel + 1) cur k stack =
      match intersectPStep nodes prims ray invDir dirIsNeg cur k stack with
      | none => none
      | some (.inl r) => some r
      | some (.inr (c1, k1, s1)) => intersectPLoop nodes prims ray invDir dirIsNeg fuel c1 k1 s1 := by
  rw [intersectPLoop]
  unfold intersectPStep
  cases nodes[cur]? with
  | none => rfl
  | some node =>
    simp only
    by_cases hbox : node.bounds.IntersectP ray invDir dirIsNeg = true
    · simp only [if_pos hbox]
      by_cases hn : node.nPrimitives > 0
      · simp only [if_pos hn]
        cases intersectPLeaf prims ray node.nPrimitives node.offset with
        | none => rfl
        | some res =>
          cases res with
          | true => rfl
          | false =>
            simp only
            by_cases hk : k = 0
            · simp only [if_pos hk]
            · simp only [if_neg hk]
              cases stack[k - 1]? with
              | none => rfl
              | some next => rfl
      · simp only [if_neg hn]
        by_cases hk : k < stack.length
        · simp only [if_pos hk]
          by_cases hd : dirIsNeg node.axis ≠ 0
          · simp only [if_pos hd]
          · simp only [if_neg hd]
        · simp only [if_neg hk]
    · simp only [if_neg hbox]
      by_cases hk : k = 0
      · simp only [if_pos hk]
      · simp only [if_neg hk]
        cases stack[k - 1]? with
        | none => rfl
        | some next => rfl

/-- An iteration of the loop of `IntersectP` does what the walk does, or ends the loop with
the result true. -/
theorem intersectPStep_walk (nodes : List LinearBVHNode) (prims : List ShapePtr) (ray : Ray)
    (invDir : Vector3f) (dirIsNeg : Nat → Nat) (cur k : Nat) (stack : List Nat) (found : Bool) :
    match walkStep nodes dirIsNeg
        (fun node (_ : Bool) => node.bounds.IntersectP ray invDir dirIsNeg)
        (fun node (s : Bool) =>
          (intersectPLeaf prims ray node.nPrimitives node.offset).map (fun r => s || r))
        cur k stack found with
    | none => True
    | some (.inl _) => ∃ r, intersectPStep nodes prims ray invDir dirIsNeg cur k stack =
        some (.inl r)
    | some (.inr (c1, k1, s1, _)) =>
      intersectPStep nodes prims ray invDir dirIsNeg cur k stack = some (.inr (c1, k1, s1)) ∨
      intersectPStep nodes prims ray invDir dirIsNeg cur k stack = some (.inl true) := by
  unfold intersectPStep walkStep
  cases nodes[cur]? with
  | none => trivial
  | some node =>
    simp only
    by_cases hbox : node.bounds.IntersectP ray invDir dirIsNeg = true
    · simp only [if_pos hbox]
      by_cases hn : node.nPrimitives > 0
      · simp only [if_pos hn]
        cases intersectPLeaf prims ray node.nPrimitives node.offset with
        | none => trivial
        | some res =>
          cases res with
          | true =>
            simp only [Option.map_some']
            by_cases hk : k = 0
            · simp only [if_pos hk]
              exact ⟨true, rfl⟩
            · simp only [if_neg hk]
              cases stack[k - 1]? with
              | none => trivial
              | some next => exact Or.inr trivial
          | false =>
            simp only [Option.map_some']
            by_cases hk : k = 0
            · simp only [if_pos hk]
              exact ⟨false, rfl⟩
            · simp only [if_neg hk]
              cases stack[k - 1]? with
              | none => trivial
              | some next => exact Or.inl rfl
      · simp only [if_neg hn]
        by_cases hk : k < stack.length
        · simp only [if_pos hk]
          by_cases hd : dirIsNeg node.axis ≠ 0
          · simp only [if_pos hd]
            exact Or.inl trivial
          · simp only [if_neg hd]
            exact Or.inl trivial
        · simp only [if_neg hk]
    · simp only [if_neg hbox]
      by_cases hk : k = 0
      · simp only [if_pos hk]
        exact ⟨false, rfl⟩
      · simp only [if_neg hk]
        cases stack[k - 1]? with
        | none => trivial
        | some next => exact Or.inl rfl

/-- The loop of `IntersectP` visits a first part of what the walk visits, and returns
wherever the walk returns. -/
theorem visitTraceP_walk (nodes : List LinearBVHNode) (prims : List ShapePtr) (ray : Ray)
    (invDir : Vector3f) (dirIsNeg : Nat → Nat) :
    ∀ (fuel cur k : Nat) (stack : List Nat) (found : Bool),
      (walkLoop nodes dirIsNeg
          (fun node (_ : Bool) => node.bounds.IntersectP ray invDir dirIsNeg)
          (fun node (s : Bool) =>
            (intersectPLeaf prims ray node.nPrimitives node.offset).map (fun r => s || r))
          fuel cur k stack found ≠ none →
        ∃ r, intersectPLoop nodes prims ray invDir dirIsNeg fuel cur k stack = some r) ∧
      (walkLoop nodes dirIsNeg
          (fun node (_ : Bool) => node.bounds.IntersectP ray invDir dirIsNeg)
          (fun node (s : Bool) =>
            (intersectPLeaf prims ray node.nPrimitives node.offset).map (fun r => s || r))
          fuel cur k stack found ≠ none →
        visitTraceP nodes prims ray invDir dirIsNeg fuel cur k stack <+:
          walkTrace nodes dirIsNeg
            (fun node (_ : Bool) => node.bounds.IntersectP ray invDir dirIsNeg)
            (fun node (s : Bool) =>
              (intersectPLeaf prims ray node.nPrimitives node.offset).map (fun r => s || r))
            fuel cur k stack found) := by
  intro fuel
  induction fuel with
  | zero =>
    intro cur k stack found
    exact ⟨fun h => absurd rfl h, fun h => absurd rfl h⟩
  | succ fuel ih =>
    intro cur k stack found
    have hstep := intersectPStep_walk nodes prims ray invDir dirIsNeg cur k stack found
    rw [walkLoop_succ, walkTrace_succ, intersectPLoop_step, visitTraceP]
    cases hw : walkStep nodes dirIsNeg
        (fun node (_ : Bool) => node.bounds.IntersectP ray invDir dirIsNeg)
        (fun node (s : Bool) =>
          (intersectPLeaf prims ray node.nPrimitives node.offset).map (fun r => s || r))
        cur k stack found with
    | none => exact ⟨fun h => absurd rfl h, fun h => absurd rfl h⟩
    | some w =>
      rw [hw] at hstep
      cases w with
      | inl s1 =>
        obtain ⟨r, hr⟩ := hstep
        rw [hr]
        exact ⟨fun _ => ⟨r, rfl⟩, fun _ => List.prefix_refl _⟩
      | inr x =>
        obtain ⟨c1, k1, st1, s1⟩ := x
        simp only at hstep ⊢
        rcases hstep with hr | hr
        · rw [hr]
          simp only
          obtain ⟨h1, h2⟩ := ih c1 k1 st1 s1
          refine ⟨h1, fun h => ?_⟩
          rw [List.prefix_cons_inj]
          exact h2 h
        · rw [hr]
          simp only
          refine ⟨fun _ => ⟨true, rfl⟩, fun _ => ?_⟩
          rw [List.cons_prefix_cons]
          exact ⟨rfl, List.nil_prefix⟩

theorem VisitsOK_prefix (nodes : List LinearBVHNode) (t : BVHBuildNode) (i : Nat)
    (V W : List (Nat × Nat)) (h : VisitsOK nodes t i V) (hp : W <+: V) : VisitsOK nodes t i W :=
  ⟨fun v hv => h.1 v (hp.subset hv), h.2.sublist (hp.sublist.map Prod.fst)⟩

/-- The walk from the root with the stack of 64 entries, over a tree of height at most 64
laid out in pre-order from index 0: with one iteration per node it returns, and the trace of
its visits is as `VisitsOK` says. -/
theorem walk_root {σ : Type} (nodes : List LinearBVHNode) (dirIsNeg : Nat → Nat)
    (boxTest : LinearBVHNode → σ → Bool) (leafAct : LinearBVHNode → σ → Option σ)
    (hleaf : ∀ ln ∈ nodes, 0 < ln.nPrimitives → ∀ s, ∃ s1, leafAct ln s = some s1)
    (t : BVHBuildNode) (hinv : t.Invariant) (hpre : PreOrder nodes 0 t)
    (hsmall : ∀ l ∈ t.leaves, l.nPrimitives < 65536) (hheight : t.height ≤ 64) (s : σ)
    (fuel : Nat) (hfuel : t.numNodes ≤ fuel) :
    (∃ s1, walkLoop nodes dirIsNeg boxTest leafAct fuel 0 0 (List.replicate 64 0) s = some s1) ∧
    (walkTrace nodes dirIsNeg boxTest leafAct fuel 0 0 (List.replicate 64 0) s).length ≤
      t.numNodes ∧
    VisitsOK nodes t 0 (walkTrace nodes dirIsNeg boxTest leafAct fuel 0 0 (List.replicate 64 0) s) := by
  obtain ⟨s1, V, hlen, hok, H⟩ :=
    walk_subtree nodes dirIsNeg boxTest leafAct hleaf t 0 hinv hpre hsmall s
  obtain ⟨stack1, _, _, hloop, htrace⟩ := H (fuel - V.length) 0 (List.replicate 64 0)
    (by rw [List.length_replicate]; omega)
  have hf : fuel - V.length + V.length = fuel := by omega
  rw [hf] at hloop htrace
  have hV : V.map (fun v => (0 + v.1, 0 + v.2)) = V := by
    simp only [Nat.zero_add, Prod.mk.eta, List.map_id']
  have hres : walkResumeTrace nodes dirIsNeg boxTest leafAct (fuel - V.length) 0 stack1 s1 =
      [] := by
    unfold walkResumeTrace
    rw [if_pos rfl]
  rw [hV, hres, List.append_nil] at htrace
  rw [htrace, hloop]
  refine ⟨⟨s1, ?_⟩, hlen, hok⟩
  unfold walkResume
  rw [if_pos rfl]

/-- C36: for a node array that holds a tree of height at most 64 in pre-order from index 0
(leaves of fewer than 65536 primitives, their ranges inside the primitive vector, no null
primitive), `Intersect` and `IntersectP` return within one iteration per node of the tree,
and over either call, for the pairs `(currentNodeIndex, toVisitOffset)` at the start of the
iterations: there are at most as many as the tree has nodes and no node index occurs twice;
the index is the pre-order offset of a node of the tree, and `toVisitOffset` is at most the
number of interior ancestors of that node; and at an interior node, where alone the loop
writes `nodesToVisit[toVisitOffset]`, `toVisitOffset` is at most 63. -/
theorem traversal_stack_bounded (self : BVHAccel ShapePtr) (nodes : List LinearBVHNode)
    (t : BVHBuildNode) (ray : Ray) (fuel : Nat)
    (hnodes : self.nodes = some nodes)
    (hinv : t.Invariant) (hpre : PreOrder nodes 0 t) (hheight : t.height ≤ 64)
    (hsmall : ∀ l ∈ t.leaves, l.nPrimitives < 65536)
    (hnn : ∀ p ∈ self.primitives, p ≠ none)
    (hrange : ∀ ln ∈ nodes, 0 < ln.nPrimitives →
      ln.offset + ln.nPrimitives ≤ self.primitives.length)
    (hfuel : t.numNodes ≤ fuel) :
    (∃ r, self.Intersect fuel ray = some r) ∧ (∃ r, self.IntersectP fuel ray = some r) ∧
    ∀ V, V = self.visitTrace fuel ray ∨ V = self.visitTraceP fuel ray →
      V.length ≤ t.numNodes ∧ (V.map Prod.fst).Nodup ∧
      ∀ v ∈ V, v.1 < t.numNodes ∧ (∃ d, t.depthAt v.1 = some d ∧ v.2 ≤ d) ∧
        ∀ ln, nodes[v.1]? = some ln → ln.nPrimitives = 0 → v.2 ≤ 63 := by
  have hfin : ∀ V, VisitsOK nodes t 0 V →
      ∀ v ∈ V, v.1 < t.numNodes ∧ (∃ d, t.depthAt v.1 = some d ∧ v.2 ≤ d) ∧
        ∀ ln, nodes[v.1]? = some ln → ln.nPrimitives = 0 → v.2 ≤ 63 := by
    intro V hV v hv
    obtain ⟨h1, h2, h3⟩ := hV.1 v hv
    refine ⟨h1, h2, fun ln hln h0 => ?_⟩
    have := h3 ln (by rw [Nat.zero_add]; exact hln) h0
    omega
  obtain ⟨⟨s1, hrun⟩, hlen, hok⟩ := walk_root nodes
    (fun i => b2n (decide (Vector3f.get ⟨1 / ray.d.x, 1 / ray.d.y, 1 / ray.d.z⟩ i < 0)))
    (fun node (s : Float × Bool) => node.bounds.IntersectP { ray with tmax := s.1 }
      ⟨1 / ray.d.x, 1 / ray.d.y, 1 / ray.d.z⟩
      (fun i => b2n (decide (Vector3f.get ⟨1 / ray.d.x, 1 / ray.d.y, 1 / ray.d.z⟩ i < 0))))
    (fun node (s : Float × Bool) =>
      intersectLeaf self.primitives ray node.nPrimitives node.offset s.1 s.2)
    (fun ln hln hpos s =>
      ⟨_, intersectLeaf_spec self.primitives ray hnn _ _ s.1 s.2 (hrange ln hln hpos)⟩)
    t hinv hpre hsmall hheight (ray.tmax, false) fuel hfuel
  obtain ⟨⟨b1, hrunP⟩, hlenP, hokP⟩ := walk_root nodes
    (fun i => b2n (decide (Vector3f.get ⟨1 / ray.d.x, 1 / ray.d.y, 1 / ray.d.z⟩ i < 0)))
    (fun node (_ : Bool) => node.bounds.IntersectP ray
      ⟨1 / ray.d.x, 1 / ray.d.y, 1 / ray.d.z⟩
      (fun i => b2n (decide (Vector3f.get ⟨1 / ray.d.x, 1 / ray.d.y, 1 / ray.d.z⟩ i < 0))))
    (fun node (s : Bool) =>
      (intersectPLeaf self.primitives ray node.nPrimitives node.offset).map (fun r => s || r))
    (fun ln hln hpos s => by
      show ∃ s1, (intersectPLeaf self.primitives ray ln.nPrimitives ln.offset).map
        (fun r => s || r) = some s1
      rw [intersectPLeaf_spec self.primitives ray hnn _ _ (hrange ln hln hpos)]
      exact ⟨_, rfl⟩)
    t hinv hpre hsmall hheight false fuel hfuel
  obtain ⟨e1, e2⟩ := visitTrace_walk nodes self.primitives ray
    ⟨1 / ray.d.x, 1 / ray.d.y, 1 / ray.d.z⟩
    (fun i => b2n (decide (Vector3f.get ⟨1 / ray.d.x, 1 / ray.d.y, 1 / ray.d.z⟩ i < 0)))
    fuel 0 0 (List.replicate 64 0) ray.tmax false
  obtain ⟨p1, p2⟩ := visitTraceP_walk nodes self.primitives ray
    ⟨1 / ray.d.x, 1 / ray.d.y, 1 / ray.d.z⟩
    (fun i => b2n (decide (Vector3f.get ⟨1 / ray.d.x, 1 / ray.d.y, 1 / ray.d.z⟩ i < 0)))
    fuel 0 0 (List.replicate 64 0) false
  have hne : walkLoop nodes
      (fun i => b2n (decide (Vector3f.get ⟨1 / ray.d.x, 1 / ray.d.y, 1 / ray.d.z⟩ i < 0)))
      (fun node (_ : Bool) => node.bounds.IntersectP ray
        ⟨1 / ray.d.x, 1 / ray.d.y, 1 / ray.d.z⟩
        (fun i => b2n (decide (Vector3f.get ⟨1 / ray.d.x, 1 / ray.d.y, 1 / ray.d.z⟩ i < 0))))
      (fun node (s : Bool) =>
        (intersectPLeaf self.primitives ray node.nPrimitives node.offset).map (fun r => s || r))
      fuel 0 0 (List.replicate 64 0) false ≠ none := by
    rw [hrunP]
    exact Option.some_ne_none _
  have hpre1 := p2 hne
  refine ⟨?_, ?_, ?_⟩
  · unfold BVHAccel.Intersect
    rw [hnodes]
    simp only
    rw [e2, hrun]
    exact ⟨_, rfl⟩
  · unfold BVHAccel.IntersectP
    rw [hnodes]
    simp only
    exact p1 hne
  · intro V hV
    rcases hV with hV | hV
    · have hVe : V = walkTrace nodes
          (fun i => b2n (decide (Vector3f.get ⟨1 / ray.d.x, 1 / ray.d.y, 1 / ray.d.z⟩ i < 0)))
          (fun node (s : Float × Bool) => node.bounds.IntersectP { ray with tmax := s.1 }
            ⟨1 / ray.d.x, 1 / ray.d.y, 1 / ray.d.z⟩
            (fun i => b2n (decide (Vector3f.get ⟨1 / ray.d.x, 1 / ray.d.y, 1 / ray.d.z⟩ i < 0))))
          (fun node (s : Float × Bool) =>
            intersectLeaf self.primitives ray node.nPrimitives node.offset s.1 s.2)
          fuel 0 0 (List.replicate 64 0) (ray.tmax, false) := by
        rw [hV, ← e1]
        unfold BVHAccel.visitTrace
        rw [hnodes]
      rw [hVe]
      exact ⟨hlen, hok.2, hfin _ hok⟩
    · have hVe : V = visitTraceP nodes self.primitives ray
          ⟨1 / ray.d.x, 1 / ray.d.y, 1 / ray.d.z⟩
          (fun i => b2n (decide (Vector3f.get ⟨1 / ray.d.x, 1 / ray.d.y, 1 / ray.d.z⟩ i < 0)))
          fuel 0 0 (List.replicate 64 0) := by
        rw [hV]
        unfold BVHAccel.visitTraceP
        rw [hnodes]
      have hokV := VisitsOK_prefix nodes t 0 _ _ hokP hpre1
      rw [hVe]
      exact ⟨le_trans hpre1.length_le hlenP, hokV.2, hfin _ hokV⟩

unseal Rat.add Rat.mul Rat.inv Rat.sub in
set_option maxRecDepth 100000 in
theorem sampleScene_visits :
    (BVHAccel.Build (sampleEnv true) (sampleScene SplitMethod.SAH) 2).map
      (fun accel => (accel.nodes.map (fun ns => ns.map (fun n => (n.offset, n.nPrimitives))),
        accel.primitives.length)) = some (some [(2, 0), (0, 1), (1, 1)], 2) ∧
    (BVHAccel.Build (sampleEnv true) (sampleScene SplitMethod.SAH) 2).map
      (fun accel => (accel.visitTrace 3 sampleRay, accel.visitTraceP 3 sampleRay)) =
      some ([(0, 0), (1, 1), (2, 0)], [(0, 0), (1, 1)]) ∧
    (BVHAccel.Build (sampleEnv true) (sampleScene SplitMethod.SAH) 2).map
      (fun accel => (accel.Intersect 3 sampleRay, accel.IntersectP 3 sampleRay)) =
      some (some (true, 3 / 2), some true) ∧
    sampleTree.numNodes = 3 ∧
    [0, 1, 2].map sampleTree.depthAt = [some 0, some 1, some 1] := by
  decide

/-- A run of C36 on the built sample scene and the sample ray, with one iteration per node:
`Intersect` visits the root with the stack empty, the first leaf with one entry on the
stack and the second leaf with the stack empty; `IntersectP` ends at the first leaf. -/
theorem traversal_stack_bounded_witness :
    ∃ accel nodes, BVHAccel.Build (sampleEnv true) (sampleScene SplitMethod.SAH) 2 = some accel ∧
      accel.nodes = some nodes ∧
      accel.visitTrace 3 sampleRay = [(0, 0), (1, 1), (2, 0)] ∧
      accel.visitTraceP 3 sampleRay = [(0, 0), (1, 1)] ∧
      sampleTree.numNodes = 3 ∧
      [0, 1, 2].map sampleTree.depthAt = [some 0, some 1, some 1] ∧
      ((∃ r, accel.Intersect 3 sampleRay = some r) ∧
        (∃ r, accel.IntersectP 3 sampleRay = some r) ∧
        ∀ V, V = accel.visitTrace 3 sampleRay ∨ V = accel.visitTraceP 3 sampleRay →
          V.length ≤ sampleTree.numNodes ∧ (V.map Prod.fst).Nodup ∧
          ∀ v ∈ V, v.1 < sampleTree.numNodes ∧
            (∃ d, sampleTree.depthAt v.1 = some d ∧ v.2 ≤ d) ∧
            ∀ ln, nodes[v.1]? = some ln → ln.nPrimitives = 0 → v.2 ≤ 63) := by
  obtain ⟨hshape, htr, _, hnum, hdepth⟩ := sampleScene_visits
  obtain ⟨_, hroot, hh, hl, _⟩ := sampleScene_runs
  cases hb : BVHAccel.Build (sampleEnv true) (sampleScene SplitMethod.SAH) 2 with
  | none => rw [hb] at htr; cases htr
  | some accel =>
    rw [hb] at htr hshape
    simp only [Option.map_some', Option.some.injEq, Prod.mk.injEq] at htr hshape
    obtain ⟨root, total, ordered, nodes, hbt, hord, hnodes, hpre⟩ :=
      Build_returns (sampleEnv true) (sampleScene SplitMethod.SAH) 2 accel
        (List.cons_ne_nil _ _) hb
    rw [hbt] at hroot
    simp only [Option.map_some', Option.some.injEq] at hroot
    subst hroot
    obtain ⟨hinv, _, _, hperm, _, _⟩ := buildTree_spec _ _ _ _ _ _ hbt
    have hnn0 := buildTree_nonnull (sampleEnv true) (sampleScene SplitMethod.SAH) 2
      (by rw [hbt]; rfl)
    have hnn : ∀ p ∈ accel.primitives, p ≠ none := by
      intro p hp
      rw [hord] at hp
      exact hnn0 p (hperm.subset hp)
    have hrange : ∀ ln ∈ nodes, 0 < ln.nPrimitives →
        ln.offset + ln.nPrimitives ≤ accel.primitives.length := by
      intro ln hln _
      rw [hnodes] at hshape
      simp only [Option.map_some', Option.some.injEq] at hshape
      have hmem : (ln.offset, ln.nPrimitives) ∈
          nodes.map (fun n => (n.offset, n.nPrimitives)) := List.mem_map_of_mem _ hln
      rw [hshape.1] at hmem
      rw [hshape.2]
      simp only [List.mem_cons, Prod.mk.injEq, List.mem_singleton, List.not_mem_nil,
        or_false] at hmem
      omega
    exact ⟨accel, nodes, rfl, hnodes, htr.1, htr.2, hnum, hdepth,
      traversal_stack_bounded accel nodes sampleTree sampleRay 3 hnodes hinv hpre hh hl hnn
        hrange (by rw [hnum])⟩

theorem Encloses.get {a b : Bounds3f} (h : Encloses a b) (i : Nat) :
    a.pmin.get i ≤ b.pmin.get i ∧ b.pmax.get i ≤ a.pmax.get i := by
  obtain ⟨h1, h2, h3, h4, h5, h6⟩ := h
  unfold Vector3f.get
  split_ifs
  · exact ⟨h1, h4⟩
  · exact ⟨h2, h5⟩
  · exact ⟨h3, h6⟩

theorem flatInfo3_finite : ∀ pi ∈ flatInfo3, pi.centroid.IsFinite := by
  intro pi hpi
  simp only [flatInfo3, List.mem_cons, List.mem_singleton, List.not_mem_nil, or_false] at hpi
  rcases hpi with rfl | rfl | rfl <;>
    simp only [BVHPrimitiveInfo.create, Vector3f.IsFinite, FiniteFloat, Vector3f.smul,
      Vector3f.add, min_num, max_num] <;> norm_num

end MinRay
